import Mathlib

/-! # Karma block allocator: shallow embedding of `src/allocator/karma.cpp`

The C++ class `KarmaAllocator` is embedded as a record; its member functions are Lean
functions on that record.  Unsigned and signed machine integers are `Nat` / `Int`, and
every narrowing store of the source is an explicit reduction (`u32`, `i32`, `i64`, `u64`).
Undefined or fatal behaviour of the source (division by zero, a failed `assert`, an index
past the end of a vector, `min`/`pop` on an empty heap) is an `Err` result.

The headers `allocator/karma.h` and `allocator/bheap.h` are not in the verified source tree:
the reserved ids are carried as fields, the record types follow the data model of the
specification, and `BroadcastHeap` is modelled from the specification (section 4.1).
-/

set_option autoImplicit false

namespace Karma

/-! ## Machine integers -/

/-- Conversion to `uint32_t`. -/
def u32 (x : Int) : Nat := (x % 4294967296).toNat

/-- Conversion to `uint64_t`. -/
def u64 (x : Int) : Nat := (x % 18446744073709551616).toNat

/-- Conversion to `int32_t` (two's complement). -/
def i32 (x : Int) : Int := (x + 2147483648) % 4294967296 - 2147483648

/-- Conversion to `int64_t` (two's complement). -/
def i64 (x : Int) : Int :=
  (x + 9223372036854775808) % 18446744073709551616 - 9223372036854775808

/-- The value `std::numeric_limits<uint32_t>::max()`. -/
def UINT32_MAX : Int := 4294967295

/-! ## Outcomes -/

/-- Abnormal outcomes of a member function. -/
inductive Err where
  /-- `std::out_of_range` thrown by `add_tenant`, `remove_tenant`, `set_demand`, getters. -/
  | out_of_range
  /-- integer division by zero -/
  | div_by_zero
  /-- a failed `assert` -/
  | assert_failed
  /-- a vector indexed at or past its size -/
  | index_past_end
  /-- `min()` or `pop()` of an empty heap -/
  | empty_heap
  /-- the iteration budget of the model was used up -/
  | out_of_fuel
deriving DecidableEq, Repr

/-! ## Data model -/

/-- Modelled from the spec: the per-tenant record `Tenant` of `karma.h` (section 3 of the
specification): unsigned `demand_`, `allocation_`, `credits_` and a signed `rate_`.  The
default record is all zero; `Tenant(credits)` (see `Tenant.withCredits`) sets the credits. -/
structure Tenant where
  demand_ : Nat := 0
  allocation_ : Nat := 0
  credits_ : Nat := 0
  rate_ : Int := 0
deriving DecidableEq, Repr

/-- Modelled from the spec: the constructor `Tenant(credits)` used by `emplace(id, credits)`:
a record with the given credits and no demand, allocation or rate. -/
def Tenant.withCredits (credits : Nat) : Tenant :=
  { demand_ := 0, allocation_ := 0, credits_ := credits, rate_ := 0 }

/-- Modelled from the spec: the `Candidate` triple `(id, credits, blocks)` of `karma.h`.
The credits are signed 64-bit (the sentinels are `UINT32_MAX` and `-1`). -/
structure Candidate where
  id_ : Nat
  credits_ : Int
  blocks_ : Nat
deriving DecidableEq, Repr

/-- The allocator object.  `ids` are the keys of the map `tenants_` in iteration order and
`tenants_` gives the record stored at a key (the default record at every absent key).
`PUBLIC_ID` and `DUMMY_ID` are the reserved constants of `karma.h`. -/
structure KarmaAllocator where
  PUBLIC_ID : Nat
  DUMMY_ID : Nat
  num_blocks_ : Nat
  public_blocks_ : Nat
  init_credits_ : Nat
  ids : List Nat
  tenants_ : Nat → Tenant

namespace KarmaAllocator

/-- The effect of `tenants_.emplace(id, t)`: nothing when the key exists. -/
def emplace (A : KarmaAllocator) (id : Nat) (t : Tenant) : KarmaAllocator :=
  if id ∈ A.ids then A
  else { A with ids := A.ids ++ [id], tenants_ := Function.update A.tenants_ id t }

/-- The effect of `tenants_.erase(id)`. -/
def erase (A : KarmaAllocator) (id : Nat) : KarmaAllocator :=
  { A with ids := A.ids.erase id, tenants_ := Function.update A.tenants_ id {} }

/-- The effect of evaluating `tenants_[id]`: an absent key is inserted with a default record. -/
def touch (A : KarmaAllocator) (id : Nat) : KarmaAllocator :=
  A.emplace id {}

/-- A write through `tenants_[id]`: the key is inserted if absent, then the record changed. -/
def modify (A : KarmaAllocator) (id : Nat) (f : Tenant → Tenant) : KarmaAllocator :=
  let B := A.touch id
  { B with tenants_ := Function.update B.tenants_ id (f (B.tenants_ id)) }

/-- A write through an iterator or reference to an existing entry. -/
def setRec (A : KarmaAllocator) (id : Nat) (t : Tenant) : KarmaAllocator :=
  { A with tenants_ := Function.update A.tenants_ id t }

end KarmaAllocator

/-- What a throwing member function leaves behind: the exception, if one was thrown, and the
state of the object after the call. -/
structure Call where
  thrown : Option Err
  state : KarmaAllocator

/-! ## Construction and tenant management -/

/-- The constructor `KarmaAllocator(num_blocks, alpha, init_credits)`.  The floating-point
product `alpha * num_blocks_` (converted to `uint64_t`) is the argument `public_blocks`;
the constructor throws when `alpha` is outside `[0, 1]`, which has no counterpart here. -/
def construct (PUBLIC_ID DUMMY_ID num_blocks public_blocks init_credits : Nat) :
    KarmaAllocator :=
  KarmaAllocator.emplace
    { PUBLIC_ID := PUBLIC_ID, DUMMY_ID := DUMMY_ID, num_blocks_ := num_blocks,
      public_blocks_ := public_blocks, init_credits_ := init_credits,
      ids := [], tenants_ := fun _ => {} }
    PUBLIC_ID (Tenant.withCredits 0)

/-- `get_num_tenants`: `tenants_.size() - 1` as `uint32_t`. -/
def get_num_tenants (A : KarmaAllocator) : Nat :=
  u32 ((A.ids.length : Int) - 1)

/-- `get_free_blocks`: `num_blocks_ - public_blocks_` as `uint64_t`. -/
def get_free_blocks (A : KarmaAllocator) : Nat :=
  u64 ((A.num_blocks_ : Int) - A.public_blocks_)

/-- `get_fair_share`: `get_free_blocks() / get_num_tenants()` as `uint32_t`. -/
def get_fair_share (A : KarmaAllocator) : Except Err Nat :=
  if get_num_tenants A = 0 then .error .div_by_zero
  else .ok (u32 ((get_free_blocks A / get_num_tenants A : Nat) : Int))

/-- The sum `total_credits` computed by the loop of `add_tenant` (over every entry). -/
def total_credits (A : KarmaAllocator) : Nat :=
  (A.ids.map fun i => (A.tenants_ i).credits_).sum

/-- The credits `add_tenant` gives to a new tenant. -/
def new_tenant_credits (A : KarmaAllocator) : Nat :=
  if get_num_tenants A > 0 then u32 ((total_credits A / get_num_tenants A : Nat) : Int)
  else A.init_credits_

/-- `add_tenant(id)`. -/
def add_tenant (A : KarmaAllocator) (id : Nat) : Call :=
  if id = A.DUMMY_ID ∨ id ∈ A.ids then ⟨some .out_of_range, A⟩
  else ⟨none, A.emplace id (Tenant.withCredits (new_tenant_credits A))⟩

/-- `remove_tenant(id)`. -/
def remove_tenant (A : KarmaAllocator) (id : Nat) : Call :=
  if id = A.PUBLIC_ID ∨ id ∉ A.ids then ⟨some .out_of_range, A⟩
  else ⟨none, A.erase id⟩

/-- `set_demand(id, demand, greedy)`. -/
def set_demand (A : KarmaAllocator) (id demand : Nat) (greedy : Bool) :
    Except Err Call :=
  if id = A.PUBLIC_ID ∨ id ∉ A.ids then .ok ⟨some .out_of_range, A⟩
  else if greedy then
    match get_fair_share A with
    | .error e => .error e
    | .ok fs =>
      .ok ⟨none, A.setRec id { A.tenants_ id with demand_ := max fs demand }⟩
  else .ok ⟨none, A.setRec id { A.tenants_ id with demand_ := demand }⟩

/-! ## BroadcastHeap -/

/-- Modelled from the spec: the `BroadcastHeap` of `allocator/bheap.h` (section 4.1): a
min-heap of `(id, value)` items with a lazy offset.  `items` holds `(internal key, id)`
pairs in pop order, smallest key first and ties by id; the value seen from outside is
`internal key + offset`. -/
structure BroadcastHeap where
  items : List (Int × Nat)
  offset : Int
deriving DecidableEq, Repr

/-- The pop order of the heap: by value, ties by id. -/
def heapLE (a b : Int × Nat) : Prop :=
  a.1 < b.1 ∨ (a.1 = b.1 ∧ a.2 ≤ b.2)

instance heapLE_decidable : DecidableRel heapLE :=
  fun a b => inferInstanceAs (Decidable (a.1 < b.1 ∨ (a.1 = b.1 ∧ a.2 ≤ b.2)))

namespace BroadcastHeap

/-- Modelled from the spec: the empty heap `BroadcastHeap()`, offset 0. -/
def init : BroadcastHeap := ⟨[], 0⟩

/-- Modelled from the spec: `push(id, v)` inserts with internal key `v - O`. -/
def push (H : BroadcastHeap) (id : Nat) (v : Int) : BroadcastHeap :=
  { H with items := H.items.orderedInsert heapLE (v - H.offset, id) }

/-- Modelled from the spec: `size()`. -/
def size (H : BroadcastHeap) : Nat := H.items.length

/-- Modelled from the spec: `empty()`. -/
def empty (H : BroadcastHeap) : Bool := H.items.isEmpty

/-- Modelled from the spec: `min()`, the smallest external value; defined only when
the heap is not empty. -/
def min (H : BroadcastHeap) : Except Err Int :=
  match H.items with
  | [] => .error .empty_heap
  | (k, _) :: _ => .ok (k + H.offset)

/-- Modelled from the spec: `pop()` removes and returns the element `(id, value)` with the
smallest external value. -/
def pop (H : BroadcastHeap) : Except Err ((Nat × Int) × BroadcastHeap) :=
  match H.items with
  | [] => .error .empty_heap
  | (k, id) :: rest => .ok ((id, k + H.offset), { H with items := rest })

/-- Modelled from the spec: the broadcast addition (`add_all` in the source): `O ← O + δ`. -/
def add_all (H : BroadcastHeap) (delta : Int) : BroadcastHeap :=
  { H with offset := H.offset + delta }

end BroadcastHeap

/-! ## Loops -/

/-- A `while (cond) body` loop with an iteration budget. -/
def whileM {σ : Type} (cond : σ → Except Err Bool) (body : σ → Except Err σ) :
    Nat → σ → Except Err σ
  | 0, _ => .error .out_of_fuel
  | fuel + 1, s =>
    match cond s with
    | .error e => .error e
    | .ok false => .ok s
    | .ok true =>
      match body s with
      | .error e => .error e
      | .ok s' => whileM cond body fuel s'

/-! ## The epoch algorithm -/

/-- `get_block_surplus(id)`, with the state left behind by the lookup `tenants_[id]`. -/
def get_block_surplus (A : KarmaAllocator) (id : Nat) : Except Err (Nat × KarmaAllocator) :=
  if id = A.PUBLIC_ID then .ok (u32 A.public_blocks_, A)
  else
    match get_fair_share A with
    | .error e => .error e
    | .ok fs =>
      let B := A.touch id
      .ok (u32 ((fs : Int) - (B.tenants_ id).demand_), B)

/-- The statement `tenants_[id].rate_ += e` where `e` is computed from
`get_block_surplus(id)`. -/
def add_rate (A : KarmaAllocator) (id : Nat) (e : Nat → Int) : Except Err KarmaAllocator :=
  match get_block_surplus A id with
  | .error e => .error e
  | .ok (sur, B) => .ok (B.modify id fun t => { t with rate_ := i32 (t.rate_ + e sur) })

/-- The value `std::min(tenants_[id].credits_, tenants_[id].demand_ - fair_share)`. -/
def request (fair_share : Nat) (t : Tenant) : Nat :=
  min t.credits_ (u32 ((t.demand_ : Int) - fair_share))

/-- The statements `tenants_[id].allocation_ += delta; tenants_[id].rate_ -= delta;` where
`delta` is computed from the record of `id`. -/
def grant (A : KarmaAllocator) (id : Nat) (delta : Tenant → Int) : KarmaAllocator :=
  A.modify id fun t =>
    { t with allocation_ := u32 (t.allocation_ + delta t), rate_ := i32 (t.rate_ - delta t) }

/-- The state of the first loop of `allocate`. -/
structure Phase0 where
  A : KarmaAllocator
  donors : List Nat
  borrowers : List Nat
  supply : Nat
  demand : Nat

/-- One iteration of the first loop of `allocate` (lines 45-61), at the entry `id`. -/
def classify (fair_share : Nat) (p : Phase0) (id : Nat) : Phase0 :=
  let t := p.A.tenants_ id
  if id = p.A.PUBLIC_ID then
    let c := u32 ((p.A.init_credits_ : Int) * get_num_tenants p.A)
    { p with A := p.A.setRec id { t with rate_ := 0, credits_ := c } }
  else
    let c := u32 ((t.credits_ : Int) + (p.A.public_blocks_ / get_num_tenants p.A : Nat))
    let a := min t.demand_ fair_share
    let B := p.A.setRec id { t with rate_ := 0, credits_ := c, allocation_ := a }
    if t.demand_ < fair_share then
      { p with A := B, donors := p.donors ++ [id],
               supply := u64 ((p.supply : Int) + u32 ((fair_share : Int) - t.demand_)) }
    else if t.demand_ > fair_share then
      { p with A := B, borrowers := p.borrowers ++ [id],
               demand := u64 ((p.demand : Int)
                 + (min (u32 ((t.demand_ : Int) - fair_share)) c : Nat)) }
    else { p with A := B }

/-- The candidate list `donor_c` before sorting (lines 117-120). -/
def donor_candidates :
    KarmaAllocator → List Nat → Except Err (List Candidate × KarmaAllocator)
  | A, [] => .ok ([], A)
  | A, id :: rest =>
    let A1 := A.touch id
    match get_block_surplus A1 id with
    | .error e => .error e
    | .ok (b, A2) =>
      match donor_candidates A2 rest with
      | .error e => .error e
      | .ok (cs, A3) => .ok (⟨id, (A1.tenants_ id).credits_, b⟩ :: cs, A3)

/-- The candidate list `borrower_c` before sorting (lines 176-180). -/
def borrower_candidates (fair_share : Nat) :
    KarmaAllocator → List Nat → List Candidate × KarmaAllocator
  | A, [] => ([], A)
  | A, id :: rest =>
    let A1 := A.touch id
    let r := borrower_candidates fair_share A1 rest
    (⟨id, (A1.tenants_ id).credits_, request fair_share (A1.tenants_ id)⟩ :: r.1, r.2)

/-- The loop `while (c[idx].credits_ == curr_c) { heap.push(c[idx].id_, c[idx].blocks_);
idx++; }` on the pair `(heap, idx)`: its condition. -/
def enter_cond (cands : List Candidate) (curr_c : Int) (s : BroadcastHeap × Nat) :
    Except Err Bool :=
  match cands[s.2]? with
  | none => .error .index_past_end
  | some x => .ok (decide (x.credits_ = curr_c))

/-- The body of the admission loop. -/
def enter_body (cands : List Candidate) (s : BroadcastHeap × Nat) :
    Except Err (BroadcastHeap × Nat) :=
  match cands[s.2]? with
  | none => .error .index_past_end
  | some x => .ok (s.1.push x.id_ x.blocks_, s.2 + 1)

/-- The condition `!heap.empty() && heap.min() == 0`. -/
def min_is_zero (H : BroadcastHeap) : Bool :=
  match H.min with
  | .ok m => decide (m = 0)
  | .error _ => false

/-- The local state of the loop of `borrow_from_poor`. -/
structure PoorLoop where
  A : KarmaAllocator
  poorest_donors : BroadcastHeap
  idx : Nat
  curr_c : Int
  next_c : Int
  demand : Nat

/-- The local state of the loop of `donate_to_rich`. -/
structure RichLoop where
  A : KarmaAllocator
  richest_borrowers : BroadcastHeap
  idx : Nat
  curr_c : Int
  next_c : Int
  supply : Nat

/-- The running example `auto [id, v] = heap.pop(); tenants_[id].rate_ += e;` where `e` is
computed from `get_block_surplus(id)` and `v`. -/
def pop_donor (e : Nat → Int → Int) (s : KarmaAllocator × BroadcastHeap) :
    Except Err (KarmaAllocator × BroadcastHeap) :=
  match s.2.pop with
  | .error err => .error err
  | .ok (x, H) =>
    match add_rate s.1 x.1 (fun sur => e sur x.2) with
    | .error err => .error err
    | .ok A => .ok (A, H)

/-- The statements `auto [id, v] = heap.pop(); delta = d; tenants_[id].allocation_ += delta;
tenants_[id].rate_ -= delta;` where `d` is computed from the record of `id` and `v`. -/
def pop_borrower (d : Tenant → Int → Int) (s : KarmaAllocator × BroadcastHeap) :
    Except Err (KarmaAllocator × BroadcastHeap) :=
  match s.2.pop with
  | .error err => .error err
  | .ok (x, H) => .ok (grant s.1 x.1 (fun t => d t x.2), H)

/-! ### borrow_from_poor -/

/-- Lines 111-115: every borrower takes `to_borrow`. -/
def borrow_all (fair_share : Nat) (A : KarmaAllocator) (borrowers : List Nat) :
    KarmaAllocator :=
  borrowers.foldl (fun B id => grant B id fun t => (request fair_share t : Int)) A

/-- Lines 132-135: the plateau is advanced when the heap is empty. -/
def poor_advance (s : PoorLoop) : Except Err PoorLoop :=
  if s.poorest_donors.empty then
    if s.next_c < UINT32_MAX then .ok { s with curr_c := s.next_c }
    else .error .assert_failed
  else .ok s

/-- Lines 137-141: donors of the plateau enter the heap; `next_c` is read. -/
def poor_enter (fuel : Nat) (donor_c : List Candidate) (s : PoorLoop) : Except Err PoorLoop :=
  match whileM (enter_cond donor_c s.curr_c) (enter_body donor_c) fuel
      (s.poorest_donors, s.idx) with
  | .error e => .error e
  | .ok r =>
    match donor_c[r.2]? with
    | none => .error .index_past_end
    | some x => .ok { s with poorest_donors := r.1, idx := r.2, next_c := x.credits_ }

/-- Lines 144-147: the loop `for (uint32_t i = 0; i < demand; ++i)` on `((tenants, heap), i)`. -/
def poor_fraction (fuel : Nat) (demand : Nat) (s : KarmaAllocator × BroadcastHeap) :
    Except Err ((KarmaAllocator × BroadcastHeap) × Nat) :=
  whileM (fun r => .ok (decide (r.2 < demand)))
    (fun r =>
      match pop_donor (fun sur v => (sur : Int) - v + 1) r.1 with
      | .error e => .error e
      | .ok q => .ok (q, r.2 + 1))
    fuel (s, 0)

/-- Lines 143-155: the fractional finish or a uniform step. -/
def poor_serve (fuel : Nat) (s : PoorLoop) : Except Err PoorLoop :=
  if s.demand < s.poorest_donors.size then
    match poor_fraction fuel s.demand (s.A, s.poorest_donors) with
    | .error e => .error e
    | .ok r => .ok { s with A := r.1.1, poorest_donors := r.1.2, demand := 0 }
  else
    match s.poorest_donors.min with
    | .error e => .error e
    | .ok m =>
      let alpha : Int :=
        i32 (min (i64 m) (min (i64 (s.demand / s.poorest_donors.size : Nat))
          (s.next_c - s.curr_c)))
      .ok { s with poorest_donors := s.poorest_donors.add_all (-alpha),
                   curr_c := s.curr_c + alpha,
                   demand := u64 ((s.demand : Int) - s.poorest_donors.size * alpha) }

/-- Lines 157-160: donors whose remaining surplus is zero leave the heap. -/
def poor_drain (fuel : Nat) (s : PoorLoop) : Except Err PoorLoop :=
  match whileM (fun r => .ok (min_is_zero r.2)) (pop_donor fun sur _ => (sur : Int)) fuel
      (s.A, s.poorest_donors) with
  | .error e => .error e
  | .ok r => .ok { s with A := r.1, poorest_donors := r.2 }

/-- Lines 132-160: one iteration of `while (demand > 0)`. -/
def poor_body (fuel : Nat) (donor_c : List Candidate) (s : PoorLoop) : Except Err PoorLoop :=
  match poor_advance s with
  | .error e => .error e
  | .ok s1 =>
    match poor_enter fuel donor_c s1 with
    | .error e => .error e
    | .ok s2 =>
      match poor_serve fuel s2 with
      | .error e => .error e
      | .ok s3 => poor_drain fuel s3

/-- Lines 163-166: the donors left in the heap are paid what they lent. -/
def poor_rest (fuel : Nat) (s : KarmaAllocator × BroadcastHeap) :
    Except Err (KarmaAllocator × BroadcastHeap) :=
  whileM (fun r => .ok (!r.2.empty)) (pop_donor fun sur v => (sur : Int) - v) fuel s

/-- The sorted list `donor_c` with its sentinel (lines 121-124). -/
def sorted_donors (cs : List Candidate) (DUMMY_ID : Nat) : List Candidate :=
  cs.insertionSort (fun a b => a.credits_ ≤ b.credits_) ++ [⟨DUMMY_ID, UINT32_MAX, 0⟩]

/-- `borrow_from_poor(demand, donors, borrowers)`. -/
def borrow_from_poor (fuel : Nat) (A : KarmaAllocator) (demand : Nat)
    (donors borrowers : List Nat) : Except Err KarmaAllocator :=
  match get_fair_share A with
  | .error e => .error e
  | .ok fair_share =>
    match donor_candidates (borrow_all fair_share A borrowers) donors with
    | .error e => .error e
    | .ok (cs, A1) =>
      let donor_c := sorted_donors cs A.DUMMY_ID
      match donor_c[0]? with
      | none => .error .index_past_end
      | some first =>
        match whileM (fun s => .ok (decide (s.demand > 0))) (poor_body fuel donor_c) fuel
            ⟨A1, BroadcastHeap.init, 0, -1, first.credits_, demand⟩ with
        | .error e => .error e
        | .ok s =>
          match poor_rest fuel (s.A, s.poorest_donors) with
          | .error e => .error e
          | .ok r => .ok r.1

/-! ### donate_to_rich -/

/-- Lines 171-174: every donor is paid its whole surplus. -/
def donate_all : KarmaAllocator → List Nat → Except Err KarmaAllocator
  | A, [] => .ok A
  | A, id :: rest =>
    match add_rate A id (fun sur => (sur : Int)) with
    | .error e => .error e
    | .ok B => donate_all B rest

/-- Lines 192-195: the plateau is advanced when the heap is empty. -/
def rich_advance (s : RichLoop) : Except Err RichLoop :=
  if s.richest_borrowers.empty then
    if s.next_c > -1 then .ok { s with curr_c := s.next_c }
    else .error .assert_failed
  else .ok s

/-- Lines 197-201: borrowers of the plateau enter the heap; `next_c` is read. -/
def rich_enter (fuel : Nat) (borrower_c : List Candidate) (s : RichLoop) :
    Except Err RichLoop :=
  match whileM (enter_cond borrower_c s.curr_c) (enter_body borrower_c) fuel
      (s.richest_borrowers, s.idx) with
  | .error e => .error e
  | .ok r =>
    match borrower_c[r.2]? with
    | none => .error .index_past_end
    | some x => .ok { s with richest_borrowers := r.1, idx := r.2, next_c := x.credits_ }

/-- Lines 204-211: the loop `for (uint32_t i = 0; i < supply; ++i)` on
`(((tenants, heap), supply), i)`; its body decrements `supply`. -/
def rich_fraction (fuel : Nat) (fair_share : Nat)
    (s : (KarmaAllocator × BroadcastHeap) × Nat) :
    Except Err (((KarmaAllocator × BroadcastHeap) × Nat) × Nat) :=
  whileM (fun r => .ok (decide (r.2 < r.1.2)))
    (fun r =>
      match pop_borrower (fun t v => i32 ((request fair_share t : Int) - v + 1)) r.1.1 with
      | .error e => .error e
      | .ok q => .ok ((q, u64 ((r.1.2 : Int) - 1)), r.2 + 1))
    fuel (s, 0)

/-- Lines 203-218: the fractional finish or a uniform step. -/
def rich_serve (fuel : Nat) (fair_share : Nat) (s : RichLoop) : Except Err RichLoop :=
  if s.supply < s.richest_borrowers.size then
    match rich_fraction fuel fair_share ((s.A, s.richest_borrowers), s.supply) with
    | .error e => .error e
    | .ok r => .ok { s with A := r.1.1.1, richest_borrowers := r.1.1.2, supply := 0 }
  else
    match s.richest_borrowers.min with
    | .error e => .error e
    | .ok m =>
      let alpha : Int :=
        i32 ((min (u64 m) (s.supply / s.richest_borrowers.size) : Nat) : Int)
      .ok { s with richest_borrowers := s.richest_borrowers.add_all (-alpha),
                   curr_c := s.curr_c - alpha,
                   supply := u64 ((s.supply : Int) - s.richest_borrowers.size * alpha) }

/-- Lines 220-225: borrowers whose remaining request is zero leave the heap. -/
def rich_drain (fuel : Nat) (fair_share : Nat) (s : RichLoop) : Except Err RichLoop :=
  match whileM (fun r => .ok (min_is_zero r.2))
      (pop_borrower fun t _ => (request fair_share t : Int)) fuel
      (s.A, s.richest_borrowers) with
  | .error e => .error e
  | .ok r => .ok { s with A := r.1, richest_borrowers := r.2 }

/-- Lines 192-225: one iteration of `while (supply > 0)`. -/
def rich_body (fuel : Nat) (fair_share : Nat) (borrower_c : List Candidate) (s : RichLoop) :
    Except Err RichLoop :=
  match rich_advance s with
  | .error e => .error e
  | .ok s1 =>
    match rich_enter fuel borrower_c s1 with
    | .error e => .error e
    | .ok s2 =>
      match rich_serve fuel fair_share s2 with
      | .error e => .error e
      | .ok s3 => rich_drain fuel fair_share s3

/-- Lines 228-233: the borrowers left in the heap get what they were served. -/
def rich_rest (fuel : Nat) (fair_share : Nat) (s : KarmaAllocator × BroadcastHeap) :
    Except Err (KarmaAllocator × BroadcastHeap) :=
  whileM (fun r => .ok (!r.2.empty))
    (pop_borrower fun t v => i32 ((request fair_share t : Int) - v)) fuel s

/-- The sorted list `borrower_c` with its sentinel (lines 181-184). -/
def sorted_borrowers (cs : List Candidate) (DUMMY_ID : Nat) : List Candidate :=
  cs.insertionSort (fun a b => a.credits_ ≥ b.credits_) ++ [⟨DUMMY_ID, -1, 0⟩]

/-- `donate_to_rich(supply, donors, borrowers)`. -/
def donate_to_rich (fuel : Nat) (A : KarmaAllocator) (supply : Nat)
    (donors borrowers : List Nat) : Except Err KarmaAllocator :=
  match get_fair_share A with
  | .error e => .error e
  | .ok fair_share =>
    match donate_all A donors with
    | .error e => .error e
    | .ok A0 =>
      let r := borrower_candidates fair_share A0 borrowers
      let borrower_c := sorted_borrowers r.1 A.DUMMY_ID
      match borrower_c[0]? with
      | none => .error .index_past_end
      | some first =>
        match whileM (fun s => .ok (decide (s.supply > 0)))
            (rich_body fuel fair_share borrower_c) fuel
            ⟨r.2, BroadcastHeap.init, 0, 2147483647, first.credits_, supply⟩ with
        | .error e => .error e
        | .ok s =>
          match rich_rest fuel fair_share (s.A, s.richest_borrowers) with
          | .error e => .error e
          | .ok q => .ok q.1

/-! ### allocate -/

/-- Lines 73-79: the commit loop, at the entry `id`. -/
def commit (A : KarmaAllocator) (id : Nat) : KarmaAllocator :=
  let t := A.tenants_ id
  if id = A.PUBLIC_ID then A.setRec id { t with credits_ := 0 }
  else A.setRec id { t with credits_ := u32 ((t.credits_ : Int) + t.rate_) }

/-- The state after the first loop of `allocate` and the push of `PUBLIC_ID` (lines 41-65). -/
def phase0 (A : KarmaAllocator) (fair_share : Nat) : Phase0 :=
  let p := A.ids.foldl (classify fair_share) ⟨A, [], [], A.public_blocks_, 0⟩
  if A.public_blocks_ > 0 then { p with donors := p.donors ++ [A.PUBLIC_ID] } else p

/-- `allocate()`.  Every loop of the call may run `fuel` iterations. -/
def allocate (fuel : Nat) (A : KarmaAllocator) : Except Err KarmaAllocator :=
  match get_fair_share A with
  | .error e => .error e
  | .ok fair_share =>
    let p := phase0 A fair_share
    let r :=
      if p.supply ≥ p.demand then borrow_from_poor fuel p.A p.demand p.donors p.borrowers
      else donate_to_rich fuel p.A p.supply p.donors p.borrowers
    match r with
    | .error e => .error e
    | .ok B => .ok (B.ids.foldl commit B)

/-! ## Auxiliary notions for stating and proving the properties -/

/-- Two allocator objects with the same constants and the same keys. -/
def Same (A B : KarmaAllocator) : Prop :=
  B.PUBLIC_ID = A.PUBLIC_ID ∧ B.DUMMY_ID = A.DUMMY_ID ∧ B.num_blocks_ = A.num_blocks_ ∧
  B.public_blocks_ = A.public_blocks_ ∧ B.init_credits_ = A.init_credits_ ∧ B.ids = A.ids

/-- The value of `get_block_surplus(id)` when the fair share is `fs`. -/
def surplus (A : KarmaAllocator) (fs : Nat) (id : Nat) : Nat :=
  if id = A.PUBLIC_ID then u32 A.public_blocks_
  else u32 ((fs : Int) - (A.tenants_ id).demand_)

/-- The sum of the external values held in a heap. -/
def hvals (H : BroadcastHeap) : Int :=
  (H.items.map fun x => x.1 + H.offset).sum

/-- The ids held in a heap. -/
def hids (H : BroadcastHeap) : List Nat :=
  H.items.map fun x => x.2

/-- The sum of `w id` over the ids held in a heap. -/
def hweight (w : Nat → Int) (H : BroadcastHeap) : Int :=
  (H.items.map fun x => w x.2).sum

/-- The ids of a candidate list. -/
def cand_ids (cs : List Candidate) : List Nat :=
  cs.map fun c => c.id_

/-- The sum of the blocks of a candidate list. -/
def cand_blocks (cs : List Candidate) : Int :=
  (cs.map fun c => (c.blocks_ : Int)).sum

/-- The sum of `rate_` over a list of ids. -/
def rate_sum (A : KarmaAllocator) (ds : List Nat) : Int :=
  (ds.map fun id => (A.tenants_ id).rate_).sum

/-- What `borrow_from_poor` knows about its sorted donor candidates `cs` when its loop
starts at the table `A0` with `demand0` blocks to find. -/
structure PoorCtx (A0 : KarmaAllocator) (fs : Nat) (cs : List Candidate) (demand0 : Nat) :
    Prop where
  fair : get_fair_share A0 = .ok fs
  nodup : (cand_ids cs).Nodup
  mem : ∀ c ∈ cs, c.id_ ∈ A0.ids
  blocks : ∀ c ∈ cs, c.blocks_ = surplus A0 fs c.id_
  blocks_pos : ∀ c ∈ cs, 1 ≤ c.blocks_
  blocks_lt : ∀ c ∈ cs, c.blocks_ < 2147483648
  credits_ge : ∀ c ∈ cs, 0 ≤ c.credits_
  credits_lt : ∀ c ∈ cs, c.credits_ < 2147483648
  sorted : cs.Sorted (fun a b => a.credits_ ≤ b.credits_)
  rate0 : ∀ c ∈ cs, (A0.tenants_ c.id_).rate_ = 0
  demand_le : (demand0 : Int) ≤ cand_blocks cs
  demand_lt : demand0 < 2147483648

/-- The invariant of the loops of `borrow_from_poor`: the table differs from `A0` in the
rates of the donors only, the heap holds admitted donors with their remaining surplus
(at least `lo`), and the blocks lent so far add up to the demand served so far. -/
structure PoorCore (A0 : KarmaAllocator) (fs : Nat) (cs : List Candidate) (demand0 : Nat)
    (lo : Int) (s : PoorLoop) : Prop where
  same : Same A0 s.A
  frame : ∀ id, (s.A.tenants_ id).demand_ = (A0.tenants_ id).demand_ ∧
    (s.A.tenants_ id).allocation_ = (A0.tenants_ id).allocation_ ∧
    (s.A.tenants_ id).credits_ = (A0.tenants_ id).credits_
  others : ∀ id, id ∉ cand_ids cs → (s.A.tenants_ id).rate_ = (A0.tenants_ id).rate_
  idx_le : s.idx ≤ cs.length
  sorted : s.poorest_donors.items.Sorted heapLE
  hnodup : (hids s.poorest_donors).Nodup
  hmem : ∀ id ∈ hids s.poorest_donors, id ∈ cand_ids (cs.take s.idx)
  hval : ∀ x ∈ s.poorest_donors.items,
    lo ≤ x.1 + s.poorest_donors.offset ∧
    x.1 + s.poorest_donors.offset ≤ surplus A0 fs x.2
  rate_zero_h : ∀ id ∈ hids s.poorest_donors, (s.A.tenants_ id).rate_ = 0
  rate_zero_d : ∀ id ∈ cand_ids (cs.drop s.idx), (s.A.tenants_ id).rate_ = 0
  rate_rng : ∀ id ∈ cand_ids cs,
    0 ≤ (s.A.tenants_ id).rate_ ∧ (s.A.tenants_ id).rate_ ≤ surplus A0 fs id
  account : (s.demand : Int) + rate_sum s.A (cand_ids cs)
    + hweight (fun id => surplus A0 fs id) s.poorest_donors - hvals s.poorest_donors = demand0
  dem_le : s.demand ≤ demand0
  curr_bd : s.curr_c + s.demand ≤ 2147483647 + demand0

/-- The demand still to serve can be met by the heap and the donors not yet admitted. -/
def PoorEnough (cs : List Candidate) (s : PoorLoop) : Prop :=
  (s.demand : Int) ≤ hvals s.poorest_donors + cand_blocks (cs.drop s.idx)

/-- The sum of `allocation_` over a list of ids. -/
def alloc_sum (A : KarmaAllocator) (ds : List Nat) : Int :=
  (ds.map fun id => ((A.tenants_ id).allocation_ : Int)).sum

/-- The state of the loop of `borrow_from_poor` at the head of an iteration. -/
structure PoorHead (A0 : KarmaAllocator) (fs : Nat) (cs : List Candidate) (demand0 : Nat)
    (sent : Candidate) (s : PoorLoop) : Prop where
  core : PoorCore A0 fs cs demand0 1 s
  enough : PoorEnough cs s
  cursor : ∃ c, (cs ++ [sent])[s.idx]? = some c ∧ c.credits_ = s.next_c
  curr_le : s.curr_c ≤ s.next_c

/-- What `donate_to_rich` knows about its sorted borrower candidates `cs` when its loop
starts at the table `A0` with `supply0` blocks to hand out. -/
structure RichCtx (A0 : KarmaAllocator) (fs : Nat) (cs : List Candidate) (supply0 : Nat) :
    Prop where
  nodup : (cand_ids cs).Nodup
  mem : ∀ c ∈ cs, c.id_ ∈ A0.ids
  blocks : ∀ c ∈ cs, c.blocks_ = request fs (A0.tenants_ c.id_)
  credits : ∀ c ∈ cs, c.credits_ = (A0.tenants_ c.id_).credits_
  credits_lt : ∀ c ∈ cs, (A0.tenants_ c.id_).credits_ < 2147483648
  alloc_lt : ∀ c ∈ cs, (A0.tenants_ c.id_).allocation_ < 2147483648
  rate0 : ∀ c ∈ cs, (A0.tenants_ c.id_).rate_ = 0
  sorted : cs.Sorted (fun a b => a.credits_ ≥ b.credits_)
  blocks_pos : ∀ c ∈ cs, 1 ≤ c.credits_ → 1 ≤ c.blocks_
  supply_lt : (supply0 : Int) < cand_blocks cs
  supply_bd : supply0 < 2147483648

/-- The invariant of the loops of `donate_to_rich`: the table differs from `A0` in the
allocation and rate of served borrowers only, the heap holds admitted borrowers with their
remaining request (at least `lo`, at most the plateau), and the blocks granted so far do not
exceed the supply used so far. -/
structure RichCore (A0 : KarmaAllocator) (fs : Nat) (cs : List Candidate) (supply0 : Nat)
    (lo : Int) (s : RichLoop) : Prop where
  same : Same A0 s.A
  frame : ∀ id, (s.A.tenants_ id).demand_ = (A0.tenants_ id).demand_ ∧
    (s.A.tenants_ id).credits_ = (A0.tenants_ id).credits_
  others : ∀ id, id ∉ cand_ids cs → s.A.tenants_ id = A0.tenants_ id
  idx_le : s.idx ≤ cs.length
  sorted : s.richest_borrowers.items.Sorted heapLE
  hnodup : (hids s.richest_borrowers).Nodup
  hmem : ∀ id ∈ hids s.richest_borrowers, id ∈ cand_ids (cs.take s.idx)
  hval : ∀ x ∈ s.richest_borrowers.items,
    lo ≤ x.1 + s.richest_borrowers.offset ∧
    x.1 + s.richest_borrowers.offset ≤ request fs (A0.tenants_ x.2) ∧
    x.1 + s.richest_borrowers.offset ≤ s.curr_c
  fresh_h : ∀ id ∈ hids s.richest_borrowers, s.A.tenants_ id = A0.tenants_ id
  fresh_d : ∀ id ∈ cand_ids (cs.drop s.idx), s.A.tenants_ id = A0.tenants_ id
  granted : ∀ id ∈ cand_ids cs,
    (A0.tenants_ id).allocation_ ≤ (s.A.tenants_ id).allocation_ ∧
    (s.A.tenants_ id).allocation_ ≤ (A0.tenants_ id).allocation_ + request fs (A0.tenants_ id) ∧
    (s.A.tenants_ id).rate_ = ((A0.tenants_ id).allocation_ : Int) - (s.A.tenants_ id).allocation_
  account : (s.supply : Int) + (alloc_sum s.A (cand_ids cs) - alloc_sum A0 (cand_ids cs))
    + hweight (fun id => request fs (A0.tenants_ id)) s.richest_borrowers
    - hvals s.richest_borrowers ≤ supply0
  sup_le : s.supply ≤ supply0

/-- The supply left is less than what the heap and the borrowers not yet admitted ask for. -/
def RichEnough (cs : List Candidate) (s : RichLoop) : Prop :=
  s.supply = 0 ∨ (s.supply : Int) < hvals s.richest_borrowers + cand_blocks (cs.drop s.idx)

/-- The state of the loop of `donate_to_rich` at the head of an iteration. -/
structure RichHead (A0 : KarmaAllocator) (fs : Nat) (cs : List Candidate) (supply0 : Nat)
    (sent : Candidate) (s : RichLoop) : Prop where
  core : RichCore A0 fs cs supply0 1 s
  enough : RichEnough cs s
  cursor : ∃ c, (cs ++ [sent])[s.idx]? = some c ∧ c.credits_ = s.next_c

/-- What a donor candidate has lent when the credit level of `borrow_from_poor` is `L`:
`L - credits` blocks, at least none and at most its blocks. -/
def lent (L : Int) (c : Candidate) : Int :=
  min (c.blocks_ : Int) (max 0 (L - c.credits_))

/-- The level invariant of the loop of `borrow_from_poor`: a donor in the heap has lent
`curr_c - credits` of its blocks, a donor outside the heap has been paid what it lent at the
level `curr_c`, up to `slack` blocks more; while `slack` is 0 a donor that left the heap has
lent all its blocks. -/
structure PoorLevel (cs : List Candidate) (slack : Int) (s : PoorLoop) : Prop where
  inheap : ∀ c ∈ cs, ∀ k, (k, c.id_) ∈ s.poorest_donors.items →
    k + s.poorest_donors.offset = c.blocks_ - (s.curr_c - c.credits_) ∧ c.credits_ ≤ s.curr_c
  out : ∀ c ∈ cs, c.id_ ∉ hids s.poorest_donors →
    lent s.curr_c c ≤ (s.A.tenants_ c.id_).rate_ ∧
    (s.A.tenants_ c.id_).rate_ ≤ lent s.curr_c c + slack
  done : slack = 0 → ∀ c ∈ cs.take s.idx, c.id_ ∉ hids s.poorest_donors →
    (c.blocks_ : Int) ≤ s.curr_c - c.credits_
  taken : ∀ c ∈ cs.take s.idx, c.credits_ ≤ s.curr_c

/-- The level invariant of the loop of `donate_to_rich`: a borrower in the heap has been
served `credits - curr_c` of its request, the level is at most the credits of every admitted
borrower, and a borrower that left the heap got its whole request or, once the fractional
finish has run (`slack` is 1), at least `credits - curr_c` blocks. -/
structure RichLevel (A0 : KarmaAllocator) (cs : List Candidate) (slack : Int) (s : RichLoop) :
    Prop where
  inheap : ∀ c ∈ cs, ∀ k, (k, c.id_) ∈ s.richest_borrowers.items →
    k + s.richest_borrowers.offset = c.blocks_ - (c.credits_ - s.curr_c)
  taken : ∀ c ∈ cs.take s.idx, s.curr_c ≤ c.credits_
  out : ∀ c ∈ cs.take s.idx, c.id_ ∉ hids s.richest_borrowers →
    ((s.A.tenants_ c.id_).allocation_ : Int) = (A0.tenants_ c.id_).allocation_ + c.blocks_ ∨
    (slack = 1 ∧ c.credits_ - s.curr_c
      ≤ ((s.A.tenants_ c.id_).allocation_ : Int) - (A0.tenants_ c.id_).allocation_)

/-! ## The state after the first loop of `allocate`, in closed form -/

/-- The per-epoch grant `public_blocks_ / get_num_tenants()`. -/
def public_share (A : KarmaAllocator) : Nat :=
  A.public_blocks_ / get_num_tenants A

/-- The record of `id` after the first loop of `allocate`, when nothing wraps. -/
def rec0 (A : KarmaAllocator) (fs : Nat) (id : Nat) : Tenant :=
  if id = A.PUBLIC_ID then
    { A.tenants_ id with rate_ := 0, credits_ := A.init_credits_ * get_num_tenants A }
  else
    { A.tenants_ id with
      rate_ := 0, credits_ := (A.tenants_ id).credits_ + public_share A,
      allocation_ := min (A.tenants_ id).demand_ fs }

/-- The candidate `(id, credits, blocks)` that `borrow_from_poor` builds for the donor `id`:
its credits after the first loop of `allocate` and its surplus. -/
def donor_candidate (A : KarmaAllocator) (fs : Nat) (id : Nat) : Candidate :=
  ⟨id, (rec0 A fs id).credits_, surplus A fs id⟩

/-- The real tenants that demand less than the fair share, in iteration order. -/
def real_donors (A : KarmaAllocator) (fs : Nat) (l : List Nat) : List Nat :=
  l.filter fun id => decide (id ≠ A.PUBLIC_ID ∧ (A.tenants_ id).demand_ < fs)

/-- The tenants that demand more than the fair share, in iteration order. -/
def real_borrowers (A : KarmaAllocator) (fs : Nat) (l : List Nat) : List Nat :=
  l.filter fun id => decide (id ≠ A.PUBLIC_ID ∧ (A.tenants_ id).demand_ > fs)

/-- The surplus of the real donors among `l`. -/
def donor_supply (A : KarmaAllocator) (fs : Nat) (l : List Nat) : Nat :=
  ((real_donors A fs l).map fun id => fs - (A.tenants_ id).demand_).sum

/-- The credit-bounded request of a tenant above its fair share: what it asks beyond the
fair share, capped by its credits after the per-epoch grant. -/
def capped (A : KarmaAllocator) (fs : Nat) (id : Nat) : Nat :=
  min ((A.tenants_ id).demand_ - fs) ((A.tenants_ id).credits_ + public_share A)

/-- The credit-bounded demand of the borrowers among `l`. -/
def borrower_demand (A : KarmaAllocator) (fs : Nat) (l : List Nat) : Nat :=
  ((real_borrowers A fs l).map fun id => capped A fs id).sum

/-- The bounds under which the first loop of `allocate` does not wrap. -/
structure NoWrap (A : KarmaAllocator) (fs : Nat) : Prop where
  fs_lt : fs < 2147483648
  init_lt : A.init_credits_ * get_num_tenants A < 2147483648
  demand_lt : ∀ id ∈ A.ids, id ≠ A.PUBLIC_ID → (A.tenants_ id).demand_ < 4294967296
  credits_lt : ∀ id ∈ A.ids, id ≠ A.PUBLIC_ID →
    (A.tenants_ id).credits_ + public_share A < 2147483648

/-- The real tenants: the keys of the table other than `PUBLIC_ID`, in iteration order. -/
def real_ids (A : KarmaAllocator) : List Nat :=
  A.ids.filter fun id => decide (id ≠ A.PUBLIC_ID)

/-- The fair share `(num_blocks_ - public_blocks_) / N` of a state with `N` real tenants. -/
def fair_share_of (A : KarmaAllocator) : Nat :=
  (A.num_blocks_ - A.public_blocks_) / (A.ids.length - 1)

/-- A valid allocator state for `allocate`: the keys are distinct and include `PUBLIC_ID`,
there is a real tenant (`N ≥ 1`), the public pool is part of the blocks, and nothing wraps:
block counts, credits after the per-epoch grant and the public credit ceiling
`init_credits_ * N` are below `2^31`, demands fit 32 bits. -/
def Valid (A : KarmaAllocator) : Prop :=
  A.ids.Nodup ∧ A.PUBLIC_ID ∈ A.ids ∧ 2 ≤ A.ids.length ∧ A.ids.length ≤ 4294967296 ∧
  A.public_blocks_ ≤ A.num_blocks_ ∧ A.num_blocks_ < 2147483648 ∧
  A.init_credits_ * (A.ids.length - 1) < 2147483648 ∧
  ∀ id ∈ A.ids, id ≠ A.PUBLIC_ID →
    (A.tenants_ id).demand_ < 4294967296 ∧
    (A.tenants_ id).credits_ + A.public_blocks_ / (A.ids.length - 1) < 2147483648

instance Valid_decidable (A : KarmaAllocator) : Decidable (Valid A) := by
  unfold Valid
  exact inferInstance

/-- The sum of `allocation_` over the real tenants. -/
def total_allocation (A : KarmaAllocator) : Nat :=
  ((real_ids A).map fun id => (A.tenants_ id).allocation_).sum

/-- The sum of `demand_` over the real tenants. -/
def total_demand (A : KarmaAllocator) : Nat :=
  ((real_ids A).map fun id => (A.tenants_ id).demand_).sum

/-- What the dispatch of `allocate` (lines 67-71) leaves in the table `B`, in terms of the
state `A` on which `allocate` was called: demands are kept, a tenant at or below the fair
share gets its demand and a rate between 0 and its surplus, a tenant above gets between the
fair share and its credit-bounded request and pays what it got, the real tenants together
get at most `N * fair_share + public_blocks`; and what is particular to each branch. -/
structure Swept (A B : KarmaAllocator) : Prop where
  same : Same A B
  demand : ∀ id ∈ A.ids, (B.tenants_ id).demand_ = (A.tenants_ id).demand_
  low : ∀ id ∈ real_ids A, (A.tenants_ id).demand_ ≤ fair_share_of A →
    (B.tenants_ id).allocation_ = (A.tenants_ id).demand_ ∧ 0 ≤ (B.tenants_ id).rate_ ∧
    (B.tenants_ id).rate_ ≤ (fair_share_of A : Int) - (A.tenants_ id).demand_
  high : ∀ id ∈ real_ids A, fair_share_of A < (A.tenants_ id).demand_ →
    fair_share_of A ≤ (B.tenants_ id).allocation_ ∧
    (B.tenants_ id).allocation_ ≤ fair_share_of A + capped A (fair_share_of A) id ∧
    (B.tenants_ id).rate_ = (fair_share_of A : Int) - (B.tenants_ id).allocation_
  total : alloc_sum B (real_ids A)
    ≤ ((real_ids A).length * fair_share_of A + A.public_blocks_ : Nat)
  poor : borrower_demand A (fair_share_of A) A.ids
      ≤ A.public_blocks_ + donor_supply A (fair_share_of A) A.ids →
    (∀ id ∈ real_ids A, fair_share_of A < (A.tenants_ id).demand_ →
      (B.tenants_ id).allocation_ = fair_share_of A + capped A (fair_share_of A) id) ∧
    rate_sum B A.ids = 0 ∧
    0 ≤ (B.tenants_ A.PUBLIC_ID).rate_ ∧ (B.tenants_ A.PUBLIC_ID).rate_ ≤ A.public_blocks_
  rich : A.public_blocks_ + donor_supply A (fair_share_of A) A.ids
      < borrower_demand A (fair_share_of A) A.ids →
    (∀ id ∈ real_ids A, (A.tenants_ id).demand_ < fair_share_of A →
      (B.tenants_ id).rate_ = (fair_share_of A : Int) - (A.tenants_ id).demand_) ∧
    (B.tenants_ A.PUBLIC_ID).rate_ = A.public_blocks_
  level : borrower_demand A (fair_share_of A) A.ids
      ≤ A.public_blocks_ + donor_supply A (fair_share_of A) A.ids →
    ∃ L : Int, ∀ id ∈ (phase0 A (fair_share_of A)).donors,
      (lent L (donor_candidate A (fair_share_of A) id) ≤ (B.tenants_ id).rate_ ∧
        (B.tenants_ id).rate_ ≤ lent L (donor_candidate A (fair_share_of A) id) + 1) ∧
      ((B.tenants_ id).rate_ ≠ 0 → (donor_candidate A (fair_share_of A) id).credits_ ≤ L)
  paid : borrower_demand A (fair_share_of A) A.ids
      ≤ A.public_blocks_ + donor_supply A (fair_share_of A) A.ids →
    rate_sum B (phase0 A (fair_share_of A)).donors
      = borrower_demand A (fair_share_of A) A.ids
  rich_first : A.public_blocks_ + donor_supply A (fair_share_of A) A.ids
      < borrower_demand A (fair_share_of A) A.ids →
    ∀ a ∈ real_borrowers A (fair_share_of A) A.ids,
    ∀ b ∈ real_borrowers A (fair_share_of A) A.ids,
      (A.tenants_ b).credits_ < (A.tenants_ a).credits_ →
      (B.tenants_ b).allocation_ ≠ fair_share_of A →
      (B.tenants_ a).allocation_ = fair_share_of A + capped A (fair_share_of A) a ∨
      ((A.tenants_ a).credits_ + public_share A : Int)
          - ((B.tenants_ a).allocation_ - fair_share_of A)
        ≤ (A.tenants_ b).credits_ + public_share A

/-- The budget of iterations that is enough for every loop of `allocate`. -/
def enough_fuel (A : KarmaAllocator) : Nat :=
  A.num_blocks_ + A.ids.length + 2

/-! ## Concrete states and observations -/

/-- A table with the public entry (id 0, no credits) followed by the given real tenants
`(id, demand, credits)`; the sentinel id is `4294967295`. -/
def table (num_blocks public_blocks init_credits : Nat) (ts : List (Nat × Nat × Nat)) :
    KarmaAllocator :=
  { PUBLIC_ID := 0, DUMMY_ID := 4294967295, num_blocks_ := num_blocks,
    public_blocks_ := public_blocks, init_credits_ := init_credits,
    ids := 0 :: ts.map (fun t => t.1),
    tenants_ := fun i =>
      match ts.find? (fun t => t.1 == i) with
      | some t => { demand_ := t.2.1, credits_ := t.2.2 }
      | none => {} }

/-- The state a call leaves behind; the state before it when the call did not return. -/
def after (A : KarmaAllocator) (r : Except Err Call) : KarmaAllocator :=
  match r with
  | .ok c => c.state
  | .error _ => A

/-- The state reached by `KarmaAllocator(num_blocks, alpha, init_credits)` with
`alpha * num_blocks = public_blocks`, then `add_tenant(id)` for every `(id, demand)` of the
list in turn, then `set_demand(id, demand, false)` for every one of them in turn; the public
id is 0 and the sentinel id is `4294967295`. -/
def setup (num_blocks public_blocks init_credits : Nat) (ts : List (Nat × Nat)) :
    KarmaAllocator :=
  let A := ts.foldl (fun A t => (add_tenant A t.1).state)
    (construct 0 4294967295 num_blocks public_blocks init_credits)
  ts.foldl (fun A t => after A (set_demand A t.1 t.2 false)) A

/-- Scenario S2 of the specification: 10 blocks, no public pool, demands 2 and 8. -/
def scenario_S2 : KarmaAllocator := setup 10 0 100 [(1, 2), (2, 8)]

/-- Scenario S3 of the specification: 10 blocks, no public pool, 2 credits each, demands 0
and 10. -/
def scenario_S3 : KarmaAllocator := setup 10 0 2 [(1, 0), (2, 10)]

/-- Scenario S4 of the specification: 10 blocks of which 5 are public, no credits, demands 0
and 10. -/
def scenario_S4 : KarmaAllocator := setup 10 5 0 [(1, 0), (2, 10)]

/-- Scenario S5 of the specification: 10 blocks, credits 10, 5, 1, every demand 10. -/
def scenario_S5 : KarmaAllocator := table 10 0 0 [(1, 10, 10), (2, 10, 5), (3, 10, 1)]

/-- Two donors with the same credits (7 each) and the same demand, and one borrower that asks
for one block beyond its fair share: 9 blocks, fair share 3. -/
def twin_donors : KarmaAllocator := setup 9 0 7 [(1, 2), (2, 2), (3, 4)]

/-- The demand of a tenant bounded by its credits: `min(demand, fair_share + credits after
the per-epoch grant)`. -/
def credit_bounded_demand (A : KarmaAllocator) (fs : Nat) (id : Nat) : Nat :=
  min (A.tenants_ id).demand_ (fs + ((A.tenants_ id).credits_ + public_share A))

/-- The sum over the real tenants of the change of `credits_` from `A` to `B`. -/
def credit_change (A B : KarmaAllocator) : Int :=
  ((real_ids A).map fun id =>
    ((B.tenants_ id).credits_ : Int) - (A.tenants_ id).credits_).sum

/-- The sum of `credits_` over the real tenants. -/
def real_credits (A : KarmaAllocator) : Nat :=
  ((real_ids A).map fun id => (A.tenants_ id).credits_).sum

/-- One real tenant with 100 credits: `KarmaAllocator(10, 0, 100)`, `add_tenant(1)`,
`set_demand(1, 0)`. -/
def one_tenant : KarmaAllocator := setup 10 0 100 [(1, 0)]

/-- One donor with 2 spare blocks and three borrowers that each ask 3 blocks beyond the fair
share of 3: `KarmaAllocator(12, 0, 7)`, tenants 1 to 4 with demands 1, 6, 6, 6. -/
def three_borrowers : KarmaAllocator := setup 12 0 7 [(1, 1), (2, 6), (3, 6), (4, 6)]

/-- Three tenants with 1431655765 credits each next to a public pool of 6 of 12 blocks, and
one of them asks 3 blocks beyond the fair share of 2: `KarmaAllocator(12, 0.5, 1431655765)`,
tenants 1 to 3 with demands 5, 2, 2. -/
def public_at_sentinel : KarmaAllocator := setup 12 6 1431655765 [(1, 5), (2, 2), (3, 2)]

/-- One donor with 4 spare blocks and two borrowers with 6 and 5 credits that ask 2 and 4
blocks beyond the fair share of 4: 12 blocks, no public pool. -/
def ranked_borrowers : KarmaAllocator := table 12 0 0 [(1, 0, 0), (2, 6, 6), (3, 8, 5)]

/-- Two donors with 1 and 4 credits and 3 spare blocks each, and a borrower that asks 4
blocks beyond the fair share of 4: 12 blocks, no public pool. -/
def ranked_donors : KarmaAllocator := table 12 0 0 [(1, 1, 1), (2, 1, 4), (3, 8, 9)]

/-! ## Sequences of calls -/

/-- A call of one of the four member functions that change the object; `allocate` carries the
iteration budget of its loops. -/
inductive Op where
  | add_tenant (id : Nat)
  | remove_tenant (id : Nat)
  | set_demand (id demand : Nat) (greedy : Bool)
  | allocate (fuel : Nat)
deriving DecidableEq, Repr

/-- The arguments of a call fit their type `uint32_t`. -/
def Op.fits : Op → Prop
  | .add_tenant id => id < 4294967296
  | .remove_tenant id => id < 4294967296
  | .set_demand id demand _ => id < 4294967296 ∧ demand < 4294967296
  | .allocate _ => True

instance Op.fits_decidable (o : Op) : Decidable o.fits := by
  cases o <;> unfold Op.fits <;> exact inferInstance

/-- The object after one call.  A call that throws leaves the object as the member function
left it; a call that does not return (a failed assertion, a division by zero, a read past the
end of a candidate list, an exhausted budget) has no state after it. -/
def step (A : KarmaAllocator) : Op → Except Err KarmaAllocator
  | .add_tenant id => .ok (add_tenant A id).state
  | .remove_tenant id => .ok (remove_tenant A id).state
  | .set_demand id demand greedy =>
    match set_demand A id demand greedy with
    | .error e => .error e
    | .ok c => .ok c.state
  | .allocate fuel => allocate fuel A

/-- The object after a sequence of calls. -/
def run : List Op → KarmaAllocator → Except Err KarmaAllocator
  | [], A => .ok A
  | o :: os, A =>
    match step A o with
    | .error e => .error e
    | .ok B => run os B

/-- The tenant table `A` has the constants and the keys of `A0`, and the heap `H` holds ids
of `K` only. -/
def Kept (A0 : KarmaAllocator) (K : List Nat) (A : KarmaAllocator) (H : BroadcastHeap) : Prop :=
  Same A0 A ∧ ∀ id ∈ hids H, id ∈ K

/-- The invariant of the tenant table: `PUBLIC_ID` is a key, `DUMMY_ID` is not, no key occurs
twice, and every key fits `uint32_t`. -/
def TableInv (A : KarmaAllocator) : Prop :=
  A.PUBLIC_ID ∈ A.ids ∧ A.DUMMY_ID ∉ A.ids ∧ A.ids.Nodup ∧ ∀ id ∈ A.ids, id < 4294967296

/-- The calls of a session: two tenants are added, set their demands, an epoch is allocated,
tenant 1 is removed, and the removal of the public tenant and of an unknown tenant, the
addition of the sentinel id and of an existing id are tried. -/
def session : List Op :=
  [.add_tenant 1, .add_tenant 2, .set_demand 1 2 false, .set_demand 2 8 true, .allocate 40,
   .remove_tenant 1, .remove_tenant 0, .remove_tenant 7, .add_tenant 4294967295,
   .add_tenant 2, .set_demand 0 3 false, .allocate 40]

/-- The object at the end of `session` on `KarmaAllocator(10, 0, 100)`. -/
def after_session : KarmaAllocator :=
  match run session (construct 0 4294967295 10 0 100) with
  | .ok B => B
  | .error _ => construct 0 4294967295 10 0 100

/-! ## Objects that differ in `init_credits_` -/

/-- The object `A` with `init_credits_` replaced by `c` and the credits of the public tenant
replaced by `k`. -/
def with_public (c k : Nat) (A : KarmaAllocator) : KarmaAllocator :=
  { A with
    init_credits_ := c,
    tenants_ := Function.update A.tenants_ A.PUBLIC_ID
      { A.tenants_ A.PUBLIC_ID with credits_ := k } }

/-- The local state of the loop of `borrow_from_poor` with its table changed by
`with_public`. -/
def PoorLoop.with_public (c k : Nat) (s : PoorLoop) : PoorLoop :=
  { s with A := Karma.with_public c k s.A }

/-- The local state of the loop of `donate_to_rich` with its table changed by
`with_public`. -/
def RichLoop.with_public (c k : Nat) (s : RichLoop) : RichLoop :=
  { s with A := Karma.with_public c k s.A }

/-- The object `A` with `init_credits_` replaced by `c`. -/
def with_init_credits (c : Nat) (A : KarmaAllocator) : KarmaAllocator :=
  { A with init_credits_ := c }

/-- `KarmaAllocator(12, 1/6, 0)` (2 public blocks, fair share 5) with tenants 1 and 2 after two
epochs without demand, in which each of them is granted 1 credit; then tenant 1 demands 4
blocks and tenant 2 demands 6. -/
def earned_credits : KarmaAllocator :=
  match run [.add_tenant 1, .add_tenant 2, .allocate 40, .allocate 40,
      .set_demand 1 4 false, .set_demand 2 6 false] (construct 0 4294967295 12 2 0) with
  | .ok B => B
  | .error _ => construct 0 4294967295 12 2 0

/-- `KarmaAllocator(12, 1/6, 2)` with tenants 1 and 2, which start with 2 credits each;
tenant 1 demands 4 blocks and tenant 2 demands 6. -/
def initial_credits : KarmaAllocator := setup 12 2 2 [(1, 4), (2, 6)]

/-! ## Order instances for the heap and the candidate lists -/

instance heapLE_total : IsTotal (Int × Nat) heapLE :=
  ⟨fun a b => by unfold heapLE; omega⟩

instance heapLE_trans : IsTrans (Int × Nat) heapLE :=
  ⟨fun a b c h1 h2 => by unfold heapLE at *; omega⟩

instance credits_le_total : IsTotal Candidate (fun a b => a.credits_ ≤ b.credits_) :=
  ⟨fun a b => le_total a.credits_ b.credits_⟩

instance credits_le_trans : IsTrans Candidate (fun a b => a.credits_ ≤ b.credits_) :=
  ⟨fun _ _ _ h1 h2 => le_trans h1 h2⟩

instance credits_ge_total : IsTotal Candidate (fun a b => a.credits_ ≥ b.credits_) :=
  ⟨fun a b => le_total b.credits_ a.credits_⟩

instance credits_ge_trans : IsTrans Candidate (fun a b => a.credits_ ≥ b.credits_) :=
  ⟨fun _ _ _ h1 h2 => le_trans h2 h1⟩

/-! # Properties -/

/-! ## Machine integers: values in range are kept -/

theorem u32_eq (x : Int) (h0 : 0 ≤ x) (h1 : x < 4294967296) : (u32 x : Int) = x := by
  unfold u32; omega

theorem u32_nat (n : Nat) (h : n < 4294967296) : u32 (n : Int) = n := by
  unfold u32; omega

theorem u64_eq (x : Int) (h0 : 0 ≤ x) (h1 : x < 18446744073709551616) : (u64 x : Int) = x := by
  unfold u64; omega

theorem i32_eq (x : Int) (h0 : -2147483648 ≤ x) (h1 : x < 2147483648) : i32 x = x := by
  unfold i32; omega

theorem i64_eq (x : Int) (h0 : -9223372036854775808 ≤ x) (h1 : x < 9223372036854775808) :
    i64 x = x := by
  unfold i64; omega

/-! ## The loop rule -/

theorem whileM_total {σ : Type} (cond : σ → Except Err Bool) (body : σ → Except Err σ)
    (Inv : σ → Prop) (mu : σ → Nat)
    (hc : ∀ s, Inv s → ∃ b, cond s = .ok b)
    (hb : ∀ s, Inv s → cond s = .ok true → ∃ s', body s = .ok s' ∧ Inv s' ∧ mu s' < mu s) :
    ∀ (fuel : Nat) (s : σ), Inv s → mu s < fuel →
      ∃ s', whileM cond body fuel s = .ok s' ∧ Inv s' ∧ cond s' = .ok false := by
  intro fuel
  induction fuel with
  | zero => intro s _ h; omega
  | succ n ih =>
    intro s hI hmu
    obtain ⟨b, hcb⟩ := hc s hI
    cases b with
    | false => exact ⟨s, by simp [whileM, hcb], hI, hcb⟩
    | true =>
      obtain ⟨s', hs', hI', hlt⟩ := hb s hI hcb
      obtain ⟨s'', h1, h2, h3⟩ := ih s' hI' (by omega)
      exact ⟨s'', by simp [whileM, hcb, hs', h1], h2, h3⟩

/-! ## The tenant table -/

theorem Same.refl (A : KarmaAllocator) : Same A A := ⟨rfl, rfl, rfl, rfl, rfl, rfl⟩

theorem Same.trans {A B C : KarmaAllocator} (h1 : Same A B) (h2 : Same B C) : Same A C := by
  unfold Same at h1 h2 ⊢
  refine ⟨?_, ?_, ?_, ?_, ?_, ?_⟩
  · rw [h2.1, h1.1]
  · rw [h2.2.1, h1.2.1]
  · rw [h2.2.2.1, h1.2.2.1]
  · rw [h2.2.2.2.1, h1.2.2.2.1]
  · rw [h2.2.2.2.2.1, h1.2.2.2.2.1]
  · rw [h2.2.2.2.2.2, h1.2.2.2.2.2]

theorem Same.setRec (A : KarmaAllocator) (id : Nat) (t : Tenant) : Same A (A.setRec id t) :=
  ⟨rfl, rfl, rfl, rfl, rfl, rfl⟩

theorem Same.same_num_tenants {A B : KarmaAllocator} (h : Same A B) :
    get_num_tenants B = get_num_tenants A := by
  unfold get_num_tenants; rw [h.2.2.2.2.2]

theorem Same.same_fair_share {A B : KarmaAllocator} (h : Same A B) :
    get_fair_share B = get_fair_share A := by
  unfold get_fair_share get_free_blocks
  rw [h.same_num_tenants, h.2.2.1, h.2.2.2.1]

theorem touch_of_mem {A : KarmaAllocator} {id : Nat} (h : id ∈ A.ids) : A.touch id = A := by
  simp [KarmaAllocator.touch, KarmaAllocator.emplace, h]

theorem modify_of_mem {A : KarmaAllocator} {id : Nat} (h : id ∈ A.ids) (f : Tenant → Tenant) :
    A.modify id f = A.setRec id (f (A.tenants_ id)) := by
  simp [KarmaAllocator.modify, touch_of_mem h, KarmaAllocator.setRec]

@[simp]
theorem setRec_tenants_same (A : KarmaAllocator) (id : Nat) (t : Tenant) :
    (A.setRec id t).tenants_ id = t := by
  simp [KarmaAllocator.setRec]

theorem setRec_tenants_ne (A : KarmaAllocator) {id j : Nat} (t : Tenant) (h : j ≠ id) :
    (A.setRec id t).tenants_ j = A.tenants_ j := by
  simp [KarmaAllocator.setRec, Function.update_noteq h]

@[simp]
theorem setRec_ids (A : KarmaAllocator) (id : Nat) (t : Tenant) :
    (A.setRec id t).ids = A.ids := rfl

theorem get_block_surplus_of_mem {A : KarmaAllocator} {fs id : Nat}
    (hfs : get_fair_share A = .ok fs) (h : id ∈ A.ids) :
    get_block_surplus A id = .ok (surplus A fs id, A) := by
  unfold get_block_surplus surplus
  by_cases hp : id = A.PUBLIC_ID
  · simp [hp]
  · simp [hp, hfs, touch_of_mem h]

theorem add_rate_of_mem {A : KarmaAllocator} {fs id : Nat} (e : Nat → Int)
    (hfs : get_fair_share A = .ok fs) (h : id ∈ A.ids) :
    add_rate A id e = .ok (A.setRec id
      { A.tenants_ id with rate_ := i32 ((A.tenants_ id).rate_ + e (surplus A fs id)) }) := by
  unfold add_rate
  rw [get_block_surplus_of_mem hfs h]
  simp [modify_of_mem h]

theorem grant_of_mem {A : KarmaAllocator} {id : Nat} (d : Tenant → Int) (h : id ∈ A.ids) :
    grant A id d = A.setRec id
      { A.tenants_ id with
        allocation_ := u32 ((A.tenants_ id).allocation_ + d (A.tenants_ id)),
        rate_ := i32 ((A.tenants_ id).rate_ - d (A.tenants_ id)) } := by
  unfold grant
  rw [modify_of_mem h]

/-! ## The heap -/

theorem push_items_perm (H : BroadcastHeap) (id : Nat) (v : Int) :
    (H.push id v).items.Perm ((v - H.offset, id) :: H.items) := by
  unfold BroadcastHeap.push
  exact List.perm_orderedInsert _ _ _

@[simp]
theorem push_offset (H : BroadcastHeap) (id : Nat) (v : Int) :
    (H.push id v).offset = H.offset := rfl

theorem push_sorted (H : BroadcastHeap) (id : Nat) (v : Int) (h : H.items.Sorted heapLE) :
    (H.push id v).items.Sorted heapLE :=
  List.Sorted.orderedInsert _ _ h

theorem push_size (H : BroadcastHeap) (id : Nat) (v : Int) :
    (H.push id v).size = H.size + 1 := by
  unfold BroadcastHeap.push BroadcastHeap.size
  exact List.orderedInsert_length _ _ _

theorem mem_push (H : BroadcastHeap) (id : Nat) (v : Int) (x : Int × Nat) :
    x ∈ (H.push id v).items ↔ x = (v - H.offset, id) ∨ x ∈ H.items := by
  unfold BroadcastHeap.push
  exact List.mem_orderedInsert _

theorem hvals_push (H : BroadcastHeap) (id : Nat) (v : Int) :
    hvals (H.push id v) = v + hvals H := by
  unfold hvals
  rw [push_offset, ((push_items_perm H id v).map _).sum_eq]
  simp

theorem hweight_push (w : Nat → Int) (H : BroadcastHeap) (id : Nat) (v : Int) :
    hweight w (H.push id v) = w id + hweight w H := by
  unfold hweight
  rw [((push_items_perm H id v).map _).sum_eq]
  simp

theorem hids_push_perm (H : BroadcastHeap) (id : Nat) (v : Int) :
    (hids (H.push id v)).Perm (id :: hids H) := by
  unfold hids
  exact (push_items_perm H id v).map _

theorem hvals_add_all (H : BroadcastHeap) (d : Int) :
    hvals (H.add_all d) = hvals H + H.size * d := by
  unfold hvals BroadcastHeap.add_all BroadcastHeap.size
  induction H.items with
  | nil => simp
  | cons x l ih => simp only [List.map_cons, List.sum_cons, List.length_cons, ih]; push_cast; ring

theorem min_le_of_sorted {H : BroadcastHeap} {m : Int} (hs : H.items.Sorted heapLE)
    (hm : H.min = .ok m) : ∀ x ∈ H.items, m ≤ x.1 + H.offset := by
  unfold BroadcastHeap.min at hm
  cases hi : H.items with
  | nil => simp [hi] at hm
  | cons y l =>
    rw [hi] at hm hs
    simp only [Except.ok.injEq] at hm
    intro x hx
    rcases List.mem_cons.mp hx with rfl | hx
    · omega
    · have := (List.sorted_cons.mp hs).1 x hx
      unfold heapLE at this
      omega

/-! ## Lists of candidates -/

theorem drop_of_getElem? {α : Type} {l : List α} {i : Nat} {a : α} (h : l[i]? = some a) :
    l.drop i = a :: l.drop (i + 1) := by
  obtain ⟨hi, rfl⟩ := List.getElem?_eq_some.mp h
  exact List.drop_eq_getElem_cons hi

theorem take_of_getElem? {α : Type} {l : List α} {i : Nat} {a : α} (h : l[i]? = some a) :
    l.take (i + 1) = l.take i ++ [a] := by
  rw [List.take_succ, h]; rfl

theorem lt_length_of_getElem? {α : Type} {l : List α} {i : Nat} {a : α} (h : l[i]? = some a) :
    i < l.length := (List.getElem?_eq_some.mp h).1

theorem cand_ids_split (cs : List Candidate) (i : Nat) :
    cand_ids cs = cand_ids (cs.take i) ++ cand_ids (cs.drop i) := by
  unfold cand_ids
  rw [← List.map_append, List.take_append_drop]

theorem cand_ids_take_sub (cs : List Candidate) (i : Nat) {id : Nat}
    (h : id ∈ cand_ids (cs.take i)) : id ∈ cand_ids cs := by
  rw [cand_ids_split cs i]; exact List.mem_append_left _ h

theorem cand_ids_drop_sub (cs : List Candidate) (i : Nat) {id : Nat}
    (h : id ∈ cand_ids (cs.drop i)) : id ∈ cand_ids cs := by
  rw [cand_ids_split cs i]; exact List.mem_append_right _ h

theorem cand_ids_disjoint {cs : List Candidate} (hn : (cand_ids cs).Nodup) (i : Nat) {id : Nat}
    (h1 : id ∈ cand_ids (cs.take i)) (h2 : id ∈ cand_ids (cs.drop i)) : False := by
  rw [cand_ids_split cs i] at hn
  exact (List.nodup_append.mp hn).2.2 h1 h2

theorem mem_of_cand_ids {cs : List Candidate} {id : Nat} (h : id ∈ cand_ids cs) :
    ∃ c ∈ cs, c.id_ = id := by
  unfold cand_ids at h
  simpa using h

theorem cand_ids_mem {cs : List Candidate} {c : Candidate} (h : c ∈ cs) :
    c.id_ ∈ cand_ids cs := by
  unfold cand_ids
  exact List.mem_map.mpr ⟨c, h, rfl⟩

theorem rate_sum_setRec (A : KarmaAllocator) (ds : List Nat) (id : Nat) (t : Tenant)
    (hn : ds.Nodup) (hid : id ∈ ds) :
    rate_sum (A.setRec id t) ds = rate_sum A ds + (t.rate_ - (A.tenants_ id).rate_) := by
  unfold rate_sum
  induction ds with
  | nil => simp at hid
  | cons a l ih =>
    have hn' := List.nodup_cons.mp hn
    simp only [List.map_cons, List.sum_cons]
    by_cases ha : a = id
    · subst ha
      have : (l.map fun j => ((A.setRec a t).tenants_ j).rate_)
          = l.map fun j => (A.tenants_ j).rate_ := by
        apply List.map_congr_left
        intro j hj
        have : j ≠ a := fun e => hn'.1 (e ▸ hj)
        rw [setRec_tenants_ne A t this]
      rw [this, setRec_tenants_same]; ring
    · have hid' : id ∈ l := by
        rcases List.mem_cons.mp hid with h | h
        · exact absurd h.symm ha
        · exact h
      rw [ih hn'.2 hid', setRec_tenants_ne A t ha]; ring

theorem rate_sum_setRec_not_mem (A : KarmaAllocator) (ds : List Nat) (id : Nat) (t : Tenant)
    (hid : id ∉ ds) : rate_sum (A.setRec id t) ds = rate_sum A ds := by
  unfold rate_sum
  congr 1
  apply List.map_congr_left
  intro j hj
  have : j ≠ id := fun e => hid (e ▸ hj)
  rw [setRec_tenants_ne A t this]

/-! ## borrow_from_poor: the invariant is kept by the heap operations -/

theorem PoorCore.poor_mono {A0 : KarmaAllocator} {fs : Nat} {cs : List Candidate} {demand0 : Nat}
    {lo lo' : Int} {s : PoorLoop} (h : PoorCore A0 fs cs demand0 lo s) (hl : lo' ≤ lo) :
    PoorCore A0 fs cs demand0 lo' s :=
  { h with hval := fun x hx => ⟨le_trans hl (h.hval x hx).1, (h.hval x hx).2⟩ }

theorem PoorCore.poor_pop {A0 : KarmaAllocator} {fs : Nat} {cs : List Candidate} {demand0 : Nat}
    {lo : Int} {s : PoorLoop} (ctx : PoorCtx A0 fs cs demand0)
    (h : PoorCore A0 fs cs demand0 lo s) {k : Int} {id : Nat} {rest : List (Int × Nat)}
    (hi : s.poorest_donors.items = (k, id) :: rest) (r : Int) (d : Nat)
    (hr0 : 0 ≤ r) (hr1 : r ≤ surplus A0 fs id) (hd : d ≤ s.demand)
    (hacc : (d : Int) + r = s.demand + (surplus A0 fs id - (k + s.poorest_donors.offset))) :
    PoorCore A0 fs cs demand0 lo
      { s with A := s.A.setRec id { s.A.tenants_ id with rate_ := r },
               poorest_donors := { s.poorest_donors with items := rest },
               demand := d } := by
  have hidh : id ∈ hids s.poorest_donors := by simp [hids, hi]
  have hidc : id ∈ cand_ids cs := cand_ids_take_sub cs s.idx (h.hmem id hidh)
  have hnd : id ∉ rest.map (fun x => x.2) ∧ (rest.map fun x => x.2).Nodup := by
    have := h.hnodup
    simpa [hids, hi] using this
  have hrate0 : (s.A.tenants_ id).rate_ = 0 := h.rate_zero_h id hidh
  refine
    { same := Same.trans h.same (Same.setRec _ _ _)
      frame := ?_, others := ?_, idx_le := h.idx_le, sorted := ?_, hnodup := ?_, hmem := ?_,
      hval := ?_, rate_zero_h := ?_, rate_zero_d := ?_, rate_rng := ?_, account := ?_,
      dem_le := ?_, curr_bd := ?_ }
  · intro j
    by_cases hj : j = id
    · subst hj; simp only [setRec_tenants_same]; exact h.frame j
    · simp only [setRec_tenants_ne _ _ hj]; exact h.frame j
  · intro j hj
    have : j ≠ id := fun e => hj (e ▸ hidc)
    simp only [setRec_tenants_ne _ _ this]; exact h.others j hj
  · have := h.sorted; rw [hi] at this; exact (List.sorted_cons.mp this).2
  · exact hnd.2
  · intro j hj
    exact h.hmem j (by simp only [hids, hi, List.map_cons, List.mem_cons]; exact Or.inr hj)
  · intro x hx
    exact h.hval x (by rw [hi]; exact List.mem_cons_of_mem _ hx)
  · intro j hj
    have hne : j ≠ id := fun e => hnd.1 (e ▸ hj)
    simp only [setRec_tenants_ne _ _ hne]
    exact h.rate_zero_h j (by simp only [hids, hi, List.map_cons, List.mem_cons]; exact Or.inr hj)
  · intro j hj
    have hne : j ≠ id := fun e =>
      cand_ids_disjoint ctx.nodup s.idx (h.hmem id hidh) (e ▸ hj)
    simp only [setRec_tenants_ne _ _ hne]
    exact h.rate_zero_d j hj
  · intro j hj
    by_cases hje : j = id
    · subst hje; simp only [setRec_tenants_same]; exact ⟨hr0, hr1⟩
    · simp only [setRec_tenants_ne _ _ hje]; exact h.rate_rng j hj
  · have hacc0 := h.account
    simp only [hweight, hvals, hi, List.map_cons, List.sum_cons] at hacc0 ⊢
    rw [rate_sum_setRec _ _ _ _ ctx.nodup hidc, hrate0]
    simp only
    omega
  · have := h.dem_le; simp only; omega
  · have := h.curr_bd; simp only; omega

theorem PoorCore.poor_push {A0 : KarmaAllocator} {fs : Nat} {cs : List Candidate} {demand0 : Nat}
    {lo : Int} {s : PoorLoop} (ctx : PoorCtx A0 fs cs demand0)
    (h : PoorCore A0 fs cs demand0 lo s) {c : Candidate} (hc : cs[s.idx]? = some c)
    (hlo : lo ≤ 1) :
    PoorCore A0 fs cs demand0 lo
      { s with poorest_donors := s.poorest_donors.push c.id_ c.blocks_, idx := s.idx + 1 } := by
  have hcm : c ∈ cs := List.getElem?_mem hc
  have hdrop := drop_of_getElem? hc
  have htake := take_of_getElem? hc
  have hcd : c.id_ ∈ cand_ids (cs.drop s.idx) := by
    rw [hdrop]; simp [cand_ids]
  have hfresh : c.id_ ∉ hids s.poorest_donors := fun hm =>
    cand_ids_disjoint ctx.nodup s.idx (h.hmem _ hm) hcd
  have hperm := hids_push_perm s.poorest_donors c.id_ c.blocks_
  refine
    { same := h.same, frame := h.frame, others := h.others, idx_le := ?_, sorted := ?_,
      hnodup := ?_, hmem := ?_, hval := ?_, rate_zero_h := ?_, rate_zero_d := ?_,
      rate_rng := h.rate_rng, account := ?_, dem_le := h.dem_le, curr_bd := h.curr_bd }
  · have := lt_length_of_getElem? hc; simp only; omega
  · exact push_sorted _ _ _ h.sorted
  · exact hperm.nodup_iff.mpr (List.nodup_cons.mpr ⟨hfresh, h.hnodup⟩)
  · intro j hj
    simp only [htake, cand_ids, List.map_append, List.map_cons, List.map_nil, List.mem_append,
      List.mem_singleton]
    rcases List.mem_cons.mp (hperm.mem_iff.mp hj) with e | hm
    · exact Or.inr e
    · exact Or.inl (h.hmem j hm)
  · intro x hx
    simp only [push_offset]
    rcases (mem_push _ _ _ x).mp hx with e | hm
    · subst e
      have h1 := ctx.blocks c hcm
      have h2 := ctx.blocks_pos c hcm
      simp only
      omega
    · exact h.hval x hm
  · intro j hj
    rcases List.mem_cons.mp (hperm.mem_iff.mp hj) with e | hm
    · subst e; exact h.rate_zero_d _ hcd
    · exact h.rate_zero_h j hm
  · intro j hj
    apply h.rate_zero_d j
    rw [hdrop]
    simp only [cand_ids, List.map_cons, List.mem_cons]
    exact Or.inr hj
  · have hacc0 := h.account
    have h1 := ctx.blocks c hcm
    simp only [hweight_push, hvals_push]
    omega

theorem PoorEnough.enough_push {cs : List Candidate} {s : PoorLoop} (h : PoorEnough cs s)
    {c : Candidate} (hc : cs[s.idx]? = some c) :
    PoorEnough cs
      { s with poorest_donors := s.poorest_donors.push c.id_ c.blocks_, idx := s.idx + 1 } := by
  unfold PoorEnough at *
  rw [drop_of_getElem? hc] at h
  simp only [hvals_push, cand_blocks, List.map_cons, List.sum_cons] at h ⊢
  omega

theorem PoorCore.poor_step {A0 : KarmaAllocator} {fs : Nat} {cs : List Candidate} {demand0 : Nat}
    {lo lo' : Int} {s : PoorLoop}
    (h : PoorCore A0 fs cs demand0 lo s) (alpha : Int) (d : Nat) (ha : 0 ≤ alpha)
    (hlo : ∀ x ∈ s.poorest_donors.items, lo' ≤ x.1 + s.poorest_donors.offset - alpha)
    (hne : 1 ≤ s.poorest_donors.size)
    (hd : (d : Int) = s.demand - s.poorest_donors.size * alpha) :
    PoorCore A0 fs cs demand0 lo'
      { s with poorest_donors := s.poorest_donors.add_all (-alpha),
               curr_c := s.curr_c + alpha, demand := d } := by
  have hmul : alpha ≤ s.poorest_donors.size * alpha := by
    have : (1 : Int) ≤ (s.poorest_donors.size : Int) := by exact_mod_cast hne
    nlinarith
  refine
    { same := h.same, frame := h.frame, others := h.others, idx_le := h.idx_le,
      sorted := h.sorted, hnodup := h.hnodup, hmem := h.hmem, hval := ?_,
      rate_zero_h := h.rate_zero_h, rate_zero_d := h.rate_zero_d, rate_rng := h.rate_rng,
      account := ?_, dem_le := ?_, curr_bd := ?_ }
  · intro x hx
    have h1 := hlo x hx
    have h2 := (h.hval x hx).2
    simp only [BroadcastHeap.add_all]
    constructor <;> omega
  · have hacc0 := h.account
    have hw : hweight (fun id => (surplus A0 fs id : Int)) (s.poorest_donors.add_all (-alpha))
        = hweight (fun id => (surplus A0 fs id : Int)) s.poorest_donors := rfl
    simp only [hw, hvals_add_all]
    have : (s.poorest_donors.size : Int) * -alpha = -(s.poorest_donors.size * alpha) := by ring
    rw [this]
    omega
  · have := h.dem_le; simp only; omega
  · have := h.curr_bd; simp only; omega

theorem PoorEnough.enough_step {cs : List Candidate} {s : PoorLoop} (h : PoorEnough cs s)
    (alpha : Int) (d : Nat) (hd : (d : Int) = s.demand - s.poorest_donors.size * alpha) :
    PoorEnough cs
      { s with poorest_donors := s.poorest_donors.add_all (-alpha),
               curr_c := s.curr_c + alpha, demand := d } := by
  unfold PoorEnough at *
  simp only [hvals_add_all]
  have : (s.poorest_donors.size : Int) * -alpha = -(s.poorest_donors.size * alpha) := by ring
  rw [this]
  omega

/-! ## borrow_from_poor: the level invariant is kept by the heap operations -/

theorem lent_below {L : Int} {c : Candidate} (h0 : c.credits_ ≤ L)
    (h1 : L - c.credits_ ≤ c.blocks_) : lent L c = L - c.credits_ := by
  unfold lent
  rw [max_eq_right (by omega), min_eq_right h1]

theorem lent_full {L : Int} {c : Candidate} (h : (c.blocks_ : Int) ≤ L - c.credits_) :
    lent L c = c.blocks_ := by
  unfold lent
  have : (c.blocks_ : Int) ≤ max 0 (L - c.credits_) := le_trans h (le_max_right _ _)
  exact min_eq_left this

theorem lent_none {L : Int} {c : Candidate} (h : L ≤ c.credits_) : lent L c = 0 := by
  unfold lent
  rw [max_eq_left (by omega)]
  exact min_eq_right (Int.natCast_nonneg _)

theorem cand_eq_of_id {cs : List Candidate} (hn : (cand_ids cs).Nodup) {a b : Candidate}
    (ha : a ∈ cs) (hb : b ∈ cs) (h : a.id_ = b.id_) : a = b :=
  List.inj_on_of_nodup_map hn ha hb h

theorem PoorLevel.level_mono {cs : List Candidate} {s : PoorLoop} (h : PoorLevel cs 0 s) :
    PoorLevel cs 1 s :=
  { inheap := h.inheap
    out := fun c hc hn => ⟨(h.out c hc hn).1, by have := (h.out c hc hn).2; omega⟩
    done := fun h0 => absurd h0 (by decide)
    taken := h.taken }

theorem PoorLevel.level_pop {A0 : KarmaAllocator} {fs : Nat} {cs : List Candidate} {demand0 : Nat}
    {lo e : Int} {s : PoorLoop} (ctx : PoorCtx A0 fs cs demand0)
    (h : PoorCore A0 fs cs demand0 lo s) (hlo : 0 ≤ lo) (hl : PoorLevel cs e s)
    {k : Int} {id : Nat} {rest : List (Int × Nat)}
    (hi : s.poorest_donors.items = (k, id) :: rest) (r : Int) (d : Nat)
    (hr1 : (surplus A0 fs id : Int) - (k + s.poorest_donors.offset) ≤ r)
    (hr2 : r ≤ (surplus A0 fs id : Int) - (k + s.poorest_donors.offset) + e)
    (hz : e = 0 → k + s.poorest_donors.offset = 0) :
    PoorLevel cs e
      { s with A := s.A.setRec id { s.A.tenants_ id with rate_ := r },
               poorest_donors := { s.poorest_donors with items := rest },
               demand := d } := by
  have hsub : ∀ x, x ∈ rest → x ∈ s.poorest_donors.items := fun x hx => by
    rw [hi]; exact List.mem_cons_of_mem _ hx
  have hv := (h.hval (k, id) (by rw [hi]; exact List.mem_cons_self _ _)).1
  simp only at hv
  have hpopped : ∀ c ∈ cs, c.id_ = id →
      (k + s.poorest_donors.offset = c.blocks_ - (s.curr_c - c.credits_) ∧
        c.credits_ ≤ s.curr_c) ∧ (c.blocks_ : Int) = surplus A0 fs id := by
    intro c hc he
    refine ⟨hl.inheap c hc k (by rw [hi, he]; exact List.mem_cons_self _ _), ?_⟩
    rw [ctx.blocks c hc, he]
  have hother : ∀ c : Candidate, c.id_ ≠ id →
      c.id_ ∉ hids ({ s.poorest_donors with items := rest } : BroadcastHeap) →
      c.id_ ∉ hids s.poorest_donors := by
    intro c hne hn hm
    apply hn
    simp only [hids, hi, List.map_cons, List.mem_cons] at hm ⊢
    rcases hm with e1 | e1
    · exact absurd e1 hne
    · exact e1
  refine { inheap := ?_, out := ?_, done := ?_, taken := fun c hc => hl.taken c hc }
  · intro c hc k' hk'
    exact hl.inheap c hc k' (hsub _ hk')
  · intro c hc hn
    by_cases he : c.id_ = id
    · obtain ⟨⟨p1, p2⟩, p3⟩ := hpopped c hc he
      have hlen : lent s.curr_c c = s.curr_c - c.credits_ := lent_below p2 (by omega)
      simp only [he, setRec_tenants_same]
      rw [hlen]
      constructor <;> omega
    · have := hl.out c hc (hother c he hn)
      simp only
      rw [setRec_tenants_ne _ _ he]
      exact this
  · intro h0 c hc hn
    have hcm : c ∈ cs := List.mem_of_mem_take hc
    by_cases he : c.id_ = id
    · obtain ⟨⟨p1, p2⟩, p3⟩ := hpopped c hcm he
      have := hz h0
      simp only
      omega
    · exact hl.done h0 c hc (hother c he hn)

theorem PoorLevel.level_push {A0 : KarmaAllocator} {fs : Nat} {cs : List Candidate} {demand0 : Nat}
    {e : Int} {s : PoorLoop} (ctx : PoorCtx A0 fs cs demand0)
    (hl : PoorLevel cs e s) {c : Candidate}
    (hc : cs[s.idx]? = some c) (hcc : c.credits_ = s.curr_c) :
    PoorLevel cs e
      { s with poorest_donors := s.poorest_donors.push c.id_ c.blocks_, idx := s.idx + 1 } := by
  have hcm : c ∈ cs := List.getElem?_mem hc
  have htake := take_of_getElem? hc
  have hperm := hids_push_perm s.poorest_donors c.id_ c.blocks_
  have hold : ∀ j, j ∉ hids (s.poorest_donors.push c.id_ c.blocks_) →
      j ∉ hids s.poorest_donors ∧ j ≠ c.id_ := by
    intro j hj
    constructor
    · intro hm
      exact hj (hperm.mem_iff.mpr (List.mem_cons_of_mem _ hm))
    · intro e1
      exact hj (hperm.mem_iff.mpr (by rw [e1]; exact List.mem_cons_self _ _))
  refine { inheap := ?_, out := ?_, done := ?_, taken := ?_ }
  rotate_left 3
  · intro x hx
    simp only [htake, List.mem_append, List.mem_singleton] at hx
    rcases hx with hx | hx
    · exact hl.taken x hx
    · subst hx
      exact le_of_eq hcc
  · intro x hx k hk
    simp only [push_offset]
    rcases (mem_push _ _ _ _).mp hk with e1 | hm
    · have hid : x.id_ = c.id_ := congrArg Prod.snd e1
      have hk1 : k = c.blocks_ - s.poorest_donors.offset := congrArg Prod.fst e1
      have := cand_eq_of_id ctx.nodup hx hcm hid
      subst this
      constructor <;> omega
    · exact hl.inheap x hx k hm
  · intro x hx hn
    exact hl.out x hx (hold _ hn).1
  · intro h0 x hx hn
    simp only [htake, List.mem_append, List.mem_singleton] at hx
    rcases hx with hx | hx
    · exact hl.done h0 x hx (hold _ hn).1
    · subst hx
      exact absurd rfl (hold _ hn).2

theorem PoorLevel.raise {cs : List Candidate} {s : PoorLoop} (hl : PoorLevel cs 0 s)
    (a : Int) (d : Nat) (ha0 : 0 ≤ a) (ha1 : a ≤ s.next_c - s.curr_c)
    (hpend : ∀ c ∈ cs.drop s.idx, s.next_c ≤ c.credits_) :
    PoorLevel cs 0
      { s with poorest_donors := s.poorest_donors.add_all (-a),
               curr_c := s.curr_c + a, demand := d } := by
  refine { inheap := ?_, out := ?_, done := ?_, taken := ?_ }
  rotate_left 3
  · intro c hc
    have := hl.taken c hc
    simp only
    omega
  · intro c hc k hk
    have := hl.inheap c hc k hk
    simp only [BroadcastHeap.add_all]
    constructor <;> omega
  · intro c hc hn
    have ho := hl.out c hc hn
    have hsplit : c ∈ cs.take s.idx ∨ c ∈ cs.drop s.idx := by
      rw [← List.mem_append, List.take_append_drop]; exact hc
    have hsame : lent (s.curr_c + a) c = lent s.curr_c c := by
      rcases hsplit with ht | hd
      · have := hl.done rfl c ht hn
        rw [lent_full this, lent_full (by omega)]
      · have := hpend c hd
        rw [lent_none (by omega), lent_none (by omega)]
    simp only
    rw [hsame]
    exact ho
  · intro _ c hc hn
    have := hl.done rfl c hc hn
    simp only
    omega

theorem PoorLevel.advance {cs : List Candidate} {s : PoorLoop} (hl : PoorLevel cs 0 s)
    (hemp : s.poorest_donors.items = []) (hle : s.curr_c ≤ s.next_c)
    (hpend : ∀ c ∈ cs.drop s.idx, s.next_c ≤ c.credits_) :
    PoorLevel cs 0 { s with curr_c := s.next_c } := by
  refine { inheap := ?_, out := ?_, done := ?_, taken := ?_ }
  rotate_left 3
  · intro c hc
    have := hl.taken c hc
    simp only
    omega
  · intro c hc k hk
    rw [hemp] at hk
    exact absurd hk (List.not_mem_nil _)
  · intro c hc hn
    have ho := hl.out c hc hn
    have hsplit : c ∈ cs.take s.idx ∨ c ∈ cs.drop s.idx := by
      rw [← List.mem_append, List.take_append_drop]; exact hc
    have hsame : lent s.next_c c = lent s.curr_c c := by
      rcases hsplit with ht | hd
      · have := hl.done rfl c ht hn
        rw [lent_full this, lent_full (by omega)]
      · have := hpend c hd
        rw [lent_none (by omega), lent_none (by omega)]
    simp only
    rw [hsame]
    exact ho
  · intro _ c hc hn
    have := hl.done rfl c hc hn
    simp only
    omega

/-! ## The admission loop -/

theorem cursor_lt {cs : List Candidate} {sent c : Candidate} {i : Nat}
    (h : (cs ++ [sent])[i]? = some c) (hi : i < cs.length) : cs[i]? = some c := by
  rw [List.getElem?_append_left hi] at h; exact h

theorem cursor_end {cs : List Candidate} {sent c : Candidate}
    (h : (cs ++ [sent])[cs.length]? = some c) : c = sent := by
  rw [List.getElem?_append_right (le_refl _)] at h
  simpa using h.symm

theorem cursor_exists (cs : List Candidate) (sent : Candidate) {i : Nat} (hi : i ≤ cs.length) :
    ∃ c, (cs ++ [sent])[i]? = some c := by
  have : i < (cs ++ [sent]).length := by simp; omega
  exact ⟨_, List.getElem?_eq_getElem this⟩

theorem enter_total (cs : List Candidate) (sent : Candidate) (curr_c : Int)
    (P : BroadcastHeap × Nat → Prop)
    (hP : ∀ H idx c, P (H, idx) → cs[idx]? = some c → c.credits_ = curr_c →
      P (H.push c.id_ c.blocks_, idx + 1))
    (hsent : sent.credits_ ≠ curr_c) :
    ∀ (fuel : Nat) (H : BroadcastHeap) (idx : Nat), idx ≤ cs.length → P (H, idx) →
      cs.length + 1 - idx < fuel →
      ∃ r x, whileM (enter_cond (cs ++ [sent]) curr_c) (enter_body (cs ++ [sent])) fuel (H, idx)
          = .ok r ∧ P r ∧ r.2 ≤ cs.length ∧ idx ≤ r.2 ∧
        (cs ++ [sent])[r.2]? = some x ∧ x.credits_ ≠ curr_c ∧
        (r = (H, idx) ∨ r.1.items ≠ []) := by
  intro fuel H idx hidx h0 hfuel
  have key := whileM_total (enter_cond (cs ++ [sent]) curr_c) (enter_body (cs ++ [sent]))
    (fun r => P r ∧ r.2 ≤ cs.length ∧ idx ≤ r.2 ∧ (r = (H, idx) ∨ r.1.items ≠ []))
    (fun r => cs.length + 1 - r.2) ?_ ?_ fuel (H, idx) ⟨h0, hidx, le_refl _, Or.inl rfl⟩ hfuel
  · obtain ⟨r, hr, ⟨hPr, hle, hge, hne⟩, hc⟩ := key
    obtain ⟨x, hx⟩ := cursor_exists cs sent hle
    refine ⟨r, x, hr, hPr, hle, hge, hx, ?_, hne⟩
    simp only [enter_cond, hx, Except.ok.injEq, decide_eq_false_iff_not] at hc
    exact hc
  · intro r hr
    obtain ⟨x, hx⟩ := cursor_exists cs sent hr.2.1
    exact ⟨decide (x.credits_ = curr_c), by simp only [enter_cond, hx]⟩
  · intro r ⟨hPr, hle, hge, _⟩ hc
    obtain ⟨x, hx⟩ := cursor_exists cs sent hle
    simp only [enter_cond, hx, Except.ok.injEq, decide_eq_true_eq] at hc
    have hlt : r.2 < cs.length := by
      rcases Nat.lt_or_ge r.2 cs.length with h | h
      · exact h
      · have : r.2 = cs.length := Nat.le_antisymm hle h
        rw [this] at hx
        exact absurd (cursor_end hx ▸ hc) hsent
    have hx' := cursor_lt hx hlt
    refine ⟨(r.1.push x.id_ x.blocks_, r.2 + 1), by simp only [enter_body, hx], ?_, ?_⟩
    · refine ⟨hP r.1 r.2 x hPr hx' hc, by simp only; omega, by simp only; omega, Or.inr ?_⟩
      intro he
      have he' : (r.1.push x.id_ x.blocks_).items = [] := he
      have := push_size r.1 x.id_ x.blocks_
      simp only [BroadcastHeap.size, he', List.length_nil] at this
      omega
    · show cs.length + 1 - (r.2 + 1) < cs.length + 1 - r.2
      omega

/-! ## borrow_from_poor: the stages of one iteration -/

theorem hvals_nonneg {H : BroadcastHeap} (h : ∀ x ∈ H.items, 0 ≤ x.1 + H.offset) :
    0 ≤ hvals H := by
  unfold hvals
  apply List.sum_nonneg
  intro y hy
  obtain ⟨x, hx, rfl⟩ := List.mem_map.mp hy
  exact h x hx

theorem cand_blocks_nonneg (cs : List Candidate) : 0 ≤ cand_blocks cs := by
  unfold cand_blocks
  apply List.sum_nonneg
  intro y hy
  obtain ⟨x, _, rfl⟩ := List.mem_map.mp hy
  exact Int.natCast_nonneg _

theorem PoorCore.surplus_eq {A0 : KarmaAllocator} {fs : Nat} {cs : List Candidate}
    {demand0 : Nat} {lo : Int} {s : PoorLoop} (h : PoorCore A0 fs cs demand0 lo s) (id : Nat) :
    surplus s.A fs id = surplus A0 fs id := by
  unfold surplus
  rw [h.same.1, h.same.2.2.2.1, (h.frame id).1]

theorem PoorCore.fair {A0 : KarmaAllocator} {fs : Nat} {cs : List Candidate}
    {demand0 : Nat} {lo : Int} {s : PoorLoop} (ctx : PoorCtx A0 fs cs demand0)
    (h : PoorCore A0 fs cs demand0 lo s) : get_fair_share s.A = .ok fs := by
  rw [h.same.same_fair_share]; exact ctx.fair

theorem PoorCore.pop_donor {A0 : KarmaAllocator} {fs : Nat} {cs : List Candidate}
    {demand0 : Nat} {lo : Int} {s : PoorLoop} (ctx : PoorCtx A0 fs cs demand0)
    (h : PoorCore A0 fs cs demand0 lo s) {k : Int} {id : Nat} {rest : List (Int × Nat)}
    (hi : s.poorest_donors.items = (k, id) :: rest) (e : Nat → Int → Int) :
    pop_donor e (s.A, s.poorest_donors) = .ok
      (s.A.setRec id { s.A.tenants_ id with
          rate_ := i32 (e (surplus A0 fs id) (k + s.poorest_donors.offset)) },
        { s.poorest_donors with items := rest }) := by
  have hidh : id ∈ hids s.poorest_donors := by simp [hids, hi]
  have hidc : id ∈ cand_ids cs := cand_ids_take_sub cs s.idx (h.hmem id hidh)
  obtain ⟨c, hc, hce⟩ := mem_of_cand_ids hidc
  have hmem : id ∈ s.A.ids := by rw [h.same.2.2.2.2.2, ← hce]; exact ctx.mem c hc
  unfold Karma.pop_donor
  simp only [BroadcastHeap.pop, hi]
  rw [add_rate_of_mem _ (h.fair ctx) hmem, h.surplus_eq, h.rate_zero_h id hidh]
  simp

theorem surplus_lt {A0 : KarmaAllocator} {fs : Nat} {cs : List Candidate} {demand0 : Nat}
    (ctx : PoorCtx A0 fs cs demand0) {id : Nat} (h : id ∈ cand_ids cs) :
    surplus A0 fs id < 2147483648 := by
  obtain ⟨c, hc, hce⟩ := mem_of_cand_ids h
  rw [← hce, ← ctx.blocks c hc]; exact ctx.blocks_lt c hc

theorem poor_rest_total {A0 : KarmaAllocator} {fs : Nat} {cs : List Candidate} {demand0 : Nat}
    (ctx : PoorCtx A0 fs cs demand0) (idx : Nat) (cc nc : Int) :
    ∀ (fuel : Nat) (A : KarmaAllocator) (H : BroadcastHeap),
      PoorCore A0 fs cs demand0 0 ⟨A, H, idx, cc, nc, 0⟩ →
      PoorLevel cs 1 ⟨A, H, idx, cc, nc, 0⟩ → H.size < fuel →
      ∃ r, poor_rest fuel (A, H) = .ok r ∧
        PoorCore A0 fs cs demand0 0 ⟨r.1, r.2, idx, cc, nc, 0⟩ ∧ r.2.items = [] ∧
        PoorLevel cs 1 ⟨r.1, r.2, idx, cc, nc, 0⟩ := by
  intro fuel A H h0 hl0 hfuel
  have key := whileM_total (fun r : KarmaAllocator × BroadcastHeap => .ok (!r.2.empty))
    (pop_donor fun sur v => (sur : Int) - v)
    (fun r => PoorCore A0 fs cs demand0 0 ⟨r.1, r.2, idx, cc, nc, 0⟩ ∧
      PoorLevel cs 1 ⟨r.1, r.2, idx, cc, nc, 0⟩)
    (fun r => r.2.size) ?_ ?_ fuel (A, H) ⟨h0, hl0⟩ hfuel
  · obtain ⟨r, hr, ⟨hI, hL⟩, hc⟩ := key
    refine ⟨r, hr, hI, ?_, hL⟩
    simp only [Except.ok.injEq, Bool.not_eq_false_eq_eq_true, BroadcastHeap.empty,
      List.isEmpty_iff] at hc
    simpa using hc
  · intro r _; exact ⟨_, rfl⟩
  · intro r ⟨hI, hL⟩ hc
    simp only [Except.ok.injEq, Bool.not_eq_true_eq_eq_false, BroadcastHeap.empty] at hc
    cases hi : r.2.items with
    | nil => simp [hi] at hc
    | cons x rest =>
      obtain ⟨k, id⟩ := x
      have hpop := hI.pop_donor ctx (s := ⟨r.1, r.2, idx, cc, nc, 0⟩) hi
        (fun sur v => (sur : Int) - v)
      have hv := hI.hval (k, id) (by simp [hi])
      have hidc : id ∈ cand_ids cs :=
        cand_ids_take_sub cs idx (hI.hmem id (by simp [hids, hi]))
      have hlt := surplus_lt ctx hidc
      simp only at hv hpop
      rw [i32_eq _ (by omega) (by omega)] at hpop
      refine ⟨_, hpop, ⟨?_, ?_⟩, ?_⟩
      · exact hI.poor_pop ctx (s := ⟨r.1, r.2, idx, cc, nc, 0⟩) hi _ 0 (by omega) (by omega)
          (le_refl _) (by simp)
      · exact hL.level_pop ctx hI (le_refl _) (s := ⟨r.1, r.2, idx, cc, nc, 0⟩) hi _ 0
          (le_refl _) (by simp only; omega) (fun h => absurd h (by decide))
      · simp [BroadcastHeap.size, hi]

theorem min_is_zero_true {H : BroadcastHeap} (h : min_is_zero H = true) :
    ∃ k id rest, H.items = (k, id) :: rest ∧ k + H.offset = 0 := by
  unfold min_is_zero BroadcastHeap.min at h
  cases hi : H.items with
  | nil => simp [hi] at h
  | cons x rest =>
    obtain ⟨k, id⟩ := x
    simp only [hi, decide_eq_true_eq] at h
    exact ⟨k, id, rest, rfl, h⟩

theorem min_is_zero_false {H : BroadcastHeap} (h : min_is_zero H = false)
    (hs : H.items.Sorted heapLE) (h0 : ∀ x ∈ H.items, 0 ≤ x.1 + H.offset) :
    ∀ x ∈ H.items, 1 ≤ x.1 + H.offset := by
  unfold min_is_zero at h
  cases hm : H.min with
  | error e =>
    unfold BroadcastHeap.min at hm
    cases hi : H.items with
    | nil => intro x hx; simp at hx
    | cons y l => simp [hi] at hm
  | ok m =>
    simp only [hm, decide_eq_false_iff_not] at h
    have hle := min_le_of_sorted hs hm
    have hmem : ∃ y ∈ H.items, m = y.1 + H.offset := by
      unfold BroadcastHeap.min at hm
      cases hi : H.items with
      | nil => simp [hi] at hm
      | cons y l =>
        obtain ⟨k, id⟩ := y
        simp only [hi, Except.ok.injEq] at hm
        exact ⟨(k, id), by simp, hm.symm⟩
    obtain ⟨y, hy, hye⟩ := hmem
    have := h0 y hy
    intro x hx
    have := hle x hx
    omega

theorem poor_drain_total {A0 : KarmaAllocator} {fs : Nat} {cs : List Candidate} {demand0 : Nat}
    (ctx : PoorCtx A0 fs cs demand0) (fuel : Nat) (s : PoorLoop) (e : Int)
    (h : PoorCore A0 fs cs demand0 0 s) (he : PoorEnough cs s) (hl : PoorLevel cs e s)
    (he0 : 0 ≤ e) (hfuel : s.poorest_donors.size < fuel) :
    ∃ s', poor_drain fuel s = .ok s' ∧ PoorCore A0 fs cs demand0 1 s' ∧ PoorEnough cs s' ∧
      s'.idx = s.idx ∧ s'.curr_c = s.curr_c ∧ s'.next_c = s.next_c ∧ s'.demand = s.demand ∧
      PoorLevel cs e s' := by
  have key := whileM_total (fun r : KarmaAllocator × BroadcastHeap => .ok (min_is_zero r.2))
    (pop_donor fun sur _ => (sur : Int))
    (fun r => (PoorCore A0 fs cs demand0 0 ⟨r.1, r.2, s.idx, s.curr_c, s.next_c, s.demand⟩ ∧
      PoorEnough cs ⟨r.1, r.2, s.idx, s.curr_c, s.next_c, s.demand⟩) ∧
      PoorLevel cs e ⟨r.1, r.2, s.idx, s.curr_c, s.next_c, s.demand⟩)
    (fun r => r.2.size) ?_ ?_ fuel (s.A, s.poorest_donors) ⟨⟨h, he⟩, hl⟩ hfuel
  · obtain ⟨r, hr, ⟨⟨hI, hE⟩, hL⟩, hc⟩ := key
    simp only [Except.ok.injEq] at hc
    refine ⟨⟨r.1, r.2, s.idx, s.curr_c, s.next_c, s.demand⟩, ?_, ?_, hE, rfl, rfl, rfl, rfl,
      hL⟩
    · simp only [poor_drain, hr]
    · have h1 := min_is_zero_false hc hI.sorted (fun x hx => (hI.hval x hx).1)
      exact { hI with hval := fun x hx => ⟨h1 x hx, (hI.hval x hx).2⟩ }
  · intro r _; exact ⟨_, rfl⟩
  · intro r ⟨⟨hI, hE⟩, hL⟩ hc
    simp only [Except.ok.injEq] at hc
    obtain ⟨k, id, rest, hi, hk⟩ := min_is_zero_true hc
    have hpop := hI.pop_donor ctx (s := ⟨r.1, r.2, s.idx, s.curr_c, s.next_c, s.demand⟩) hi
      (fun sur _ => (sur : Int))
    have hidc : id ∈ cand_ids cs :=
      cand_ids_take_sub cs s.idx (hI.hmem id (by simp [hids, hi]))
    have hlt := surplus_lt ctx hidc
    simp only at hpop
    rw [i32_eq _ (by omega) (by omega)] at hpop
    refine ⟨_, hpop, ⟨⟨?_, ?_⟩, ?_⟩, ?_⟩
    · exact hI.poor_pop ctx (s := ⟨r.1, r.2, s.idx, s.curr_c, s.next_c, s.demand⟩) hi _ s.demand
        (by omega) (by omega) (le_refl _) (by simp only; omega)
    · unfold PoorEnough at hE ⊢
      simp only [hvals, hi, List.map_cons, List.sum_cons] at hE ⊢
      omega
    · exact hL.level_pop ctx hI (le_refl _) (s := ⟨r.1, r.2, s.idx, s.curr_c, s.next_c, s.demand⟩)
        hi _ s.demand (by simp only; omega) (by simp only; omega) (fun _ => hk)
    · simp [BroadcastHeap.size, hi]

theorem poor_fraction_total {A0 : KarmaAllocator} {fs : Nat} {cs : List Candidate}
    {demand0 : Nat} (ctx : PoorCtx A0 fs cs demand0) (fuel : Nat) (s : PoorLoop)
    (h : PoorCore A0 fs cs demand0 1 s) (hl : PoorLevel cs 1 s)
    (hlt : s.demand < s.poorest_donors.size) (hfuel : s.demand < fuel) :
    ∃ r, poor_fraction fuel s.demand (s.A, s.poorest_donors) = .ok r ∧
      PoorCore A0 fs cs demand0 1 ⟨r.1.1, r.1.2, s.idx, s.curr_c, s.next_c, 0⟩ ∧
      PoorLevel cs 1 ⟨r.1.1, r.1.2, s.idx, s.curr_c, s.next_c, 0⟩ := by
  have key := whileM_total
    (fun r : (KarmaAllocator × BroadcastHeap) × Nat => .ok (decide (r.2 < s.demand)))
    (fun r =>
      match pop_donor (fun sur v => (sur : Int) - v + 1) r.1 with
      | .error e => .error e
      | .ok q => .ok (q, r.2 + 1))
    (fun r => (PoorCore A0 fs cs demand0 1
        ⟨r.1.1, r.1.2, s.idx, s.curr_c, s.next_c, s.demand - r.2⟩ ∧
      PoorLevel cs 1 ⟨r.1.1, r.1.2, s.idx, s.curr_c, s.next_c, s.demand - r.2⟩) ∧
      r.2 ≤ s.demand ∧ r.1.2.size + r.2 = s.poorest_donors.size)
    (fun r => s.demand - r.2) ?_ ?_ fuel ((s.A, s.poorest_donors), 0)
    ⟨⟨h, hl⟩, Nat.zero_le _, rfl⟩ hfuel
  · obtain ⟨r, hr, ⟨⟨hI, hL⟩, hle, _⟩, hc⟩ := key
    simp only [Except.ok.injEq, decide_eq_false_iff_not] at hc
    have : s.demand - r.2 = 0 := by omega
    rw [this] at hI hL
    exact ⟨r, hr, hI, hL⟩
  · intro r _; exact ⟨_, rfl⟩
  · intro r ⟨⟨hI, hL⟩, hle, hsz⟩ hc
    simp only [Except.ok.injEq, decide_eq_true_eq] at hc
    cases hi : r.1.2.items with
    | nil =>
      simp only [BroadcastHeap.size, hi, List.length_nil] at hsz
      simp only [BroadcastHeap.size] at hlt
      omega
    | cons x rest =>
      obtain ⟨k, id⟩ := x
      have hpop := hI.pop_donor ctx
        (s := ⟨r.1.1, r.1.2, s.idx, s.curr_c, s.next_c, s.demand - r.2⟩) hi
        (fun sur v => (sur : Int) - v + 1)
      have hv := hI.hval (k, id) (by simp [hi])
      have hidc : id ∈ cand_ids cs :=
        cand_ids_take_sub cs s.idx (hI.hmem id (by simp [hids, hi]))
      have hlt := surplus_lt ctx hidc
      simp only at hv hpop
      rw [i32_eq _ (by omega) (by omega)] at hpop
      refine ⟨_, by simp only [hpop]; rfl, ⟨⟨?_, ?_⟩, ?_, ?_⟩, ?_⟩
      · have := hI.poor_pop ctx
          (s := ⟨r.1.1, r.1.2, s.idx, s.curr_c, s.next_c, s.demand - r.2⟩) hi
          ((surplus A0 fs id : Int) - (k + r.1.2.offset) + 1) (s.demand - (r.2 + 1))
          (by omega) (by omega) (by simp only; omega) (by simp only; omega)
        exact this
      · exact hL.level_pop ctx hI (by decide)
          (s := ⟨r.1.1, r.1.2, s.idx, s.curr_c, s.next_c, s.demand - r.2⟩) hi
          ((surplus A0 fs id : Int) - (k + r.1.2.offset) + 1) (s.demand - (r.2 + 1))
          (by simp only; omega) (by simp only; omega) (fun h => absurd h (by decide))
      · simp only; omega
      · simp only [BroadcastHeap.size, hi, List.length_cons] at hsz ⊢
        omega
      · simp only; omega

theorem PoorCore.poor_size_le {A0 : KarmaAllocator} {fs : Nat} {cs : List Candidate}
    {demand0 : Nat} {lo : Int} {s : PoorLoop} (h : PoorCore A0 fs cs demand0 lo s) :
    s.poorest_donors.size ≤ cs.length := by
  have hsub : hids s.poorest_donors ⊆ cand_ids cs :=
    fun id hid => cand_ids_take_sub cs s.idx (h.hmem id hid)
  have := (List.subperm_of_subset h.hnodup hsub).length_le
  simpa [hids, cand_ids, BroadcastHeap.size] using this

theorem pending_ge {cs : List Candidate}
    (hs : cs.Sorted (fun a b => a.credits_ ≤ b.credits_)) {sent x : Candidate} {idx : Nat}
    (hx : (cs ++ [sent])[idx]? = some x) : ∀ c ∈ cs.drop idx, x.credits_ ≤ c.credits_ := by
  intro c hc
  have hlt : idx < cs.length := by
    rcases Nat.lt_or_ge idx cs.length with hl | hl
    · exact hl
    · rw [List.drop_of_length_le hl] at hc
      exact absurd hc (List.not_mem_nil _)
  have hdrop := drop_of_getElem? (cursor_lt hx hlt)
  have hp : (cs.drop idx).Pairwise (fun a b => a.credits_ ≤ b.credits_) :=
    List.Pairwise.sublist (List.drop_sublist _ _) hs
  rw [hdrop] at hp hc
  rcases List.mem_cons.mp hc with e | hm
  · rw [e]
  · exact List.rel_of_pairwise_cons hp hm

theorem poor_advance_total {A0 : KarmaAllocator} {fs : Nat} {cs : List Candidate}
    {demand0 : Nat} (ctx : PoorCtx A0 fs cs demand0) (sent : Candidate) (s : PoorLoop)
    (h : PoorHead A0 fs cs demand0 sent s) (hl : PoorLevel cs 0 s) (hd : 0 < s.demand) :
    ∃ s1 c, poor_advance s = .ok s1 ∧ PoorCore A0 fs cs demand0 1 s1 ∧ PoorEnough cs s1 ∧
      s1.demand = s.demand ∧
      (cs ++ [sent])[s1.idx]? = some c ∧ s1.curr_c ≤ c.credits_ ∧
      (s1.poorest_donors.items = [] → c.credits_ = s1.curr_c) ∧ PoorLevel cs 0 s1 := by
  obtain ⟨c, hc, hcn⟩ := h.cursor
  have hpend : ∀ x ∈ cs.drop s.idx, s.next_c ≤ x.credits_ := by
    rw [← hcn]; exact pending_ge ctx.sorted hc
  unfold poor_advance
  cases hi : s.poorest_donors.items with
  | nil =>
    have hE := h.enough
    unfold PoorEnough at hE
    simp only [hvals, hi, List.map_nil, List.sum_nil, zero_add] at hE
    have hlt : s.idx < cs.length := by
      rcases Nat.lt_or_ge s.idx cs.length with hl | hl
      · exact hl
      · rw [List.drop_of_length_le hl] at hE
        simp only [cand_blocks, List.map_nil, List.sum_nil] at hE
        omega
    have hcm : c ∈ cs := List.getElem?_mem (cursor_lt hc hlt)
    have h1 := ctx.credits_lt c hcm
    have hnext : s.next_c < UINT32_MAX := by unfold UINT32_MAX; omega
    refine ⟨{ s with curr_c := s.next_c }, c, ?_, ?_, h.enough, rfl, hc, ?_, ?_,
      hl.advance hi h.curr_le hpend⟩
    · simp [BroadcastHeap.empty, hi, hnext]
    · have hdl := h.core.dem_le
      exact { h.core with curr_bd := by simp only; omega }
    · simp only; omega
    · intro _; exact hcn
  | cons x rest =>
    refine ⟨s, c, ?_, h.core, h.enough, rfl, hc, ?_, ?_, hl⟩
    · simp [BroadcastHeap.empty, hi]
    · have := h.curr_le; omega
    · intro he; rw [hi] at he; exact absurd he (List.cons_ne_nil _ _)

theorem sorted_cursor_mono {D : List Candidate}
    (hs : D.Sorted (fun a b => a.credits_ ≤ b.credits_)) {i j : Nat} {a b : Candidate}
    (hij : i ≤ j) (ha : D[i]? = some a) (hb : D[j]? = some b) : a.credits_ ≤ b.credits_ := by
  obtain ⟨hi, rfl⟩ := List.getElem?_eq_some.mp ha
  obtain ⟨hj, rfl⟩ := List.getElem?_eq_some.mp hb
  rcases Nat.lt_or_ge i j with hlt | hge
  · exact List.pairwise_iff_getElem.mp hs i j hi hj hlt
  · have : i = j := by omega
    subst this
    exact le_refl _

theorem PoorCtx.sorted_sent {A0 : KarmaAllocator} {fs : Nat} {cs : List Candidate}
    {demand0 : Nat} (ctx : PoorCtx A0 fs cs demand0) (id : Nat) :
    (cs ++ [(⟨id, UINT32_MAX, 0⟩ : Candidate)]).Sorted
      (fun a b => a.credits_ ≤ b.credits_) := by
  unfold List.Sorted
  rw [List.pairwise_append]
  refine ⟨ctx.sorted, List.pairwise_singleton _ _, ?_⟩
  intro a ha b hb
  simp only [List.mem_singleton] at hb
  subst hb
  have := ctx.credits_lt a ha
  show a.credits_ ≤ UINT32_MAX
  unfold UINT32_MAX
  omega

theorem poor_enter_total {A0 : KarmaAllocator} {fs : Nat} {cs : List Candidate}
    {demand0 : Nat} (ctx : PoorCtx A0 fs cs demand0) (dummy : Nat) (fuel : Nat) (s : PoorLoop)
    (h : PoorCore A0 fs cs demand0 1 s) (he : PoorEnough cs s) (hl : PoorLevel cs 0 s)
    {c : Candidate}
    (hc : (cs ++ [⟨dummy, UINT32_MAX, 0⟩])[s.idx]? = some c) (hcc : s.curr_c ≤ c.credits_)
    (hemp : s.poorest_donors.items = [] → c.credits_ = s.curr_c)
    (hfuel : cs.length + 1 < fuel) :
    ∃ s2, poor_enter fuel (cs ++ [⟨dummy, UINT32_MAX, 0⟩]) s = .ok s2 ∧
      PoorCore A0 fs cs demand0 1 s2 ∧ PoorEnough cs s2 ∧ s2.demand = s.demand ∧
      (∃ x, (cs ++ [⟨dummy, UINT32_MAX, 0⟩])[s2.idx]? = some x ∧ x.credits_ = s2.next_c) ∧
      s2.curr_c < s2.next_c ∧ s2.poorest_donors.items ≠ [] ∧ PoorLevel cs 0 s2 := by
  have hbd := h.curr_bd
  have hdl := ctx.demand_lt
  have hsent : (⟨dummy, UINT32_MAX, 0⟩ : Candidate).credits_ ≠ s.curr_c := by
    simp only [UINT32_MAX]; omega
  obtain ⟨r, x, hr, ⟨hI, hE, hL⟩, hle, hge, hx, hxc, hne⟩ :=
    enter_total cs ⟨dummy, UINT32_MAX, 0⟩ s.curr_c
      (fun r => PoorCore A0 fs cs demand0 1 ⟨s.A, r.1, r.2, s.curr_c, s.next_c, s.demand⟩ ∧
        PoorEnough cs ⟨s.A, r.1, r.2, s.curr_c, s.next_c, s.demand⟩ ∧
        PoorLevel cs 0 ⟨s.A, r.1, r.2, s.curr_c, s.next_c, s.demand⟩)
      (fun H idx c hP hc hcr =>
        ⟨hP.1.poor_push ctx (s := ⟨s.A, H, idx, s.curr_c, s.next_c, s.demand⟩) hc (le_refl _),
         hP.2.1.enough_push (s := ⟨s.A, H, idx, s.curr_c, s.next_c, s.demand⟩) hc,
         hP.2.2.level_push ctx (s := ⟨s.A, H, idx, s.curr_c, s.next_c, s.demand⟩) hc hcr⟩)
      hsent fuel s.poorest_donors s.idx h.idx_le ⟨h, he, hl⟩ (by omega)
  have hmono := sorted_cursor_mono (ctx.sorted_sent dummy) hge hc hx
  refine ⟨⟨s.A, r.1, r.2, s.curr_c, x.credits_, s.demand⟩, ?_, ?_, hE, rfl, ⟨x, hx, rfl⟩, ?_, ?_,
    ⟨hL.inheap, hL.out, hL.done, hL.taken⟩⟩
  · simp only [poor_enter, hr, hx]
  · exact { hI with }
  · simp only; omega
  · rcases hne with e | e
    · intro hn
      have h1 : r.1 = s.poorest_donors := congrArg Prod.fst e
      have h2 : r.2 = s.idx := congrArg Prod.snd e
      rw [h2, hc] at hx
      simp only [Option.some.injEq] at hx
      subst hx
      simp only [h1] at hn
      exact hxc (hemp hn)
    · exact e

theorem min_of_cons {H : BroadcastHeap} {k : Int} {id : Nat} {rest : List (Int × Nat)}
    (hi : H.items = (k, id) :: rest) : H.min = .ok (k + H.offset) := by
  simp [BroadcastHeap.min, hi]

theorem poor_serve_total {A0 : KarmaAllocator} {fs : Nat} {cs : List Candidate}
    {demand0 : Nat} (ctx : PoorCtx A0 fs cs demand0) (fuel : Nat) (s : PoorLoop)
    (h : PoorCore A0 fs cs demand0 1 s) (he : PoorEnough cs s) (hl : PoorLevel cs 0 s)
    (hpend : ∀ c ∈ cs.drop s.idx, s.next_c ≤ c.credits_)
    (hlt : s.curr_c < s.next_c) (hne : s.poorest_donors.items ≠ []) (hd : 0 < s.demand)
    (hfuel : s.demand < fuel) :
    ∃ s3, poor_serve fuel s = .ok s3 ∧ PoorCore A0 fs cs demand0 0 s3 ∧ PoorEnough cs s3 ∧
      s3.idx = s.idx ∧ s3.next_c = s.next_c ∧ s3.curr_c ≤ s3.next_c ∧ s3.demand < s.demand ∧
      PoorLevel cs 1 s3 ∧ (0 < s3.demand → PoorLevel cs 0 s3) := by
  by_cases hf : s.demand < s.poorest_donors.size
  · obtain ⟨r, hr, hI, hL⟩ := poor_fraction_total ctx fuel s h hl.level_mono hf hfuel
    refine ⟨⟨r.1.1, r.1.2, s.idx, s.curr_c, s.next_c, 0⟩, ?_, hI.poor_mono (by omega), ?_,
      rfl, rfl, le_of_lt hlt, hd, hL, fun h0 => absurd h0 (Nat.lt_irrefl 0)⟩
    · simp only [poor_serve, hf, if_true, hr]
    · unfold PoorEnough
      have h1 := hvals_nonneg (H := r.1.2) (fun x hx => by
        have : 1 ≤ x.1 + r.1.2.offset := (hI.hval x hx).1
        omega)
      have h2 := cand_blocks_nonneg (cs.drop s.idx)
      simp only
      omega
  · cases hi : s.poorest_donors.items with
    | nil => exact absurd hi hne
    | cons x rest =>
      obtain ⟨k, id⟩ := x
      have hm := min_of_cons hi
      have hv := h.hval (k, id) (by simp [hi])
      have hidc : id ∈ cand_ids cs :=
        cand_ids_take_sub cs s.idx (h.hmem id (by simp [hids, hi]))
      have hsl := surplus_lt ctx hidc
      have hsz : 1 ≤ s.poorest_donors.size := by simp [BroadcastHeap.size, hi]
      have hge : s.poorest_donors.size ≤ s.demand := Nat.le_of_not_lt hf
      have hq1 : 1 ≤ s.demand / s.poorest_donors.size := (Nat.one_le_div_iff hsz).mpr hge
      have hq2 : s.poorest_donors.size * (s.demand / s.poorest_donors.size) ≤ s.demand :=
        Nat.mul_div_le _ _
      have hq3 : s.demand / s.poorest_donors.size ≤ s.demand := Nat.div_le_self _ _
      have hdl := h.dem_le
      have hdl0 := ctx.demand_lt
      simp only at hv
      generalize hq : s.demand / s.poorest_donors.size = q at hq1 hq2 hq3
      have e1 : i64 (k + s.poorest_donors.offset) = k + s.poorest_donors.offset :=
        i64_eq _ (by omega) (by omega)
      have e2 : i64 (q : Int) = q := i64_eq _ (by omega) (by omega)
      have hx1 : (1 : Int) ≤ k + s.poorest_donors.offset := hv.1
      have hx2 : (1 : Int) ≤ (q : Int) := by exact_mod_cast hq1
      have hx3 : (1 : Int) ≤ s.next_c - s.curr_c := by omega
      generalize ha :
        min (k + s.poorest_donors.offset) (min (q : Int) (s.next_c - s.curr_c)) = a
      have ha1 : 1 ≤ a := ha ▸ le_min hx1 (le_min hx2 hx3)
      have ha2 : a ≤ k + s.poorest_donors.offset := ha ▸ min_le_left _ _
      have ha3 : a ≤ q := ha ▸ le_trans (min_le_right _ _) (min_le_left _ _)
      have ha4 : a ≤ s.next_c - s.curr_c :=
        ha ▸ le_trans (min_le_right _ _) (min_le_right _ _)
      have hserve : poor_serve fuel s
          = .ok { s with poorest_donors := s.poorest_donors.add_all (-(i32 a)),
                         curr_c := s.curr_c + i32 a,
                         demand := u64 ((s.demand : Int) - s.poorest_donors.size * i32 a) } := by
        simp only [poor_serve, hf, if_false, hm, e1, hq, e2, ha]
      clear ha
      have e3 : i32 a = a := i32_eq _ (by omega) (by omega)
      rw [e3] at hserve
      have hmul1 : (s.poorest_donors.size : Int) * a ≤ s.demand := by
        have : (s.poorest_donors.size : Int) * a ≤ s.poorest_donors.size * q :=
          mul_le_mul_of_nonneg_left ha3 (Int.natCast_nonneg _)
        have h2 : ((s.poorest_donors.size * q : Nat) : Int) ≤ s.demand := by exact_mod_cast hq2
        push_cast at h2
        omega
      have hmul2 : 1 ≤ (s.poorest_donors.size : Int) * a := by
        have : (1 : Int) ≤ s.poorest_donors.size := by exact_mod_cast hsz
        nlinarith
      have e4 : (u64 ((s.demand : Int) - s.poorest_donors.size * a) : Int)
          = s.demand - s.poorest_donors.size * a := u64_eq _ (by omega) (by omega)
      have hmin := min_le_of_sorted h.sorted hm
      have hraise := hl.raise a
        (u64 ((s.demand : Int) - s.poorest_donors.size * a)) (by omega) ha4 hpend
      refine ⟨_, hserve, ?_, ?_, ?_, ?_, ?_, ?_, hraise.level_mono, fun _ => hraise⟩
      · exact h.poor_step a _ (by omega) (fun y hy => by have := hmin y hy; omega) hsz e4
      · exact he.enough_step a _ e4
      · rfl
      · rfl
      · simp only; omega
      · simp only
        omega

/-! ## borrow_from_poor: the loop -/

theorem poor_body_total {A0 : KarmaAllocator} {fs : Nat} {cs : List Candidate}
    {demand0 : Nat} (ctx : PoorCtx A0 fs cs demand0) (dummy : Nat) (fuel : Nat) (s : PoorLoop)
    (h : PoorHead A0 fs cs demand0 ⟨dummy, UINT32_MAX, 0⟩ s) (hl : PoorLevel cs 0 s)
    (hd : 0 < s.demand) (hf1 : demand0 < fuel) (hf2 : cs.length + 1 < fuel) :
    ∃ s', poor_body fuel (cs ++ [⟨dummy, UINT32_MAX, 0⟩]) s = .ok s' ∧
      (PoorHead A0 fs cs demand0 ⟨dummy, UINT32_MAX, 0⟩ s' ∧ PoorLevel cs 1 s' ∧
        (0 < s'.demand → PoorLevel cs 0 s')) ∧ s'.demand < s.demand := by
  obtain ⟨s1, c, h1, hI1, hE1, hd1, hc1, hcc1, hemp1, hL1⟩ :=
    poor_advance_total ctx _ s h hl hd
  obtain ⟨s2, h2, hI2, hE2, hd2, hcur2, hlt2, hne2, hL2⟩ :=
    poor_enter_total ctx dummy fuel s1 hI1 hE1 hL1 hc1 hcc1 hemp1 hf2
  have hdl := h.core.dem_le
  have hpend2 : ∀ x ∈ cs.drop s2.idx, s2.next_c ≤ x.credits_ := by
    obtain ⟨x, hx, hxe⟩ := hcur2
    rw [← hxe]; exact pending_ge ctx.sorted hx
  obtain ⟨s3, h3, hI3, hE3, hi3, hn3, hcn3, hd3, hL3, hL3z⟩ :=
    poor_serve_total ctx fuel s2 hI2 hE2 hL2 hpend2 hlt2 hne2 (by omega) (by omega)
  obtain ⟨s4, h4, hI4, hE4, hi4, hc4, hn4, hd4, hL4⟩ :=
    poor_drain_total ctx fuel s3 1 hI3 hE3 hL3 (by decide) (by have := hI3.poor_size_le; omega)
  have hL4z : 0 < s4.demand → PoorLevel cs 0 s4 := by
    intro hpos
    obtain ⟨t4, g4, _, _, _, _, _, _, gL⟩ :=
      poor_drain_total ctx fuel s3 0 hI3 hE3 (hL3z (by omega)) (le_refl _)
        (by have := hI3.poor_size_le; omega)
    rw [h4] at g4
    cases g4
    exact gL
  refine ⟨s4, ?_, ⟨⟨hI4, hE4, ?_, ?_⟩, hL4, hL4z⟩, by omega⟩
  · simp only [poor_body, h1, h2, h3, h4]
  · obtain ⟨x, hx, hxe⟩ := hcur2
    exact ⟨x, by rw [hi4, hi3]; exact hx, by rw [hn4, hn3]; exact hxe⟩
  · rw [hc4, hn4]; exact hcn3

theorem rate_sum_zero (A : KarmaAllocator) (ds : List Nat)
    (h : ∀ id ∈ ds, (A.tenants_ id).rate_ = 0) : rate_sum A ds = 0 := by
  unfold rate_sum
  induction ds with
  | nil => rfl
  | cons a l ih =>
    simp only [List.map_cons, List.sum_cons]
    rw [h a (List.mem_cons_self _ _), ih (fun id hid => h id (List.mem_cons_of_mem _ hid))]
    rfl

theorem poor_loop_total {A0 : KarmaAllocator} {fs : Nat} {cs : List Candidate}
    {demand0 : Nat} (ctx : PoorCtx A0 fs cs demand0) (dummy : Nat) (fuel : Nat)
    (hf1 : demand0 < fuel) (hf2 : cs.length + 1 < fuel) :
    ∃ first B, (cs ++ [(⟨dummy, UINT32_MAX, 0⟩ : Candidate)])[0]? = some first ∧
      (match whileM (fun s => .ok (decide (s.demand > 0)))
          (poor_body fuel (cs ++ [⟨dummy, UINT32_MAX, 0⟩])) fuel
          ⟨A0, BroadcastHeap.init, 0, -1, first.credits_, demand0⟩ with
        | .error e => .error e
        | .ok s =>
          match poor_rest fuel (s.A, s.poorest_donors) with
          | .error e => .error e
          | .ok r => .ok r.1) = Except.ok B ∧
      Same A0 B ∧
      (∀ id, (B.tenants_ id).demand_ = (A0.tenants_ id).demand_ ∧
        (B.tenants_ id).allocation_ = (A0.tenants_ id).allocation_ ∧
        (B.tenants_ id).credits_ = (A0.tenants_ id).credits_) ∧
      (∀ id, id ∉ cand_ids cs → (B.tenants_ id).rate_ = (A0.tenants_ id).rate_) ∧
      (∀ id ∈ cand_ids cs,
        0 ≤ (B.tenants_ id).rate_ ∧ (B.tenants_ id).rate_ ≤ surplus A0 fs id) ∧
      rate_sum B (cand_ids cs) = demand0 ∧
      ∃ L : Int, ∀ c ∈ cs,
        (lent L c ≤ (B.tenants_ c.id_).rate_ ∧ (B.tenants_ c.id_).rate_ ≤ lent L c + 1) ∧
        ((B.tenants_ c.id_).rate_ ≠ 0 → c.credits_ ≤ L) := by
  obtain ⟨first, hfirst⟩ := cursor_exists cs ⟨dummy, UINT32_MAX, 0⟩ (Nat.zero_le cs.length)
  have hfc : 0 ≤ first.credits_ := by
    rcases Nat.eq_zero_or_pos cs.length with h0 | h0
    · rw [← h0] at hfirst
      have := cursor_end hfirst
      subst this
      simp [UINT32_MAX]
    · exact ctx.credits_ge first (List.getElem?_mem (cursor_lt hfirst h0))
  have hz : rate_sum A0 (cand_ids cs) = 0 :=
    rate_sum_zero A0 _ (fun id hid => by
      obtain ⟨c, hc, rfl⟩ := mem_of_cand_ids hid
      exact ctx.rate0 c hc)
  have hinit : PoorHead A0 fs cs demand0 ⟨dummy, UINT32_MAX, 0⟩
      ⟨A0, BroadcastHeap.init, 0, -1, first.credits_, demand0⟩ :=
    { core :=
        { same := Same.refl A0
          frame := fun id => ⟨rfl, rfl, rfl⟩
          others := fun id _ => rfl
          idx_le := Nat.zero_le _
          sorted := List.sorted_nil
          hnodup := List.nodup_nil
          hmem := fun id hid => by simp [hids, BroadcastHeap.init] at hid
          hval := fun x hx => by simp [BroadcastHeap.init] at hx
          rate_zero_h := fun id hid => by simp [hids, BroadcastHeap.init] at hid
          rate_zero_d := fun id hid => by
            obtain ⟨c, hc, rfl⟩ := mem_of_cand_ids (cand_ids_drop_sub cs 0 hid)
            exact ctx.rate0 c hc
          rate_rng := fun id hid => by
            obtain ⟨c, hc, rfl⟩ := mem_of_cand_ids hid
            rw [ctx.rate0 c hc]
            exact ⟨le_refl _, Int.natCast_nonneg _⟩
          account := by
            simp only [hz, hweight, hvals, BroadcastHeap.init, List.map_nil, List.sum_nil]
            omega
          dem_le := le_refl _
          curr_bd := by simp only; omega }
      enough := by
        unfold PoorEnough
        simp only [hvals, BroadcastHeap.init, List.map_nil, List.sum_nil, List.drop_zero]
        have := ctx.demand_le
        omega
      cursor := ⟨first, hfirst, rfl⟩
      curr_le := by simp only; omega }
  have hlevel : PoorLevel cs 0 ⟨A0, BroadcastHeap.init, 0, -1, first.credits_, demand0⟩ :=
    { inheap := fun c _ k hk => by simp [BroadcastHeap.init] at hk
      out := fun c hc _ => by
        have := ctx.credits_ge c hc
        simp only
        rw [lent_none (by omega), ctx.rate0 c hc]
        exact ⟨le_refl _, le_refl _⟩
      done := fun _ c hc => by simp at hc
      taken := fun c hc => by simp at hc }
  obtain ⟨s, hs, ⟨hH, hL, _⟩, hc⟩ :=
    whileM_total (fun s : PoorLoop => .ok (decide (s.demand > 0)))
    (poor_body fuel (cs ++ [⟨dummy, UINT32_MAX, 0⟩]))
    (fun s => PoorHead A0 fs cs demand0 ⟨dummy, UINT32_MAX, 0⟩ s ∧ PoorLevel cs 1 s ∧
      (0 < s.demand → PoorLevel cs 0 s)) (fun s => s.demand)
    (fun s _ => ⟨_, rfl⟩)
    (fun s hI hc => by
      simp only [gt_iff_lt, Except.ok.injEq, decide_eq_true_eq] at hc
      exact poor_body_total ctx dummy fuel s hI.1 (hI.2.2 hc) hc hf1 hf2)
    fuel _ ⟨hinit, hlevel.level_mono, fun _ => hlevel⟩ hf1
  simp only [gt_iff_lt, Except.ok.injEq, decide_eq_false_iff_not, Nat.not_lt,
    Nat.le_zero_eq] at hc
  have hcore : PoorCore A0 fs cs demand0 0
      ⟨s.A, s.poorest_donors, s.idx, s.curr_c, s.next_c, 0⟩ := by
    have : PoorCore A0 fs cs demand0 0 s := hH.core.poor_mono (by omega)
    rw [← hc]; exact this
  have hlev : PoorLevel cs 1 ⟨s.A, s.poorest_donors, s.idx, s.curr_c, s.next_c, 0⟩ :=
    ⟨hL.inheap, hL.out, hL.done, hL.taken⟩
  obtain ⟨r, hr, hR, hemp, hRL⟩ := poor_rest_total ctx s.idx s.curr_c s.next_c fuel s.A
    s.poorest_donors hcore hlev (by have := hcore.poor_size_le; simp only at this; omega)
  refine ⟨first, r.1, hfirst, ?_, hR.same, hR.frame, hR.others, hR.rate_rng, ?_,
    s.curr_c, fun c hc => ⟨hRL.out c hc (by simp [hids, hemp]), fun hne => ?_⟩⟩
  rotate_left 2
  · have hsplit : c ∈ cs.take s.idx ∨ c ∈ cs.drop s.idx := by
      rw [← List.mem_append, List.take_append_drop]; exact hc
    rcases hsplit with ht | hd
    · exact hRL.taken c ht
    · exact absurd (hR.rate_zero_d c.id_ (cand_ids_mem hd)) hne
  · simp only [hs, hr]
  · have := hR.account
    simp only [hweight, hvals, hemp, List.map_nil, List.sum_nil] at this
    omega

/-! ## donate_to_rich: the invariant is kept by the heap operations -/

theorem alloc_sum_setRec (A : KarmaAllocator) (ds : List Nat) (id : Nat) (t : Tenant)
    (hn : ds.Nodup) (hid : id ∈ ds) :
    alloc_sum (A.setRec id t) ds
      = alloc_sum A ds + ((t.allocation_ : Int) - (A.tenants_ id).allocation_) := by
  unfold alloc_sum
  induction ds with
  | nil => simp at hid
  | cons a l ih =>
    have hn' := List.nodup_cons.mp hn
    simp only [List.map_cons, List.sum_cons]
    by_cases ha : a = id
    · subst ha
      have : (l.map fun j => (((A.setRec a t).tenants_ j).allocation_ : Int))
          = l.map fun j => ((A.tenants_ j).allocation_ : Int) := by
        apply List.map_congr_left
        intro j hj
        have : j ≠ a := fun e => hn'.1 (e ▸ hj)
        rw [setRec_tenants_ne A t this]
      rw [this, setRec_tenants_same]; ring
    · have hid' : id ∈ l := by
        rcases List.mem_cons.mp hid with h | h
        · exact absurd h.symm ha
        · exact h
      rw [ih hn'.2 hid', setRec_tenants_ne A t ha]; ring

theorem RichCore.rich_mono {A0 : KarmaAllocator} {fs : Nat} {cs : List Candidate} {supply0 : Nat}
    {lo lo' : Int} {s : RichLoop} (h : RichCore A0 fs cs supply0 lo s) (hl : lo' ≤ lo) :
    RichCore A0 fs cs supply0 lo' s :=
  { h with hval := fun x hx => ⟨le_trans hl (h.hval x hx).1, (h.hval x hx).2⟩ }

theorem RichCore.rich_pop {A0 : KarmaAllocator} {fs : Nat} {cs : List Candidate} {supply0 : Nat}
    {lo : Int} {s : RichLoop} (ctx : RichCtx A0 fs cs supply0)
    (h : RichCore A0 fs cs supply0 lo s) {k : Int} {id : Nat} {rest : List (Int × Nat)}
    (hi : s.richest_borrowers.items = (k, id) :: rest) (g : Nat) (d : Nat)
    (hg : g ≤ request fs (A0.tenants_ id)) (hd : d ≤ s.supply)
    (hacc : (d : Int) + g ≤ s.supply
      + (request fs (A0.tenants_ id) - (k + s.richest_borrowers.offset))) :
    RichCore A0 fs cs supply0 lo
      { s with A := s.A.setRec id { s.A.tenants_ id with
                  allocation_ := (A0.tenants_ id).allocation_ + g, rate_ := -(g : Int) },
               richest_borrowers := { s.richest_borrowers with items := rest },
               supply := d } := by
  have hidh : id ∈ hids s.richest_borrowers := by simp [hids, hi]
  have hidc : id ∈ cand_ids cs := cand_ids_take_sub cs s.idx (h.hmem id hidh)
  have hnd : id ∉ rest.map (fun x => x.2) ∧ (rest.map fun x => x.2).Nodup := by
    have := h.hnodup
    simpa [hids, hi] using this
  have hfresh : s.A.tenants_ id = A0.tenants_ id := h.fresh_h id hidh
  refine
    { same := Same.trans h.same (Same.setRec _ _ _)
      frame := ?_, others := ?_, idx_le := h.idx_le, sorted := ?_, hnodup := ?_, hmem := ?_,
      hval := ?_, fresh_h := ?_, fresh_d := ?_, granted := ?_, account := ?_, sup_le := ?_ }
  · intro j
    by_cases hj : j = id
    · subst hj; simp only [setRec_tenants_same]; exact h.frame j
    · simp only [setRec_tenants_ne _ _ hj]; exact h.frame j
  · intro j hj
    have : j ≠ id := fun e => hj (e ▸ hidc)
    simp only [setRec_tenants_ne _ _ this]; exact h.others j hj
  · have := h.sorted; rw [hi] at this; exact (List.sorted_cons.mp this).2
  · exact hnd.2
  · intro j hj
    exact h.hmem j (by simp only [hids, hi, List.map_cons, List.mem_cons]; exact Or.inr hj)
  · intro x hx
    exact h.hval x (by rw [hi]; exact List.mem_cons_of_mem _ hx)
  · intro j hj
    have hne : j ≠ id := fun e => hnd.1 (e ▸ hj)
    simp only [setRec_tenants_ne _ _ hne]
    exact h.fresh_h j (by simp only [hids, hi, List.map_cons, List.mem_cons]; exact Or.inr hj)
  · intro j hj
    have hne : j ≠ id := fun e =>
      cand_ids_disjoint ctx.nodup s.idx (h.hmem id hidh) (e ▸ hj)
    simp only [setRec_tenants_ne _ _ hne]
    exact h.fresh_d j hj
  · intro j hj
    by_cases hje : j = id
    · subst hje
      simp only [setRec_tenants_same]
      refine ⟨by omega, by omega, ?_⟩
      push_cast; ring
    · simp only [setRec_tenants_ne _ _ hje]; exact h.granted j hj
  · have hacc0 := h.account
    simp only [hweight, hvals, hi, List.map_cons, List.sum_cons] at hacc0 ⊢
    rw [alloc_sum_setRec _ _ _ _ ctx.nodup hidc, hfresh]
    simp only
    push_cast
    omega
  · have := h.sup_le; simp only; omega

theorem RichCore.rich_push {A0 : KarmaAllocator} {fs : Nat} {cs : List Candidate} {supply0 : Nat}
    {lo : Int} {s : RichLoop} (ctx : RichCtx A0 fs cs supply0)
    (h : RichCore A0 fs cs supply0 lo s) {c : Candidate} (hc : cs[s.idx]? = some c)
    (hcc : c.credits_ = s.curr_c) (hlo : lo ≤ c.blocks_) :
    RichCore A0 fs cs supply0 lo
      { s with richest_borrowers := s.richest_borrowers.push c.id_ c.blocks_,
               idx := s.idx + 1 } := by
  have hcm : c ∈ cs := List.getElem?_mem hc
  have hdrop := drop_of_getElem? hc
  have htake := take_of_getElem? hc
  have hcd : c.id_ ∈ cand_ids (cs.drop s.idx) := by
    rw [hdrop]; simp [cand_ids]
  have hfresh : c.id_ ∉ hids s.richest_borrowers := fun hm =>
    cand_ids_disjoint ctx.nodup s.idx (h.hmem _ hm) hcd
  have hperm := hids_push_perm s.richest_borrowers c.id_ c.blocks_
  refine
    { same := h.same, frame := h.frame, others := h.others, idx_le := ?_, sorted := ?_,
      hnodup := ?_, hmem := ?_, hval := ?_, fresh_h := ?_, fresh_d := ?_,
      granted := h.granted, account := ?_, sup_le := h.sup_le }
  · have := lt_length_of_getElem? hc; simp only; omega
  · exact push_sorted _ _ _ h.sorted
  · exact hperm.nodup_iff.mpr (List.nodup_cons.mpr ⟨hfresh, h.hnodup⟩)
  · intro j hj
    simp only [htake, cand_ids, List.map_append, List.map_cons, List.map_nil, List.mem_append,
      List.mem_singleton]
    rcases List.mem_cons.mp (hperm.mem_iff.mp hj) with e | hm
    · exact Or.inr e
    · exact Or.inl (h.hmem j hm)
  · intro x hx
    simp only [push_offset]
    rcases (mem_push _ _ _ x).mp hx with e | hm
    · subst e
      have h1 := ctx.blocks c hcm
      have h2 := ctx.credits c hcm
      have h3 : request fs (A0.tenants_ c.id_) ≤ (A0.tenants_ c.id_).credits_ := by
        unfold request; exact Nat.min_le_left _ _
      simp only
      omega
    · exact h.hval x hm
  · intro j hj
    rcases List.mem_cons.mp (hperm.mem_iff.mp hj) with e | hm
    · subst e; exact h.fresh_d _ hcd
    · exact h.fresh_h j hm
  · intro j hj
    apply h.fresh_d j
    rw [hdrop]
    simp only [cand_ids, List.map_cons, List.mem_cons]
    exact Or.inr hj
  · have hacc0 := h.account
    have h1 := ctx.blocks c hcm
    simp only [hweight_push, hvals_push]
    omega

theorem RichEnough.rich_enough_push {cs : List Candidate} {s : RichLoop} (h : RichEnough cs s)
    {c : Candidate} (hc : cs[s.idx]? = some c) :
    RichEnough cs
      { s with richest_borrowers := s.richest_borrowers.push c.id_ c.blocks_,
               idx := s.idx + 1 } := by
  unfold RichEnough at *
  rw [drop_of_getElem? hc] at h
  simp only [hvals_push, cand_blocks, List.map_cons, List.sum_cons] at h ⊢
  omega

theorem RichCore.rich_step {A0 : KarmaAllocator} {fs : Nat} {cs : List Candidate} {supply0 : Nat}
    {lo : Int} {s : RichLoop}
    (h : RichCore A0 fs cs supply0 lo s) (alpha : Int) (d : Nat) (ha : 0 ≤ alpha)
    (hlo : ∀ x ∈ s.richest_borrowers.items, 0 ≤ x.1 + s.richest_borrowers.offset - alpha)
    (hd : (d : Int) = s.supply - s.richest_borrowers.size * alpha) :
    RichCore A0 fs cs supply0 0
      { s with richest_borrowers := s.richest_borrowers.add_all (-alpha),
               curr_c := s.curr_c - alpha, supply := d } := by
  have hmul : 0 ≤ s.richest_borrowers.size * alpha :=
    mul_nonneg (Int.natCast_nonneg _) ha
  refine
    { same := h.same, frame := h.frame, others := h.others, idx_le := h.idx_le,
      sorted := h.sorted, hnodup := h.hnodup, hmem := h.hmem, hval := ?_,
      fresh_h := h.fresh_h, fresh_d := h.fresh_d, granted := h.granted,
      account := ?_, sup_le := ?_ }
  · intro x hx
    have h1 := hlo x hx
    have h2 := (h.hval x hx).2
    simp only [BroadcastHeap.add_all]
    refine ⟨by omega, by omega, by omega⟩
  · have hacc0 := h.account
    have hw : hweight (fun id => (request fs (A0.tenants_ id) : Int))
        (s.richest_borrowers.add_all (-alpha))
        = hweight (fun id => (request fs (A0.tenants_ id) : Int)) s.richest_borrowers := rfl
    simp only [hw, hvals_add_all]
    have : (s.richest_borrowers.size : Int) * -alpha
        = -(s.richest_borrowers.size * alpha) := by ring
    rw [this]
    omega
  · have := h.sup_le; simp only; omega

theorem RichEnough.rich_enough_step {cs : List Candidate} {s : RichLoop} (h : RichEnough cs s)
    (alpha : Int) (d : Nat) (hd : (d : Int) = s.supply - s.richest_borrowers.size * alpha)
    (hmul : 0 ≤ s.richest_borrowers.size * alpha) :
    RichEnough cs
      { s with richest_borrowers := s.richest_borrowers.add_all (-alpha),
               curr_c := s.curr_c - alpha, supply := d } := by
  unfold RichEnough at *
  simp only [hvals_add_all]
  have : (s.richest_borrowers.size : Int) * -alpha
      = -(s.richest_borrowers.size * alpha) := by ring
  rw [this]
  omega

theorem RichCore.less {A0 : KarmaAllocator} {fs : Nat} {cs : List Candidate} {supply0 : Nat}
    {lo : Int} {s : RichLoop} (h : RichCore A0 fs cs supply0 lo s) (d : Nat)
    (hd : d ≤ s.supply) : RichCore A0 fs cs supply0 lo { s with supply := d } :=
  { h with
    account := by have := h.account; simp only; omega
    sup_le := by have := h.sup_le; simp only; omega }

/-! ## donate_to_rich: the level invariant is kept by the heap operations -/

theorem taken_ge {cs : List Candidate}
    (hs : cs.Sorted (fun a b => a.credits_ ≥ b.credits_)) {x : Candidate} {idx : Nat}
    (hx : cs[idx]? = some x) : ∀ c ∈ cs.take idx, x.credits_ ≤ c.credits_ := by
  intro c hc
  have hsplit : (cs.take idx ++ cs.drop idx).Pairwise (fun a b => a.credits_ ≥ b.credits_) := by
    rw [List.take_append_drop]; exact hs
  have hxd : x ∈ cs.drop idx := by
    rw [drop_of_getElem? hx]; exact List.mem_cons_self _ _
  exact (List.pairwise_append.mp hsplit).2.2 c hc x hxd

theorem RichLevel.served_mono {A0 : KarmaAllocator} {cs : List Candidate} {s : RichLoop}
    (h : RichLevel A0 cs 0 s) : RichLevel A0 cs 1 s :=
  { inheap := h.inheap
    taken := h.taken
    out := fun c hc hn => (h.out c hc hn).elim Or.inl (fun h1 => absurd h1.1 (by decide)) }

theorem RichLevel.served_pop {A0 : KarmaAllocator} {fs : Nat} {cs : List Candidate}
    {supply0 : Nat} {e : Int} {s : RichLoop} (ctx : RichCtx A0 fs cs supply0)
    (hl : RichLevel A0 cs e s)
    {k : Int} {id : Nat} {rest : List (Int × Nat)}
    (hi : s.richest_borrowers.items = (k, id) :: rest) (g d : Nat)
    (hg : (g : Int) = request fs (A0.tenants_ id) ∨
      (e = 1 ∧ (request fs (A0.tenants_ id) : Int) - (k + s.richest_borrowers.offset) ≤ g)) :
    RichLevel A0 cs e
      { s with A := s.A.setRec id { s.A.tenants_ id with
                  allocation_ := (A0.tenants_ id).allocation_ + g, rate_ := -(g : Int) },
               richest_borrowers := { s.richest_borrowers with items := rest },
               supply := d } := by
  have hsub : ∀ x, x ∈ rest → x ∈ s.richest_borrowers.items := fun x hx => by
    rw [hi]; exact List.mem_cons_of_mem _ hx
  have hother : ∀ c : Candidate, c.id_ ≠ id →
      c.id_ ∉ hids ({ s.richest_borrowers with items := rest } : BroadcastHeap) →
      c.id_ ∉ hids s.richest_borrowers := by
    intro c hne hn hm
    apply hn
    simp only [hids, hi, List.map_cons, List.mem_cons] at hm ⊢
    rcases hm with e1 | e1
    · exact absurd e1 hne
    · exact e1
  refine { inheap := ?_, taken := fun c hc => hl.taken c hc, out := ?_ }
  · intro c hc k' hk'
    exact hl.inheap c hc k' (hsub _ hk')
  · intro c hc hn
    have hcm : c ∈ cs := List.mem_of_mem_take hc
    by_cases he : c.id_ = id
    · have hin := hl.inheap c hcm k (by rw [hi, he]; exact List.mem_cons_self _ _)
      have hb : (c.blocks_ : Int) = request fs (A0.tenants_ id) := by
        rw [ctx.blocks c hcm, he]
      simp only [he, setRec_tenants_same]
      push_cast
      rcases hg with h1 | ⟨h1, h2⟩
      · left; omega
      · right; exact ⟨h1, by omega⟩
    · have := hl.out c hc (hother c he hn)
      simp only
      rw [setRec_tenants_ne _ _ he]
      exact this

theorem RichLevel.served_push {A0 : KarmaAllocator} {fs : Nat} {cs : List Candidate}
    {supply0 : Nat} {e : Int} {s : RichLoop} (ctx : RichCtx A0 fs cs supply0)
    (hl : RichLevel A0 cs e s) {c : Candidate}
    (hc : cs[s.idx]? = some c) (hcc : c.credits_ = s.curr_c) :
    RichLevel A0 cs e
      { s with richest_borrowers := s.richest_borrowers.push c.id_ c.blocks_,
               idx := s.idx + 1 } := by
  have hcm : c ∈ cs := List.getElem?_mem hc
  have htake := take_of_getElem? hc
  have hperm := hids_push_perm s.richest_borrowers c.id_ c.blocks_
  have hold : ∀ j, j ∉ hids (s.richest_borrowers.push c.id_ c.blocks_) →
      j ∉ hids s.richest_borrowers ∧ j ≠ c.id_ := by
    intro j hj
    constructor
    · intro hm
      exact hj (hperm.mem_iff.mpr (List.mem_cons_of_mem _ hm))
    · intro e1
      exact hj (hperm.mem_iff.mpr (by rw [e1]; exact List.mem_cons_self _ _))
  refine { inheap := ?_, taken := ?_, out := ?_ }
  · intro x hx k hk
    simp only [push_offset]
    rcases (mem_push _ _ _ _).mp hk with e1 | hm
    · have hid : x.id_ = c.id_ := congrArg Prod.snd e1
      have hk1 : k = c.blocks_ - s.richest_borrowers.offset := congrArg Prod.fst e1
      have := cand_eq_of_id ctx.nodup hx hcm hid
      subst this
      omega
    · exact hl.inheap x hx k hm
  · intro x hx
    simp only [htake, List.mem_append, List.mem_singleton] at hx
    rcases hx with hx | hx
    · exact hl.taken x hx
    · subst hx
      exact le_of_eq hcc.symm
  · intro x hx hn
    simp only [htake, List.mem_append, List.mem_singleton] at hx
    rcases hx with hx | hx
    · exact hl.out x hx (hold _ hn).1
    · subst hx
      exact absurd rfl (hold _ hn).2

theorem RichLevel.served_step {A0 : KarmaAllocator} {cs : List Candidate} {s : RichLoop}
    (hl : RichLevel A0 cs 0 s) (a : Int) (d : Nat) (ha0 : 0 ≤ a) :
    RichLevel A0 cs 0
      { s with richest_borrowers := s.richest_borrowers.add_all (-a),
               curr_c := s.curr_c - a, supply := d } := by
  refine { inheap := ?_, taken := ?_, out := ?_ }
  · intro c hc k hk
    have := hl.inheap c hc k hk
    simp only [BroadcastHeap.add_all]
    omega
  · intro c hc
    have := hl.taken c hc
    simp only
    omega
  · intro c hc hn
    exact (hl.out c hc hn).elim Or.inl (fun h1 => absurd h1.1 (by decide))

theorem RichLevel.served_advance {A0 : KarmaAllocator} {cs : List Candidate} {s : RichLoop}
    (hl : RichLevel A0 cs 0 s) (hemp : s.richest_borrowers.items = [])
    (htk : ∀ c ∈ cs.take s.idx, s.next_c ≤ c.credits_) :
    RichLevel A0 cs 0 { s with curr_c := s.next_c } := by
  refine { inheap := ?_, taken := htk, out := ?_ }
  · intro c hc k hk
    rw [hemp] at hk
    exact absurd hk (List.not_mem_nil _)
  · intro c hc hn
    exact (hl.out c hc hn).elim Or.inl (fun h1 => absurd h1.1 (by decide))

/-! ## donate_to_rich: the stages of one iteration -/

theorem request_le_credits (fs : Nat) (t : Tenant) : request fs t ≤ t.credits_ := by
  unfold request; exact Nat.min_le_left _ _

theorem RichCore.pop_borrower {A0 : KarmaAllocator} {fs : Nat} {cs : List Candidate}
    {supply0 : Nat} {lo : Int} {s : RichLoop} (ctx : RichCtx A0 fs cs supply0)
    (h : RichCore A0 fs cs supply0 lo s) {k : Int} {id : Nat} {rest : List (Int × Nat)}
    (hi : s.richest_borrowers.items = (k, id) :: rest) (d : Tenant → Int → Int) (g : Nat)
    (hd : d (A0.tenants_ id) (k + s.richest_borrowers.offset) = g)
    (hg : g ≤ request fs (A0.tenants_ id)) :
    pop_borrower d (s.A, s.richest_borrowers) = .ok
      (s.A.setRec id { s.A.tenants_ id with
          allocation_ := (A0.tenants_ id).allocation_ + g, rate_ := -(g : Int) },
        { s.richest_borrowers with items := rest }) := by
  have hidh : id ∈ hids s.richest_borrowers := by simp [hids, hi]
  have hidc : id ∈ cand_ids cs := cand_ids_take_sub cs s.idx (h.hmem id hidh)
  obtain ⟨c, hc, hce⟩ := mem_of_cand_ids hidc
  have hmem : id ∈ s.A.ids := by rw [h.same.2.2.2.2.2, ← hce]; exact ctx.mem c hc
  have hfresh := h.fresh_h id hidh
  have h1 := ctx.credits_lt c hc
  have h2 := ctx.alloc_lt c hc
  have h3 := ctx.rate0 c hc
  have h4 := request_le_credits fs (A0.tenants_ id)
  rw [hce] at h1 h2 h3
  unfold Karma.pop_borrower
  simp only [BroadcastHeap.pop, hi]
  rw [grant_of_mem _ hmem, hfresh, hd, h3]
  have e1 : u32 (((A0.tenants_ id).allocation_ : Int) + g) = (A0.tenants_ id).allocation_ + g := by
    have := u32_nat ((A0.tenants_ id).allocation_ + g) (by omega)
    push_cast at this
    exact this
  have e2 : i32 (0 - (g : Int)) = -(g : Int) := by
    rw [i32_eq _ (by omega) (by omega)]; ring
  rw [e1, e2]

theorem rich_rest_total {A0 : KarmaAllocator} {fs : Nat} {cs : List Candidate} {supply0 : Nat}
    (ctx : RichCtx A0 fs cs supply0) (idx : Nat) (cc nc : Int) :
    ∀ (fuel : Nat) (A : KarmaAllocator) (H : BroadcastHeap),
      RichCore A0 fs cs supply0 0 ⟨A, H, idx, cc, nc, 0⟩ →
      RichLevel A0 cs 1 ⟨A, H, idx, cc, nc, 0⟩ → H.size < fuel →
      ∃ r, rich_rest fuel fs (A, H) = .ok r ∧
        RichCore A0 fs cs supply0 0 ⟨r.1, r.2, idx, cc, nc, 0⟩ ∧ r.2.items = [] ∧
        RichLevel A0 cs 1 ⟨r.1, r.2, idx, cc, nc, 0⟩ := by
  intro fuel A H h0 hl0 hfuel
  have key := whileM_total (fun r : KarmaAllocator × BroadcastHeap => .ok (!r.2.empty))
    (pop_borrower fun t v => i32 ((request fs t : Int) - v))
    (fun r => RichCore A0 fs cs supply0 0 ⟨r.1, r.2, idx, cc, nc, 0⟩ ∧
      RichLevel A0 cs 1 ⟨r.1, r.2, idx, cc, nc, 0⟩)
    (fun r => r.2.size) ?_ ?_ fuel (A, H) ⟨h0, hl0⟩ hfuel
  · obtain ⟨r, hr, ⟨hI, hL⟩, hc⟩ := key
    refine ⟨r, hr, hI, ?_, hL⟩
    simp only [Except.ok.injEq, Bool.not_eq_false_eq_eq_true, BroadcastHeap.empty,
      List.isEmpty_iff] at hc
    simpa using hc
  · intro r _; exact ⟨_, rfl⟩
  · intro r ⟨hI, hL⟩ hc
    simp only [Except.ok.injEq, Bool.not_eq_true_eq_eq_false, BroadcastHeap.empty] at hc
    cases hi : r.2.items with
    | nil => simp [hi] at hc
    | cons x rest =>
      obtain ⟨k, id⟩ := x
      have hv := hI.hval (k, id) (by simp [hi])
      have hidc : id ∈ cand_ids cs :=
        cand_ids_take_sub cs idx (hI.hmem id (by simp [hids, hi]))
      obtain ⟨c, hc, hce⟩ := mem_of_cand_ids hidc
      have h1 := ctx.credits_lt c hc
      have h4 := request_le_credits fs (A0.tenants_ id)
      rw [hce] at h1
      simp only at hv
      have hg : i32 ((request fs (A0.tenants_ id) : Int) - (k + r.2.offset))
          = (((request fs (A0.tenants_ id) : Int) - (k + r.2.offset)).toNat : Int) := by
        rw [i32_eq _ (by omega) (by omega)]; omega
      have hpop := hI.pop_borrower ctx (s := ⟨r.1, r.2, idx, cc, nc, 0⟩) hi
        (fun t v => i32 ((request fs t : Int) - v)) _ hg (by omega)
      refine ⟨_, hpop, ⟨?_, ?_⟩, ?_⟩
      · exact hI.rich_pop ctx (s := ⟨r.1, r.2, idx, cc, nc, 0⟩) hi _ 0 (by omega)
          (le_refl _) (by simp only; omega)
      · exact hL.served_pop ctx (s := ⟨r.1, r.2, idx, cc, nc, 0⟩) hi _ 0
          (Or.inr ⟨rfl, by simp only; omega⟩)
      · simp [BroadcastHeap.size, hi]

theorem rich_drain_total {A0 : KarmaAllocator} {fs : Nat} {cs : List Candidate} {supply0 : Nat}
    (ctx : RichCtx A0 fs cs supply0) (fuel : Nat) (s : RichLoop)
    (e : Int) (h : RichCore A0 fs cs supply0 0 s) (he : RichEnough cs s)
    (hl : RichLevel A0 cs e s) (hfuel : s.richest_borrowers.size < fuel) :
    ∃ s', rich_drain fuel fs s = .ok s' ∧ RichCore A0 fs cs supply0 1 s' ∧ RichEnough cs s' ∧
      s'.idx = s.idx ∧ s'.curr_c = s.curr_c ∧ s'.next_c = s.next_c ∧ s'.supply = s.supply ∧
      RichLevel A0 cs e s' := by
  have key := whileM_total (fun r : KarmaAllocator × BroadcastHeap => .ok (min_is_zero r.2))
    (pop_borrower fun t _ => (request fs t : Int))
    (fun r => (RichCore A0 fs cs supply0 0 ⟨r.1, r.2, s.idx, s.curr_c, s.next_c, s.supply⟩ ∧
      RichEnough cs ⟨r.1, r.2, s.idx, s.curr_c, s.next_c, s.supply⟩) ∧
      RichLevel A0 cs e ⟨r.1, r.2, s.idx, s.curr_c, s.next_c, s.supply⟩)
    (fun r => r.2.size) ?_ ?_ fuel (s.A, s.richest_borrowers) ⟨⟨h, he⟩, hl⟩ hfuel
  · obtain ⟨r, hr, ⟨⟨hI, hE⟩, hL⟩, hc⟩ := key
    simp only [Except.ok.injEq] at hc
    refine ⟨⟨r.1, r.2, s.idx, s.curr_c, s.next_c, s.supply⟩, ?_, ?_, hE, rfl, rfl, rfl, rfl,
      hL⟩
    · simp only [rich_drain, hr]
    · have h1 := min_is_zero_false hc hI.sorted (fun x hx => (hI.hval x hx).1)
      exact { hI with hval := fun x hx => ⟨h1 x hx, (hI.hval x hx).2⟩ }
  · intro r _; exact ⟨_, rfl⟩
  · intro r ⟨⟨hI, hE⟩, hL⟩ hc
    simp only [Except.ok.injEq] at hc
    obtain ⟨k, id, rest, hi, hk⟩ := min_is_zero_true hc
    have hpop := hI.pop_borrower ctx (s := ⟨r.1, r.2, s.idx, s.curr_c, s.next_c, s.supply⟩) hi
      (fun t _ => (request fs t : Int)) (request fs (A0.tenants_ id)) rfl (le_refl _)
    refine ⟨_, hpop, ⟨⟨?_, ?_⟩, ?_⟩, ?_⟩
    rotate_left 2
    · exact hL.served_pop ctx (s := ⟨r.1, r.2, s.idx, s.curr_c, s.next_c, s.supply⟩) hi _
        s.supply (Or.inl rfl)
    · simp [BroadcastHeap.size, hi]
    · exact hI.rich_pop ctx (s := ⟨r.1, r.2, s.idx, s.curr_c, s.next_c, s.supply⟩) hi _ s.supply
        (le_refl _) (le_refl _) (by simp only; omega)
    · unfold RichEnough at hE ⊢
      simp only [hvals, hi, List.map_cons, List.sum_cons] at hE ⊢
      omega

theorem rich_fraction_total {A0 : KarmaAllocator} {fs : Nat} {cs : List Candidate}
    {supply0 : Nat} (ctx : RichCtx A0 fs cs supply0) (fuel : Nat) (s : RichLoop)
    (h : RichCore A0 fs cs supply0 1 s) (hl : RichLevel A0 cs 1 s)
    (hlt : s.supply < s.richest_borrowers.size) (hfuel : s.supply < fuel) :
    ∃ r, rich_fraction fuel fs ((s.A, s.richest_borrowers), s.supply) = .ok r ∧
      RichCore A0 fs cs supply0 1 ⟨r.1.1.1, r.1.1.2, s.idx, s.curr_c, s.next_c, 0⟩ ∧
      RichLevel A0 cs 1 ⟨r.1.1.1, r.1.1.2, s.idx, s.curr_c, s.next_c, 0⟩ := by
  have hs0 := h.sup_le
  have hs1 := ctx.supply_bd
  have key := whileM_total
    (fun r : ((KarmaAllocator × BroadcastHeap) × Nat) × Nat => .ok (decide (r.2 < r.1.2)))
    (fun r =>
      match pop_borrower (fun t v => i32 ((request fs t : Int) - v + 1)) r.1.1 with
      | .error e => .error e
      | .ok q => .ok ((q, u64 ((r.1.2 : Int) - 1)), r.2 + 1))
    (fun r => (RichCore A0 fs cs supply0 1
        ⟨r.1.1.1, r.1.1.2, s.idx, s.curr_c, s.next_c, r.1.2⟩ ∧
      RichLevel A0 cs 1 ⟨r.1.1.1, r.1.1.2, s.idx, s.curr_c, s.next_c, r.1.2⟩) ∧
      r.1.2 < r.1.1.2.size)
    (fun r => r.1.2) ?_ ?_ fuel (((s.A, s.richest_borrowers), s.supply), 0) ⟨⟨h, hl⟩, hlt⟩
    hfuel
  · obtain ⟨r, hr, ⟨⟨hI, hL⟩, _⟩, _⟩ := key
    exact ⟨r, hr, hI.less 0 (Nat.zero_le _), ⟨hL.inheap, hL.taken, hL.out⟩⟩
  · intro r _; exact ⟨_, rfl⟩
  · intro r ⟨⟨hI, hL⟩, hsz⟩ hc
    simp only [Except.ok.injEq, decide_eq_true_eq] at hc
    cases hi : r.1.1.2.items with
    | nil =>
      simp only [BroadcastHeap.size, hi, List.length_nil] at hsz
      omega
    | cons x rest =>
      obtain ⟨k, id⟩ := x
      have hv := hI.hval (k, id) (by simp [hi])
      have hidc : id ∈ cand_ids cs :=
        cand_ids_take_sub cs s.idx (hI.hmem id (by simp [hids, hi]))
      obtain ⟨c, hcm, hce⟩ := mem_of_cand_ids hidc
      have h1 := ctx.credits_lt c hcm
      have h4 := request_le_credits fs (A0.tenants_ id)
      have hsl := hI.sup_le
      rw [hce] at h1
      simp only at hv hsl
      have hg : i32 ((request fs (A0.tenants_ id) : Int) - (k + r.1.1.2.offset) + 1)
          = (((request fs (A0.tenants_ id) : Int) - (k + r.1.1.2.offset) + 1).toNat : Int) := by
        rw [i32_eq _ (by omega) (by omega)]; omega
      have hpop := hI.pop_borrower ctx
        (s := ⟨r.1.1.1, r.1.1.2, s.idx, s.curr_c, s.next_c, r.1.2⟩) hi
        (fun t v => i32 ((request fs t : Int) - v + 1)) _ hg (by omega)
      have hu : u64 ((r.1.2 : Int) - 1) = r.1.2 - 1 := by
        have := u64_eq ((r.1.2 : Int) - 1) (by omega) (by omega)
        omega
      refine ⟨_, by simp only [hpop, hu]; rfl, ⟨⟨?_, ?_⟩, ?_⟩, ?_⟩
      · exact hI.rich_pop ctx
          (s := ⟨r.1.1.1, r.1.1.2, s.idx, s.curr_c, s.next_c, r.1.2⟩) hi _ (r.1.2 - 1)
          (by omega) (by simp only; omega) (by simp only; omega)
      · exact hL.served_pop ctx
          (s := ⟨r.1.1.1, r.1.1.2, s.idx, s.curr_c, s.next_c, r.1.2⟩) hi _ (r.1.2 - 1)
          (Or.inr ⟨rfl, by simp only; omega⟩)
      · simp only [BroadcastHeap.size, hi, List.length_cons] at hsz ⊢
        omega
      · simp only; omega

theorem RichCore.rich_size_le {A0 : KarmaAllocator} {fs : Nat} {cs : List Candidate}
    {supply0 : Nat} {lo : Int} {s : RichLoop} (h : RichCore A0 fs cs supply0 lo s) :
    s.richest_borrowers.size ≤ cs.length := by
  have hsub : hids s.richest_borrowers ⊆ cand_ids cs :=
    fun id hid => cand_ids_take_sub cs s.idx (h.hmem id hid)
  have := (List.subperm_of_subset h.hnodup hsub).length_le
  simpa [hids, cand_ids, BroadcastHeap.size] using this

theorem cand_blocks_zero (l : List Candidate) (h : ∀ c ∈ l, c.blocks_ = 0) :
    cand_blocks l = 0 := by
  unfold cand_blocks
  induction l with
  | nil => rfl
  | cons a t ih =>
    simp only [List.map_cons, List.sum_cons]
    rw [h a (List.mem_cons_self _ _), ih (fun c hc => h c (List.mem_cons_of_mem _ hc))]
    rfl

theorem RichCtx.blocks_le {A0 : KarmaAllocator} {fs : Nat} {cs : List Candidate}
    {supply0 : Nat} (ctx : RichCtx A0 fs cs supply0) {c : Candidate} (hc : c ∈ cs) :
    (c.blocks_ : Int) ≤ c.credits_ := by
  rw [ctx.blocks c hc, ctx.credits c hc]
  exact_mod_cast request_le_credits fs _

theorem rich_advance_total {A0 : KarmaAllocator} {fs : Nat} {cs : List Candidate}
    {supply0 : Nat} (ctx : RichCtx A0 fs cs supply0) (sent : Candidate) (s : RichLoop)
    (h : RichHead A0 fs cs supply0 sent s) (hl : RichLevel A0 cs 0 s) (hd : 0 < s.supply) :
    ∃ s1 c, rich_advance s = .ok s1 ∧ RichCore A0 fs cs supply0 1 s1 ∧ RichEnough cs s1 ∧
      s1.supply = s.supply ∧
      (cs ++ [sent])[s1.idx]? = some c ∧ 1 ≤ s1.curr_c ∧
      (s1.richest_borrowers.items = [] → c.credits_ = s1.curr_c) ∧
      RichLevel A0 cs 0 s1 := by
  obtain ⟨c, hc, hcn⟩ := h.cursor
  unfold rich_advance
  cases hi : s.richest_borrowers.items with
  | nil =>
    have hE := h.enough
    unfold RichEnough at hE
    simp only [hvals, hi, List.map_nil, List.sum_nil, zero_add] at hE
    have hE' : (s.supply : Int) < cand_blocks (cs.drop s.idx) := by
      rcases hE with h0 | h1
      · omega
      · exact h1
    have hlt : s.idx < cs.length := by
      rcases Nat.lt_or_ge s.idx cs.length with hl | hl
      · exact hl
      · rw [List.drop_of_length_le hl] at hE'
        simp only [cand_blocks, List.map_nil, List.sum_nil] at hE'
        omega
    have hcs := cursor_lt hc hlt
    have hcm : c ∈ cs := List.getElem?_mem hcs
    have hpos : 1 ≤ c.credits_ := by
      by_contra hneg
      have hdrop := drop_of_getElem? hcs
      have hsorted : (cs.drop s.idx).Sorted (fun a b => a.credits_ ≥ b.credits_) :=
        List.Pairwise.sublist (List.drop_sublist _ _) ctx.sorted
      rw [hdrop] at hsorted
      have hall := (List.sorted_cons.mp hsorted).1
      have hz : cand_blocks (cs.drop s.idx) = 0 := by
        apply cand_blocks_zero
        intro b hb
        have hbm : b ∈ cs := List.mem_of_mem_drop hb
        have hble := ctx.blocks_le hbm
        rw [hdrop] at hb
        rcases List.mem_cons.mp hb with e | e
        · subst e; omega
        · have := hall b e
          simp only [ge_iff_le] at this
          omega
      omega
    have hnext : s.next_c > -1 := by omega
    have htk : ∀ x ∈ cs.take s.idx, s.next_c ≤ x.credits_ := by
      rw [← hcn]; exact taken_ge ctx.sorted hcs
    refine ⟨{ s with curr_c := s.next_c }, c, ?_, ?_, h.enough, rfl, hc, ?_, ?_,
      hl.served_advance hi htk⟩
    · simp [BroadcastHeap.empty, hi, hnext]
    · exact { h.core with
        hval := fun x hx => by
          have : x ∈ s.richest_borrowers.items := hx
          rw [hi] at this
          simp at this }
    · simp only; omega
    · intro _; exact hcn
  | cons x rest =>
    refine ⟨s, c, ?_, h.core, h.enough, rfl, hc, ?_, ?_, hl⟩
    · simp [BroadcastHeap.empty, hi]
    · have := h.core.hval x (by rw [hi]; exact List.mem_cons_self _ _)
      omega
    · intro he; rw [hi] at he; exact absurd he (List.cons_ne_nil _ _)

theorem rich_enter_total {A0 : KarmaAllocator} {fs : Nat} {cs : List Candidate}
    {supply0 : Nat} (ctx : RichCtx A0 fs cs supply0) (dummy : Nat) (fuel : Nat) (s : RichLoop)
    (h : RichCore A0 fs cs supply0 1 s) (he : RichEnough cs s) (hl : RichLevel A0 cs 0 s)
    {c : Candidate}
    (hc : (cs ++ [⟨dummy, -1, 0⟩])[s.idx]? = some c) (hcc : 1 ≤ s.curr_c)
    (hemp : s.richest_borrowers.items = [] → c.credits_ = s.curr_c)
    (hfuel : cs.length + 1 < fuel) :
    ∃ s2, rich_enter fuel (cs ++ [⟨dummy, -1, 0⟩]) s = .ok s2 ∧
      RichCore A0 fs cs supply0 1 s2 ∧ RichEnough cs s2 ∧ s2.supply = s.supply ∧
      (∃ x, (cs ++ [⟨dummy, -1, 0⟩])[s2.idx]? = some x ∧ x.credits_ = s2.next_c) ∧
      s2.richest_borrowers.items ≠ [] ∧ RichLevel A0 cs 0 s2 := by
  have hsent : (⟨dummy, -1, 0⟩ : Candidate).credits_ ≠ s.curr_c := by
    simp only; omega
  obtain ⟨r, x, hr, ⟨hI, hE, hL⟩, hle, hge, hx, hxc, hne⟩ :=
    enter_total cs ⟨dummy, -1, 0⟩ s.curr_c
      (fun r => RichCore A0 fs cs supply0 1 ⟨s.A, r.1, r.2, s.curr_c, s.next_c, s.supply⟩ ∧
        RichEnough cs ⟨s.A, r.1, r.2, s.curr_c, s.next_c, s.supply⟩ ∧
        RichLevel A0 cs 0 ⟨s.A, r.1, r.2, s.curr_c, s.next_c, s.supply⟩)
      (fun H idx c hP hc hcr =>
        ⟨hP.1.rich_push ctx (s := ⟨s.A, H, idx, s.curr_c, s.next_c, s.supply⟩) hc hcr
            (by have := ctx.blocks_pos c (List.getElem?_mem hc) (by omega); omega),
         hP.2.1.rich_enough_push (s := ⟨s.A, H, idx, s.curr_c, s.next_c, s.supply⟩) hc,
         hP.2.2.served_push ctx (s := ⟨s.A, H, idx, s.curr_c, s.next_c, s.supply⟩) hc hcr⟩)
      hsent fuel s.richest_borrowers s.idx h.idx_le ⟨h, he, hl⟩ (by omega)
  refine ⟨⟨s.A, r.1, r.2, s.curr_c, x.credits_, s.supply⟩, ?_, ?_, hE, rfl, ⟨x, hx, rfl⟩, ?_,
    ⟨hL.inheap, hL.taken, hL.out⟩⟩
  · simp only [rich_enter, hr, hx]
  · exact { hI with }
  · rcases hne with e | e
    · intro hn
      have h1 : r.1 = s.richest_borrowers := congrArg Prod.fst e
      have h2 : r.2 = s.idx := congrArg Prod.snd e
      rw [h2, hc] at hx
      simp only [Option.some.injEq] at hx
      subst hx
      simp only [h1] at hn
      exact hxc (hemp hn)
    · exact e

theorem rich_serve_total {A0 : KarmaAllocator} {fs : Nat} {cs : List Candidate}
    {supply0 : Nat} (ctx : RichCtx A0 fs cs supply0) (fuel : Nat) (s : RichLoop)
    (h : RichCore A0 fs cs supply0 1 s) (he : RichEnough cs s) (hl : RichLevel A0 cs 0 s)
    (hne : s.richest_borrowers.items ≠ []) (hd : 0 < s.supply)
    (hfuel : s.supply < fuel) :
    ∃ s3, rich_serve fuel fs s = .ok s3 ∧ RichCore A0 fs cs supply0 0 s3 ∧ RichEnough cs s3 ∧
      s3.idx = s.idx ∧ s3.next_c = s.next_c ∧ s3.supply < s.supply ∧
      RichLevel A0 cs 1 s3 ∧ (0 < s3.supply → RichLevel A0 cs 0 s3) := by
  by_cases hf : s.supply < s.richest_borrowers.size
  · obtain ⟨r, hr, hI, hL⟩ := rich_fraction_total ctx fuel s h hl.served_mono hf hfuel
    refine ⟨⟨r.1.1.1, r.1.1.2, s.idx, s.curr_c, s.next_c, 0⟩, ?_, hI.rich_mono (by omega), ?_,
      rfl, rfl, hd, hL, fun h0 => absurd h0 (Nat.lt_irrefl 0)⟩
    · simp only [rich_serve, hf, if_true, hr]
    · exact Or.inl rfl
  · cases hi : s.richest_borrowers.items with
    | nil => exact absurd hi hne
    | cons x rest =>
      obtain ⟨k, id⟩ := x
      have hm := min_of_cons hi
      have hv := h.hval (k, id) (by simp [hi])
      have hidc : id ∈ cand_ids cs :=
        cand_ids_take_sub cs s.idx (h.hmem id (by simp [hids, hi]))
      obtain ⟨c, hcm, hce⟩ := mem_of_cand_ids hidc
      have h1 := ctx.credits_lt c hcm
      have h4 := request_le_credits fs (A0.tenants_ id)
      rw [hce] at h1
      have hsz : 1 ≤ s.richest_borrowers.size := by simp [BroadcastHeap.size, hi]
      have hge : s.richest_borrowers.size ≤ s.supply := Nat.le_of_not_lt hf
      have hq1 : 1 ≤ s.supply / s.richest_borrowers.size := (Nat.one_le_div_iff hsz).mpr hge
      have hq2 : s.richest_borrowers.size * (s.supply / s.richest_borrowers.size) ≤ s.supply :=
        Nat.mul_div_le _ _
      have hq3 : s.supply / s.richest_borrowers.size ≤ s.supply := Nat.div_le_self _ _
      have hsl := h.sup_le
      have hsb := ctx.supply_bd
      simp only at hv
      generalize hq : s.supply / s.richest_borrowers.size = q at hq1 hq2 hq3
      have e1 : (u64 (k + s.richest_borrowers.offset) : Int) = k + s.richest_borrowers.offset :=
        u64_eq _ (by omega) (by omega)
      generalize hu : u64 (k + s.richest_borrowers.offset) = m at e1
      have hx1 : 1 ≤ m := by omega
      generalize ha : min m q = a
      have ha1 : 1 ≤ a := ha ▸ le_min hx1 hq1
      have ha2 : a ≤ m := ha ▸ min_le_left _ _
      have ha3 : a ≤ q := ha ▸ min_le_right _ _
      have hserve : rich_serve fuel fs s
          = .ok { s with richest_borrowers := s.richest_borrowers.add_all (-(i32 (a : Int))),
                         curr_c := s.curr_c - i32 (a : Int),
                         supply := u64 ((s.supply : Int)
                           - s.richest_borrowers.size * i32 (a : Int)) } := by
        simp only [rich_serve, hf, if_false, hm, hu, hq, ha]
      clear ha
      have e3 : i32 (a : Int) = a := i32_eq _ (by omega) (by omega)
      rw [e3] at hserve
      have hmul1 : (s.richest_borrowers.size : Int) * a ≤ s.supply := by
        have : s.richest_borrowers.size * a ≤ s.richest_borrowers.size * q :=
          Nat.mul_le_mul_left _ ha3
        have h2 : ((s.richest_borrowers.size * a : Nat) : Int) ≤ s.supply := by
          exact_mod_cast le_trans this hq2
        push_cast at h2
        exact h2
      have hmul2 : 1 ≤ (s.richest_borrowers.size : Int) * a := by
        have : 1 * 1 ≤ s.richest_borrowers.size * a := Nat.mul_le_mul hsz ha1
        have h2 : ((1 * 1 : Nat) : Int) ≤ ((s.richest_borrowers.size * a : Nat) : Int) := by
          exact_mod_cast this
        push_cast at h2
        omega
      have e4 : (u64 ((s.supply : Int) - s.richest_borrowers.size * a) : Int)
          = s.supply - s.richest_borrowers.size * a := u64_eq _ (by omega) (by omega)
      have hmin := min_le_of_sorted h.sorted hm
      have hstep := hl.served_step (a : Int)
        (u64 ((s.supply : Int) - s.richest_borrowers.size * a)) (Int.natCast_nonneg _)
      refine ⟨_, hserve, ?_, ?_, ?_, ?_, ?_, hstep.served_mono, fun _ => hstep⟩
      · have hlo : ∀ y ∈ s.richest_borrowers.items,
            0 ≤ y.1 + s.richest_borrowers.offset - (a : Int) := by
          intro y hy
          have h5 := hmin y hy
          have h6 : (a : Int) ≤ k + s.richest_borrowers.offset := by
            rw [← e1]; exact_mod_cast ha2
          linarith
        exact h.rich_step (a : Int) (u64 ((s.supply : Int) - s.richest_borrowers.size * a))
          (Int.natCast_nonneg _) hlo e4
      · exact he.rich_enough_step a _ e4 (by omega)
      · rfl
      · rfl
      · simp only
        omega

/-! ## donate_to_rich: the loop -/

theorem rich_body_total {A0 : KarmaAllocator} {fs : Nat} {cs : List Candidate}
    {supply0 : Nat} (ctx : RichCtx A0 fs cs supply0) (dummy : Nat) (fuel : Nat) (s : RichLoop)
    (h : RichHead A0 fs cs supply0 ⟨dummy, -1, 0⟩ s) (hl : RichLevel A0 cs 0 s)
    (hd : 0 < s.supply) (hf1 : supply0 < fuel) (hf2 : cs.length + 1 < fuel) :
    ∃ s', rich_body fuel fs (cs ++ [⟨dummy, -1, 0⟩]) s = .ok s' ∧
      (RichHead A0 fs cs supply0 ⟨dummy, -1, 0⟩ s' ∧ RichLevel A0 cs 1 s' ∧
        (0 < s'.supply → RichLevel A0 cs 0 s')) ∧ s'.supply < s.supply := by
  obtain ⟨s1, c, h1, hI1, hE1, hd1, hc1, hcc1, hemp1, hL1⟩ :=
    rich_advance_total ctx _ s h hl hd
  obtain ⟨s2, h2, hI2, hE2, hd2, hcur2, hne2, hL2⟩ :=
    rich_enter_total ctx dummy fuel s1 hI1 hE1 hL1 hc1 hcc1 hemp1 hf2
  have hdl := h.core.sup_le
  obtain ⟨s3, h3, hI3, hE3, hi3, hn3, hd3, hL3, hL3z⟩ :=
    rich_serve_total ctx fuel s2 hI2 hE2 hL2 hne2 (by omega) (by omega)
  obtain ⟨s4, h4, hI4, hE4, hi4, hc4, hn4, hd4, hL4⟩ :=
    rich_drain_total ctx fuel s3 1 hI3 hE3 hL3 (by have := hI3.rich_size_le; omega)
  have hL4z : 0 < s4.supply → RichLevel A0 cs 0 s4 := by
    intro hpos
    obtain ⟨t4, g4, _, _, _, _, _, _, gL⟩ :=
      rich_drain_total ctx fuel s3 0 hI3 hE3 (hL3z (by omega))
        (by have := hI3.rich_size_le; omega)
    rw [h4] at g4
    cases g4
    exact gL
  refine ⟨s4, ?_, ⟨⟨hI4, hE4, ?_⟩, hL4, hL4z⟩, by omega⟩
  · simp only [rich_body, h1, h2, h3, h4]
  · obtain ⟨x, hx, hxe⟩ := hcur2
    exact ⟨x, by rw [hi4, hi3]; exact hx, by rw [hn4, hn3]; exact hxe⟩

theorem rich_loop_total {A0 : KarmaAllocator} {fs : Nat} {cs : List Candidate}
    {supply0 : Nat} (ctx : RichCtx A0 fs cs supply0) (dummy : Nat) (fuel : Nat)
    (hf1 : supply0 < fuel) (hf2 : cs.length + 1 < fuel) :
    ∃ first B, (cs ++ [(⟨dummy, -1, 0⟩ : Candidate)])[0]? = some first ∧
      (match whileM (fun s => .ok (decide (s.supply > 0)))
          (rich_body fuel fs (cs ++ [⟨dummy, -1, 0⟩])) fuel
          ⟨A0, BroadcastHeap.init, 0, 2147483647, first.credits_, supply0⟩ with
        | .error e => .error e
        | .ok s =>
          match rich_rest fuel fs (s.A, s.richest_borrowers) with
          | .error e => .error e
          | .ok q => .ok q.1) = Except.ok B ∧
      Same A0 B ∧
      (∀ id, (B.tenants_ id).demand_ = (A0.tenants_ id).demand_ ∧
        (B.tenants_ id).credits_ = (A0.tenants_ id).credits_) ∧
      (∀ id, id ∉ cand_ids cs → B.tenants_ id = A0.tenants_ id) ∧
      (∀ id ∈ cand_ids cs,
        (A0.tenants_ id).allocation_ ≤ (B.tenants_ id).allocation_ ∧
        (B.tenants_ id).allocation_
          ≤ (A0.tenants_ id).allocation_ + request fs (A0.tenants_ id) ∧
        (B.tenants_ id).rate_
          = ((A0.tenants_ id).allocation_ : Int) - (B.tenants_ id).allocation_) ∧
      alloc_sum B (cand_ids cs) - alloc_sum A0 (cand_ids cs) ≤ supply0 ∧
      (∀ a ∈ cs, ∀ b ∈ cs, b.credits_ < a.credits_ →
        (B.tenants_ b.id_).allocation_ ≠ (A0.tenants_ b.id_).allocation_ →
        ((B.tenants_ a.id_).allocation_ : Int) = (A0.tenants_ a.id_).allocation_ + a.blocks_ ∨
        a.credits_ - (((B.tenants_ a.id_).allocation_ : Int) - (A0.tenants_ a.id_).allocation_)
          ≤ b.credits_) := by
  obtain ⟨first, hfirst⟩ := cursor_exists cs ⟨dummy, -1, 0⟩ (Nat.zero_le cs.length)
  have hinit : RichHead A0 fs cs supply0 ⟨dummy, -1, 0⟩
      ⟨A0, BroadcastHeap.init, 0, 2147483647, first.credits_, supply0⟩ :=
    { core :=
        { same := Same.refl A0
          frame := fun id => ⟨rfl, rfl⟩
          others := fun id _ => rfl
          idx_le := Nat.zero_le _
          sorted := List.sorted_nil
          hnodup := List.nodup_nil
          hmem := fun id hid => by simp [hids, BroadcastHeap.init] at hid
          hval := fun x hx => by simp [BroadcastHeap.init] at hx
          fresh_h := fun id _ => rfl
          fresh_d := fun id _ => rfl
          granted := fun id hid => by
            obtain ⟨c, hc, rfl⟩ := mem_of_cand_ids hid
            exact ⟨le_refl _, Nat.le_add_right _ _, by rw [ctx.rate0 c hc]; simp⟩
          account := by
            simp only [hweight, hvals, BroadcastHeap.init, List.map_nil, List.sum_nil]
            omega
          sup_le := le_refl _ }
      enough := by
        unfold RichEnough
        simp only [hvals, BroadcastHeap.init, List.map_nil, List.sum_nil, List.drop_zero]
        have := ctx.supply_lt
        right
        omega
      cursor := ⟨first, hfirst, rfl⟩ }
  have hlevel : RichLevel A0 cs 0
      ⟨A0, BroadcastHeap.init, 0, 2147483647, first.credits_, supply0⟩ :=
    { inheap := fun c _ k hk => by simp [BroadcastHeap.init] at hk
      taken := fun c hc => by simp at hc
      out := fun c hc => by simp at hc }
  obtain ⟨s, hs, ⟨hH, hL, _⟩, hc⟩ :=
    whileM_total (fun s : RichLoop => .ok (decide (s.supply > 0)))
    (rich_body fuel fs (cs ++ [⟨dummy, -1, 0⟩]))
    (fun s => RichHead A0 fs cs supply0 ⟨dummy, -1, 0⟩ s ∧ RichLevel A0 cs 1 s ∧
      (0 < s.supply → RichLevel A0 cs 0 s)) (fun s => s.supply)
    (fun s _ => ⟨_, rfl⟩)
    (fun s hI hc => by
      simp only [gt_iff_lt, Except.ok.injEq, decide_eq_true_eq] at hc
      exact rich_body_total ctx dummy fuel s hI.1 (hI.2.2 hc) hc hf1 hf2)
    fuel _ ⟨hinit, hlevel.served_mono, fun _ => hlevel⟩ hf1
  simp only [gt_iff_lt, Except.ok.injEq, decide_eq_false_iff_not, Nat.not_lt,
    Nat.le_zero_eq] at hc
  have hcore : RichCore A0 fs cs supply0 0
      ⟨s.A, s.richest_borrowers, s.idx, s.curr_c, s.next_c, 0⟩ := by
    have : RichCore A0 fs cs supply0 0 s := hH.core.rich_mono (by omega)
    rw [← hc]; exact this
  have hlev : RichLevel A0 cs 1 ⟨s.A, s.richest_borrowers, s.idx, s.curr_c, s.next_c, 0⟩ :=
    ⟨hL.inheap, hL.taken, hL.out⟩
  obtain ⟨r, hr, hR, hemp, hRL⟩ := rich_rest_total ctx s.idx s.curr_c s.next_c fuel s.A
    s.richest_borrowers hcore hlev (by have := hcore.rich_size_le; simp only at this; omega)
  refine ⟨first, r.1, hfirst, ?_, hR.same, hR.frame, hR.others, hR.granted, ?_, ?_⟩
  · simp only [hs, hr]
  · have := hR.account
    simp only [hweight, hvals, hemp, List.map_nil, List.sum_nil] at this
    omega
  · intro a ha b hb hlt hne
    have hnot : ∀ c : Candidate, c.id_ ∉ hids r.2 := fun c => by simp [hids, hemp]
    have hsplit : ∀ c ∈ cs, c ∈ cs.take s.idx ∨ c ∈ cs.drop s.idx := fun c hc => by
      rw [← List.mem_append, List.take_append_drop]; exact hc
    have hpair : (cs.take s.idx ++ cs.drop s.idx).Pairwise
        (fun x y => x.credits_ ≥ y.credits_) := by
      rw [List.take_append_drop]; exact ctx.sorted
    have hbt : b ∈ cs.take s.idx := by
      rcases hsplit b hb with h1 | h1
      · exact h1
      · exact absurd (congrArg Tenant.allocation_ (hR.fresh_d b.id_ (cand_ids_mem h1))) hne
    have hat : a ∈ cs.take s.idx := by
      rcases hsplit a ha with h1 | h1
      · exact h1
      · have := (List.pairwise_append.mp hpair).2.2 b hbt a h1
        simp only [ge_iff_le] at this
        omega
    have hLb := hRL.taken b hbt
    simp only at hLb
    rcases hRL.out a hat (hnot a) with h1 | ⟨_, h1⟩
    · exact Or.inl h1
    · right
      simp only at h1
      omega

/-! ## The first loop of `allocate` -/

theorem classify_fold (A : KarmaAllocator) (fs : Nat) (hw : NoWrap A fs) :
    ∀ (l : List Nat) (p : Phase0), l.Nodup → Same A p.A →
      (∀ id ∈ l, id ∈ A.ids ∧ p.A.tenants_ id = A.tenants_ id) →
      p.supply + l.length * 2147483648 < 18446744073709551616 →
      p.demand + l.length * 2147483648 < 18446744073709551616 →
      Same A (l.foldl (classify fs) p).A ∧
      (∀ id, (l.foldl (classify fs) p).A.tenants_ id
        = if id ∈ l then rec0 A fs id else p.A.tenants_ id) ∧
      (l.foldl (classify fs) p).donors = p.donors ++ real_donors A fs l ∧
      (l.foldl (classify fs) p).borrowers = p.borrowers ++ real_borrowers A fs l ∧
      (l.foldl (classify fs) p).supply = p.supply + donor_supply A fs l ∧
      (l.foldl (classify fs) p).demand = p.demand + borrower_demand A fs l ∧
      donor_supply A fs l ≤ l.length * 2147483648 ∧
      borrower_demand A fs l ≤ l.length * 2147483648 := by
  intro l
  induction l with
  | nil =>
    intro p _ hs _ _ _
    simp [real_donors, real_borrowers, donor_supply, borrower_demand, hs]
  | cons a l ih =>
    intro p hnd hs hun hsup hdem
    have hnd' := List.nodup_cons.mp hnd
    have ha := hun a (List.mem_cons_self _ _)
    have hfs := hw.fs_lt
    simp only [List.length_cons] at hsup hdem
    -- the state after the iteration at `a`
    have hstep : ∃ p1, classify fs p a = p1 ∧ Same A p1.A ∧
        (∀ id, p1.A.tenants_ id = if id = a then rec0 A fs a else p.A.tenants_ id) ∧
        p1.donors = p.donors ++ real_donors A fs [a] ∧
        p1.borrowers = p.borrowers ++ real_borrowers A fs [a] ∧
        p1.supply = p.supply + donor_supply A fs [a] ∧
        p1.demand = p.demand + borrower_demand A fs [a] ∧
        donor_supply A fs [a] ≤ 2147483648 ∧ borrower_demand A fs [a] ≤ 2147483648 := by
      refine ⟨_, rfl, ?_⟩
      unfold classify
      rw [ha.2, hs.1, hs.2.2.2.1, hs.2.2.2.2.1, hs.same_num_tenants]
      by_cases hp : a = A.PUBLIC_ID
      · have e1 : u32 ((A.init_credits_ : Int) * get_num_tenants A)
            = A.init_credits_ * get_num_tenants A := by
          have := u32_nat (A.init_credits_ * get_num_tenants A) (by have := hw.init_lt; omega)
          push_cast at this
          exact this
        simp only [hp, if_true, e1]
        refine ⟨Same.trans hs (Same.setRec _ _ _), ?_, ?_, ?_, ?_, ?_, ?_, ?_⟩
        · intro id
          by_cases hid : id = A.PUBLIC_ID
          · simp [hid, rec0]
          · simp [hid, setRec_tenants_ne _ _ hid]
        all_goals simp [real_donors, real_borrowers, donor_supply, borrower_demand]
      · have hd := hw.demand_lt a ha.1 hp
        have hc := hw.credits_lt a ha.1 hp
        have e1 : u32 (((A.tenants_ a).credits_ : Int)
            + ((A.public_blocks_ / get_num_tenants A : Nat) : Int))
            = (A.tenants_ a).credits_ + public_share A := by
          have := u32_nat ((A.tenants_ a).credits_ + public_share A) (by omega)
          push_cast at this
          exact this
        simp only [hp, if_false, e1]
        by_cases h1 : (A.tenants_ a).demand_ < fs
        · have e2 : u32 ((fs : Int) - (A.tenants_ a).demand_) = fs - (A.tenants_ a).demand_ := by
            unfold u32; omega
          have e3 : u64 ((p.supply : Int) + ((fs - (A.tenants_ a).demand_ : Nat) : Int))
              = p.supply + (fs - (A.tenants_ a).demand_) := by
            unfold u64; omega
          have h2 : ¬ fs < (A.tenants_ a).demand_ := by omega
          simp only [h1, if_true, e2, e3]
          refine ⟨Same.trans hs (Same.setRec _ _ _), ?_, ?_, ?_, ?_, ?_, ?_, ?_⟩
          · intro id
            by_cases hid : id = a
            · subst hid; simp [rec0, hp]
            · simp [hid, setRec_tenants_ne _ _ hid]
          · simp [real_donors, hp, h1]
          · simp [real_borrowers, hp, h2]
          · simp [donor_supply, real_donors, hp, h1]
          · simp [borrower_demand, real_borrowers, hp, h2]
          · simp [donor_supply, real_donors, hp, h1]; omega
          · simp [borrower_demand, real_borrowers, hp, h2]
        · by_cases h2 : (A.tenants_ a).demand_ > fs
          · have e2 : u32 (((A.tenants_ a).demand_ : Int) - fs)
                = (A.tenants_ a).demand_ - fs := by
              unfold u32; omega
            have hcap : capped A fs a ≤ (A.tenants_ a).credits_ + public_share A := by
              unfold capped; exact Nat.min_le_right _ _
            have e3 : u64 ((p.demand : Int) + ((min ((A.tenants_ a).demand_ - fs)
                ((A.tenants_ a).credits_ + public_share A) : Nat) : Int))
                = p.demand + capped A fs a := by
              have : min ((A.tenants_ a).demand_ - fs)
                  ((A.tenants_ a).credits_ + public_share A) = capped A fs a := rfl
              rw [this]
              unfold u64; omega
            simp only [h1, if_false, h2, if_true, e2, e3]
            refine ⟨Same.trans hs (Same.setRec _ _ _), ?_, ?_, ?_, ?_, ?_, ?_, ?_⟩
            · intro id
              by_cases hid : id = a
              · subst hid; simp [rec0, hp]
              · simp [hid, setRec_tenants_ne _ _ hid]
            · simp [real_donors, hp, h1]
            · simp [real_borrowers, hp, h2]
            · simp [donor_supply, real_donors, hp, h1]
            · simp [borrower_demand, real_borrowers, hp, h2]
            · simp [donor_supply, real_donors, hp, h1]
            · simp [borrower_demand, real_borrowers, hp, h2]; omega
          · simp only [h1, if_false, h2]
            refine ⟨Same.trans hs (Same.setRec _ _ _), ?_, ?_, ?_, ?_, ?_, ?_, ?_⟩
            · intro id
              by_cases hid : id = a
              · subst hid; simp [rec0, hp]
              · simp [hid, setRec_tenants_ne _ _ hid]
            · simp [real_donors, hp, h1]
            · simp [real_borrowers, hp, h2]
            · simp [donor_supply, real_donors, hp, h1]
            · simp [borrower_demand, real_borrowers, hp, h2]
            · simp [donor_supply, real_donors, hp, h1]
            · simp [borrower_demand, real_borrowers, hp, h2]
    obtain ⟨p1, hp1, hs1, ht1, hd1, hb1, hsu1, hde1, hbd1, hbd2⟩ := hstep
    have hun1 : ∀ id ∈ l, id ∈ A.ids ∧ p1.A.tenants_ id = A.tenants_ id := by
      intro id hid
      have hne : id ≠ a := fun e => hnd'.1 (e ▸ hid)
      have := hun id (List.mem_cons_of_mem _ hid)
      refine ⟨this.1, ?_⟩
      rw [ht1 id, if_neg hne]; exact this.2
    obtain ⟨r1, r2, r3, r4, r5, r6, r7, r8⟩ :=
      ih p1 hnd'.2 hs1 hun1 (by omega) (by omega)
    simp only [List.foldl_cons, hp1]
    have hsplit_d : real_donors A fs (a :: l) = real_donors A fs [a] ++ real_donors A fs l := by
      unfold real_donors; rw [← List.filter_append]; rfl
    have hsplit_b : real_borrowers A fs (a :: l)
        = real_borrowers A fs [a] ++ real_borrowers A fs l := by
      unfold real_borrowers; rw [← List.filter_append]; rfl
    have hsum_d : donor_supply A fs (a :: l) = donor_supply A fs [a] + donor_supply A fs l := by
      unfold donor_supply; rw [hsplit_d]; simp
    have hsum_b : borrower_demand A fs (a :: l)
        = borrower_demand A fs [a] + borrower_demand A fs l := by
      unfold borrower_demand; rw [hsplit_b]; simp
    refine ⟨r1, ?_, ?_, ?_, ?_, ?_, ?_, ?_⟩
    · intro id
      rw [r2 id, ht1 id]
      by_cases hid : id = a
      · subst hid; simp [hnd'.1]
      · simp [hid]
    · rw [r3, hd1, hsplit_d, List.append_assoc]
    · rw [r4, hb1, hsplit_b, List.append_assoc]
    · rw [r5, hsu1, hsum_d]; omega
    · rw [r6, hde1, hsum_b]; omega
    · rw [hsum_d]; simp only [List.length_cons]; omega
    · rw [hsum_b]; simp only [List.length_cons]; omega

theorem Valid.valid_num_tenants {A : KarmaAllocator} (h : Valid A) :
    get_num_tenants A = A.ids.length - 1 := by
  obtain ⟨_, _, h2, h3, _⟩ := h
  unfold get_num_tenants u32
  omega

theorem Valid.valid_fair_share {A : KarmaAllocator} (h : Valid A) :
    get_fair_share A = .ok (fair_share_of A) := by
  have hn := h.valid_num_tenants
  obtain ⟨_, _, h2, h3, h4, h5, _⟩ := h
  have hfree : get_free_blocks A = A.num_blocks_ - A.public_blocks_ := by
    unfold get_free_blocks u64; omega
  have hdiv : (A.num_blocks_ - A.public_blocks_) / (A.ids.length - 1) < 2147483648 :=
    lt_of_le_of_lt (Nat.div_le_self _ _) (by omega)
  unfold get_fair_share
  rw [hn, hfree, if_neg (by omega)]
  unfold fair_share_of
  rw [u32_nat _ (by omega)]

theorem Valid.fair_lt {A : KarmaAllocator} (h : Valid A) : fair_share_of A < 2147483648 := by
  obtain ⟨_, _, h2, h3, h4, h5, _⟩ := h
  exact lt_of_le_of_lt (Nat.div_le_self _ _) (by omega)

theorem Valid.public_share_eq {A : KarmaAllocator} (h : Valid A) :
    public_share A = A.public_blocks_ / (A.ids.length - 1) := by
  unfold public_share; rw [h.valid_num_tenants]

theorem Valid.no_wrap {A : KarmaAllocator} (h : Valid A) : NoWrap A (fair_share_of A) := by
  have hn := h.valid_num_tenants
  have hq := h.public_share_eq
  have hf := h.fair_lt
  obtain ⟨_, _, h2, h3, h4, h5, h6, h7⟩ := h
  exact
    { fs_lt := hf
      init_lt := by rw [hn]; exact h6
      demand_lt := fun id hid hp => (h7 id hid hp).1
      credits_lt := fun id hid hp => by rw [hq]; exact (h7 id hid hp).2 }

theorem phase0_spec {A : KarmaAllocator} (h : Valid A) :
    Same A (phase0 A (fair_share_of A)).A ∧
    (∀ id, (phase0 A (fair_share_of A)).A.tenants_ id
      = if id ∈ A.ids then rec0 A (fair_share_of A) id else A.tenants_ id) ∧
    (phase0 A (fair_share_of A)).donors
      = real_donors A (fair_share_of A) A.ids
        ++ (if A.public_blocks_ > 0 then [A.PUBLIC_ID] else []) ∧
    (phase0 A (fair_share_of A)).borrowers = real_borrowers A (fair_share_of A) A.ids ∧
    (phase0 A (fair_share_of A)).supply
      = A.public_blocks_ + donor_supply A (fair_share_of A) A.ids ∧
    (phase0 A (fair_share_of A)).demand = borrower_demand A (fair_share_of A) A.ids := by
  have hw := h.no_wrap
  obtain ⟨h0, h1, h2, h3, h4, h5, h6, h7⟩ := h
  obtain ⟨r1, r2, r3, r4, r5, r6, _, _⟩ :=
    classify_fold A (fair_share_of A) hw A.ids ⟨A, [], [], A.public_blocks_, 0⟩ h0
      (Same.refl A) (fun id hid => ⟨hid, rfl⟩) (by simp only; omega) (by simp only; omega)
  unfold phase0
  by_cases hp : A.public_blocks_ > 0
  · simp only [hp, if_true]
    refine ⟨r1, r2, ?_, ?_, r5, ?_⟩
    · rw [r3]; simp
    · rw [r4]; simp
    · rw [r6]; simp
  · simp only [hp, if_false]
    refine ⟨r1, r2, ?_, ?_, r5, ?_⟩
    · rw [r3]; simp
    · rw [r4]; simp
    · rw [r6]; simp

/-! ## The straight-line loops over donors, borrowers and the table -/

theorem grant_fold (d : Tenant → Int) :
    ∀ (l : List Nat) (A : KarmaAllocator), l.Nodup → (∀ id ∈ l, id ∈ A.ids) →
      Same A (l.foldl (fun B id => grant B id d) A) ∧
      ∀ id, (l.foldl (fun B id => grant B id d) A).tenants_ id
        = if id ∈ l then
            { A.tenants_ id with
              allocation_ := u32 ((A.tenants_ id).allocation_ + d (A.tenants_ id)),
              rate_ := i32 ((A.tenants_ id).rate_ - d (A.tenants_ id)) }
          else A.tenants_ id := by
  intro l
  induction l with
  | nil => intro A _ _; exact ⟨Same.refl A, fun id => by simp⟩
  | cons a l ih =>
    intro A hnd hmem
    have hnd' := List.nodup_cons.mp hnd
    have ha := hmem a (List.mem_cons_self _ _)
    simp only [List.foldl_cons]
    rw [grant_of_mem d ha]
    obtain ⟨r1, r2⟩ := ih (A.setRec a _) hnd'.2
      (fun id hid => hmem id (List.mem_cons_of_mem _ hid))
    refine ⟨Same.trans (Same.setRec _ _ _) r1, ?_⟩
    intro id
    rw [r2 id]
    by_cases hid : id = a
    · subst hid; simp [hnd'.1]
    · simp [hid, setRec_tenants_ne _ _ hid]

theorem surplus_congr {A B : KarmaAllocator} (fs : Nat) (hs : Same A B)
    (hd : ∀ id, (B.tenants_ id).demand_ = (A.tenants_ id).demand_) (id : Nat) :
    surplus B fs id = surplus A fs id := by
  unfold surplus
  rw [hs.1, hs.2.2.2.1, hd id]

theorem donate_all_spec (fs : Nat) :
    ∀ (l : List Nat) (A : KarmaAllocator), get_fair_share A = .ok fs → l.Nodup →
      (∀ id ∈ l, id ∈ A.ids) →
      ∃ B, donate_all A l = .ok B ∧ Same A B ∧
        ∀ id, B.tenants_ id
          = if id ∈ l then
              { A.tenants_ id with rate_ := i32 ((A.tenants_ id).rate_ + surplus A fs id) }
            else A.tenants_ id := by
  intro l
  induction l with
  | nil => intro A _ _ _; exact ⟨A, rfl, Same.refl A, fun id => by simp⟩
  | cons a l ih =>
    intro A hfs hnd hmem
    have hnd' := List.nodup_cons.mp hnd
    have ha := hmem a (List.mem_cons_self _ _)
    have hsame := Same.setRec A a
      { A.tenants_ a with rate_ := i32 ((A.tenants_ a).rate_ + surplus A fs a) }
    obtain ⟨B, hB, r1, r2⟩ := ih (A.setRec a _) (by rw [hsame.same_fair_share]; exact hfs) hnd'.2
      (fun id hid => hmem id (List.mem_cons_of_mem _ hid))
    refine ⟨B, ?_, Same.trans hsame r1, ?_⟩
    · simp only [donate_all]
      rw [add_rate_of_mem _ hfs ha]
      exact hB
    · intro id
      rw [r2 id]
      have hsur : surplus (A.setRec a
          { A.tenants_ a with rate_ := i32 ((A.tenants_ a).rate_ + surplus A fs a) }) fs id
          = surplus A fs id := by
        apply surplus_congr fs hsame
        intro j
        by_cases hj : j = a
        · subst hj; simp
        · simp [setRec_tenants_ne _ _ hj]
      rw [hsur]
      by_cases hid : id = a
      · subst hid; simp [hnd'.1]
      · simp [hid, setRec_tenants_ne _ _ hid]

theorem donor_candidates_spec (fs : Nat) :
    ∀ (l : List Nat) (A : KarmaAllocator), get_fair_share A = .ok fs →
      (∀ id ∈ l, id ∈ A.ids) →
      donor_candidates A l
        = .ok (l.map (fun id => ⟨id, (A.tenants_ id).credits_, surplus A fs id⟩), A) := by
  intro l
  induction l with
  | nil => intro A _ _; rfl
  | cons a l ih =>
    intro A hfs hmem
    have ha := hmem a (List.mem_cons_self _ _)
    simp only [donor_candidates, touch_of_mem ha, get_block_surplus_of_mem hfs ha,
      ih A hfs (fun id hid => hmem id (List.mem_cons_of_mem _ hid)), List.map_cons]

theorem borrower_candidates_spec (fs : Nat) :
    ∀ (l : List Nat) (A : KarmaAllocator), (∀ id ∈ l, id ∈ A.ids) →
      borrower_candidates fs A l
        = (l.map (fun id =>
            ⟨id, (A.tenants_ id).credits_, request fs (A.tenants_ id)⟩), A) := by
  intro l
  induction l with
  | nil => intro A _; rfl
  | cons a l ih =>
    intro A hmem
    have ha := hmem a (List.mem_cons_self _ _)
    simp only [borrower_candidates, touch_of_mem ha,
      ih A (fun id hid => hmem id (List.mem_cons_of_mem _ hid)), List.map_cons]

theorem commit_fold :
    ∀ (l : List Nat) (A : KarmaAllocator), l.Nodup →
      Same A (l.foldl commit A) ∧
      ∀ id, (l.foldl commit A).tenants_ id
        = if id ∈ l then
            (if id = A.PUBLIC_ID then { A.tenants_ id with credits_ := 0 }
             else { A.tenants_ id with
                    credits_ := u32 (((A.tenants_ id).credits_ : Int) + (A.tenants_ id).rate_) })
          else A.tenants_ id := by
  intro l
  induction l with
  | nil => intro A _; exact ⟨Same.refl A, fun id => by simp⟩
  | cons a l ih =>
    intro A hnd
    have hnd' := List.nodup_cons.mp hnd
    simp only [List.foldl_cons]
    have ht : commit A a = A.setRec a
        (if a = A.PUBLIC_ID then { A.tenants_ a with credits_ := 0 }
         else { A.tenants_ a with
                credits_ := u32 (((A.tenants_ a).credits_ : Int) + (A.tenants_ a).rate_) }) := by
      unfold commit
      by_cases hp : a = A.PUBLIC_ID
      · simp only [hp, if_true]
      · simp only [hp, if_false]
    generalize hte : (if a = A.PUBLIC_ID then { A.tenants_ a with credits_ := 0 }
         else { A.tenants_ a with
                credits_ := u32 (((A.tenants_ a).credits_ : Int) + (A.tenants_ a).rate_) }) = t
      at ht
    rw [ht]
    obtain ⟨r1, r2⟩ := ih (A.setRec a t) hnd'.2
    refine ⟨Same.trans (Same.setRec _ _ _) r1, ?_⟩
    intro id
    rw [r2 id]
    by_cases hid : id = a
    · subst hid; simp [hnd'.1, ← hte]
    · simp [hid, setRec_tenants_ne _ _ hid, KarmaAllocator.setRec]

/-! ## Sums over lists of ids -/

theorem sum_change (f g : Nat → Int) :
    ∀ (l S : List Nat), l.Nodup → S.Nodup → (∀ x ∈ S, x ∈ l) →
      (∀ x ∈ l, x ∉ S → g x = f x) →
      (l.map g).sum - (l.map f).sum = (S.map g).sum - (S.map f).sum := by
  intro l
  induction l with
  | nil =>
    intro S _ _ hsub _
    have : S = [] := List.eq_nil_iff_forall_not_mem.mpr (fun x hx => by simpa using hsub x hx)
    subst this; simp
  | cons a l ih =>
    intro S hl hS hsub hout
    have hl' := List.nodup_cons.mp hl
    simp only [List.map_cons, List.sum_cons]
    by_cases ha : a ∈ S
    · have hperm := List.perm_cons_erase ha
      have hS' : (S.erase a).Nodup := hS.erase a
      have hsub' : ∀ x ∈ S.erase a, x ∈ l := by
        intro x hx
        have hxS := List.mem_of_mem_erase hx
        have hne : x ≠ a := fun e => by
          subst e; exact (List.Nodup.not_mem_erase hS) hx
        rcases List.mem_cons.mp (hsub x hxS) with e | e
        · exact absurd e hne
        · exact e
      have hout' : ∀ x ∈ l, x ∉ S.erase a → g x = f x := by
        intro x hx hxn
        apply hout x (List.mem_cons_of_mem _ hx)
        intro hxS
        have hne : x ≠ a := fun e => hl'.1 (e ▸ hx)
        exact hxn ((List.mem_erase_of_ne hne).mpr hxS)
      have := ih (S.erase a) hl'.2 hS' hsub' hout'
      rw [(hperm.map g).sum_eq, (hperm.map f).sum_eq]
      simp only [List.map_cons, List.sum_cons]
      omega
    · have hsub' : ∀ x ∈ S, x ∈ l := by
        intro x hx
        rcases List.mem_cons.mp (hsub x hx) with e | e
        · exact absurd (e ▸ hx) ha
        · exact e
      have := ih S hl'.2 hS hsub' (fun x hx hxn => hout x (List.mem_cons_of_mem _ hx) hxn)
      have hga := hout a (List.mem_cons_self _ _) ha
      omega

/-! ## Donors, borrowers and the real tenants -/

theorem mem_real_donors {A : KarmaAllocator} {fs : Nat} {l : List Nat} {id : Nat} :
    id ∈ real_donors A fs l ↔ id ∈ l ∧ id ≠ A.PUBLIC_ID ∧ (A.tenants_ id).demand_ < fs := by
  unfold real_donors
  simp [List.mem_filter]

theorem mem_real_borrowers {A : KarmaAllocator} {fs : Nat} {l : List Nat} {id : Nat} :
    id ∈ real_borrowers A fs l ↔ id ∈ l ∧ id ≠ A.PUBLIC_ID ∧ (A.tenants_ id).demand_ > fs := by
  unfold real_borrowers
  simp [List.mem_filter]

theorem mem_real_ids {A : KarmaAllocator} {id : Nat} :
    id ∈ real_ids A ↔ id ∈ A.ids ∧ id ≠ A.PUBLIC_ID := by
  unfold real_ids
  simp [List.mem_filter]

theorem real_ids_nodup {A : KarmaAllocator} (h : A.ids.Nodup) : (real_ids A).Nodup :=
  h.filter _

theorem real_ids_length {A : KarmaAllocator} (h : A.ids.Nodup) (hp : A.PUBLIC_ID ∈ A.ids) :
    (real_ids A).length = A.ids.length - 1 := by
  unfold real_ids
  have h1 := List.Nodup.erase_eq_filter h A.PUBLIC_ID
  have h2 := List.length_erase_of_mem hp
  have h3 : (A.ids.filter fun id => decide (id ≠ A.PUBLIC_ID))
      = A.ids.filter (fun x => x != A.PUBLIC_ID) := by
    apply List.filter_congr
    intro x _
    by_cases hx : x = A.PUBLIC_ID <;> simp [hx]
  rw [h3, ← h1, h2]

theorem fair_split (A : KarmaAllocator) (fs : Nat) :
    ∀ l : List Nat,
      ((l.filter fun id => decide (id ≠ A.PUBLIC_ID)).map
          fun id => min (A.tenants_ id).demand_ fs).sum
        + donor_supply A fs l
        = (l.filter fun id => decide (id ≠ A.PUBLIC_ID)).length * fs := by
  intro l
  induction l with
  | nil => simp [donor_supply, real_donors]
  | cons a l ih =>
    unfold donor_supply real_donors at ih ⊢
    by_cases hp : a = A.PUBLIC_ID
    · simp only [List.filter_cons, hp, ne_eq, not_true_eq_false, decide_False, false_and,
        if_false, Bool.false_eq_true]
      simpa using ih
    · by_cases hd : (A.tenants_ a).demand_ < fs
      · simp only [List.filter_cons, hp, ne_eq, not_false_eq_true, decide_True, hd, and_self,
          if_true, List.map_cons, List.sum_cons, List.length_cons]
        simp only [ne_eq] at ih
        have : min (A.tenants_ a).demand_ fs = (A.tenants_ a).demand_ := Nat.min_eq_left (le_of_lt hd)
        rw [this, Nat.add_mul]
        omega
      · simp only [List.filter_cons, hp, ne_eq, not_false_eq_true, decide_True, hd, and_false,
          decide_False, if_true, if_false, List.map_cons, List.sum_cons, List.length_cons,
          Bool.false_eq_true]
        simp only [ne_eq] at ih
        have : min (A.tenants_ a).demand_ fs = fs := Nat.min_eq_right (Nat.le_of_not_lt hd)
        rw [this, Nat.add_mul]
        omega

theorem Valid.supply_le {A : KarmaAllocator} (h : Valid A) :
    A.public_blocks_ + donor_supply A (fair_share_of A) A.ids ≤ A.num_blocks_ := by
  have hsplit := fair_split A (fair_share_of A) A.ids
  obtain ⟨h0, h1, h2, h3, h4, h5, h6, h7⟩ := h
  have hlen := real_ids_length h0 h1
  unfold real_ids at hlen
  rw [hlen] at hsplit
  have hdiv : (A.ids.length - 1) * fair_share_of A ≤ A.num_blocks_ - A.public_blocks_ := by
    unfold fair_share_of
    rw [Nat.mul_comm]
    exact Nat.div_mul_le_self _ _
  omega

theorem donors_nodup {A : KarmaAllocator} (fs : Nat) (h : A.ids.Nodup) (extra : List Nat)
    (he : extra = [A.PUBLIC_ID] ∨ extra = []) : (real_donors A fs A.ids ++ extra).Nodup := by
  have h1 : (real_donors A fs A.ids).Nodup := h.filter _
  rcases he with e | e
  · subst e
    rw [List.nodup_append]
    refine ⟨h1, List.nodup_singleton _, ?_⟩
    intro x hx hy
    simp only [List.mem_singleton] at hy
    subst hy
    exact (mem_real_donors.mp hx).2.1 rfl
  · subst e; simpa using h1

theorem donors_borrowers_disjoint {A : KarmaAllocator} {fs : Nat} {extra : List Nat}
    (he : extra = [A.PUBLIC_ID] ∨ extra = []) {id : Nat}
    (h1 : id ∈ real_donors A fs A.ids ++ extra) (h2 : id ∈ real_borrowers A fs A.ids) :
    False := by
  have hb := mem_real_borrowers.mp h2
  rcases List.mem_append.mp h1 with h | h
  · have hd := mem_real_donors.mp h
    omega
  · rcases he with e | e
    · subst e
      simp only [List.mem_singleton] at h
      exact hb.2.1 h
    · subst e; simp at h

/-! ## borrow_from_poor on the state left by the first loop -/

theorem rec0_real {A : KarmaAllocator} {fs id : Nat} (hp : id ≠ A.PUBLIC_ID) :
    rec0 A fs id = { A.tenants_ id with
      rate_ := 0, credits_ := (A.tenants_ id).credits_ + public_share A,
      allocation_ := min (A.tenants_ id).demand_ fs } := by
  unfold rec0; rw [if_neg hp]

theorem rec0_public {A : KarmaAllocator} {fs : Nat} :
    rec0 A fs A.PUBLIC_ID = { A.tenants_ A.PUBLIC_ID with
      rate_ := 0, credits_ := A.init_credits_ * get_num_tenants A } := by
  unfold rec0; rw [if_pos rfl]

theorem request_rec0 {A : KarmaAllocator} {fs id : Nat} (hw : NoWrap A fs)
    (hid : id ∈ A.ids) (hp : id ≠ A.PUBLIC_ID) (hd : (A.tenants_ id).demand_ > fs) :
    request fs (rec0 A fs id) = capped A fs id := by
  have h1 := hw.demand_lt id hid hp
  rw [rec0_real hp]
  unfold request capped
  have : u32 (((A.tenants_ id).demand_ : Int) - fs) = (A.tenants_ id).demand_ - fs := by
    unfold u32; omega
  simp only [this]
  exact Nat.min_comm _ _

theorem capped_le {A : KarmaAllocator} {fs id : Nat} :
    capped A fs id ≤ (A.tenants_ id).credits_ + public_share A := by
  unfold capped; exact Nat.min_le_right _ _

theorem capped_le_demand {A : KarmaAllocator} {fs id : Nat} :
    capped A fs id ≤ (A.tenants_ id).demand_ - fs := by
  unfold capped; exact Nat.min_le_left _ _

theorem borrow_all_spec {A P : KarmaAllocator} {fs : Nat} (hw : NoWrap A fs)
    (hnd : A.ids.Nodup) (hs : Same A P)
    (hP : ∀ id, P.tenants_ id = if id ∈ A.ids then rec0 A fs id else A.tenants_ id) :
    Same A (borrow_all fs P (real_borrowers A fs A.ids)) ∧
    ∀ id, (borrow_all fs P (real_borrowers A fs A.ids)).tenants_ id
      = if id ∈ real_borrowers A fs A.ids then
          { rec0 A fs id with
            allocation_ := fs + capped A fs id, rate_ := -(capped A fs id : Int) }
        else P.tenants_ id := by
  have hbn : (real_borrowers A fs A.ids).Nodup := hnd.filter _
  obtain ⟨r1, r2⟩ := grant_fold (fun t => (request fs t : Int)) (real_borrowers A fs A.ids) P
    hbn (fun id hid => by rw [hs.2.2.2.2.2]; exact (mem_real_borrowers.mp hid).1)
  refine ⟨Same.trans hs r1, ?_⟩
  intro id
  unfold borrow_all
  rw [r2 id]
  by_cases hid : id ∈ real_borrowers A fs A.ids
  · obtain ⟨h1, h2, h3⟩ := mem_real_borrowers.mp hid
    have hc := hw.credits_lt id h1 h2
    have hfs := hw.fs_lt
    have hcap := @capped_le A fs id
    simp only [hid, if_true, hP id, h1, request_rec0 hw h1 h2 h3]
    have ha : (rec0 A fs id).allocation_ = fs := by
      rw [rec0_real h2]; exact Nat.min_eq_right (le_of_lt h3)
    have hr : (rec0 A fs id).rate_ = 0 := by rw [rec0_real h2]
    rw [ha, hr]
    have e1 : u32 ((fs : Int) + (capped A fs id : Int)) = fs + capped A fs id := by
      unfold u32; omega
    have e2 : i32 (0 - (capped A fs id : Int)) = -(capped A fs id : Int) := by
      unfold i32; omega
    rw [e1, e2]
  · simp only [hid, if_false]

theorem cand_blocks_perm {l1 l2 : List Candidate} (h : l1.Perm l2) :
    cand_blocks l1 = cand_blocks l2 := by
  unfold cand_blocks
  exact (h.map _).sum_eq

theorem poor_ctx_of_valid {A Ab : KarmaAllocator} (h : Valid A) (hs : Same A Ab)
    (extra : List Nat)
    (he : (extra = [A.PUBLIC_ID] ∧ 0 < A.public_blocks_) ∨
      (extra = [] ∧ A.public_blocks_ = 0))
    (hAb : ∀ id ∈ real_donors A (fair_share_of A) A.ids ++ extra,
      Ab.tenants_ id = rec0 A (fair_share_of A) id)
    (hbr : borrower_demand A (fair_share_of A) A.ids
      ≤ A.public_blocks_ + donor_supply A (fair_share_of A) A.ids) :
    PoorCtx Ab (fair_share_of A)
      (((real_donors A (fair_share_of A) A.ids ++ extra).map fun id =>
          (⟨id, (Ab.tenants_ id).credits_, surplus Ab (fair_share_of A) id⟩ : Candidate)
        ).insertionSort (fun a b => a.credits_ ≤ b.credits_))
      (borrower_demand A (fair_share_of A) A.ids) := by
  have hw := h.no_wrap
  have hsup := h.supply_le
  have hfair := h.valid_fair_share
  have hnt := h.valid_num_tenants
  obtain ⟨h0, h1, h2, h3, h4, h5, h6, h7⟩ := h
  generalize hfs : fair_share_of A = fs at *
  have he' : extra = [A.PUBLIC_ID] ∨ extra = [] := by
    rcases he with e | e
    · exact Or.inl e.1
    · exact Or.inr e.1
  have hDn := donors_nodup fs h0 extra he'
  generalize hD : real_donors A fs A.ids ++ extra = D at *
  have hDmem : ∀ id ∈ D, id ∈ A.ids := by
    intro id hid
    rw [← hD] at hid
    rcases List.mem_append.mp hid with h | h
    · exact (mem_real_donors.mp h).1
    · rcases he' with e | e
      · subst e; simp only [List.mem_singleton] at h; subst h; exact h1
      · subst e; simp at h
  -- the surplus and credits of each donor
  have hsur : ∀ id ∈ D, 1 ≤ surplus Ab fs id ∧ surplus Ab fs id < 2147483648 ∧
      (Ab.tenants_ id).credits_ < 2147483648 ∧ (Ab.tenants_ id).rate_ = 0 := by
    intro id hid
    have hrec := hAb id hid
    rw [← hD] at hid
    unfold surplus
    rw [hs.1, hs.2.2.2.1]
    rcases List.mem_append.mp hid with h | h
    · obtain ⟨m1, m2, m3⟩ := mem_real_donors.mp h
      have hc := hw.credits_lt id m1 m2
      have hf := hw.fs_lt
      rw [if_neg m2, hrec, rec0_real m2]
      simp only
      refine ⟨?_, ?_, hc, trivial⟩ <;> (unfold u32; omega)
    · rcases he with ⟨e, hpos⟩ | ⟨e, _⟩
      · subst e
        simp only [List.mem_singleton] at h
        subst h
        rw [if_pos rfl, hrec, rec0_public]
        simp only
        have hi := hw.init_lt
        refine ⟨?_, ?_, hi, trivial⟩ <;> (unfold u32; omega)
      · subst e; simp at h
  generalize hcs0 : (D.map fun id =>
      (⟨id, (Ab.tenants_ id).credits_, surplus Ab fs id⟩ : Candidate)) = cs0
  have hperm := List.perm_insertionSort (fun a b : Candidate => a.credits_ ≤ b.credits_) cs0
  have hids0 : cand_ids cs0 = D := by
    rw [← hcs0]; unfold cand_ids; simp [List.map_map, Function.comp_def]
  have hmem0 : ∀ c ∈ cs0, c.id_ ∈ D ∧ c.credits_ = (Ab.tenants_ c.id_).credits_ ∧
      c.blocks_ = surplus Ab fs c.id_ := by
    intro c hc
    rw [← hcs0] at hc
    obtain ⟨id, hid, rfl⟩ := List.mem_map.mp hc
    exact ⟨hid, rfl, rfl⟩
  have hblocks : cand_blocks cs0 = A.public_blocks_ + donor_supply A fs A.ids := by
    rw [← hcs0, ← hD]
    unfold cand_blocks donor_supply
    simp only [List.map_append, List.map_map, List.sum_append, Function.comp_def]
    have e1 : ((real_donors A fs A.ids).map fun id => (surplus Ab fs id : Int)).sum
        = (((real_donors A fs A.ids).map fun id => fs - (A.tenants_ id).demand_).sum : Nat) := by
      rw [Nat.cast_list_sum, List.map_map]
      congr 1
      apply List.map_congr_left
      intro id hid
      obtain ⟨m1, m2, m3⟩ := mem_real_donors.mp hid
      have hrec := hAb id (by rw [← hD]; exact List.mem_append_left _ hid)
      have hf := hw.fs_lt
      unfold surplus
      rw [hs.1, if_neg m2, hrec, rec0_real m2]
      simp only [Function.comp]
      have e0 : u32 ((fs : Int) - (A.tenants_ id).demand_) = fs - (A.tenants_ id).demand_ := by
        unfold u32; omega
      rw [e0]
    rw [e1]
    rcases he with ⟨e, hpos⟩ | ⟨e, hz⟩
    · subst e
      have : (surplus Ab fs A.PUBLIC_ID : Int) = A.public_blocks_ := by
        unfold surplus
        rw [hs.1, if_pos rfl, hs.2.2.2.1]
        unfold u32; omega
      simp only [List.map_cons, List.map_nil, List.sum_cons, List.sum_nil, this]
      push_cast
      omega
    · subst e
      simp only [List.map_nil, List.sum_nil, hz]
      push_cast
      omega
  exact
    { fair := by rw [hs.same_fair_share]; exact hfair
      nodup := by
        have : (cand_ids (cs0.insertionSort fun a b => a.credits_ ≤ b.credits_)).Perm
            (cand_ids cs0) := hperm.map _
        rw [this.nodup_iff, hids0]; exact hDn
      mem := fun c hc => by
        rw [hs.2.2.2.2.2]
        exact hDmem _ (hmem0 c (hperm.mem_iff.mp hc)).1
      blocks := fun c hc => (hmem0 c (hperm.mem_iff.mp hc)).2.2
      blocks_pos := fun c hc => by
        have hm := hmem0 c (hperm.mem_iff.mp hc)
        rw [hm.2.2]; exact (hsur _ hm.1).1
      blocks_lt := fun c hc => by
        have hm := hmem0 c (hperm.mem_iff.mp hc)
        rw [hm.2.2]; exact (hsur _ hm.1).2.1
      credits_ge := fun c hc => by
        have hm := hmem0 c (hperm.mem_iff.mp hc)
        rw [hm.2.1]; exact Int.natCast_nonneg _
      credits_lt := fun c hc => by
        have hm := hmem0 c (hperm.mem_iff.mp hc)
        rw [hm.2.1]; exact_mod_cast (hsur _ hm.1).2.2.1
      sorted := List.sorted_insertionSort _ _
      rate0 := fun c hc => (hsur _ (hmem0 c (hperm.mem_iff.mp hc)).1).2.2.2
      demand_le := by
        rw [cand_blocks_perm hperm, hblocks]
        exact_mod_cast hbr
      demand_lt := by omega }

theorem length_le_of_nodup_subset {l1 l2 : List Nat} (h1 : l1.Nodup)
    (hsub : ∀ x ∈ l1, x ∈ l2) : l1.length ≤ l2.length :=
  (List.subperm_of_subset h1 hsub).length_le

theorem rate_sum_perm (A : KarmaAllocator) {l1 l2 : List Nat} (h : l1.Perm l2) :
    rate_sum A l1 = rate_sum A l2 := by
  unfold rate_sum
  exact (h.map _).sum_eq

theorem borrow_branch {A : KarmaAllocator} (h : Valid A) (fuel : Nat)
    (hfuel : A.num_blocks_ + A.ids.length + 2 ≤ fuel)
    (hbr : borrower_demand A (fair_share_of A) A.ids
      ≤ A.public_blocks_ + donor_supply A (fair_share_of A) A.ids) :
    ∃ B, borrow_from_poor fuel (phase0 A (fair_share_of A)).A
        (phase0 A (fair_share_of A)).demand (phase0 A (fair_share_of A)).donors
        (phase0 A (fair_share_of A)).borrowers = .ok B ∧
      Same A B ∧
      (∀ id ∈ A.ids,
        (B.tenants_ id).demand_ = (A.tenants_ id).demand_ ∧
        (B.tenants_ id).credits_ = (rec0 A (fair_share_of A) id).credits_ ∧
        (B.tenants_ id).allocation_
          = (if id ∈ real_borrowers A (fair_share_of A) A.ids
             then fair_share_of A + capped A (fair_share_of A) id
             else (rec0 A (fair_share_of A) id).allocation_)) ∧
      (∀ id ∈ real_borrowers A (fair_share_of A) A.ids,
        (B.tenants_ id).rate_ = -(capped A (fair_share_of A) id : Int)) ∧
      (∀ id ∈ A.ids, id ∉ (phase0 A (fair_share_of A)).donors →
        id ∉ real_borrowers A (fair_share_of A) A.ids → (B.tenants_ id).rate_ = 0) ∧
      (∀ id ∈ (phase0 A (fair_share_of A)).donors,
        0 ≤ (B.tenants_ id).rate_ ∧
        (B.tenants_ id).rate_ ≤ surplus A (fair_share_of A) id) ∧
      rate_sum B (phase0 A (fair_share_of A)).donors
        = borrower_demand A (fair_share_of A) A.ids ∧
      ∃ L : Int, ∀ id ∈ (phase0 A (fair_share_of A)).donors,
        (lent L (donor_candidate A (fair_share_of A) id) ≤ (B.tenants_ id).rate_ ∧
          (B.tenants_ id).rate_ ≤ lent L (donor_candidate A (fair_share_of A) id) + 1) ∧
        ((B.tenants_ id).rate_ ≠ 0 →
          (donor_candidate A (fair_share_of A) id).credits_ ≤ L) := by
  have hw := h.no_wrap
  have hfair := h.valid_fair_share
  have hsup := h.supply_le
  obtain ⟨p1, p2, p3, p4, p5, p6⟩ := phase0_spec h
  have hnd : A.ids.Nodup := h.1
  have hpub : A.PUBLIC_ID ∈ A.ids := h.2.1
  generalize hfs : fair_share_of A = fs at *
  generalize hP : phase0 A fs = P at *
  -- the extra donor
  have he : ((if A.public_blocks_ > 0 then [A.PUBLIC_ID] else []) = [A.PUBLIC_ID]
        ∧ 0 < A.public_blocks_) ∨
      ((if A.public_blocks_ > 0 then [A.PUBLIC_ID] else []) = [] ∧ A.public_blocks_ = 0) := by
    by_cases hp : A.public_blocks_ > 0
    · left; simp [hp]
    · right; simp [hp]; omega
  generalize hextra : (if A.public_blocks_ > 0 then [A.PUBLIC_ID] else []) = extra at *
  have he' : extra = [A.PUBLIC_ID] ∨ extra = [] := by
    rcases he with e | e
    · exact Or.inl e.1
    · exact Or.inr e.1
  have hDn := donors_nodup fs hnd extra he'
  have hDmem : ∀ id ∈ real_donors A fs A.ids ++ extra, id ∈ A.ids := by
    intro id hid
    rcases List.mem_append.mp hid with h | h
    · exact (mem_real_donors.mp h).1
    · rcases he' with e | e
      · subst e; simp only [List.mem_singleton] at h; subst h; exact hpub
      · subst e; simp at h
  -- after the borrowers took their blocks
  obtain ⟨b1, b2⟩ := borrow_all_spec hw hnd p1 p2
  generalize hAb : borrow_all fs P.A (real_borrowers A fs A.ids) = Ab at *
  have hAbD : ∀ id ∈ real_donors A fs A.ids ++ extra, Ab.tenants_ id = rec0 A fs id := by
    intro id hid
    have hnb : id ∉ real_borrowers A fs A.ids :=
      fun hb => donors_borrowers_disjoint he' hid hb
    rw [b2 id, if_neg hnb, p2 id, if_pos (hDmem id hid)]
  have hfsAb : get_fair_share Ab = .ok fs := by rw [b1.same_fair_share]; exact hfair
  have hctx := @poor_ctx_of_valid A Ab h b1 extra he
    (by rw [hfs]; exact hAbD) (by rw [hfs]; exact hbr)
  rw [hfs] at hctx
  generalize hcs0 : ((real_donors A fs A.ids ++ extra).map fun id =>
      (⟨id, (Ab.tenants_ id).credits_, surplus Ab fs id⟩ : Candidate)) = cs0 at hctx
  have hperm := List.perm_insertionSort (fun a b : Candidate => a.credits_ ≤ b.credits_) cs0
  have hids0 : cand_ids cs0 = real_donors A fs A.ids ++ extra := by
    rw [← hcs0]; unfold cand_ids; simp [List.map_map, Function.comp_def]
  have hidsP : (cand_ids (cs0.insertionSort fun a b => a.credits_ ≤ b.credits_)).Perm
      (real_donors A fs A.ids ++ extra) := by
    rw [← hids0]; exact hperm.map _
  have hlen : (cs0.insertionSort fun a b => a.credits_ ≤ b.credits_).length ≤ A.ids.length := by
    rw [hperm.length_eq, ← hcs0, List.length_map]
    exact length_le_of_nodup_subset hDn hDmem
  have hdl : borrower_demand A fs A.ids < fuel := by omega
  obtain ⟨first, B, hfirst, hloop, r1, r2, r3, r4, r5, L, r6⟩ :=
    poor_loop_total hctx A.DUMMY_ID fuel hdl (by omega)
  have hsur : ∀ id, surplus Ab fs id = surplus A fs id := by
    intro id
    apply surplus_congr fs b1
    intro j
    rw [b2 j]
    by_cases hb : j ∈ real_borrowers A fs A.ids
    · simp only [hb, if_true]
      rw [rec0_real (mem_real_borrowers.mp hb).2.1]
    · simp only [hb, if_false, p2 j]
      by_cases hj : j ∈ A.ids
      · simp only [hj, if_true]
        by_cases hpb : j = A.PUBLIC_ID
        · subst hpb; rw [rec0_public]
        · rw [rec0_real hpb]
      · simp only [hj, if_false]
  have hdc := donor_candidates_spec fs (real_donors A fs A.ids ++ extra) Ab hfsAb
    (fun id hid => by rw [b1.2.2.2.2.2]; exact hDmem id hid)
  rw [hcs0] at hdc
  refine ⟨B, ?_, Same.trans b1 r1, ?_, ?_, ?_, ?_, ?_, L, ?_⟩
  · unfold borrow_from_poor
    rw [p1.same_fair_share, hfair, p3, p4, p6]
    simp only [hAb, hdc, sorted_donors, p1.2.1, hfirst]
    exact hloop
  · intro id hid
    obtain ⟨f1, f2, f3⟩ := r2 id
    rw [f1, f2, f3, b2 id]
    by_cases hb : id ∈ real_borrowers A fs A.ids
    · have := (mem_real_borrowers.mp hb).2.1
      simp [hb, rec0_real this]
    · by_cases hpb : id = A.PUBLIC_ID
      · subst hpb; simp [hb, p2, hid, rec0_public]
      · simp [hb, p2 id, hid, rec0_real hpb]
  · intro id hb
    have hnd' : id ∉ cand_ids (cs0.insertionSort fun a b => a.credits_ ≤ b.credits_) :=
      fun hd => donors_borrowers_disjoint he' (hidsP.mem_iff.mp hd) hb
    rw [r3 id hnd', b2 id, if_pos hb]
  · intro id hid hnd' hnb
    rw [p3] at hnd'
    have hnc : id ∉ cand_ids (cs0.insertionSort fun a b => a.credits_ ≤ b.credits_) :=
      fun hd => hnd' (hidsP.mem_iff.mp hd)
    rw [r3 id hnc, b2 id, if_neg hnb, p2 id, if_pos hid]
    by_cases hpb : id = A.PUBLIC_ID
    · subst hpb; rw [rec0_public]
    · rw [rec0_real hpb]
  · intro id hid
    rw [p3] at hid
    have := r4 id (hidsP.mem_iff.mpr hid)
    rw [hsur] at this
    exact this
  · rw [p3, ← rate_sum_perm B hidsP]
    exact r5
  · intro id hid
    rw [p3] at hid
    have hc : (⟨id, (Ab.tenants_ id).credits_, surplus Ab fs id⟩ : Candidate)
        ∈ cs0.insertionSort fun a b => a.credits_ ≤ b.credits_ :=
      hperm.mem_iff.mpr (by rw [← hcs0]; exact List.mem_map.mpr ⟨id, hid, rfl⟩)
    have hd : donor_candidate A fs id
        = ⟨id, (Ab.tenants_ id).credits_, surplus Ab fs id⟩ := by
      unfold donor_candidate
      rw [hAbD id hid, hsur]
    rw [hd]
    exact r6 _ hc

/-! ## donate_to_rich on the state left by the first loop -/

theorem alloc_sum_perm (A : KarmaAllocator) {l1 l2 : List Nat} (h : l1.Perm l2) :
    alloc_sum A l1 = alloc_sum A l2 := by
  unfold alloc_sum
  exact (h.map _).sum_eq

theorem alloc_sum_const (A : KarmaAllocator) (l : List Nat) (v : Nat)
    (h : ∀ id ∈ l, (A.tenants_ id).allocation_ = v) : alloc_sum A l = l.length * v := by
  unfold alloc_sum
  induction l with
  | nil => simp
  | cons a t ih =>
    simp only [List.map_cons, List.sum_cons, List.length_cons]
    rw [h a (List.mem_cons_self _ _), ih (fun id hid => h id (List.mem_cons_of_mem _ hid))]
    push_cast; ring

theorem rich_ctx_of_valid {A Ad : KarmaAllocator} (h : Valid A) (hs : Same A Ad)
    (hAd : ∀ id ∈ real_borrowers A (fair_share_of A) A.ids,
      Ad.tenants_ id = rec0 A (fair_share_of A) id)
    (hbr : A.public_blocks_ + donor_supply A (fair_share_of A) A.ids
      < borrower_demand A (fair_share_of A) A.ids) :
    RichCtx Ad (fair_share_of A)
      (((real_borrowers A (fair_share_of A) A.ids).map fun id =>
          (⟨id, (Ad.tenants_ id).credits_, request (fair_share_of A) (Ad.tenants_ id)⟩ :
            Candidate)
        ).insertionSort (fun a b => a.credits_ ≥ b.credits_))
      (A.public_blocks_ + donor_supply A (fair_share_of A) A.ids) := by
  have hw := h.no_wrap
  have hsup := h.supply_le
  obtain ⟨h0, h1, h2, h3, h4, h5, h6, h7⟩ := h
  generalize hfs : fair_share_of A = fs at *
  have hBn : (real_borrowers A fs A.ids).Nodup := h0.filter _
  have hfacts : ∀ id ∈ real_borrowers A fs A.ids,
      id ∈ A.ids ∧ (Ad.tenants_ id).credits_ < 2147483648 ∧
      (Ad.tenants_ id).allocation_ < 2147483648 ∧ (Ad.tenants_ id).rate_ = 0 ∧
      request fs (Ad.tenants_ id) = capped A fs id ∧
      (1 ≤ (Ad.tenants_ id).credits_ → 1 ≤ capped A fs id) := by
    intro id hid
    obtain ⟨m1, m2, m3⟩ := mem_real_borrowers.mp hid
    have hc := hw.credits_lt id m1 m2
    have hf := hw.fs_lt
    rw [hAd id hid, request_rec0 hw m1 m2 m3, rec0_real m2]
    simp only
    refine ⟨m1, hc, ?_, trivial, trivial, ?_⟩
    · exact lt_of_le_of_lt (Nat.min_le_right _ _) hf
    · intro hpos
      unfold capped
      exact le_min (by omega) hpos
  generalize hcs0 : ((real_borrowers A fs A.ids).map fun id =>
      (⟨id, (Ad.tenants_ id).credits_, request fs (Ad.tenants_ id)⟩ : Candidate)) = cs0
  have hperm := List.perm_insertionSort (fun a b : Candidate => a.credits_ ≥ b.credits_) cs0
  have hids0 : cand_ids cs0 = real_borrowers A fs A.ids := by
    rw [← hcs0]; unfold cand_ids; simp [List.map_map, Function.comp_def]
  have hmem0 : ∀ c ∈ cs0, c.id_ ∈ real_borrowers A fs A.ids ∧
      c.credits_ = (Ad.tenants_ c.id_).credits_ ∧
      c.blocks_ = request fs (Ad.tenants_ c.id_) := by
    intro c hc
    rw [← hcs0] at hc
    obtain ⟨id, hid, rfl⟩ := List.mem_map.mp hc
    exact ⟨hid, rfl, rfl⟩
  have hblocks : cand_blocks cs0 = borrower_demand A fs A.ids := by
    rw [← hcs0]
    unfold cand_blocks borrower_demand
    rw [Nat.cast_list_sum, List.map_map, List.map_map]
    congr 1
    apply List.map_congr_left
    intro id hid
    simp only [Function.comp]
    rw [(hfacts id hid).2.2.2.2.1]
  exact
    { nodup := by
        have : (cand_ids (cs0.insertionSort fun a b => a.credits_ ≥ b.credits_)).Perm
            (cand_ids cs0) := hperm.map _
        rw [this.nodup_iff, hids0]; exact hBn
      mem := fun c hc => by
        rw [hs.2.2.2.2.2]
        exact (hfacts _ (hmem0 c (hperm.mem_iff.mp hc)).1).1
      blocks := fun c hc => (hmem0 c (hperm.mem_iff.mp hc)).2.2
      credits := fun c hc => (hmem0 c (hperm.mem_iff.mp hc)).2.1
      credits_lt := fun c hc => (hfacts _ (hmem0 c (hperm.mem_iff.mp hc)).1).2.1
      alloc_lt := fun c hc => (hfacts _ (hmem0 c (hperm.mem_iff.mp hc)).1).2.2.1
      rate0 := fun c hc => (hfacts _ (hmem0 c (hperm.mem_iff.mp hc)).1).2.2.2.1
      sorted := List.sorted_insertionSort _ _
      blocks_pos := fun c hc hpos => by
        have hm := hmem0 c (hperm.mem_iff.mp hc)
        have hf := hfacts _ hm.1
        rw [hm.2.2, hf.2.2.2.2.1]
        apply hf.2.2.2.2.2
        rw [hm.2.1] at hpos
        exact_mod_cast hpos
      supply_lt := by
        rw [cand_blocks_perm hperm, hblocks]
        exact_mod_cast hbr
      supply_bd := by omega }

theorem donate_branch {A : KarmaAllocator} (h : Valid A) (fuel : Nat)
    (hfuel : A.num_blocks_ + A.ids.length + 2 ≤ fuel)
    (hbr : A.public_blocks_ + donor_supply A (fair_share_of A) A.ids
      < borrower_demand A (fair_share_of A) A.ids) :
    ∃ B, donate_to_rich fuel (phase0 A (fair_share_of A)).A
        (phase0 A (fair_share_of A)).supply (phase0 A (fair_share_of A)).donors
        (phase0 A (fair_share_of A)).borrowers = .ok B ∧
      Same A B ∧
      (∀ id ∈ A.ids,
        (B.tenants_ id).demand_ = (A.tenants_ id).demand_ ∧
        (B.tenants_ id).credits_ = (rec0 A (fair_share_of A) id).credits_) ∧
      (∀ id ∈ A.ids, id ∉ real_borrowers A (fair_share_of A) A.ids →
        (B.tenants_ id).allocation_ = (rec0 A (fair_share_of A) id).allocation_) ∧
      (∀ id ∈ real_borrowers A (fair_share_of A) A.ids,
        fair_share_of A ≤ (B.tenants_ id).allocation_ ∧
        (B.tenants_ id).allocation_ ≤ fair_share_of A + capped A (fair_share_of A) id ∧
        (B.tenants_ id).rate_ = (fair_share_of A : Int) - (B.tenants_ id).allocation_) ∧
      (∀ id ∈ (phase0 A (fair_share_of A)).donors,
        (B.tenants_ id).rate_ = surplus A (fair_share_of A) id) ∧
      (∀ id ∈ A.ids, id ∉ (phase0 A (fair_share_of A)).donors →
        id ∉ real_borrowers A (fair_share_of A) A.ids → (B.tenants_ id).rate_ = 0) ∧
      alloc_sum B (real_borrowers A (fair_share_of A) A.ids)
        ≤ (real_borrowers A (fair_share_of A) A.ids).length * fair_share_of A
          + (A.public_blocks_ + donor_supply A (fair_share_of A) A.ids) ∧
      (∀ a ∈ real_borrowers A (fair_share_of A) A.ids,
        ∀ b ∈ real_borrowers A (fair_share_of A) A.ids,
        (A.tenants_ b).credits_ < (A.tenants_ a).credits_ →
        (B.tenants_ b).allocation_ ≠ fair_share_of A →
        (B.tenants_ a).allocation_ = fair_share_of A + capped A (fair_share_of A) a ∨
        ((A.tenants_ a).credits_ + public_share A : Int)
            - ((B.tenants_ a).allocation_ - fair_share_of A)
          ≤ (A.tenants_ b).credits_ + public_share A) := by
  have hw := h.no_wrap
  have hfair := h.valid_fair_share
  have hsup := h.supply_le
  obtain ⟨p1, p2, p3, p4, p5, p6⟩ := phase0_spec h
  have hnd : A.ids.Nodup := h.1
  have hpub : A.PUBLIC_ID ∈ A.ids := h.2.1
  have hnb : A.num_blocks_ < 2147483648 := h.2.2.2.2.2.1
  have hpl : A.public_blocks_ ≤ A.num_blocks_ := h.2.2.2.2.1
  generalize hfs : fair_share_of A = fs at *
  generalize hP : phase0 A fs = P at *
  have he' : (if A.public_blocks_ > 0 then [A.PUBLIC_ID] else []) = [A.PUBLIC_ID] ∨
      (if A.public_blocks_ > 0 then [A.PUBLIC_ID] else []) = [] := by
    by_cases hp : A.public_blocks_ > 0
    · left; simp [hp]
    · right; simp [hp]
  generalize hextra : (if A.public_blocks_ > 0 then [A.PUBLIC_ID] else []) = extra at *
  have hDn := donors_nodup fs hnd extra he'
  have hDmem : ∀ id ∈ real_donors A fs A.ids ++ extra, id ∈ A.ids := by
    intro id hid
    rcases List.mem_append.mp hid with h | h
    · exact (mem_real_donors.mp h).1
    · rcases he' with e | e
      · subst e; simp only [List.mem_singleton] at h; subst h; exact hpub
      · subst e; simp at h
  -- after the donors were paid
  obtain ⟨Ad, hAd, d1, d2⟩ := donate_all_spec fs (real_donors A fs A.ids ++ extra) P.A
    (by rw [p1.same_fair_share]; exact hfair) hDn
    (fun id hid => by rw [p1.2.2.2.2.2]; exact hDmem id hid)
  have hsAd : Same A Ad := Same.trans p1 d1
  have hAdB : ∀ id ∈ real_borrowers A fs A.ids, Ad.tenants_ id = rec0 A fs id := by
    intro id hid
    have hnd' : id ∉ real_donors A fs A.ids ++ extra :=
      fun hd => donors_borrowers_disjoint he' hd hid
    rw [d2 id, if_neg hnd', p2 id, if_pos (mem_real_borrowers.mp hid).1]
  have hctx := @rich_ctx_of_valid A Ad h hsAd (by rw [hfs]; exact hAdB)
    (by rw [hfs]; exact hbr)
  rw [hfs] at hctx
  generalize hcs0 : ((real_borrowers A fs A.ids).map fun id =>
      (⟨id, (Ad.tenants_ id).credits_, request fs (Ad.tenants_ id)⟩ : Candidate)) = cs0
    at hctx
  have hperm := List.perm_insertionSort (fun a b : Candidate => a.credits_ ≥ b.credits_) cs0
  have hids0 : cand_ids cs0 = real_borrowers A fs A.ids := by
    rw [← hcs0]; unfold cand_ids; simp [List.map_map, Function.comp_def]
  have hidsP : (cand_ids (cs0.insertionSort fun a b => a.credits_ ≥ b.credits_)).Perm
      (real_borrowers A fs A.ids) := by
    rw [← hids0]; exact hperm.map _
  have hBmem : ∀ id ∈ real_borrowers A fs A.ids, id ∈ A.ids :=
    fun id hid => (mem_real_borrowers.mp hid).1
  have hlen : (cs0.insertionSort fun a b => a.credits_ ≥ b.credits_).length ≤ A.ids.length := by
    rw [hperm.length_eq, ← hcs0, List.length_map]
    exact length_le_of_nodup_subset (hnd.filter _) hBmem
  obtain ⟨first, B, hfirst, hloop, r1, r2, r3, r4, r5, r6⟩ :=
    rich_loop_total hctx A.DUMMY_ID fuel (by omega) (by omega)
  have hbc := borrower_candidates_spec fs (real_borrowers A fs A.ids) Ad
    (fun id hid => by rw [hsAd.2.2.2.2.2]; exact hBmem id hid)
  rw [hcs0] at hbc
  -- the surplus seen after the first loop is the surplus of the initial state
  have hsur : ∀ id, surplus P.A fs id = surplus A fs id := by
    intro id
    apply surplus_congr fs p1
    intro j
    rw [p2 j]
    by_cases hj : j ∈ A.ids
    · simp only [hj, if_true]
      by_cases hpb : j = A.PUBLIC_ID
      · subst hpb; rw [rec0_public]
      · rw [rec0_real hpb]
    · simp only [hj, if_false]
  have hrec_alloc : ∀ id ∈ real_borrowers A fs A.ids, (rec0 A fs id).allocation_ = fs := by
    intro id hid
    obtain ⟨m1, m2, m3⟩ := mem_real_borrowers.mp hid
    rw [rec0_real m2]
    exact Nat.min_eq_right (le_of_lt m3)
  refine ⟨B, ?_, Same.trans hsAd r1, ?_, ?_, ?_, ?_, ?_, ?_, ?_⟩
  · unfold donate_to_rich
    rw [p1.same_fair_share, hfair, p3, p4, p5]
    simp only [hAd, hbc, sorted_borrowers, p1.2.1, hfirst]
    exact hloop
  · intro id hid
    obtain ⟨f1, f2⟩ := r2 id
    rw [f1, f2, d2 id]
    by_cases hd : id ∈ real_donors A fs A.ids ++ extra
    · by_cases hpb : id = A.PUBLIC_ID
      · subst hpb; simp [hd, p2, hid, rec0_public]
      · simp [hd, p2 id, hid, rec0_real hpb]
    · by_cases hpb : id = A.PUBLIC_ID
      · subst hpb; simp [hd, p2, hid, rec0_public]
      · simp [hd, p2 id, hid, rec0_real hpb]
  · intro id hid hnb'
    have hnc : id ∉ cand_ids (cs0.insertionSort fun a b => a.credits_ ≥ b.credits_) :=
      fun hd => hnb' (hidsP.mem_iff.mp hd)
    rw [r3 id hnc, d2 id]
    by_cases hd : id ∈ real_donors A fs A.ids ++ extra
    · by_cases hpb : id = A.PUBLIC_ID
      · subst hpb; simp [hd, p2, hid, rec0_public]
      · simp [hd, p2 id, hid, rec0_real hpb]
    · simp [hd, p2 id, hid]
  · intro id hid
    have hg := r4 id (hidsP.mem_iff.mpr hid)
    obtain ⟨m1, m2, m3⟩ := mem_real_borrowers.mp hid
    rw [hAdB id hid, hrec_alloc id hid, request_rec0 hw m1 m2 m3] at hg
    exact hg
  · intro id hid
    rw [p3] at hid
    have hnc : id ∉ cand_ids (cs0.insertionSort fun a b => a.credits_ ≥ b.credits_) :=
      fun hd => donors_borrowers_disjoint he' hid (hidsP.mem_iff.mp hd)
    rw [r3 id hnc, d2 id, if_pos hid, hsur id]
    have h0 : (P.A.tenants_ id).rate_ = 0 := by
      rw [p2 id, if_pos (hDmem id hid)]
      by_cases hpb : id = A.PUBLIC_ID
      · subst hpb; rw [rec0_public]
      · rw [rec0_real hpb]
    have hlt : surplus A fs id < 2147483648 := by
      have hf := hw.fs_lt
      unfold surplus
      by_cases hpb : id = A.PUBLIC_ID
      · rw [if_pos hpb]; unfold u32; omega
      · rw [if_neg hpb]
        rcases List.mem_append.mp hid with hm | hm
        · have := (mem_real_donors.mp hm).2.2
          unfold u32; omega
        · rcases he' with e | e
          · subst e; simp only [List.mem_singleton] at hm; exact absurd hm hpb
          · subst e; simp at hm
    simp only [h0]
    rw [i32_eq _ (by omega) (by omega)]
    ring
  · intro id hid hnd' hnb'
    rw [p3] at hnd'
    have hnc : id ∉ cand_ids (cs0.insertionSort fun a b => a.credits_ ≥ b.credits_) :=
      fun hd => hnb' (hidsP.mem_iff.mp hd)
    rw [r3 id hnc, d2 id, if_neg hnd', p2 id, if_pos hid]
    by_cases hpb : id = A.PUBLIC_ID
    · subst hpb; rw [rec0_public]
    · rw [rec0_real hpb]
  · have e1 := alloc_sum_perm B hidsP
    have e2 := alloc_sum_perm Ad hidsP
    have e3 := alloc_sum_const Ad (real_borrowers A fs A.ids) fs
      (fun id hid => by rw [hAdB id hid, hrec_alloc id hid])
    have : alloc_sum B (real_borrowers A fs A.ids)
        ≤ ((real_borrowers A fs A.ids).length * fs : Nat)
          + ((A.public_blocks_ + donor_supply A fs A.ids : Nat) : Int) := by
      push_cast
      push_cast at r5 e3
      omega
    exact_mod_cast this
  · intro a ha b hb hlt hne
    have hcand : ∀ id ∈ real_borrowers A fs A.ids,
        (⟨id, (Ad.tenants_ id).credits_, request fs (Ad.tenants_ id)⟩ : Candidate)
          ∈ cs0.insertionSort fun a b => a.credits_ ≥ b.credits_ := fun id hid =>
      hperm.mem_iff.mpr (by rw [← hcs0]; exact List.mem_map.mpr ⟨id, hid, rfl⟩)
    obtain ⟨a1, a2, a3⟩ := mem_real_borrowers.mp ha
    obtain ⟨b1, b2, b3⟩ := mem_real_borrowers.mp hb
    have hA := hAdB a ha
    have hB := hAdB b hb
    have hra := @rec0_real A fs a a2
    have hrb := @rec0_real A fs b b2
    have hca : (Ad.tenants_ a).credits_ = (A.tenants_ a).credits_ + public_share A := by
      rw [hA, hra]
    have hcb : (Ad.tenants_ b).credits_ = (A.tenants_ b).credits_ + public_share A := by
      rw [hB, hrb]
    have haa : (Ad.tenants_ a).allocation_ = fs := by rw [hA]; exact hrec_alloc a ha
    have hab : (Ad.tenants_ b).allocation_ = fs := by rw [hB]; exact hrec_alloc b hb
    have hqa : request fs (Ad.tenants_ a) = capped A fs a := by
      rw [hA]; exact request_rec0 hw a1 a2 a3
    have key := r6 _ (hcand a ha) _ (hcand b hb)
      (by simp only; rw [hca, hcb]; push_cast; omega)
      (by simp only; rw [hab]; exact hne)
    simp only [hca, haa, hqa, hcb] at key
    rcases key with k1 | k1
    · left
      exact_mod_cast k1
    · right
      push_cast at k1
      exact k1

/-! ## Sums over the real tenants -/

theorem real_borrowers_sub {A : KarmaAllocator} {fs : Nat} {id : Nat}
    (h : id ∈ real_borrowers A fs A.ids) : id ∈ real_ids A :=
  mem_real_ids.mpr ⟨(mem_real_borrowers.mp h).1, (mem_real_borrowers.mp h).2.1⟩

theorem min_sum_borrowers (A : KarmaAllocator) (fs : Nat) :
    ((real_borrowers A fs A.ids).map fun id => ((min (A.tenants_ id).demand_ fs : Nat) : Int)).sum
      = ((real_borrowers A fs A.ids).length * fs : Nat) := by
  have : ∀ l : List Nat, (∀ id ∈ l, fs < (A.tenants_ id).demand_) →
      (l.map fun id => ((min (A.tenants_ id).demand_ fs : Nat) : Int)).sum
        = ((l.length * fs : Nat) : Int) := by
    intro l
    induction l with
    | nil => intro _; simp
    | cons a t ih =>
      intro h
      simp only [List.map_cons, List.sum_cons, List.length_cons]
      rw [ih (fun id hid => h id (List.mem_cons_of_mem _ hid)),
        Nat.min_eq_right (le_of_lt (h a (List.mem_cons_self _ _)))]
      push_cast; ring
  exact this _ (fun id hid => (mem_real_borrowers.mp hid).2.2)

theorem capped_sum_borrowers (A : KarmaAllocator) (fs : Nat) :
    ((real_borrowers A fs A.ids).map fun id => (capped A fs id : Int)).sum
      = (borrower_demand A fs A.ids : Nat) := by
  unfold borrower_demand
  rw [Nat.cast_list_sum, List.map_map]
  rfl

/-- The allocations of the real tenants add up to the fair-share part plus what the
borrowers received beyond it. -/
theorem alloc_sum_real {A B : KarmaAllocator} {fs : Nat} (hnd : A.ids.Nodup)
    (hrest : ∀ id ∈ real_ids A, id ∉ real_borrowers A fs A.ids →
      (B.tenants_ id).allocation_ = min (A.tenants_ id).demand_ fs) :
    alloc_sum B (real_ids A)
      = ((real_ids A).map fun id => ((min (A.tenants_ id).demand_ fs : Nat) : Int)).sum
        + (alloc_sum B (real_borrowers A fs A.ids)
            - ((real_borrowers A fs A.ids).length * fs : Nat)) := by
  have key := sum_change (fun id => ((min (A.tenants_ id).demand_ fs : Nat) : Int))
    (fun id => ((B.tenants_ id).allocation_ : Int)) (real_ids A) (real_borrowers A fs A.ids)
    (real_ids_nodup hnd) (hnd.filter _) (fun x hx => real_borrowers_sub hx)
    (fun x hx hnx => by simp only; rw [hrest x hx hnx])
  rw [min_sum_borrowers] at key
  unfold alloc_sum
  omega

theorem fair_split_int {A : KarmaAllocator} (fs : Nat) :
    ((real_ids A).map fun id => ((min (A.tenants_ id).demand_ fs : Nat) : Int)).sum
      + (donor_supply A fs A.ids : Nat) = ((real_ids A).length * fs : Nat) := by
  have := fair_split A fs A.ids
  have h2 : ((real_ids A).map fun id => ((min (A.tenants_ id).demand_ fs : Nat) : Int)).sum
      = (((real_ids A).map fun id => min (A.tenants_ id).demand_ fs).sum : Nat) := by
    rw [Nat.cast_list_sum, List.map_map]; rfl
  rw [h2]
  unfold real_ids
  exact_mod_cast this

theorem sum_filter_ne (g : Nat → Int) (p : Nat) :
    ∀ l : List Nat, l.Nodup → p ∈ l →
      (l.map g).sum = ((l.filter fun id => decide (id ≠ p)).map g).sum + g p := by
  intro l
  induction l with
  | nil => intro _ h; simp at h
  | cons a t ih =>
    intro hnd hp
    have hnd' := List.nodup_cons.mp hnd
    by_cases ha : a = p
    · subst ha
      have : (t.filter fun id => decide (id ≠ a)) = t := by
        apply List.filter_eq_self.mpr
        intro x hx
        have : x ≠ a := fun e => hnd'.1 (e ▸ hx)
        simp [this]
      simp only [List.filter_cons, ne_eq, not_true_eq_false, decide_False, List.map_cons,
        List.sum_cons, Bool.false_eq_true, if_false]
      simp only [ne_eq] at this
      rw [this]; ring
    · have hp' : p ∈ t := by
        rcases List.mem_cons.mp hp with e | e
        · exact absurd e.symm ha
        · exact e
      simp only [List.filter_cons, ne_eq, ha, not_false_eq_true, decide_True, List.map_cons,
        List.sum_cons, if_true]
      have := ih hnd'.2 hp'
      simp only [ne_eq] at this
      rw [this]; ring

/-! ## The dispatch of `allocate` -/

theorem surplus_real_donor {A : KarmaAllocator} {fs id : Nat} (hf : fs < 2147483648)
    (hp : id ≠ A.PUBLIC_ID) (hd : (A.tenants_ id).demand_ < fs) :
    (surplus A fs id : Int) = (fs : Int) - (A.tenants_ id).demand_ := by
  unfold surplus
  rw [if_neg hp]
  unfold u32; omega

theorem surplus_public {A : KarmaAllocator} {fs : Nat} (hp : A.public_blocks_ < 2147483648) :
    surplus A fs A.PUBLIC_ID = A.public_blocks_ := by
  unfold surplus
  rw [if_pos rfl]
  unfold u32; omega

theorem rate_sum_append (B : KarmaAllocator) (l1 l2 : List Nat) :
    rate_sum B (l1 ++ l2) = rate_sum B l1 + rate_sum B l2 := by
  unfold rate_sum; simp

theorem rate_sum_borrowers {A B : KarmaAllocator} {fs : Nat}
    (h : ∀ id ∈ real_borrowers A fs A.ids, (B.tenants_ id).rate_ = -(capped A fs id : Int)) :
    rate_sum B (real_borrowers A fs A.ids) = -(borrower_demand A fs A.ids : Int) := by
  rw [← capped_sum_borrowers]
  unfold rate_sum
  generalize real_borrowers A fs A.ids = l at h
  induction l with
  | nil => simp
  | cons a t ih =>
    simp only [List.map_cons, List.sum_cons]
    rw [h a (List.mem_cons_self _ _), ih (fun id hid => h id (List.mem_cons_of_mem _ hid))]
    ring

theorem alloc_sum_borrowers {A B : KarmaAllocator} {fs : Nat}
    (h : ∀ id ∈ real_borrowers A fs A.ids, (B.tenants_ id).allocation_ = fs + capped A fs id) :
    alloc_sum B (real_borrowers A fs A.ids)
      = ((real_borrowers A fs A.ids).length * fs : Nat) + (borrower_demand A fs A.ids : Int) := by
  rw [← capped_sum_borrowers]
  unfold alloc_sum
  generalize real_borrowers A fs A.ids = l at h
  induction l with
  | nil => simp
  | cons a t ih =>
    simp only [List.map_cons, List.sum_cons, List.length_cons]
    rw [h a (List.mem_cons_self _ _), ih (fun id hid => h id (List.mem_cons_of_mem _ hid))]
    push_cast; ring

theorem sweep_total {A : KarmaAllocator} (h : Valid A) (fuel : Nat)
    (hfuel : enough_fuel A ≤ fuel) :
    ∃ B, (if (phase0 A (fair_share_of A)).supply ≥ (phase0 A (fair_share_of A)).demand then
          borrow_from_poor fuel (phase0 A (fair_share_of A)).A
            (phase0 A (fair_share_of A)).demand (phase0 A (fair_share_of A)).donors
            (phase0 A (fair_share_of A)).borrowers
        else
          donate_to_rich fuel (phase0 A (fair_share_of A)).A
            (phase0 A (fair_share_of A)).supply (phase0 A (fair_share_of A)).donors
            (phase0 A (fair_share_of A)).borrowers) = .ok B ∧
      Swept A B ∧
      ∀ id ∈ A.ids, (B.tenants_ id).credits_ = (rec0 A (fair_share_of A) id).credits_ := by
  have hw := h.no_wrap
  have hf := h.fair_lt
  obtain ⟨p1, p2, p3, p4, p5, p6⟩ := phase0_spec h
  have hnd : A.ids.Nodup := h.1
  have hpub : A.PUBLIC_ID ∈ A.ids := h.2.1
  have hnb : A.num_blocks_ < 2147483648 := h.2.2.2.2.2.1
  have hpl : A.public_blocks_ ≤ A.num_blocks_ := h.2.2.2.2.1
  have hsplit := fair_split_int (A := A) (fair_share_of A)
  unfold enough_fuel at hfuel
  have hDmem : ∀ id, id ∈ (phase0 A (fair_share_of A)).donors →
      (id ∈ real_donors A (fair_share_of A) A.ids) ∨
      (id = A.PUBLIC_ID ∧ 0 < A.public_blocks_) := by
    intro id hid
    rw [p3] at hid
    rcases List.mem_append.mp hid with hm | hm
    · exact Or.inl hm
    · by_cases hp : A.public_blocks_ > 0
      · simp only [hp, if_true, List.mem_singleton] at hm
        exact Or.inr ⟨hm, hp⟩
      · simp [hp] at hm
  have hDof : ∀ id, id ∈ real_donors A (fair_share_of A) A.ids →
      id ∈ (phase0 A (fair_share_of A)).donors := by
    intro id hid; rw [p3]; exact List.mem_append_left _ hid
  have hDpub : 0 < A.public_blocks_ → A.PUBLIC_ID ∈ (phase0 A (fair_share_of A)).donors := by
    intro hp; rw [p3]; apply List.mem_append_right; simp [hp]
  have hDn : (phase0 A (fair_share_of A)).donors.Nodup := by
    rw [p3]
    apply donors_nodup _ hnd
    by_cases hp : A.public_blocks_ > 0
    · left; simp [hp]
    · right; simp [hp]
  by_cases hbr : (phase0 A (fair_share_of A)).supply ≥ (phase0 A (fair_share_of A)).demand
  · -- borrow_from_poor
    have hbr' : borrower_demand A (fair_share_of A) A.ids
        ≤ A.public_blocks_ + donor_supply A (fair_share_of A) A.ids := by
      rw [← p5, ← p6]; exact hbr
    obtain ⟨B, hB, b1, b2, b3, b4, b5, b6, b7⟩ := borrow_branch h fuel hfuel hbr'
    have hrest : ∀ id ∈ real_ids A, id ∉ real_borrowers A (fair_share_of A) A.ids →
        (B.tenants_ id).allocation_ = min (A.tenants_ id).demand_ (fair_share_of A) := by
      intro id hid hnb'
      obtain ⟨m1, m2⟩ := mem_real_ids.mp hid
      rw [(b2 id m1).2.2, if_neg hnb', rec0_real m2]
    have hballoc : ∀ id ∈ real_borrowers A (fair_share_of A) A.ids,
        (B.tenants_ id).allocation_ = fair_share_of A + capped A (fair_share_of A) id := by
      intro id hid
      rw [(b2 id (mem_real_borrowers.mp hid).1).2.2, if_pos hid]
    refine ⟨B, by rw [if_pos hbr]; exact hB, ?_, fun id hid => (b2 id hid).2.1⟩
    refine
      { same := b1
        demand := fun id hid => (b2 id hid).1
        low := ?_, high := ?_, total := ?_, poor := ?_, rich := ?_, level := fun _ => b7,
        paid := fun _ => b6, rich_first := fun hlt => absurd hlt (by omega) }
    · intro id hid hle
      obtain ⟨m1, m2⟩ := mem_real_ids.mp hid
      have hnb' : id ∉ real_borrowers A (fair_share_of A) A.ids :=
        fun hb => by have := (mem_real_borrowers.mp hb).2.2; omega
      rw [hrest id hid hnb', Nat.min_eq_left hle]
      refine ⟨rfl, ?_⟩
      by_cases hlt : (A.tenants_ id).demand_ < fair_share_of A
      · have hd := hDof id (mem_real_donors.mpr ⟨m1, m2, hlt⟩)
        have := b5 id hd
        rw [surplus_real_donor hf m2 hlt] at this
        exact this
      · have hnd' : id ∉ (phase0 A (fair_share_of A)).donors := by
          intro hd
          rcases hDmem id hd with hm | hm
          · exact hlt (mem_real_donors.mp hm).2.2
          · exact m2 hm.1
        rw [b4 id m1 hnd' hnb']
        omega
    · intro id hid hgt
      obtain ⟨m1, m2⟩ := mem_real_ids.mp hid
      have hb : id ∈ real_borrowers A (fair_share_of A) A.ids :=
        mem_real_borrowers.mpr ⟨m1, m2, hgt⟩
      rw [hballoc id hb, b3 id hb]
      refine ⟨by omega, le_refl _, ?_⟩
      push_cast; ring
    · rw [alloc_sum_real hnd hrest, alloc_sum_borrowers hballoc]
      push_cast
      push_cast at hsplit
      have : (borrower_demand A (fair_share_of A) A.ids : Int)
          ≤ A.public_blocks_ + donor_supply A (fair_share_of A) A.ids := by
        exact_mod_cast hbr'
      omega
    · intro _
      refine ⟨fun id hid hgt => ?_, ?_, ?_⟩
      · obtain ⟨m1, m2⟩ := mem_real_ids.mp hid
        exact hballoc id (mem_real_borrowers.mpr ⟨m1, m2, hgt⟩)
      · have hSn : ((phase0 A (fair_share_of A)).donors
            ++ real_borrowers A (fair_share_of A) A.ids).Nodup := by
          rw [List.nodup_append]
          refine ⟨hDn, hnd.filter _, ?_⟩
          intro x hx hy
          rcases hDmem x hx with hm | hm
          · have := (mem_real_donors.mp hm).2.2
            have := (mem_real_borrowers.mp hy).2.2
            omega
          · exact (mem_real_borrowers.mp hy).2.1 hm.1
        have key := sum_change (fun _ => (0 : Int)) (fun id => (B.tenants_ id).rate_) A.ids
          ((phase0 A (fair_share_of A)).donors ++ real_borrowers A (fair_share_of A) A.ids)
          hnd hSn
          (fun x hx => by
            rcases List.mem_append.mp hx with hm | hm
            · rcases hDmem x hm with hm' | hm'
              · exact (mem_real_donors.mp hm').1
              · rw [hm'.1]; exact hpub
            · exact (mem_real_borrowers.mp hm).1)
          (fun x hx hnx => by
            simp only
            apply b4 x hx
            · exact fun hd => hnx (List.mem_append_left _ hd)
            · exact fun hb => hnx (List.mem_append_right _ hb))
        have hz : ∀ l : List Nat, (l.map fun _ => (0 : Int)).sum = 0 := by
          intro l; induction l with
          | nil => rfl
          | cons a t ih => simp [ih]
        rw [hz, hz] at key
        have e1 := rate_sum_append B (phase0 A (fair_share_of A)).donors
          (real_borrowers A (fair_share_of A) A.ids)
        have e2 := rate_sum_borrowers b3
        unfold rate_sum at e1 e2 b6 ⊢
        omega
      · by_cases hp : 0 < A.public_blocks_
        · have := b5 _ (hDpub hp)
          rw [surplus_public (by omega)] at this
          exact this
        · have hnd' : A.PUBLIC_ID ∉ (phase0 A (fair_share_of A)).donors := by
            intro hd
            rcases hDmem _ hd with hm | hm
            · exact (mem_real_donors.mp hm).2.1 rfl
            · exact hp hm.2
          have hnb' : A.PUBLIC_ID ∉ real_borrowers A (fair_share_of A) A.ids :=
            fun hb => (mem_real_borrowers.mp hb).2.1 rfl
          rw [b4 _ hpub hnd' hnb']
          omega
    · intro hlt
      omega
  · -- donate_to_rich
    have hbr' : A.public_blocks_ + donor_supply A (fair_share_of A) A.ids
        < borrower_demand A (fair_share_of A) A.ids := by
      rw [← p5, ← p6]; omega
    obtain ⟨B, hB, b1, b2, b3, b4, b5, b6, b7, b8⟩ := donate_branch h fuel hfuel hbr'
    have hrest : ∀ id ∈ real_ids A, id ∉ real_borrowers A (fair_share_of A) A.ids →
        (B.tenants_ id).allocation_ = min (A.tenants_ id).demand_ (fair_share_of A) := by
      intro id hid hnb'
      obtain ⟨m1, m2⟩ := mem_real_ids.mp hid
      rw [b3 id m1 hnb', rec0_real m2]
    refine ⟨B, by rw [if_neg hbr]; exact hB, ?_, fun id hid => (b2 id hid).2⟩
    refine
      { same := b1
        demand := fun id hid => (b2 id hid).1
        low := ?_, high := ?_, total := ?_, poor := ?_, rich := ?_,
        level := fun hle => absurd hle (by omega),
        paid := fun hle => absurd hle (by omega), rich_first := fun _ => b8 }
    · intro id hid hle
      obtain ⟨m1, m2⟩ := mem_real_ids.mp hid
      have hnb' : id ∉ real_borrowers A (fair_share_of A) A.ids :=
        fun hb => by have := (mem_real_borrowers.mp hb).2.2; omega
      rw [hrest id hid hnb', Nat.min_eq_left hle]
      refine ⟨rfl, ?_⟩
      by_cases hlt : (A.tenants_ id).demand_ < fair_share_of A
      · have hd := hDof id (mem_real_donors.mpr ⟨m1, m2, hlt⟩)
        rw [b5 id hd, surplus_real_donor hf m2 hlt]
        omega
      · have hnd' : id ∉ (phase0 A (fair_share_of A)).donors := by
          intro hd
          rcases hDmem id hd with hm | hm
          · exact hlt (mem_real_donors.mp hm).2.2
          · exact m2 hm.1
        rw [b6 id m1 hnd' hnb']
        omega
    · intro id hid hgt
      obtain ⟨m1, m2⟩ := mem_real_ids.mp hid
      exact b4 id (mem_real_borrowers.mpr ⟨m1, m2, hgt⟩)
    · rw [alloc_sum_real hnd hrest]
      push_cast
      push_cast at hsplit b7
      omega
    · intro hle
      omega
    · intro _
      refine ⟨fun id hid hlt => ?_, ?_⟩
      · obtain ⟨m1, m2⟩ := mem_real_ids.mp hid
        rw [b5 id (hDof id (mem_real_donors.mpr ⟨m1, m2, hlt⟩)), surplus_real_donor hf m2 hlt]
      · by_cases hp : 0 < A.public_blocks_
        · rw [b5 _ (hDpub hp), surplus_public (by omega)]
        · have hnd' : A.PUBLIC_ID ∉ (phase0 A (fair_share_of A)).donors := by
            intro hd
            rcases hDmem _ hd with hm | hm
            · exact (mem_real_donors.mp hm).2.1 rfl
            · exact hp hm.2
          have hnb' : A.PUBLIC_ID ∉ real_borrowers A (fair_share_of A) A.ids :=
            fun hb => (mem_real_borrowers.mp hb).2.1 rfl
          rw [b6 _ hpub hnd' hnb']
          have : A.public_blocks_ = 0 := by omega
          rw [this]; rfl

/-! ## `allocate` on a valid state -/

theorem Swept.congr {A B C : KarmaAllocator} (h : Swept A B) (hs : Same B C)
    (hrec : ∀ id, (C.tenants_ id).demand_ = (B.tenants_ id).demand_ ∧
      (C.tenants_ id).allocation_ = (B.tenants_ id).allocation_ ∧
      (C.tenants_ id).rate_ = (B.tenants_ id).rate_) : Swept A C := by
  have ha : ∀ l, alloc_sum C l = alloc_sum B l := by
    intro l; unfold alloc_sum; congr 1
    apply List.map_congr_left; intro id _; rw [(hrec id).2.1]
  have hr : ∀ l, rate_sum C l = rate_sum B l := by
    intro l; unfold rate_sum; congr 1
    apply List.map_congr_left; intro id _; rw [(hrec id).2.2]
  exact
    { same := Same.trans h.same hs
      demand := fun id hid => by rw [(hrec id).1]; exact h.demand id hid
      low := fun id hid hle => by
        rw [(hrec id).2.1, (hrec id).2.2]; exact h.low id hid hle
      high := fun id hid hgt => by
        rw [(hrec id).2.1, (hrec id).2.2]; exact h.high id hid hgt
      total := by rw [ha]; exact h.total
      poor := fun hb => by
        obtain ⟨q1, q2, q3, q4⟩ := h.poor hb
        refine ⟨fun id hid hgt => by rw [(hrec id).2.1]; exact q1 id hid hgt, ?_, ?_, ?_⟩
        · rw [hr]; exact q2
        · rw [(hrec _).2.2]; exact q3
        · rw [(hrec _).2.2]; exact q4
      rich := fun hb => by
        obtain ⟨q1, q2⟩ := h.rich hb
        refine ⟨fun id hid hlt => by rw [(hrec id).2.2]; exact q1 id hid hlt, ?_⟩
        rw [(hrec _).2.2]; exact q2
      level := fun hb => by
        obtain ⟨L, q⟩ := h.level hb
        exact ⟨L, fun id hid => by rw [(hrec id).2.2]; exact q id hid⟩
      paid := fun hb => by rw [hr]; exact h.paid hb
      rich_first := fun hb a ha b hb' hcr hne => by
        rw [(hrec a).2.1]
        rw [(hrec b).2.1] at hne
        exact h.rich_first hb a ha b hb' hcr hne }

theorem allocate_total {A : KarmaAllocator} (h : Valid A) (fuel : Nat)
    (hfuel : enough_fuel A ≤ fuel) :
    ∃ B, allocate fuel A = .ok B ∧ Swept A B ∧
      (B.tenants_ A.PUBLIC_ID).credits_ = 0 ∧
      ∀ id ∈ real_ids A, ((B.tenants_ id).credits_ : Int)
        = (A.tenants_ id).credits_ + public_share A + (B.tenants_ id).rate_ := by
  have hw := h.no_wrap
  have hf := h.fair_lt
  obtain ⟨B1, hB1, hsw, hcr⟩ := sweep_total h fuel hfuel
  have hnd : A.ids.Nodup := h.1
  have hpub : A.PUBLIC_ID ∈ A.ids := h.2.1
  have hids : B1.ids = A.ids := hsw.same.2.2.2.2.2
  have hpid : B1.PUBLIC_ID = A.PUBLIC_ID := hsw.same.1
  obtain ⟨c1, c2⟩ := commit_fold B1.ids B1 (by rw [hids]; exact hnd)
  refine ⟨B1.ids.foldl commit B1, ?_, ?_, ?_, ?_⟩
  · unfold allocate
    rw [h.valid_fair_share]
    simp only [hB1]
  · apply hsw.congr c1
    intro id
    rw [c2 id]
    by_cases hid : id ∈ B1.ids
    · rw [if_pos hid]
      by_cases hp : id = B1.PUBLIC_ID
      · rw [if_pos hp]; exact ⟨rfl, rfl, rfl⟩
      · rw [if_neg hp]; exact ⟨rfl, rfl, rfl⟩
    · rw [if_neg hid]; exact ⟨rfl, rfl, rfl⟩
  · rw [c2, hids, if_pos hpub, hpid, if_pos rfl]
  · intro id hid
    obtain ⟨m1, m2⟩ := mem_real_ids.mp hid
    rw [c2 id, hids, if_pos m1, hpid, if_neg m2]
    simp only
    have hc := hcr id m1
    rw [rec0_real m2] at hc
    simp only at hc
    have hcl := hw.credits_lt id m1 m2
    have hcap := @capped_le A (fair_share_of A) id
    rw [hc]
    by_cases hle : (A.tenants_ id).demand_ ≤ fair_share_of A
    · obtain ⟨_, l2, l3⟩ := hsw.low id hid hle
      rw [u32_eq _ (by omega) (by omega)]
      push_cast; ring
    · obtain ⟨g1, g2, g3⟩ := hsw.high id hid (by omega)
      rw [u32_eq _ (by omega) (by omega)]
      push_cast; ring

/-! ## Reading the outcome of `allocate` -/

theorem real_ids_same {A B : KarmaAllocator} (h : Same A B) : real_ids B = real_ids A := by
  unfold real_ids; rw [h.1, h.2.2.2.2.2]

theorem total_allocation_cast (B : KarmaAllocator) :
    (total_allocation B : Int) = alloc_sum B (real_ids B) := by
  unfold total_allocation alloc_sum
  rw [Nat.cast_list_sum, List.map_map]; rfl

theorem Valid.fair_share_eq {A : KarmaAllocator} (h : Valid A) {fs : Nat}
    (hfs : get_fair_share A = .ok fs) : fs = fair_share_of A := by
  rw [h.valid_fair_share] at hfs
  exact (Except.ok.inj hfs).symm

theorem Valid.share_le {A : KarmaAllocator} (h : Valid A) :
    (real_ids A).length * fair_share_of A + A.public_blocks_ ≤ A.num_blocks_ := by
  obtain ⟨h0, h1, h2, h3, h4, h5, h6, h7⟩ := h
  rw [real_ids_length h0 h1]
  have hdiv : (A.ids.length - 1) * fair_share_of A ≤ A.num_blocks_ - A.public_blocks_ := by
    unfold fair_share_of
    rw [Nat.mul_comm]
    exact Nat.div_mul_le_self _ _
  omega

/-! ## The claims about `allocate` on valid states -/

/-- Claim C1: on every valid state (`N ≥ 1`, `public_blocks ≤ num_blocks`, nothing wraps) and
with enough iterations for its loops, `allocate` returns, and the allocations of the real
tenants add up to at most `num_blocks`; the dispatch takes either branch. -/
theorem allocate_sum_le_num_blocks (A : KarmaAllocator) (fuel : Nat) (h : Valid A)
    (hfuel : enough_fuel A ≤ fuel) :
    ∃ B, allocate fuel A = .ok B ∧ total_allocation B ≤ A.num_blocks_ := by
  obtain ⟨B, hB, hsw, _, _⟩ := allocate_total h fuel hfuel
  refine ⟨B, hB, ?_⟩
  have h1 := hsw.total
  have h2 := total_allocation_cast B
  rw [real_ids_same hsw.same] at h2
  have h3 := h.share_le
  have : (total_allocation B : Int) ≤ (A.num_blocks_ : Int) := by
    rw [h2]
    exact le_trans h1 (by exact_mod_cast h3)
  exact_mod_cast this

/-- Witness of C1 on scenario S5 (the `donate_to_rich` branch). -/
theorem allocate_sum_le_num_blocks_witness :
    Valid scenario_S5 ∧ enough_fuel scenario_S5 ≤ 40 ∧
    ∃ B, allocate 40 scenario_S5 = .ok B ∧ total_allocation B ≤ scenario_S5.num_blocks_ :=
  ⟨by decide, by decide, allocate_sum_le_num_blocks scenario_S5 40 (by decide) (by decide)⟩

/-- Claim C2: on every valid state `allocate` returns, keeps every demand, and gives no real
tenant more than its demand. -/
theorem allocation_le_demand (A : KarmaAllocator) (fuel : Nat) (h : Valid A)
    (hfuel : enough_fuel A ≤ fuel) :
    ∃ B, allocate fuel A = .ok B ∧
      ∀ id ∈ real_ids A,
        (B.tenants_ id).demand_ = (A.tenants_ id).demand_ ∧
        (B.tenants_ id).allocation_ ≤ (A.tenants_ id).demand_ := by
  obtain ⟨B, hB, hsw, _, _⟩ := allocate_total h fuel hfuel
  refine ⟨B, hB, fun id hid => ⟨hsw.demand id (mem_real_ids.mp hid).1, ?_⟩⟩
  by_cases hle : (A.tenants_ id).demand_ ≤ fair_share_of A
  · rw [(hsw.low id hid hle).1]
  · have hg := (hsw.high id hid (by omega)).2.1
    have hc := @capped_le_demand A (fair_share_of A) id
    omega

/-- Witness of C2 on scenario S3 (the `borrow_from_poor` branch). -/
theorem allocation_le_demand_witness :
    Valid scenario_S3 ∧ enough_fuel scenario_S3 ≤ 40 ∧
    ∃ B, allocate 40 scenario_S3 = .ok B ∧
      ∀ id ∈ real_ids scenario_S3,
        (B.tenants_ id).demand_ = (scenario_S3.tenants_ id).demand_ ∧
        (B.tenants_ id).allocation_ ≤ (scenario_S3.tenants_ id).demand_ :=
  ⟨by decide, by decide, allocation_le_demand scenario_S3 40 (by decide) (by decide)⟩

/-- Claim C3 fails on scenario S3: the demands add up to `num_blocks = 10`, yet `allocate`
returns with 7 blocks handed out (0 and 7), because tenant 2 holds 2 credits only. -/
theorem full_demand_not_served :
    scenario_S3.num_blocks_ ≤ total_demand scenario_S3 ∧
    (allocate 40 scenario_S3).toOption.map total_allocation = some 7 ∧
    (7 : Nat) ≠ scenario_S3.num_blocks_ := by
  decide

theorem phase0_branch {A : KarmaAllocator} (h : Valid A) {fs : Nat}
    (hfs : get_fair_share A = .ok fs) :
    ((phase0 A fs).demand ≤ (phase0 A fs).supply ↔
      borrower_demand A (fair_share_of A) A.ids
        ≤ A.public_blocks_ + donor_supply A (fair_share_of A) A.ids) := by
  obtain ⟨_, _, _, _, p5, p6⟩ := phase0_spec h
  rw [h.fair_share_eq hfs, p5, p6]

theorem credit_bounded_low {A : KarmaAllocator} {fs id : Nat}
    (h : (A.tenants_ id).demand_ ≤ fs) :
    credit_bounded_demand A fs id = (A.tenants_ id).demand_ := by
  unfold credit_bounded_demand
  exact Nat.min_eq_left (by omega)

theorem credit_bounded_high {A : KarmaAllocator} {fs id : Nat}
    (h : fs < (A.tenants_ id).demand_) :
    credit_bounded_demand A fs id = fs + capped A fs id := by
  unfold credit_bounded_demand capped
  rw [Nat.min_def, Nat.min_def]
  split <;> split <;> omega

/-- Claim C3 as amended: on a valid state whose credit-bounded demand fits the supply (the
dispatch `supply >= demand` of line 67 holds), `allocate` returns and every real tenant gets
`min(demand, fair_share + credits + public_blocks / N)`, so the allocations add up to the
sum of these credit-bounded demands. -/
theorem allocation_is_credit_bounded_demand (A : KarmaAllocator) (fuel fs : Nat) (h : Valid A)
    (hfuel : enough_fuel A ≤ fuel) (hfs : get_fair_share A = .ok fs)
    (hbr : (phase0 A fs).demand ≤ (phase0 A fs).supply) :
    ∃ B, allocate fuel A = .ok B ∧
      (∀ id ∈ real_ids A, (B.tenants_ id).allocation_ = credit_bounded_demand A fs id) ∧
      total_allocation B = ((real_ids A).map fun id => credit_bounded_demand A fs id).sum := by
  obtain ⟨B, hB, hsw, _, _⟩ := allocate_total h fuel hfuel
  have hbr' := (phase0_branch h hfs).mp hbr
  have hfe := h.fair_share_eq hfs
  subst hfe
  obtain ⟨q1, _, _, _⟩ := hsw.poor hbr'
  have hall : ∀ id ∈ real_ids A,
      (B.tenants_ id).allocation_ = credit_bounded_demand A (fair_share_of A) id := by
    intro id hid
    by_cases hle : (A.tenants_ id).demand_ ≤ fair_share_of A
    · rw [(hsw.low id hid hle).1, credit_bounded_low hle]
    · rw [q1 id hid (by omega), credit_bounded_high (by omega)]
  refine ⟨B, hB, hall, ?_⟩
  unfold total_allocation
  rw [real_ids_same hsw.same]
  congr 1
  exact List.map_congr_left hall

/-- Witness of the amended C3 on scenario S3. -/
theorem allocation_is_credit_bounded_demand_witness :
    Valid scenario_S3 ∧ enough_fuel scenario_S3 ≤ 40 ∧ get_fair_share scenario_S3 = .ok 5 ∧
    (phase0 scenario_S3 5).demand ≤ (phase0 scenario_S3 5).supply ∧
    ∃ B, allocate 40 scenario_S3 = .ok B ∧
      (∀ id ∈ real_ids scenario_S3,
        (B.tenants_ id).allocation_ = credit_bounded_demand scenario_S3 5 id) ∧
      total_allocation B
        = ((real_ids scenario_S3).map fun id => credit_bounded_demand scenario_S3 5 id).sum :=
  ⟨by decide, by decide, rfl, by decide,
    allocation_is_credit_bounded_demand scenario_S3 40 5 (by decide) (by decide) rfl
      (by decide)⟩

/-- Claim C4: on every valid state with fair share `fs`, a real tenant that demands at most
`fs` gets exactly its demand, its rate is between 0 and its surplus `fs - demand` (0 when the
demand is `fs`), its credits grow by the per-epoch grant plus that rate, and so are at least
what they were. -/
theorem satisfied_tenant_keeps_credits (A : KarmaAllocator) (fuel fs : Nat) (h : Valid A)
    (hfuel : enough_fuel A ≤ fuel) (hfs : get_fair_share A = .ok fs) :
    ∃ B, allocate fuel A = .ok B ∧
      ∀ id ∈ real_ids A, (A.tenants_ id).demand_ ≤ fs →
        (B.tenants_ id).allocation_ = (A.tenants_ id).demand_ ∧
        (A.tenants_ id).credits_ ≤ (B.tenants_ id).credits_ ∧
        0 ≤ (B.tenants_ id).rate_ ∧
        (B.tenants_ id).rate_ ≤ (fs : Int) - (A.tenants_ id).demand_ ∧
        ((A.tenants_ id).demand_ = fs → (B.tenants_ id).rate_ = 0) ∧
        ((B.tenants_ id).credits_ : Int)
          = (A.tenants_ id).credits_ + public_share A + (B.tenants_ id).rate_ := by
  obtain ⟨B, hB, hsw, _, hcr⟩ := allocate_total h fuel hfuel
  have hfe := h.fair_share_eq hfs
  subst hfe
  refine ⟨B, hB, fun id hid hle => ?_⟩
  obtain ⟨l1, l2, l3⟩ := hsw.low id hid hle
  have hc := hcr id hid
  refine ⟨l1, ?_, l2, l3, fun he => ?_, hc⟩
  · have : ((A.tenants_ id).credits_ : Int) ≤ (B.tenants_ id).credits_ := by
      rw [hc]
      have : (0 : Int) ≤ (public_share A : Int) := Int.natCast_nonneg _
      omega
    exact_mod_cast this
  · omega

/-- Witness of C4 on scenario S2. -/
theorem satisfied_tenant_keeps_credits_witness :
    Valid scenario_S2 ∧ enough_fuel scenario_S2 ≤ 40 ∧ get_fair_share scenario_S2 = .ok 5 ∧
    ∃ B, allocate 40 scenario_S2 = .ok B ∧
      ∀ id ∈ real_ids scenario_S2, (scenario_S2.tenants_ id).demand_ ≤ 5 →
        (B.tenants_ id).allocation_ = (scenario_S2.tenants_ id).demand_ ∧
        (scenario_S2.tenants_ id).credits_ ≤ (B.tenants_ id).credits_ ∧
        0 ≤ (B.tenants_ id).rate_ ∧
        (B.tenants_ id).rate_ ≤ ((5 : Nat) : Int) - (scenario_S2.tenants_ id).demand_ ∧
        ((scenario_S2.tenants_ id).demand_ = 5 → (B.tenants_ id).rate_ = 0) ∧
        ((B.tenants_ id).credits_ : Int)
          = (scenario_S2.tenants_ id).credits_ + public_share scenario_S2
            + (B.tenants_ id).rate_ :=
  ⟨by decide, by decide, rfl,
    satisfied_tenant_keeps_credits scenario_S2 40 5 (by decide) (by decide) rfl⟩

/-- Claim C5 fails on scenario S4: tenant 2 (demand 10, fair share 2) enters `allocate` with
no credits, so the claimed bound is `2 + min(0, 8) = 2`, yet it is allocated 4 blocks: the
per-epoch grant of `5 / 2 = 2` credits is spent in the same epoch. -/
theorem grant_is_spent_in_epoch :
    get_fair_share scenario_S4 = .ok 2 ∧
    (scenario_S4.tenants_ 2).demand_ = 10 ∧ (scenario_S4.tenants_ 2).credits_ = 0 ∧
    (allocate 40 scenario_S4).toOption.map (fun B => (B.tenants_ 2).allocation_) = some 4 ∧
    ¬ (4 ≤ 2 + min 0 (10 - 2)) :=
  ⟨rfl, by decide, by decide, by decide, by decide⟩

/-- Claim C5 as amended: on every valid state with fair share `fs`, a real tenant that demands
more than `fs` gets at most `fs + min(credits + public_blocks / N, demand - fs)`: the bound
counts the credits after the per-epoch grant. -/
theorem borrower_allocation_bound (A : KarmaAllocator) (fuel fs : Nat) (h : Valid A)
    (hfuel : enough_fuel A ≤ fuel) (hfs : get_fair_share A = .ok fs) :
    ∃ B, allocate fuel A = .ok B ∧
      ∀ id ∈ real_ids A, fs < (A.tenants_ id).demand_ →
        (B.tenants_ id).allocation_
          ≤ fs + min ((A.tenants_ id).credits_ + A.public_blocks_ / get_num_tenants A)
              ((A.tenants_ id).demand_ - fs) := by
  obtain ⟨B, hB, hsw, _, _⟩ := allocate_total h fuel hfuel
  have hfe := h.fair_share_eq hfs
  subst hfe
  refine ⟨B, hB, fun id hid hgt => ?_⟩
  have hg := (hsw.high id hid hgt).2.1
  have : capped A (fair_share_of A) id
      = min ((A.tenants_ id).credits_ + A.public_blocks_ / get_num_tenants A)
          ((A.tenants_ id).demand_ - fair_share_of A) := by
    unfold capped public_share
    exact Nat.min_comm _ _
  rw [← this]
  exact hg

/-- Witness of the amended C5 on scenario S4. -/
theorem borrower_allocation_bound_witness :
    Valid scenario_S4 ∧ enough_fuel scenario_S4 ≤ 40 ∧ get_fair_share scenario_S4 = .ok 2 ∧
    ∃ B, allocate 40 scenario_S4 = .ok B ∧
      ∀ id ∈ real_ids scenario_S4, 2 < (scenario_S4.tenants_ id).demand_ →
        (B.tenants_ id).allocation_
          ≤ 2 + min ((scenario_S4.tenants_ id).credits_
                + scenario_S4.public_blocks_ / get_num_tenants scenario_S4)
              ((scenario_S4.tenants_ id).demand_ - 2) :=
  ⟨by decide, by decide, rfl,
    borrower_allocation_bound scenario_S4 40 2 (by decide) (by decide) rfl⟩

theorem credit_change_eq {A B : KarmaAllocator}
    (h : ∀ id ∈ real_ids A, ((B.tenants_ id).credits_ : Int)
      = (A.tenants_ id).credits_ + public_share A + (B.tenants_ id).rate_) :
    credit_change A B
      = ((real_ids A).length * public_share A : Nat) + rate_sum B (real_ids A) := by
  unfold credit_change rate_sum
  generalize real_ids A = l at h
  induction l with
  | nil => simp
  | cons a t ih =>
    have ha := h a (List.mem_cons_self _ _)
    have ih := ih fun id hid => h id (List.mem_cons_of_mem _ hid)
    simp only [List.map_cons, List.sum_cons, List.length_cons, ih, ha]
    push_cast
    ring

theorem sum_filter_ne_nat (g : Nat → Nat) (p : Nat) :
    ∀ l : List Nat, l.Nodup → p ∈ l →
      (l.map g).sum = ((l.filter fun id => decide (id ≠ p)).map g).sum + g p := by
  intro l
  induction l with
  | nil => intro _ h; simp at h
  | cons a t ih =>
    intro hnd hp
    rw [List.nodup_cons] at hnd
    by_cases hap : a = p
    · subst hap
      have : (t.filter fun id => decide (id ≠ a)) = t := by
        apply List.filter_eq_self.mpr
        intro x hx
        have : x ≠ a := fun e => hnd.1 (e ▸ hx)
        simpa using this
      have hf : (List.filter (fun id => decide (id ≠ a)) (a :: t)) = t := by
        rw [List.filter_cons_of_neg (by simp)]; exact this
      rw [hf, List.map_cons, List.sum_cons]
      omega
    · have hp' : p ∈ t := by
        rcases List.mem_cons.mp hp with e | e
        · exact absurd e.symm hap
        · exact e
      have := ih hnd.2 hp'
      simp [List.filter_cons, hap, this]
      omega

theorem total_credits_real {A : KarmaAllocator} (hnd : A.ids.Nodup) (hp : A.PUBLIC_ID ∈ A.ids) :
    total_credits A = real_credits A + (A.tenants_ A.PUBLIC_ID).credits_ := by
  unfold total_credits real_credits real_ids
  exact sum_filter_ne_nat (fun i => (A.tenants_ i).credits_) A.PUBLIC_ID A.ids hnd hp

theorem real_credits_le {A : KarmaAllocator}
    (hcr : ∀ j ∈ A.ids, (A.tenants_ j).credits_ < 4294967296) :
    real_credits A ≤ (real_ids A).length * 4294967295 := by
  unfold real_credits
  have := List.sum_le_card_nsmul ((real_ids A).map fun id => (A.tenants_ id).credits_)
    4294967295 (by
      intro x hx
      obtain ⟨j, hj, rfl⟩ := List.mem_map.mp hx
      have := hcr j (mem_real_ids.mp hj).1
      omega)
  simpa using this

/-- Claim C6 fails on scenario S4: the credits of the real tenants grow by 2 in total (tenant
1 from 0 to 2, tenant 2 stays at 0) while the public tenant lent 2 of its 5 blocks, so the
claimed total is `5 - 2 = 3`: each of the 2 tenants is granted `5 / 2 = 2` credits, 4 in
total, not 5. -/
theorem public_grant_is_rounded_down :
    (allocate 40 scenario_S4).toOption.map (credit_change scenario_S4) = some 2 ∧
    (allocate 40 scenario_S4).toOption.map
      (fun B => (B.tenants_ scenario_S4.PUBLIC_ID).rate_) = some 2 ∧
    scenario_S4.public_blocks_ = 5 ∧ (2 : Int) ≠ 5 - 2 := by
  decide

/-- Claim C6 as amended: on a valid state with `N` real tenants whose credit-bounded demand
fits the supply (the dispatch `supply >= demand` of line 67 holds), `allocate` returns and the
credits of the real tenants change in total by `N * (public_blocks / N)` minus the blocks the
public tenant lent (its rate), which are between 0 and `public_blocks`. -/
theorem credit_change_on_borrow_branch (A : KarmaAllocator) (fuel fs : Nat) (h : Valid A)
    (hfuel : enough_fuel A ≤ fuel) (hfs : get_fair_share A = .ok fs)
    (hbr : (phase0 A fs).demand ≤ (phase0 A fs).supply) :
    ∃ B, allocate fuel A = .ok B ∧
      credit_change A B
        = ((get_num_tenants A * (A.public_blocks_ / get_num_tenants A) : Nat) : Int)
          - (B.tenants_ A.PUBLIC_ID).rate_ ∧
      0 ≤ (B.tenants_ A.PUBLIC_ID).rate_ ∧
      (B.tenants_ A.PUBLIC_ID).rate_ ≤ A.public_blocks_ := by
  obtain ⟨B, hB, hsw, _, hcr⟩ := allocate_total h fuel hfuel
  have hbr' := (phase0_branch h hfs).mp hbr
  obtain ⟨_, q2, q3, q4⟩ := hsw.poor hbr'
  refine ⟨B, hB, ?_, q3, q4⟩
  rw [credit_change_eq hcr]
  have hsum := sum_filter_ne (fun id => (B.tenants_ id).rate_) A.PUBLIC_ID A.ids h.1 h.2.1
  have hq : rate_sum B (real_ids A) + (B.tenants_ A.PUBLIC_ID).rate_ = 0 := by
    unfold rate_sum real_ids
    unfold rate_sum at q2
    rw [← hsum]; exact q2
  have hlen : (real_ids A).length = get_num_tenants A := by
    rw [real_ids_length h.1 h.2.1, h.valid_num_tenants]
  rw [hlen]
  unfold public_share
  omega

/-- Witness of the amended C6 on scenario S4. -/
theorem credit_change_on_borrow_branch_witness :
    Valid scenario_S4 ∧ enough_fuel scenario_S4 ≤ 40 ∧ get_fair_share scenario_S4 = .ok 2 ∧
    (phase0 scenario_S4 2).demand ≤ (phase0 scenario_S4 2).supply ∧
    ∃ B, allocate 40 scenario_S4 = .ok B ∧
      credit_change scenario_S4 B
        = ((get_num_tenants scenario_S4
            * (scenario_S4.public_blocks_ / get_num_tenants scenario_S4) : Nat) : Int)
          - (B.tenants_ scenario_S4.PUBLIC_ID).rate_ ∧
      0 ≤ (B.tenants_ scenario_S4.PUBLIC_ID).rate_ ∧
      (B.tenants_ scenario_S4.PUBLIC_ID).rate_ ≤ scenario_S4.public_blocks_ :=
  ⟨by decide, by decide, rfl, by decide,
    credit_change_on_borrow_branch scenario_S4 40 2 (by decide) (by decide) rfl (by decide)⟩

/-- Claim C8, a defect of the code: on a freshly constructed allocator (no real tenant)
`allocate` divides by `get_num_tenants() = 0` in `get_fair_share` (line 237, called at line
42), whatever the arguments of the constructor and however many iterations are allowed. -/
theorem allocate_fresh_divides_by_zero
    (fuel PUBLIC_ID DUMMY_ID num_blocks public_blocks init_credits : Nat) :
    get_num_tenants (construct PUBLIC_ID DUMMY_ID num_blocks public_blocks init_credits) = 0 ∧
    allocate fuel (construct PUBLIC_ID DUMMY_ID num_blocks public_blocks init_credits)
      = .error .div_by_zero := by
  have h0 : get_num_tenants
      (construct PUBLIC_ID DUMMY_ID num_blocks public_blocks init_credits) = 0 := by
    simp [get_num_tenants, construct, KarmaAllocator.emplace, u32]
  refine ⟨h0, ?_⟩
  unfold allocate get_fair_share
  rw [if_pos h0]

/-- Claim C9: `add_tenant(id)` throws exactly when `id` is `DUMMY_ID` or already a key of the
table; then the object is unchanged.  Otherwise the keys become the old keys followed by
`id` (the old keys and `id`, nothing else), the new record has demand 0 and allocation 0,
every other record is what it was, and the other members are unchanged. -/
theorem add_tenant_rejects_dummy_and_existing (A : KarmaAllocator) (id : Nat) :
    ((add_tenant A id).thrown ≠ none ↔ id = A.DUMMY_ID ∨ id ∈ A.ids) ∧
    ((add_tenant A id).thrown ≠ none → (add_tenant A id).state = A) ∧
    ((add_tenant A id).thrown = none →
      (add_tenant A id).state.ids = A.ids ++ [id] ∧
      (∀ j, j ∈ (add_tenant A id).state.ids ↔ j ∈ A.ids ∨ j = id) ∧
      ((add_tenant A id).state.tenants_ id).demand_ = 0 ∧
      ((add_tenant A id).state.tenants_ id).allocation_ = 0 ∧
      (∀ j, j ≠ id → (add_tenant A id).state.tenants_ j = A.tenants_ j) ∧
      (add_tenant A id).state.PUBLIC_ID = A.PUBLIC_ID ∧
      (add_tenant A id).state.DUMMY_ID = A.DUMMY_ID ∧
      (add_tenant A id).state.num_blocks_ = A.num_blocks_ ∧
      (add_tenant A id).state.public_blocks_ = A.public_blocks_ ∧
      (add_tenant A id).state.init_credits_ = A.init_credits_) := by
  unfold add_tenant
  by_cases hc : id = A.DUMMY_ID ∨ id ∈ A.ids
  · rw [if_pos hc]
    simp [hc]
  · rw [if_neg hc]
    have hm : id ∉ A.ids := fun hm => hc (Or.inr hm)
    simp only [ne_eq, not_true_eq_false, false_iff, hc, not_false_eq_true, false_implies,
      true_implies, true_and, KarmaAllocator.emplace, if_neg hm, Function.update_same,
      Tenant.withCredits, and_true]
    refine ⟨fun j => by simp, fun j hj => Function.update_noteq hj _ _⟩

/-- Witness of C9 on scenario S2 and the new id 3. -/
theorem add_tenant_rejects_dummy_and_existing_witness :
    ((add_tenant scenario_S2 3).thrown ≠ none ↔
      3 = scenario_S2.DUMMY_ID ∨ 3 ∈ scenario_S2.ids) ∧
    ((add_tenant scenario_S2 3).thrown ≠ none → (add_tenant scenario_S2 3).state = scenario_S2) ∧
    ((add_tenant scenario_S2 3).thrown = none →
      (add_tenant scenario_S2 3).state.ids = scenario_S2.ids ++ [3] ∧
      (∀ j, j ∈ (add_tenant scenario_S2 3).state.ids ↔ j ∈ scenario_S2.ids ∨ j = 3) ∧
      ((add_tenant scenario_S2 3).state.tenants_ 3).demand_ = 0 ∧
      ((add_tenant scenario_S2 3).state.tenants_ 3).allocation_ = 0 ∧
      (∀ j, j ≠ 3 → (add_tenant scenario_S2 3).state.tenants_ j = scenario_S2.tenants_ j) ∧
      (add_tenant scenario_S2 3).state.PUBLIC_ID = scenario_S2.PUBLIC_ID ∧
      (add_tenant scenario_S2 3).state.DUMMY_ID = scenario_S2.DUMMY_ID ∧
      (add_tenant scenario_S2 3).state.num_blocks_ = scenario_S2.num_blocks_ ∧
      (add_tenant scenario_S2 3).state.public_blocks_ = scenario_S2.public_blocks_ ∧
      (add_tenant scenario_S2 3).state.init_credits_ = scenario_S2.init_credits_) :=
  add_tenant_rejects_dummy_and_existing scenario_S2 3

/-- Claim C10 fails after `KarmaAllocator(10, 0, 100)`, `add_tenant(1)`: the table holds the
public entry (credits 0) and tenant 1 (credits 100), so the average over both entries is
`100 / 2 = 50`, yet `add_tenant(2)` gives the new tenant 100 credits: the sum over both
entries is divided by the number of real tenants, 1. -/
theorem new_tenant_gets_sum_over_real_count :
    (add_tenant one_tenant 2).thrown = none ∧
    ((add_tenant one_tenant 2).state.tenants_ 2).credits_ = 100 ∧
    get_num_tenants one_tenant = 1 ∧
    total_credits one_tenant / one_tenant.ids.length = 50 := by
  decide

/-- Claim C10 as amended: for every successful `add_tenant(id)` on a table with distinct keys
whose public entry holds no credits (as the constructor and `allocate` leave it) and whose
credits fit 32 bits: if no real tenant exists the new tenant's credits are `init_credits`;
otherwise they are the sum of the credits over all entries, the public one included, divided
by the number of real tenants; that sum is the sum over the real tenants, so the new tenant
gets the integer average of the credits of the real tenants. -/
theorem new_tenant_credits_real_average (A : KarmaAllocator) (id : Nat)
    (hok : (add_tenant A id).thrown = none) (hnd : A.ids.Nodup) (hp : A.PUBLIC_ID ∈ A.ids)
    (hlen : A.ids.length ≤ 4294967296) (hpub : (A.tenants_ A.PUBLIC_ID).credits_ = 0)
    (hcr : ∀ j ∈ A.ids, (A.tenants_ j).credits_ < 4294967296) :
    ((add_tenant A id).state.tenants_ id).credits_
      = (if (real_ids A).length = 0 then A.init_credits_
         else total_credits A / (real_ids A).length) ∧
    total_credits A = real_credits A ∧ get_num_tenants A = (real_ids A).length := by
  have hc : ¬ (id = A.DUMMY_ID ∨ id ∈ A.ids) := by
    intro hc
    unfold add_tenant at hok
    rw [if_pos hc] at hok
    exact absurd hok (by simp)
  have hm : id ∉ A.ids := fun hm => hc (Or.inr hm)
  have hpos : 1 ≤ A.ids.length := List.length_pos_of_mem hp
  have hn : get_num_tenants A = (real_ids A).length := by
    rw [real_ids_length hnd hp]
    unfold get_num_tenants u32
    omega
  have htot : total_credits A = real_credits A := by
    rw [total_credits_real hnd hp, hpub, Nat.add_zero]
  have hval : ((add_tenant A id).state.tenants_ id).credits_ = new_tenant_credits A := by
    unfold add_tenant
    rw [if_neg hc]
    simp [KarmaAllocator.emplace, hm, Tenant.withCredits]
  refine ⟨?_, htot, hn⟩
  rw [hval]
  unfold new_tenant_credits
  rw [hn, htot]
  by_cases hz : (real_ids A).length = 0
  · rw [if_pos hz, if_neg (by omega)]
  · rw [if_neg hz, if_pos (by omega)]
    have hle := real_credits_le hcr
    have hdiv : real_credits A / (real_ids A).length ≤ 4294967295 :=
      Nat.div_le_of_le_mul hle
    exact u32_nat _ (by omega)

/-- Witness of the amended C10 on the one-tenant table and the new id 2. -/
theorem new_tenant_credits_real_average_witness :
    (add_tenant one_tenant 2).thrown = none ∧ one_tenant.ids.Nodup ∧
    one_tenant.PUBLIC_ID ∈ one_tenant.ids ∧ one_tenant.ids.length ≤ 4294967296 ∧
    (one_tenant.tenants_ one_tenant.PUBLIC_ID).credits_ = 0 ∧
    (∀ j ∈ one_tenant.ids, (one_tenant.tenants_ j).credits_ < 4294967296) ∧
    (((add_tenant one_tenant 2).state.tenants_ 2).credits_
      = (if (real_ids one_tenant).length = 0 then one_tenant.init_credits_
         else total_credits one_tenant / (real_ids one_tenant).length) ∧
    total_credits one_tenant = real_credits one_tenant ∧
    get_num_tenants one_tenant = (real_ids one_tenant).length) :=
  ⟨by decide, by decide, by decide, by decide, by decide, by decide,
    new_tenant_credits_real_average one_tenant 2 (by decide) (by decide) (by decide)
      (by decide) (by decide) (by decide)⟩

theorem lent_twin {A : KarmaAllocator} {fs a b : Nat} (L : Int)
    (ha : a ≠ A.PUBLIC_ID) (hb : b ≠ A.PUBLIC_ID)
    (hcr : (A.tenants_ a).credits_ = (A.tenants_ b).credits_)
    (hdm : (A.tenants_ a).demand_ = (A.tenants_ b).demand_) :
    lent L (donor_candidate A fs a) = lent L (donor_candidate A fs b) := by
  unfold lent donor_candidate surplus
  simp only [rec0_real ha, rec0_real hb, if_neg ha, if_neg hb, hcr, hdm]

/-- Claim C7 fails on two donors with 7 credits each and demand 2 (fair share 3) next to a
borrower that asks for one block beyond its fair share: the single block is borrowed from
tenant 1 only, so the rates are 1 and 0 and the credits end at 8 and 7. -/
theorem equal_donors_unequal_rates :
    get_fair_share twin_donors = .ok 3 ∧
    (twin_donors.tenants_ 1).credits_ = (twin_donors.tenants_ 2).credits_ ∧
    (twin_donors.tenants_ 1).demand_ = 2 ∧ (twin_donors.tenants_ 2).demand_ = 2 ∧
    (allocate 40 twin_donors).toOption.map
      (fun B => ((B.tenants_ 1).rate_, (B.tenants_ 2).rate_,
        (B.tenants_ 1).credits_, (B.tenants_ 2).credits_)) = some (1, 0, 8, 7) :=
  ⟨rfl, by decide, by decide, by decide, by decide⟩

/-- Claim C7 as amended: on every valid state with fair share `fs`, two real donors
(demand below `fs`) that enter `allocate` with equal credits and equal demand get rates that
differ by at most 1, so their credits afterwards differ by at most 1; the rates and the
credits are equal when `allocate` dispatches to `donate_to_rich` (supply below demand at
line 67). -/
theorem equal_donors_rates_within_one (A : KarmaAllocator) (fuel fs a b : Nat) (h : Valid A)
    (hfuel : enough_fuel A ≤ fuel) (hfs : get_fair_share A = .ok fs)
    (ha : a ∈ real_ids A) (hb : b ∈ real_ids A) (hda : (A.tenants_ a).demand_ < fs)
    (hcr : (A.tenants_ a).credits_ = (A.tenants_ b).credits_)
    (hdm : (A.tenants_ a).demand_ = (A.tenants_ b).demand_) :
    ∃ B, allocate fuel A = .ok B ∧
      (B.tenants_ a).rate_ ≤ (B.tenants_ b).rate_ + 1 ∧
      (B.tenants_ b).rate_ ≤ (B.tenants_ a).rate_ + 1 ∧
      (B.tenants_ a).credits_ ≤ (B.tenants_ b).credits_ + 1 ∧
      (B.tenants_ b).credits_ ≤ (B.tenants_ a).credits_ + 1 ∧
      ((phase0 A fs).supply < (phase0 A fs).demand →
        (B.tenants_ a).rate_ = (B.tenants_ b).rate_ ∧
        (B.tenants_ a).credits_ = (B.tenants_ b).credits_) := by
  obtain ⟨B, hB, hsw, _, hcred⟩ := allocate_total h fuel hfuel
  have hbranch := phase0_branch h hfs
  have hfe := h.fair_share_eq hfs
  subst hfe
  obtain ⟨_, _, p3, _, _, _⟩ := phase0_spec h
  obtain ⟨a1, a2⟩ := mem_real_ids.mp ha
  obtain ⟨b1, b2⟩ := mem_real_ids.mp hb
  have hdb : (A.tenants_ b).demand_ < fair_share_of A := by omega
  have hca := hcred a ha
  have hcb := hcred b hb
  refine ⟨B, hB, ?_⟩
  by_cases hbr : (phase0 A (fair_share_of A)).demand ≤ (phase0 A (fair_share_of A)).supply
  · obtain ⟨L, q⟩ := hsw.level (hbranch.mp hbr)
    have hma : a ∈ (phase0 A (fair_share_of A)).donors := by
      rw [p3]; exact List.mem_append_left _ (mem_real_donors.mpr ⟨a1, a2, hda⟩)
    have hmb : b ∈ (phase0 A (fair_share_of A)).donors := by
      rw [p3]; exact List.mem_append_left _ (mem_real_donors.mpr ⟨b1, b2, hdb⟩)
    have qa := (q a hma).1
    have qb := (q b hmb).1
    rw [lent_twin L a2 b2 hcr hdm] at qa
    refine ⟨by omega, by omega, by omega, by omega, fun hlt => absurd hbr (by omega)⟩
  · have hr := hsw.rich (by
      have := hbranch.not.mp hbr
      omega)
    have ra := hr.1 a ha hda
    have rb := hr.1 b hb hdb
    have hrr : (B.tenants_ a).rate_ = (B.tenants_ b).rate_ := by rw [ra, rb, hdm]
    have hcc : (B.tenants_ a).credits_ = (B.tenants_ b).credits_ := by omega
    refine ⟨by omega, by omega, by omega, by omega, fun _ => ⟨hrr, hcc⟩⟩

/-- Witness of the amended C7 on the two equal donors 1 and 2. -/
theorem equal_donors_rates_within_one_witness :
    Valid twin_donors ∧ enough_fuel twin_donors ≤ 40 ∧ get_fair_share twin_donors = .ok 3 ∧
    1 ∈ real_ids twin_donors ∧ 2 ∈ real_ids twin_donors ∧
    (twin_donors.tenants_ 1).demand_ < 3 ∧
    (twin_donors.tenants_ 1).credits_ = (twin_donors.tenants_ 2).credits_ ∧
    (twin_donors.tenants_ 1).demand_ = (twin_donors.tenants_ 2).demand_ ∧
    ∃ B, allocate 40 twin_donors = .ok B ∧
      (B.tenants_ 1).rate_ ≤ (B.tenants_ 2).rate_ + 1 ∧
      (B.tenants_ 2).rate_ ≤ (B.tenants_ 1).rate_ + 1 ∧
      (B.tenants_ 1).credits_ ≤ (B.tenants_ 2).credits_ + 1 ∧
      (B.tenants_ 2).credits_ ≤ (B.tenants_ 1).credits_ + 1 ∧
      ((phase0 twin_donors 3).supply < (phase0 twin_donors 3).demand →
        (B.tenants_ 1).rate_ = (B.tenants_ 2).rate_ ∧
        (B.tenants_ 1).credits_ = (B.tenants_ 2).credits_) :=
  ⟨by decide, by decide, rfl, by decide, by decide, by decide, by decide, by decide,
    equal_donors_rates_within_one twin_donors 40 3 1 2 (by decide) (by decide) rfl
      (by decide) (by decide) (by decide) (by decide) (by decide)⟩

/-! ## `set_demand` -/

theorem two_le_length_of_mem {l : List Nat} {a b : Nat} (ha : a ∈ l) (hb : b ∈ l)
    (hab : a ≠ b) : 2 ≤ l.length := by
  match l, ha, hb with
  | [], ha, _ => exact absurd ha (List.not_mem_nil _)
  | [x], ha, hb =>
    simp only [List.mem_singleton] at ha hb
    exact absurd (ha.trans hb.symm) hab
  | _ :: _ :: _, _, _ => simp

theorem fair_share_defined {A : KarmaAllocator} {id : Nat} (hp : A.PUBLIC_ID ∈ A.ids)
    (hlen : A.ids.length ≤ 4294967296) (hid : id ∈ A.ids) (hne : id ≠ A.PUBLIC_ID) :
    ∃ fs, get_fair_share A = .ok fs := by
  have h2 := two_le_length_of_mem hid hp hne
  have hn : get_num_tenants A ≠ 0 := by
    unfold get_num_tenants u32
    omega
  unfold get_fair_share
  rw [if_neg hn]
  exact ⟨_, rfl⟩

/-- Claim C11: on a table that holds `PUBLIC_ID` (and at most `2^32` keys),
`set_demand(id, d, greedy)` throws exactly when `id` is `PUBLIC_ID` or not a key, and then
leaves the object unchanged; otherwise the fair share is defined, the demand of `id` becomes
`max(fair_share, d)` when `greedy` and `d` when not, and nothing else changes: not the
credits, allocation and rate of `id`, not another record, not the keys or the other
members. -/
theorem set_demand_stores_demand (A : KarmaAllocator) (id d : Nat) (greedy : Bool)
    (hp : A.PUBLIC_ID ∈ A.ids) (hlen : A.ids.length ≤ 4294967296) :
    ∃ c, set_demand A id d greedy = .ok c ∧
      (c.thrown ≠ none ↔ id = A.PUBLIC_ID ∨ id ∉ A.ids) ∧
      (c.thrown ≠ none → c.state = A) ∧
      (c.thrown = none →
        (∃ fs, get_fair_share A = .ok fs ∧
          (c.state.tenants_ id).demand_ = if greedy then max fs d else d) ∧
        (c.state.tenants_ id).credits_ = (A.tenants_ id).credits_ ∧
        (c.state.tenants_ id).allocation_ = (A.tenants_ id).allocation_ ∧
        (c.state.tenants_ id).rate_ = (A.tenants_ id).rate_ ∧
        (∀ j, j ≠ id → c.state.tenants_ j = A.tenants_ j) ∧
        c.state.ids = A.ids ∧ c.state.PUBLIC_ID = A.PUBLIC_ID ∧
        c.state.DUMMY_ID = A.DUMMY_ID ∧ c.state.num_blocks_ = A.num_blocks_ ∧
        c.state.public_blocks_ = A.public_blocks_ ∧
        c.state.init_credits_ = A.init_credits_) := by
  by_cases hc : id = A.PUBLIC_ID ∨ id ∉ A.ids
  · refine ⟨⟨some .out_of_range, A⟩, ?_, ?_, ?_, ?_⟩
    · unfold set_demand; rw [if_pos hc]
    · simp [hc]
    · intro _; rfl
    · intro h; simp at h
  · have hne : id ≠ A.PUBLIC_ID := fun e => hc (Or.inl e)
    have hid : id ∈ A.ids := by
      by_contra hn
      exact hc (Or.inr hn)
    obtain ⟨fs, hfs⟩ := fair_share_defined hp hlen hid hne
    cases greedy with
    | true =>
      refine ⟨⟨none, A.setRec id { A.tenants_ id with demand_ := max fs d }⟩, ?_, ?_, ?_, ?_⟩
      · unfold set_demand; rw [if_neg hc]; simp only [if_true, hfs]
      · simp [hc]
      · intro h; exact absurd rfl h
      · intro _
        refine ⟨⟨fs, hfs, by simp⟩, by simp, by simp, by simp, ?_, rfl, rfl, rfl, rfl, rfl, rfl⟩
        intro j hj
        exact setRec_tenants_ne A _ hj
    | false =>
      refine ⟨⟨none, A.setRec id { A.tenants_ id with demand_ := d }⟩, ?_, ?_, ?_, ?_⟩
      · unfold set_demand; rw [if_neg hc]; simp
      · simp [hc]
      · intro h; exact absurd rfl h
      · intro _
        refine ⟨⟨fs, hfs, by simp⟩, by simp, by simp, by simp, ?_, rfl, rfl, rfl, rfl, rfl, rfl⟩
        intro j hj
        exact setRec_tenants_ne A _ hj

/-- Witness of C11 on scenario S6 of the specification: with fair share 5,
`set_demand(1, 2, true)`. -/
theorem set_demand_stores_demand_witness :
    scenario_S2.PUBLIC_ID ∈ scenario_S2.ids ∧ scenario_S2.ids.length ≤ 4294967296 ∧
    get_fair_share scenario_S2 = .ok 5 ∧
    ((after scenario_S2 (set_demand scenario_S2 1 2 true)).tenants_ 1).demand_ = 5 ∧
    ∃ c, set_demand scenario_S2 1 2 true = .ok c ∧
      (c.thrown ≠ none ↔ 1 = scenario_S2.PUBLIC_ID ∨ 1 ∉ scenario_S2.ids) ∧
      (c.thrown ≠ none → c.state = scenario_S2) ∧
      (c.thrown = none →
        (∃ fs, get_fair_share scenario_S2 = .ok fs ∧
          (c.state.tenants_ 1).demand_ = if true then max fs 2 else 2) ∧
        (c.state.tenants_ 1).credits_ = (scenario_S2.tenants_ 1).credits_ ∧
        (c.state.tenants_ 1).allocation_ = (scenario_S2.tenants_ 1).allocation_ ∧
        (c.state.tenants_ 1).rate_ = (scenario_S2.tenants_ 1).rate_ ∧
        (∀ j, j ≠ 1 → c.state.tenants_ j = scenario_S2.tenants_ j) ∧
        c.state.ids = scenario_S2.ids ∧ c.state.PUBLIC_ID = scenario_S2.PUBLIC_ID ∧
        c.state.DUMMY_ID = scenario_S2.DUMMY_ID ∧
        c.state.num_blocks_ = scenario_S2.num_blocks_ ∧
        c.state.public_blocks_ = scenario_S2.public_blocks_ ∧
        c.state.init_credits_ = scenario_S2.init_credits_) :=
  ⟨by decide, by decide, rfl, by decide,
    set_demand_stores_demand scenario_S2 1 2 true (by decide) (by decide)⟩

/-! ## The borrowers on the `borrow_from_poor` branch -/

/-- Claim C13: on a valid state with fair share `fs` whose credit-bounded demand fits the
supply (`supply >= demand` at line 67, the `borrow_from_poor` branch), every real tenant with
demand above `fs` ends `allocate` with allocation `fs + min(c, demand - fs)` and credits
`c - min(c, demand - fs)`, where `c = credits + public_blocks / N` are its credits after the
per-epoch grant. -/
theorem borrower_served_up_to_credits (A : KarmaAllocator) (fuel fs : Nat) (h : Valid A)
    (hfuel : enough_fuel A ≤ fuel) (hfs : get_fair_share A = .ok fs)
    (hbr : (phase0 A fs).demand ≤ (phase0 A fs).supply) :
    ∃ B, allocate fuel A = .ok B ∧
      ∀ id ∈ real_ids A, fs < (A.tenants_ id).demand_ →
        (B.tenants_ id).allocation_
          = fs + min ((A.tenants_ id).credits_ + A.public_blocks_ / get_num_tenants A)
              ((A.tenants_ id).demand_ - fs) ∧
        (B.tenants_ id).credits_
          = ((A.tenants_ id).credits_ + A.public_blocks_ / get_num_tenants A)
            - min ((A.tenants_ id).credits_ + A.public_blocks_ / get_num_tenants A)
                ((A.tenants_ id).demand_ - fs) := by
  obtain ⟨B, hB, hsw, _, hcr⟩ := allocate_total h fuel hfuel
  have hbr' := (phase0_branch h hfs).mp hbr
  have hfe := h.fair_share_eq hfs
  subst hfe
  obtain ⟨q1, _, _, _⟩ := hsw.poor hbr'
  refine ⟨B, hB, fun id hid hgt => ?_⟩
  have ha := q1 id hid hgt
  have hr := (hsw.high id hid hgt).2.2
  have hc := hcr id hid
  have hcap : capped A (fair_share_of A) id
      = min ((A.tenants_ id).credits_ + A.public_blocks_ / get_num_tenants A)
          ((A.tenants_ id).demand_ - fair_share_of A) := by
    unfold capped public_share
    exact Nat.min_comm _ _
  have hle := @capped_le A (fair_share_of A) id
  unfold public_share at hc hle
  rw [← hcap]
  refine ⟨ha, ?_⟩
  rw [ha] at hr
  push_cast at hr
  omega

/-- Witness of C13 on scenario S2 (allocations 2 and 8, credits 100 + 3 and 100 - 3); in
scenario S3 the allocations are 0 and 7 and the credits 2 + 2 and 0. -/
theorem borrower_served_up_to_credits_witness :
    Valid scenario_S2 ∧ enough_fuel scenario_S2 ≤ 40 ∧ get_fair_share scenario_S2 = .ok 5 ∧
    (phase0 scenario_S2 5).demand ≤ (phase0 scenario_S2 5).supply ∧
    (allocate 40 scenario_S2).toOption.map
      (fun B => ((B.tenants_ 1).allocation_, (B.tenants_ 2).allocation_,
        (B.tenants_ 1).credits_, (B.tenants_ 2).credits_)) = some (2, 8, 103, 97) ∧
    (allocate 40 scenario_S3).toOption.map
      (fun B => ((B.tenants_ 1).allocation_, (B.tenants_ 2).allocation_,
        (B.tenants_ 1).credits_, (B.tenants_ 2).credits_)) = some (0, 7, 4, 0) ∧
    ∃ B, allocate 40 scenario_S2 = .ok B ∧
      ∀ id ∈ real_ids scenario_S2, 5 < (scenario_S2.tenants_ id).demand_ →
        (B.tenants_ id).allocation_
          = 5 + min ((scenario_S2.tenants_ id).credits_
                + scenario_S2.public_blocks_ / get_num_tenants scenario_S2)
              ((scenario_S2.tenants_ id).demand_ - 5) ∧
        (B.tenants_ id).credits_
          = ((scenario_S2.tenants_ id).credits_
              + scenario_S2.public_blocks_ / get_num_tenants scenario_S2)
            - min ((scenario_S2.tenants_ id).credits_
                + scenario_S2.public_blocks_ / get_num_tenants scenario_S2)
                ((scenario_S2.tenants_ id).demand_ - 5) :=
  ⟨by decide, by decide, rfl, by decide, by decide, by decide,
    borrower_served_up_to_credits scenario_S2 40 5 (by decide) (by decide) rfl (by decide)⟩

/-! ## The fractional finish of `donate_to_rich` -/

/-- Claim C14, a defect of the code: with a supply of 2 (one donor with 2 spare blocks) and
three equal borrowers that ask 3 blocks each, `allocate` takes the `donate_to_rich` branch;
its fractional finish (lines 204-211) decrements `supply` inside the loop that counts up to
`supply`, pops one borrower instead of two and hands out 1 block, while the donor is paid 2
credits. -/
theorem fractional_finish_stops_early :
    Valid three_borrowers ∧ get_fair_share three_borrowers = .ok 3 ∧
    (phase0 three_borrowers 3).supply = 2 ∧ (phase0 three_borrowers 3).demand = 9 ∧
    (allocate 40 three_borrowers).toOption.map
      (fun B => ([2, 3, 4].map fun id => (B.tenants_ id).allocation_ - 3)) = some [1, 0, 0] ∧
    (allocate 40 three_borrowers).toOption.map
      (fun B => (B.tenants_ 1).rate_) = some 2 ∧
    (allocate 40 three_borrowers).toOption.map total_allocation = some 11 :=
  ⟨by decide, rfl, by decide, by decide, by decide, by decide, by decide⟩

/-! ## The sentinel of `borrow_from_poor` -/

/-- Claim C17, a defect of the code: three tenants with 1431655765 credits each (below
`2^31`), 12 blocks of which 6 are public, demands 5, 2, 2.  The only donor is the public
tenant, whose credits are set to `init_credits * N = 4294967295` at line 48: the key of the
sentinel.  `borrow_from_poor` advances `curr_c` to it and `assert(curr_c < UINT32_MAX)`
(line 134) fails, whatever the budget of iterations. -/
theorem public_key_meets_sentinel (fuel : Nat) :
    get_num_tenants public_at_sentinel = 3 ∧
    public_at_sentinel.public_blocks_ ≤ public_at_sentinel.num_blocks_ ∧
    public_at_sentinel.num_blocks_ < 2147483648 ∧
    public_at_sentinel.init_credits_ < 2147483648 ∧
    (∀ id ∈ public_at_sentinel.ids,
      (public_at_sentinel.tenants_ id).credits_ + 2 < 2147483648 ∧
      (public_at_sentinel.tenants_ id).demand_ < 2147483648) ∧
    (phase0 public_at_sentinel 2).demand ≤ (phase0 public_at_sentinel 2).supply ∧
    allocate (fuel + 1) public_at_sentinel = .error .assert_failed :=
  ⟨by decide, by decide, by decide, by decide, by decide, by decide, rfl⟩

/-! ## Credits do not wrap -/

/-- Claim C20: on every valid state `allocate` returns, and for every real tenant the rate it
accumulated is at least `-(credits + public_blocks / N)`, so the credits after the commit are
the exact integer `credits + public_blocks / N + rate`, which is not negative; this holds on
both branches. -/
theorem credits_do_not_wrap (A : KarmaAllocator) (fuel : Nat) (h : Valid A)
    (hfuel : enough_fuel A ≤ fuel) :
    ∃ B, allocate fuel A = .ok B ∧
      ∀ id ∈ real_ids A,
        -(((A.tenants_ id).credits_ + A.public_blocks_ / get_num_tenants A : Nat) : Int)
          ≤ (B.tenants_ id).rate_ ∧
        (0 : Int) ≤ ((A.tenants_ id).credits_ + A.public_blocks_ / get_num_tenants A : Nat)
          + (B.tenants_ id).rate_ ∧
        ((B.tenants_ id).credits_ : Int)
          = ((A.tenants_ id).credits_ + A.public_blocks_ / get_num_tenants A : Nat)
            + (B.tenants_ id).rate_ := by
  obtain ⟨B, hB, _, _, hcr⟩ := allocate_total h fuel hfuel
  refine ⟨B, hB, fun id hid => ?_⟩
  have hc := hcr id hid
  unfold public_share at hc
  have h0 : (0 : Int) ≤ ((B.tenants_ id).credits_ : Int) := Int.natCast_nonneg _
  push_cast
  refine ⟨by omega, by omega, by omega⟩

/-- Witness of C20 on scenario S3, where tenant 2 spends all its credits. -/
theorem credits_do_not_wrap_witness :
    Valid scenario_S3 ∧ enough_fuel scenario_S3 ≤ 40 ∧
    ∃ B, allocate 40 scenario_S3 = .ok B ∧
      ∀ id ∈ real_ids scenario_S3,
        -(((scenario_S3.tenants_ id).credits_
            + scenario_S3.public_blocks_ / get_num_tenants scenario_S3 : Nat) : Int)
          ≤ (B.tenants_ id).rate_ ∧
        (0 : Int) ≤ ((scenario_S3.tenants_ id).credits_
            + scenario_S3.public_blocks_ / get_num_tenants scenario_S3 : Nat)
          + (B.tenants_ id).rate_ ∧
        ((B.tenants_ id).credits_ : Int)
          = ((scenario_S3.tenants_ id).credits_
              + scenario_S3.public_blocks_ / get_num_tenants scenario_S3 : Nat)
            + (B.tenants_ id).rate_ :=
  ⟨by decide, by decide, credits_do_not_wrap scenario_S3 40 (by decide) (by decide)⟩

/-! ## The order in which donors lend and borrowers are served -/

theorem donor_rate_le_blocks {A B : KarmaAllocator} (h : Valid A) (hsw : Swept A B)
    (hbr : borrower_demand A (fair_share_of A) A.ids
      ≤ A.public_blocks_ + donor_supply A (fair_share_of A) A.ids)
    {a : Nat} (ha : a ∈ (phase0 A (fair_share_of A)).donors) :
    0 ≤ (B.tenants_ a).rate_ ∧
    (B.tenants_ a).rate_ ≤ (donor_candidate A (fair_share_of A) a).blocks_ := by
  obtain ⟨_, _, p3, _, _, _⟩ := phase0_spec h
  have hf := h.fair_lt
  obtain ⟨h0, h1, h2, h3, h4, h5, h6, h7⟩ := h
  rw [p3] at ha
  rcases List.mem_append.mp ha with hr | hp
  · obtain ⟨a1, a2, a3⟩ := mem_real_donors.mp hr
    have hl := hsw.low a (mem_real_ids.mpr ⟨a1, a2⟩) (by omega)
    have hs := @surplus_real_donor A (fair_share_of A) a hf a2 a3
    unfold donor_candidate
    simp only
    omega
  · have hpe : a = A.PUBLIC_ID := by
      by_cases hpos : A.public_blocks_ > 0
      · rw [if_pos hpos] at hp; exact List.mem_singleton.mp hp
      · rw [if_neg hpos] at hp; exact absurd hp (List.not_mem_nil _)
    subst hpe
    obtain ⟨_, _, q3, q4⟩ := hsw.poor hbr
    have hs := @surplus_public A (fair_share_of A) (by omega)
    unfold donor_candidate
    simp only [hs]
    exact ⟨q3, q4⟩

theorem donor_candidates_closed {A : KarmaAllocator} (h : Valid A) :
    donor_candidates
        (borrow_all (fair_share_of A) (phase0 A (fair_share_of A)).A
          (phase0 A (fair_share_of A)).borrowers) (phase0 A (fair_share_of A)).donors
      = .ok ((phase0 A (fair_share_of A)).donors.map (donor_candidate A (fair_share_of A)),
          borrow_all (fair_share_of A) (phase0 A (fair_share_of A)).A
            (phase0 A (fair_share_of A)).borrowers) := by
  have hw := h.no_wrap
  obtain ⟨p1, p2, p3, p4, p5, p6⟩ := phase0_spec h
  have hnd : A.ids.Nodup := h.1
  have hpub : A.PUBLIC_ID ∈ A.ids := h.2.1
  have hmem : ∀ id ∈ (phase0 A (fair_share_of A)).donors, id ∈ A.ids := by
    intro id hid
    rw [p3] at hid
    rcases List.mem_append.mp hid with hm | hm
    · exact (mem_real_donors.mp hm).1
    · by_cases hp : A.public_blocks_ > 0
      · rw [if_pos hp] at hm
        rw [List.mem_singleton.mp hm]; exact hpub
      · rw [if_neg hp] at hm
        exact absurd hm (List.not_mem_nil _)
  rw [p4]
  obtain ⟨b1, b2⟩ := borrow_all_spec hw hnd p1 p2
  have hfs : get_fair_share (borrow_all (fair_share_of A) (phase0 A (fair_share_of A)).A
      (real_borrowers A (fair_share_of A) A.ids)) = .ok (fair_share_of A) := by
    rw [b1.same_fair_share]; exact h.valid_fair_share
  rw [donor_candidates_spec (fair_share_of A) _ _ hfs (fun id hid => by
    rw [b1.2.2.2.2.2]; exact hmem id hid)]
  congr 2
  apply List.map_congr_left
  intro id hid
  have hrec : (borrow_all (fair_share_of A) (phase0 A (fair_share_of A)).A
      (real_borrowers A (fair_share_of A) A.ids)).tenants_ id
      = if id ∈ real_borrowers A (fair_share_of A) A.ids then
          { rec0 A (fair_share_of A) id with
            allocation_ := fair_share_of A + capped A (fair_share_of A) id,
            rate_ := -(capped A (fair_share_of A) id : Int) }
        else rec0 A (fair_share_of A) id := by
    rw [b2 id, p2 id, if_pos (hmem id hid)]
  have hdem : (rec0 A (fair_share_of A) id).demand_ = (A.tenants_ id).demand_ := by
    unfold rec0
    split <;> rfl
  unfold donor_candidate surplus
  rw [b1.1, b1.2.2.2.1, hrec]
  by_cases hb : id ∈ real_borrowers A (fair_share_of A) A.ids
  · simp only [if_pos hb, hdem]
  · simp only [if_neg hb, hdem]

/-- Claim C15: on a valid state whose credit-bounded demand fits the supply (the
`borrow_from_poor` branch), take two entries `a` and `b` of the donor list whose candidates
`(id, credits, blocks)` have `credits_a < credits_b`.  If `b` lends a block in this epoch
(`rate_b > 0`), then `a` has lent all its blocks (`rate_a = blocks_a`) or has been raised at
least to the credits of `b` (`credits_a + rate_a >= credits_b`).  The candidates are the ones
that lines 117-120 build from the donor list. -/
theorem poorest_donors_lend_first (A : KarmaAllocator) (fuel fs : Nat) (h : Valid A)
    (hfuel : enough_fuel A ≤ fuel) (hfs : get_fair_share A = .ok fs)
    (hbr : (phase0 A fs).demand ≤ (phase0 A fs).supply) :
    ∃ B, allocate fuel A = .ok B ∧
      donor_candidates (borrow_all fs (phase0 A fs).A (phase0 A fs).borrowers)
          (phase0 A fs).donors
        = .ok ((phase0 A fs).donors.map (donor_candidate A fs),
            borrow_all fs (phase0 A fs).A (phase0 A fs).borrowers) ∧
      ∀ a ∈ (phase0 A fs).donors, ∀ b ∈ (phase0 A fs).donors,
        (donor_candidate A fs a).credits_ < (donor_candidate A fs b).credits_ →
        0 < (B.tenants_ b).rate_ →
        (B.tenants_ a).rate_ = (donor_candidate A fs a).blocks_ ∨
        (donor_candidate A fs b).credits_
          ≤ (donor_candidate A fs a).credits_ + (B.tenants_ a).rate_ := by
  obtain ⟨B, hB, hsw, _, _⟩ := allocate_total h fuel hfuel
  have hbr' := (phase0_branch h hfs).mp hbr
  have hfe := h.fair_share_eq hfs
  subst hfe
  obtain ⟨L, q⟩ := hsw.level hbr'
  refine ⟨B, hB, donor_candidates_closed h, fun a ha b hb hlt hpos => ?_⟩
  have qa := (q a ha).1.1
  have qb := (q b hb).2 (by omega)
  have hle := (donor_rate_le_blocks h hsw hbr' ha).2
  unfold lent at qa
  by_cases hc : ((donor_candidate A (fair_share_of A) a).blocks_ : Int)
      ≤ L - (donor_candidate A (fair_share_of A) a).credits_
  · left
    have h1 : ((donor_candidate A (fair_share_of A) a).blocks_ : Int)
        ≤ max 0 (L - (donor_candidate A (fair_share_of A) a).credits_) :=
      le_trans hc (le_max_right _ _)
    rw [min_eq_left h1] at qa
    omega
  · right
    have h1 : max 0 (L - (donor_candidate A (fair_share_of A) a).credits_)
        ≤ ((donor_candidate A (fair_share_of A) a).blocks_ : Int) := by
      apply max_le
      · exact Int.natCast_nonneg _
      · omega
    rw [min_eq_right h1] at qa
    have h2 := le_trans (le_max_right 0 (L - (donor_candidate A (fair_share_of A) a).credits_)) qa
    omega

/-- Witness of C15 on two donors with 1 and 4 credits: the 4 blocks that are borrowed come
from the poorer donor first (3 blocks), then from the other one (1 block). -/
theorem poorest_donors_lend_first_witness :
    Valid ranked_donors ∧ enough_fuel ranked_donors ≤ 40 ∧
    get_fair_share ranked_donors = .ok 4 ∧
    (phase0 ranked_donors 4).demand ≤ (phase0 ranked_donors 4).supply ∧
    (phase0 ranked_donors 4).donors = [1, 2] ∧
    (allocate 40 ranked_donors).toOption.map
      (fun B => ((B.tenants_ 1).rate_, (B.tenants_ 2).rate_)) = some (3, 1) ∧
    ∃ B, allocate 40 ranked_donors = .ok B ∧
      donor_candidates
          (borrow_all 4 (phase0 ranked_donors 4).A (phase0 ranked_donors 4).borrowers)
          (phase0 ranked_donors 4).donors
        = .ok ((phase0 ranked_donors 4).donors.map (donor_candidate ranked_donors 4),
            borrow_all 4 (phase0 ranked_donors 4).A (phase0 ranked_donors 4).borrowers) ∧
      ∀ a ∈ (phase0 ranked_donors 4).donors, ∀ b ∈ (phase0 ranked_donors 4).donors,
        (donor_candidate ranked_donors 4 a).credits_
          < (donor_candidate ranked_donors 4 b).credits_ →
        0 < (B.tenants_ b).rate_ →
        (B.tenants_ a).rate_ = (donor_candidate ranked_donors 4 a).blocks_ ∨
        (donor_candidate ranked_donors 4 b).credits_
          ≤ (donor_candidate ranked_donors 4 a).credits_ + (B.tenants_ a).rate_ :=
  ⟨by decide, by decide, rfl, by decide, by decide, by decide,
    poorest_donors_lend_first ranked_donors 40 4 (by decide) (by decide) rfl (by decide)⟩

/-- Claim C16: on a valid state whose credit-bounded demand exceeds the supply (the
`donate_to_rich` branch), take two real tenants `a` and `b` with demand above the fair share
`fs` and with more credits for `a` than for `b` (before or, equally, after the per-epoch
grant `public_blocks / N`).  If `b` is granted a block beyond `fs`, then `a` is granted its
whole request `min(credits_a, demand_a - fs)` or has been brought down at least to the
credits of `b`: `credits_a - granted_a <= credits_b`, credits counted after the grant. -/
theorem richest_borrowers_served_first (A : KarmaAllocator) (fuel fs : Nat) (h : Valid A)
    (hfuel : enough_fuel A ≤ fuel) (hfs : get_fair_share A = .ok fs)
    (hbr : (phase0 A fs).supply < (phase0 A fs).demand) :
    ∃ B, allocate fuel A = .ok B ∧
      ∀ a ∈ real_ids A, ∀ b ∈ real_ids A,
        fs < (A.tenants_ a).demand_ → fs < (A.tenants_ b).demand_ →
        (A.tenants_ b).credits_ + A.public_blocks_ / get_num_tenants A
          < (A.tenants_ a).credits_ + A.public_blocks_ / get_num_tenants A →
        fs < (B.tenants_ b).allocation_ →
        (B.tenants_ a).allocation_
          = fs + min ((A.tenants_ a).credits_ + A.public_blocks_ / get_num_tenants A)
              ((A.tenants_ a).demand_ - fs) ∨
        (((A.tenants_ a).credits_ + A.public_blocks_ / get_num_tenants A : Nat) : Int)
            - (((B.tenants_ a).allocation_ : Int) - fs)
          ≤ ((A.tenants_ b).credits_ + A.public_blocks_ / get_num_tenants A : Nat) := by
  obtain ⟨B, hB, hsw, _, _⟩ := allocate_total h fuel hfuel
  have hbr' : A.public_blocks_ + donor_supply A (fair_share_of A) A.ids
      < borrower_demand A (fair_share_of A) A.ids := by
    have := (phase0_branch h hfs).not.mp (by omega)
    omega
  have hfe := h.fair_share_eq hfs
  subst hfe
  refine ⟨B, hB, fun a ha b hb hda hdb hlt hpos => ?_⟩
  obtain ⟨a1, a2⟩ := mem_real_ids.mp ha
  obtain ⟨b1, b2⟩ := mem_real_ids.mp hb
  have key := hsw.rich_first hbr' a (mem_real_borrowers.mpr ⟨a1, a2, hda⟩)
    b (mem_real_borrowers.mpr ⟨b1, b2, hdb⟩) (by omega) (by omega)
  have hcap : capped A (fair_share_of A) a
      = min ((A.tenants_ a).credits_ + A.public_blocks_ / get_num_tenants A)
          ((A.tenants_ a).demand_ - fair_share_of A) := by
    unfold capped public_share
    exact Nat.min_comm _ _
  unfold public_share at key
  rw [← hcap]
  rcases key with k | k
  · exact Or.inl k
  · right
    push_cast
    exact k

/-- Witness of C16 on two borrowers with 6 and 5 credits that ask 2 and 4 blocks of a
supply of 4: the richer one is granted its 2 blocks, the other one the 2 that are left. -/
theorem richest_borrowers_served_first_witness :
    Valid ranked_borrowers ∧ enough_fuel ranked_borrowers ≤ 40 ∧
    get_fair_share ranked_borrowers = .ok 4 ∧
    (phase0 ranked_borrowers 4).supply < (phase0 ranked_borrowers 4).demand ∧
    (allocate 40 ranked_borrowers).toOption.map
      (fun B => ((B.tenants_ 2).allocation_, (B.tenants_ 3).allocation_)) = some (6, 6) ∧
    ∃ B, allocate 40 ranked_borrowers = .ok B ∧
      ∀ a ∈ real_ids ranked_borrowers, ∀ b ∈ real_ids ranked_borrowers,
        4 < (ranked_borrowers.tenants_ a).demand_ → 4 < (ranked_borrowers.tenants_ b).demand_ →
        (ranked_borrowers.tenants_ b).credits_
            + ranked_borrowers.public_blocks_ / get_num_tenants ranked_borrowers
          < (ranked_borrowers.tenants_ a).credits_
            + ranked_borrowers.public_blocks_ / get_num_tenants ranked_borrowers →
        4 < (B.tenants_ b).allocation_ →
        (B.tenants_ a).allocation_
          = 4 + min ((ranked_borrowers.tenants_ a).credits_
                + ranked_borrowers.public_blocks_ / get_num_tenants ranked_borrowers)
              ((ranked_borrowers.tenants_ a).demand_ - 4) ∨
        (((ranked_borrowers.tenants_ a).credits_
              + ranked_borrowers.public_blocks_ / get_num_tenants ranked_borrowers : Nat) : Int)
            - (((B.tenants_ a).allocation_ : Int) - 4)
          ≤ ((ranked_borrowers.tenants_ b).credits_
              + ranked_borrowers.public_blocks_ / get_num_tenants ranked_borrowers : Nat) :=
  ⟨by decide, by decide, rfl, by decide, by decide,
    richest_borrowers_served_first ranked_borrowers 40 4 (by decide) (by decide) rfl
      (by decide)⟩

/-! ## Credits are conserved by lending -/

theorem sum_zero_of_nonneg (f : Nat → Int) :
    ∀ l : List Nat, (∀ x ∈ l, 0 ≤ f x) → (l.map f).sum = 0 → ∀ x ∈ l, f x = 0 := by
  intro l
  induction l with
  | nil => intro _ _ x hx; exact absurd hx (List.not_mem_nil _)
  | cons a l ih =>
    intro hnn hs x hx
    simp only [List.map_cons, List.sum_cons] at hs
    have ha := hnn a (List.mem_cons_self _ _)
    have hl : 0 ≤ (l.map f).sum :=
      List.sum_nonneg (fun y hy => by
        obtain ⟨z, hz, rfl⟩ := List.mem_map.mp hy
        exact hnn z (List.mem_cons_of_mem _ hz))
    rcases List.mem_cons.mp hx with rfl | hx'
    · omega
    · exact ih (fun y hy => hnn y (List.mem_cons_of_mem _ hy)) (by omega) x hx'

/-- Claim C19: on a valid state whose credit-bounded demand fits the supply (the
`borrow_from_poor` branch), the rates of the donors, public tenant included, add up to the
demand that is passed in, which is the sum over the borrowers of
`min(credits + public_blocks / N, demand - fair_share)`; the rates of all entries of the
table add up to 0; and when no real tenant demands more than the fair share, every rate
is 0. -/
theorem lending_conserves_credits (A : KarmaAllocator) (fuel fs : Nat) (h : Valid A)
    (hfuel : enough_fuel A ≤ fuel) (hfs : get_fair_share A = .ok fs)
    (hbr : (phase0 A fs).demand ≤ (phase0 A fs).supply) :
    ∃ B, allocate fuel A = .ok B ∧
      rate_sum B (phase0 A fs).donors = (phase0 A fs).demand ∧
      (phase0 A fs).demand
        = ((real_borrowers A fs A.ids).map fun id =>
            min ((A.tenants_ id).credits_ + A.public_blocks_ / get_num_tenants A)
              ((A.tenants_ id).demand_ - fs)).sum ∧
      rate_sum B A.ids = 0 ∧
      ((∀ id ∈ real_ids A, (A.tenants_ id).demand_ ≤ fs) →
        ∀ id ∈ A.ids, (B.tenants_ id).rate_ = 0) := by
  obtain ⟨B, hB, hsw, _, _⟩ := allocate_total h fuel hfuel
  have hbr' := (phase0_branch h hfs).mp hbr
  have hfe := h.fair_share_eq hfs
  subst hfe
  obtain ⟨_, _, _, _, _, p6⟩ := phase0_spec h
  obtain ⟨_, q2, q3, q4⟩ := hsw.poor hbr'
  refine ⟨B, hB, ?_, ?_, q2, ?_⟩
  · rw [p6]; exact_mod_cast hsw.paid hbr'
  · rw [p6]
    unfold borrower_demand
    congr 1
    apply List.map_congr_left
    intro id _
    unfold capped public_share
    exact Nat.min_comm _ _
  · intro hno
    apply sum_zero_of_nonneg (fun id => (B.tenants_ id).rate_) A.ids _ q2
    intro id hid
    by_cases hp : id = A.PUBLIC_ID
    · rw [hp]; exact q3
    · have hr := mem_real_ids.mpr ⟨hid, hp⟩
      exact (hsw.low id hr (hno id hr)).2.1

/-- Witness of C19 on scenario S2, where tenant 2 borrows 3 blocks from tenant 1. -/
theorem lending_conserves_credits_witness :
    Valid scenario_S2 ∧ enough_fuel scenario_S2 ≤ 40 ∧ get_fair_share scenario_S2 = .ok 5 ∧
    (phase0 scenario_S2 5).demand ≤ (phase0 scenario_S2 5).supply ∧
    (phase0 scenario_S2 5).demand = 3 ∧
    ∃ B, allocate 40 scenario_S2 = .ok B ∧
      rate_sum B (phase0 scenario_S2 5).donors = (phase0 scenario_S2 5).demand ∧
      (phase0 scenario_S2 5).demand
        = ((real_borrowers scenario_S2 5 scenario_S2.ids).map fun id =>
            min ((scenario_S2.tenants_ id).credits_
                + scenario_S2.public_blocks_ / get_num_tenants scenario_S2)
              ((scenario_S2.tenants_ id).demand_ - 5)).sum ∧
      rate_sum B scenario_S2.ids = 0 ∧
      ((∀ id ∈ real_ids scenario_S2, (scenario_S2.tenants_ id).demand_ ≤ 5) →
        ∀ id ∈ scenario_S2.ids, (B.tenants_ id).rate_ = 0) :=
  ⟨by decide, by decide, rfl, by decide, by decide,
    lending_conserves_credits scenario_S2 40 5 (by decide) (by decide) rfl (by decide)⟩

/-! ## What `allocate` leaves of the keys, on every state -/

theorem whileM_keeps {σ : Type} {cond : σ → Except Err Bool} {body : σ → Except Err σ}
    (P : σ → Prop) (hb : ∀ s s', P s → cond s = .ok true → body s = .ok s' → P s') :
    ∀ (fuel : Nat) (s s' : σ), P s → whileM cond body fuel s = .ok s' →
      P s' ∧ cond s' = .ok false := by
  intro fuel
  induction fuel with
  | zero => intro s s' _ h; simp [whileM] at h
  | succ n ih =>
    intro s s' hP h
    unfold whileM at h
    split at h
    · exact absurd h (by simp)
    · rename_i hc
      injection h with h
      subst h
      exact ⟨hP, hc⟩
    · rename_i hc
      split at h
      · exact absurd h (by simp)
      · rename_i s1 h1
        exact ih s1 s' (hb s s1 hP hc h1) h

theorem pop_keeps {H H' : BroadcastHeap} {x : Nat × Int} (h : H.pop = .ok (x, H')) :
    x.1 ∈ hids H ∧ ∀ id ∈ hids H', id ∈ hids H := by
  unfold BroadcastHeap.pop at h
  split at h
  · exact absurd h (by simp)
  · rename_i k id rest hi
    injection h with h
    injection h with h1 h2
    subst h1 h2
    unfold hids
    rw [hi]
    refine ⟨by simp, fun j hj => ?_⟩
    simp only [List.map_cons, List.mem_cons]
    exact Or.inr hj

theorem get_block_surplus_state {A B : KarmaAllocator} {id sur : Nat} (h : id ∈ A.ids)
    (hr : get_block_surplus A id = .ok (sur, B)) : B = A := by
  unfold get_block_surplus at hr
  split at hr
  · injection hr with hr
    injection hr with _ h2
    exact h2.symm
  · split at hr
    · exact absurd hr (by simp)
    · injection hr with hr
      injection hr with _ h2
      rw [← h2, touch_of_mem h]

theorem add_rate_same {A B : KarmaAllocator} {id : Nat} (e : Nat → Int) (h : id ∈ A.ids)
    (hr : add_rate A id e = .ok B) : Same A B := by
  unfold add_rate at hr
  split at hr
  · exact absurd hr (by simp)
  · rename_i sur A1 hs
    have h1 := get_block_surplus_state h hs
    subst h1
    injection hr with hr
    rw [← hr, modify_of_mem h]
    exact Same.setRec _ _ _

theorem grant_same {A : KarmaAllocator} {id : Nat} (d : Tenant → Int) (h : id ∈ A.ids) :
    Same A (grant A id d) := by
  rw [grant_of_mem d h]
  exact Same.setRec _ _ _

theorem pop_donor_keeps {A0 : KarmaAllocator} {K : List Nat} (hK : ∀ id ∈ K, id ∈ A0.ids)
    (e : Nat → Int → Int) {s s' : KarmaAllocator × BroadcastHeap}
    (h : Kept A0 K s.1 s.2) (hr : pop_donor e s = .ok s') : Kept A0 K s'.1 s'.2 := by
  unfold pop_donor at hr
  split at hr
  · exact absurd hr (by simp)
  · rename_i x H hp
    split at hr
    · exact absurd hr (by simp)
    · rename_i A ha
      injection hr with hr
      subst hr
      obtain ⟨m1, m2⟩ := pop_keeps hp
      have hid : x.1 ∈ s.1.ids := by
        rw [h.1.2.2.2.2.2]; exact hK _ (h.2 _ m1)
      exact ⟨h.1.trans (add_rate_same _ hid ha), fun id hid1 => h.2 id (m2 id hid1)⟩

theorem pop_borrower_keeps {A0 : KarmaAllocator} {K : List Nat} (hK : ∀ id ∈ K, id ∈ A0.ids)
    (d : Tenant → Int → Int) {s s' : KarmaAllocator × BroadcastHeap}
    (h : Kept A0 K s.1 s.2) (hr : pop_borrower d s = .ok s') : Kept A0 K s'.1 s'.2 := by
  unfold pop_borrower at hr
  split at hr
  · exact absurd hr (by simp)
  · rename_i x H hp
    injection hr with hr
    subst hr
    obtain ⟨m1, m2⟩ := pop_keeps hp
    have hid : x.1 ∈ s.1.ids := by
      rw [h.1.2.2.2.2.2]; exact hK _ (h.2 _ m1)
    exact ⟨h.1.trans (grant_same _ hid), fun id hid1 => h.2 id (m2 id hid1)⟩

theorem enter_keeps {K : List Nat} {sorted : List Candidate} (sentinel : Candidate)
    (hs : ∀ c ∈ sorted, c.id_ ∈ K) (curr_c : Int) (fuel : Nat) {H : BroadcastHeap} {idx : Nat}
    {r : BroadcastHeap × Nat} {x : Candidate} (h0 : ∀ id ∈ hids H, id ∈ K)
    (hr : whileM (enter_cond (sorted ++ [sentinel]) curr_c)
      (enter_body (sorted ++ [sentinel])) fuel (H, idx) = .ok r)
    (hx : (sorted ++ [sentinel])[r.2]? = some x) : ∀ id ∈ hids r.1, id ∈ K := by
  have key := whileM_keeps
    (fun q : BroadcastHeap × Nat => q.2 ≤ sorted.length → ∀ id ∈ hids q.1, id ∈ K)
    (by
      intro q q1 hP _ hb hle
      unfold enter_body at hb
      split at hb
      · exact absurd hb (by simp)
      · rename_i c hc
        injection hb with hb
        subst hb
        simp only at hle ⊢
        have hlt : q.2 < sorted.length := by omega
        have hcm : c ∈ sorted := by
          rw [List.getElem?_append_left hlt] at hc
          exact List.getElem?_mem hc
        intro id hid
        rcases List.mem_cons.mp ((hids_push_perm _ _ _).mem_iff.mp hid) with rfl | h1
        · exact hs c hcm
        · exact hP (by omega) id h1)
    fuel (H, idx) r (fun _ => h0) hr
  apply key.1
  have := lt_length_of_getElem? hx
  simp only [List.length_append, List.length_singleton] at this
  omega

/-! ### `borrow_from_poor` -/

theorem poor_advance_keeps {A0 : KarmaAllocator} {K : List Nat} {s s1 : PoorLoop}
    (h : Kept A0 K s.A s.poorest_donors) (h1 : poor_advance s = .ok s1) :
    Kept A0 K s1.A s1.poorest_donors := by
  unfold poor_advance at h1
  split at h1
  · split at h1
    · injection h1 with h1
      subst h1
      exact h
    · exact absurd h1 (by simp)
  · injection h1 with h1
    subst h1
    exact h

theorem poor_enter_keeps {A0 : KarmaAllocator} {K : List Nat} {sorted : List Candidate}
    (sentinel : Candidate) (hs : ∀ c ∈ sorted, c.id_ ∈ K) (fuel : Nat) {s s2 : PoorLoop}
    (h : Kept A0 K s.A s.poorest_donors)
    (h2 : poor_enter fuel (sorted ++ [sentinel]) s = .ok s2) :
    Kept A0 K s2.A s2.poorest_donors := by
  unfold poor_enter at h2
  split at h2
  · exact absurd h2 (by simp)
  rename_i r hw
  split at h2
  · exact absurd h2 (by simp)
  rename_i x hx
  injection h2 with h2
  subst h2
  exact ⟨h.1, enter_keeps sentinel hs _ fuel h.2 hw hx⟩

theorem poor_serve_keeps {A0 : KarmaAllocator} {K : List Nat} (hK : ∀ id ∈ K, id ∈ A0.ids)
    (fuel : Nat) {s s3 : PoorLoop} (h : Kept A0 K s.A s.poorest_donors)
    (h3 : poor_serve fuel s = .ok s3) : Kept A0 K s3.A s3.poorest_donors := by
  unfold poor_serve at h3
  split at h3
  · split at h3
    · exact absurd h3 (by simp)
    rename_i r hw
    injection h3 with h3
    subst h3
    unfold poor_fraction at hw
    exact (whileM_keeps
      (fun q : (KarmaAllocator × BroadcastHeap) × Nat => Kept A0 K q.1.1 q.1.2)
      (by
        intro q q1 hP _ hb
        split at hb
        · exact absurd hb (by simp)
        · rename_i p hp
          injection hb with hb
          subst hb
          exact pop_donor_keeps hK _ hP hp)
      fuel _ r h hw).1
  · split at h3
    · exact absurd h3 (by simp)
    injection h3 with h3
    subst h3
    exact h

theorem poor_drain_keeps {A0 : KarmaAllocator} {K : List Nat} (hK : ∀ id ∈ K, id ∈ A0.ids)
    (fuel : Nat) {s s4 : PoorLoop} (h : Kept A0 K s.A s.poorest_donors)
    (hr : poor_drain fuel s = .ok s4) : Kept A0 K s4.A s4.poorest_donors := by
  unfold poor_drain at hr
  split at hr
  · exact absurd hr (by simp)
  rename_i r hw
  injection hr with hr
  subst hr
  exact (whileM_keeps (fun q : KarmaAllocator × BroadcastHeap => Kept A0 K q.1 q.2)
    (fun q q1 hP _ hb => pop_donor_keeps hK _ hP hb) fuel _ r h hw).1

theorem poor_body_keeps {A0 : KarmaAllocator} {K : List Nat} {sorted : List Candidate}
    (sentinel : Candidate) (hK : ∀ id ∈ K, id ∈ A0.ids) (hs : ∀ c ∈ sorted, c.id_ ∈ K)
    (fuel : Nat) {s s' : PoorLoop} (h : Kept A0 K s.A s.poorest_donors)
    (hr : poor_body fuel (sorted ++ [sentinel]) s = .ok s') :
    Kept A0 K s'.A s'.poorest_donors := by
  unfold poor_body at hr
  split at hr
  · exact absurd hr (by simp)
  rename_i s1 h1
  split at hr
  · exact absurd hr (by simp)
  rename_i s2 h2
  split at hr
  · exact absurd hr (by simp)
  rename_i s3 h3
  exact poor_drain_keeps hK fuel
    (poor_serve_keeps hK fuel (poor_enter_keeps sentinel hs fuel (poor_advance_keeps h h1) h2) h3)
    hr

theorem borrow_all_same (fs : Nat) :
    ∀ (bs : List Nat) (A : KarmaAllocator), (∀ id ∈ bs, id ∈ A.ids) →
      Same A (borrow_all fs A bs) := by
  intro bs
  induction bs with
  | nil => intro A _; exact Same.refl A
  | cons b bs ih =>
    intro A hm
    have h1 := @grant_same A b (fun t => (request fs t : Int)) (hm b (List.mem_cons_self _ _))
    have h2 := ih (grant A b fun t => (request fs t : Int)) (fun id hid => by
      rw [h1.2.2.2.2.2]; exact hm id (List.mem_cons_of_mem _ hid))
    exact h1.trans h2

theorem donor_candidates_same :
    ∀ (l : List Nat) (A B : KarmaAllocator) (cs : List Candidate),
      (∀ id ∈ l, id ∈ A.ids) → donor_candidates A l = .ok (cs, B) →
      B = A ∧ cand_ids cs = l := by
  intro l
  induction l with
  | nil =>
    intro A B cs _ h
    simp only [donor_candidates] at h
    injection h with h
    injection h with h1 h2
    subst h1 h2
    exact ⟨rfl, rfl⟩
  | cons a l ih =>
    intro A B cs hm h
    have ha := hm a (List.mem_cons_self _ _)
    simp only [donor_candidates, touch_of_mem ha] at h
    split at h
    · exact absurd h (by simp)
    rename_i b A2 hs
    have e2 := get_block_surplus_state ha hs
    subst e2
    split at h
    · exact absurd h (by simp)
    rename_i cs1 A3 hrest
    injection h with h
    injection h with h1 h2
    subst h1 h2
    obtain ⟨e3, e4⟩ := ih _ _ _ (fun id hid => hm id (List.mem_cons_of_mem _ hid)) hrest
    refine ⟨e3, ?_⟩
    unfold cand_ids at e4 ⊢
    simp only [List.map_cons, e4]

theorem sorted_ids {cs : List Candidate} {r : Candidate → Candidate → Prop} [DecidableRel r]
    {K : List Nat} (h : ∀ id ∈ cand_ids cs, id ∈ K) :
    ∀ c ∈ cs.insertionSort r, c.id_ ∈ K := by
  intro c hc
  exact h _ (cand_ids_mem ((List.perm_insertionSort r cs).mem_iff.mp hc))

theorem borrow_from_poor_same {A B : KarmaAllocator} {fuel demand : Nat}
    {donors borrowers : List Nat} (hd : ∀ id ∈ donors, id ∈ A.ids)
    (hb : ∀ id ∈ borrowers, id ∈ A.ids)
    (hr : borrow_from_poor fuel A demand donors borrowers = .ok B) : Same A B := by
  unfold borrow_from_poor at hr
  split at hr
  · exact absurd hr (by simp)
  rename_i fs _
  split at hr
  · exact absurd hr (by simp)
  rename_i cs A1 hc
  have hba := borrow_all_same fs borrowers A hb
  obtain ⟨e1, e2⟩ := donor_candidates_same donors _ _ _ (fun id hid => by
    rw [hba.2.2.2.2.2]; exact hd id hid) hc
  subst e1
  simp only at hr
  split at hr
  · exact absurd hr (by simp)
  split at hr
  · exact absurd hr (by simp)
  rename_i s hw
  split at hr
  · exact absurd hr (by simp)
  rename_i q hq
  injection hr with hr
  subst hr
  have hK : ∀ id ∈ donors, id ∈ (borrow_all fs A borrowers).ids := fun id hid => by
    rw [hba.2.2.2.2.2]; exact hd id hid
  have hsrt : ∀ c ∈ cs.insertionSort (fun a b => a.credits_ ≤ b.credits_), c.id_ ∈ donors :=
    sorted_ids (fun id hid => by rw [← e2]; exact hid)
  unfold sorted_donors at hw
  have k1 := (whileM_keeps
    (fun s : PoorLoop => Kept (borrow_all fs A borrowers) donors s.A s.poorest_donors)
    (fun s s1 hP _ hb1 => poor_body_keeps _ hK hsrt fuel hP hb1) fuel _ s
    ⟨Same.refl _, fun id hid => by simp [hids, BroadcastHeap.init] at hid⟩ hw).1
  unfold poor_rest at hq
  have k2 := (whileM_keeps
    (fun r : KarmaAllocator × BroadcastHeap =>
      Kept (borrow_all fs A borrowers) donors r.1 r.2)
    (fun r r1 hP _ hb1 => pop_donor_keeps hK _ hP hb1) fuel _ q k1 hq).1
  exact hba.trans k2.1

/-! ### `donate_to_rich` -/

theorem rich_advance_keeps {A0 : KarmaAllocator} {K : List Nat} {s s1 : RichLoop}
    (h : Kept A0 K s.A s.richest_borrowers) (h1 : rich_advance s = .ok s1) :
    Kept A0 K s1.A s1.richest_borrowers := by
  unfold rich_advance at h1
  split at h1
  · split at h1
    · injection h1 with h1
      subst h1
      exact h
    · exact absurd h1 (by simp)
  · injection h1 with h1
    subst h1
    exact h

theorem rich_enter_keeps {A0 : KarmaAllocator} {K : List Nat} {sorted : List Candidate}
    (sentinel : Candidate) (hs : ∀ c ∈ sorted, c.id_ ∈ K) (fuel : Nat) {s s2 : RichLoop}
    (h : Kept A0 K s.A s.richest_borrowers)
    (h2 : rich_enter fuel (sorted ++ [sentinel]) s = .ok s2) :
    Kept A0 K s2.A s2.richest_borrowers := by
  unfold rich_enter at h2
  split at h2
  · exact absurd h2 (by simp)
  rename_i r hw
  split at h2
  · exact absurd h2 (by simp)
  rename_i x hx
  injection h2 with h2
  subst h2
  exact ⟨h.1, enter_keeps sentinel hs _ fuel h.2 hw hx⟩

theorem rich_serve_keeps {A0 : KarmaAllocator} {K : List Nat} (hK : ∀ id ∈ K, id ∈ A0.ids)
    (fuel fs : Nat) {s s3 : RichLoop} (h : Kept A0 K s.A s.richest_borrowers)
    (h3 : rich_serve fuel fs s = .ok s3) : Kept A0 K s3.A s3.richest_borrowers := by
  unfold rich_serve at h3
  split at h3
  · split at h3
    · exact absurd h3 (by simp)
    rename_i r hw
    injection h3 with h3
    subst h3
    unfold rich_fraction at hw
    exact (whileM_keeps
      (fun q : ((KarmaAllocator × BroadcastHeap) × Nat) × Nat => Kept A0 K q.1.1.1 q.1.1.2)
      (by
        intro q q1 hP _ hb
        split at hb
        · exact absurd hb (by simp)
        · rename_i p hp
          injection hb with hb
          subst hb
          exact pop_borrower_keeps hK _ hP hp)
      fuel _ r h hw).1
  · split at h3
    · exact absurd h3 (by simp)
    injection h3 with h3
    subst h3
    exact h

theorem rich_drain_keeps {A0 : KarmaAllocator} {K : List Nat} (hK : ∀ id ∈ K, id ∈ A0.ids)
    (fuel fs : Nat) {s s4 : RichLoop} (h : Kept A0 K s.A s.richest_borrowers)
    (hr : rich_drain fuel fs s = .ok s4) : Kept A0 K s4.A s4.richest_borrowers := by
  unfold rich_drain at hr
  split at hr
  · exact absurd hr (by simp)
  rename_i r hw
  injection hr with hr
  subst hr
  exact (whileM_keeps (fun q : KarmaAllocator × BroadcastHeap => Kept A0 K q.1 q.2)
    (fun q q1 hP _ hb => pop_borrower_keeps hK _ hP hb) fuel _ r h hw).1

theorem rich_body_keeps {A0 : KarmaAllocator} {K : List Nat} {sorted : List Candidate}
    (sentinel : Candidate) (hK : ∀ id ∈ K, id ∈ A0.ids) (hs : ∀ c ∈ sorted, c.id_ ∈ K)
    (fuel fs : Nat) {s s' : RichLoop} (h : Kept A0 K s.A s.richest_borrowers)
    (hr : rich_body fuel fs (sorted ++ [sentinel]) s = .ok s') :
    Kept A0 K s'.A s'.richest_borrowers := by
  unfold rich_body at hr
  split at hr
  · exact absurd hr (by simp)
  rename_i s1 h1
  split at hr
  · exact absurd hr (by simp)
  rename_i s2 h2
  split at hr
  · exact absurd hr (by simp)
  rename_i s3 h3
  exact rich_drain_keeps hK fuel fs
    (rich_serve_keeps hK fuel fs (rich_enter_keeps sentinel hs fuel (rich_advance_keeps h h1) h2) h3)
    hr

theorem donate_all_same :
    ∀ (l : List Nat) (A B : KarmaAllocator), (∀ id ∈ l, id ∈ A.ids) →
      donate_all A l = .ok B → Same A B := by
  intro l
  induction l with
  | nil =>
    intro A B _ h
    simp only [donate_all] at h
    injection h with h
    subst h
    exact Same.refl A
  | cons a l ih =>
    intro A B hm h
    simp only [donate_all] at h
    split at h
    · exact absurd h (by simp)
    rename_i A1 h1
    have s1 := add_rate_same _ (hm a (List.mem_cons_self _ _)) h1
    exact s1.trans (ih A1 B (fun id hid => by
      rw [s1.2.2.2.2.2]; exact hm id (List.mem_cons_of_mem _ hid)) h)

theorem donate_to_rich_same {A B : KarmaAllocator} {fuel supply : Nat}
    {donors borrowers : List Nat} (hd : ∀ id ∈ donors, id ∈ A.ids)
    (hb : ∀ id ∈ borrowers, id ∈ A.ids)
    (hr : donate_to_rich fuel A supply donors borrowers = .ok B) : Same A B := by
  unfold donate_to_rich at hr
  split at hr
  · exact absurd hr (by simp)
  rename_i fs _
  split at hr
  · exact absurd hr (by simp)
  rename_i A1 hda
  have s1 := donate_all_same donors A A1 hd hda
  have hK : ∀ id ∈ borrowers, id ∈ A1.ids := fun id hid => by
    rw [s1.2.2.2.2.2]; exact hb id hid
  have hbc := borrower_candidates_spec fs borrowers A1 hK
  simp only [hbc] at hr
  split at hr
  · exact absurd hr (by simp)
  split at hr
  · exact absurd hr (by simp)
  rename_i s hw
  split at hr
  · exact absurd hr (by simp)
  rename_i q hq
  injection hr with hr
  subst hr
  have hsrt : ∀ c ∈ (borrowers.map fun id =>
      (⟨id, (A1.tenants_ id).credits_, request fs (A1.tenants_ id)⟩ : Candidate)).insertionSort
        (fun a b => a.credits_ ≥ b.credits_), c.id_ ∈ borrowers :=
    sorted_ids (fun id hid => by
      unfold cand_ids at hid
      simpa [List.map_map, Function.comp_def] using hid)
  unfold sorted_borrowers at hw
  have k1 := (whileM_keeps
    (fun s : RichLoop => Kept A1 borrowers s.A s.richest_borrowers)
    (fun s s1 hP _ hb1 => rich_body_keeps _ hK hsrt fuel fs hP hb1) fuel _ s
    ⟨Same.refl _, fun id hid => by simp [hids, BroadcastHeap.init] at hid⟩ hw).1
  unfold rich_rest at hq
  have k2 := (whileM_keeps
    (fun r : KarmaAllocator × BroadcastHeap => Kept A1 borrowers r.1 r.2)
    (fun r r1 hP _ hb1 => pop_borrower_keeps hK _ hP hb1) fuel _ q k1 hq).1
  exact s1.trans k2.1

/-! ### `allocate` -/

theorem classify_keeps (A : KarmaAllocator) (fs : Nat) :
    ∀ (l : List Nat) (p : Phase0), (∀ id ∈ l, id ∈ A.ids) → Same A p.A →
      (∀ id ∈ p.donors, id ∈ A.ids) → (∀ id ∈ p.borrowers, id ∈ A.ids) →
      Same A (l.foldl (classify fs) p).A ∧
      (∀ id ∈ (l.foldl (classify fs) p).donors, id ∈ A.ids) ∧
      (∀ id ∈ (l.foldl (classify fs) p).borrowers, id ∈ A.ids) := by
  intro l
  induction l with
  | nil => intro p _ h1 h2 h3; exact ⟨h1, h2, h3⟩
  | cons a l ih =>
    intro p hm h1 h2 h3
    have ha := hm a (List.mem_cons_self _ _)
    have hl : ∀ id ∈ l, id ∈ A.ids := fun id hid => hm id (List.mem_cons_of_mem _ hid)
    have hmem : ∀ (ds : List Nat), (∀ id ∈ ds, id ∈ A.ids) → ∀ id ∈ ds ++ [a], id ∈ A.ids := by
      intro ds hds id hid
      rcases List.mem_append.mp hid with h | h
      · exact hds id h
      · rw [List.mem_singleton.mp h]; exact ha
    rw [List.foldl_cons]
    apply ih _ hl
    · unfold classify
      simp only
      split
      · exact h1.trans (Same.setRec _ _ _)
      · split
        · exact h1.trans (Same.setRec _ _ _)
        · split
          · exact h1.trans (Same.setRec _ _ _)
          · exact h1.trans (Same.setRec _ _ _)
    · unfold classify
      simp only
      split
      · exact h2
      · split
        · exact hmem _ h2
        · split
          · exact h2
          · exact h2
    · unfold classify
      simp only
      split
      · exact h3
      · split
        · exact h3
        · split
          · exact hmem _ h3
          · exact h3

theorem phase0_keeps {A : KarmaAllocator} (fs : Nat) (hp : A.PUBLIC_ID ∈ A.ids) :
    Same A (phase0 A fs).A ∧ (∀ id ∈ (phase0 A fs).donors, id ∈ A.ids) ∧
    (∀ id ∈ (phase0 A fs).borrowers, id ∈ A.ids) := by
  obtain ⟨h1, h2, h3⟩ := classify_keeps A fs A.ids ⟨A, [], [], A.public_blocks_, 0⟩
    (fun _ h => h) (Same.refl A) (fun _ h => absurd h (List.not_mem_nil _))
    (fun _ h => absurd h (List.not_mem_nil _))
  unfold phase0
  simp only
  split
  · refine ⟨h1, ?_, h3⟩
    intro id hid
    rcases List.mem_append.mp hid with h | h
    · exact h2 id h
    · rw [List.mem_singleton.mp h]; exact hp
  · exact ⟨h1, h2, h3⟩

theorem commit_same : ∀ (l : List Nat) (A : KarmaAllocator), Same A (l.foldl commit A) := by
  intro l
  induction l with
  | nil => intro A; exact Same.refl A
  | cons a l ih =>
    intro A
    rw [List.foldl_cons]
    have h1 : Same A (commit A a) := by
      unfold commit
      simp only
      split
      · exact Same.setRec _ _ _
      · exact Same.setRec _ _ _
    exact h1.trans (ih _)

theorem allocate_same {A B : KarmaAllocator} {fuel : Nat} (hp : A.PUBLIC_ID ∈ A.ids)
    (hr : allocate fuel A = .ok B) : Same A B := by
  unfold allocate at hr
  split at hr
  · exact absurd hr (by simp)
  rename_i fs _
  obtain ⟨p1, p2, p3⟩ := phase0_keeps fs hp
  simp only at hr
  split at hr
  · exact absurd hr (by simp)
  rename_i B1 h1
  injection hr with hr
  subst hr
  have hd : ∀ id ∈ (phase0 A fs).donors, id ∈ (phase0 A fs).A.ids := fun id hid => by
    rw [p1.2.2.2.2.2]; exact p2 id hid
  have hb : ∀ id ∈ (phase0 A fs).borrowers, id ∈ (phase0 A fs).A.ids := fun id hid => by
    rw [p1.2.2.2.2.2]; exact p3 id hid
  have s1 : Same (phase0 A fs).A B1 := by
    split at h1
    · exact borrow_from_poor_same hd hb h1
    · exact donate_to_rich_same hd hb h1
  exact (p1.trans s1).trans (commit_same _ _)

/-! ## The invariant of the tenant table -/

theorem length_le_of_bounded {l : List Nat} {n : Nat} (hn : l.Nodup) (hb : ∀ x ∈ l, x < n) :
    l.length ≤ n := by
  rw [← List.toFinset_card_of_nodup hn, ← Finset.card_range n]
  apply Finset.card_le_card
  intro x hx
  exact Finset.mem_range.mpr (hb x (List.mem_toFinset.mp hx))

theorem TableInv.of_construct {P D : Nat} (nb pb ic : Nat) (hPD : P ≠ D) (hP : P < 4294967296) :
    TableInv (construct P D nb pb ic) := by
  unfold TableInv Karma.construct KarmaAllocator.emplace
  simp only [List.not_mem_nil, if_false, List.nil_append, List.mem_singleton, List.nodup_cons,
    List.not_mem_nil, not_false_eq_true, List.nodup_nil, and_self, true_and]
  exact ⟨fun h => hPD h.symm, fun id hid => by rw [hid]; exact hP⟩

theorem TableInv.of_same {A B : KarmaAllocator} (h : TableInv A) (hs : Same A B) : TableInv B := by
  unfold TableInv
  rw [hs.1, hs.2.1, hs.2.2.2.2.2]
  exact h

theorem TableInv.of_step {A B : KarmaAllocator} {o : Op} (h : TableInv A) (ho : o.fits)
    (hr : step A o = .ok B) : TableInv B := by
  obtain ⟨h1, h2, h3, h4⟩ := h
  cases o with
  | add_tenant id =>
    simp only [Karma.step, add_tenant] at hr
    injection hr with hr
    subst hr
    split
    · exact ⟨h1, h2, h3, h4⟩
    · rename_i hg
      have hd : id ≠ A.DUMMY_ID := fun e => hg (Or.inl e)
      have hi : id ∉ A.ids := fun e => hg (Or.inr e)
      unfold TableInv KarmaAllocator.emplace
      simp only [hi, if_false]
      refine ⟨List.mem_append_left _ h1, ?_, ?_, ?_⟩
      · intro hm
        rcases List.mem_append.mp hm with m | m
        · exact h2 m
        · exact hd (List.mem_singleton.mp m).symm
      · apply List.Nodup.append h3 (List.nodup_singleton _)
        intro x hx hx1
        rw [List.mem_singleton.mp hx1] at hx
        exact hi hx
      · intro x hx
        rcases List.mem_append.mp hx with m | m
        · exact h4 x m
        · rw [List.mem_singleton.mp m]; exact ho
  | remove_tenant id =>
    simp only [Karma.step, remove_tenant] at hr
    injection hr with hr
    subst hr
    split
    · exact ⟨h1, h2, h3, h4⟩
    · rename_i hg
      have hp : id ≠ A.PUBLIC_ID := fun e => hg (Or.inl e)
      unfold TableInv KarmaAllocator.erase
      simp only
      refine ⟨(List.mem_erase_of_ne (Ne.symm hp)).mpr h1, fun hm => h2 (List.mem_of_mem_erase hm),
        h3.erase _, fun x hx => h4 x (List.mem_of_mem_erase hx)⟩
  | set_demand id demand greedy =>
    simp only [Karma.step] at hr
    split at hr
    · exact absurd hr (by simp)
    rename_i c hc
    injection hr with hr
    subst hr
    unfold set_demand at hc
    split at hc
    · injection hc with hc
      subst hc
      exact ⟨h1, h2, h3, h4⟩
    · split at hc
      · split at hc
        · exact absurd hc (by simp)
        · injection hc with hc
          subst hc
          exact ⟨h1, h2, h3, h4⟩
      · injection hc with hc
        subst hc
        exact ⟨h1, h2, h3, h4⟩
  | allocate fuel =>
    simp only [Karma.step] at hr
    exact TableInv.of_same ⟨h1, h2, h3, h4⟩ (allocate_same h1 hr)

theorem TableInv.of_run :
    ∀ (ops : List Op) (A B : KarmaAllocator), TableInv A → (∀ o ∈ ops, o.fits) →
      run ops A = .ok B → TableInv B := by
  intro ops
  induction ops with
  | nil =>
    intro A B h _ hr
    simp only [Karma.run] at hr
    injection hr with hr
    subst hr
    exact h
  | cons o os ih =>
    intro A B h hf hr
    simp only [Karma.run] at hr
    split at hr
    · exact absurd hr (by simp)
    rename_i A1 h1
    exact ih A1 B (h.of_step (hf o (List.mem_cons_self _ _)) h1)
      (fun x hx => hf x (List.mem_cons_of_mem _ hx)) hr

/-- Claim C12: take an object constructed with distinct reserved ids and any sequence of
`add_tenant`, `remove_tenant`, `set_demand` and `allocate` calls with `uint32_t` arguments,
throwing calls included, in which every call returns or throws (an `allocate` with `N = 0`
divides by zero and does not).  In the state `B` it reaches, `PUBLIC_ID` is a key of the table,
`DUMMY_ID` is not, no key occurs twice, `get_num_tenants()` is the number of keys other than
`PUBLIC_ID`, `remove_tenant(PUBLIC_ID)` throws and changes nothing, and an `allocate` that
returns leaves the keys as they are. -/
theorem table_invariant (P D nb pb ic : Nat) (ops : List Op) (B : KarmaAllocator)
    (hPD : P ≠ D) (hP : P < 4294967296) (hops : ∀ o ∈ ops, o.fits)
    (hrun : run ops (construct P D nb pb ic) = .ok B) :
    B.PUBLIC_ID ∈ B.ids ∧ B.DUMMY_ID ∉ B.ids ∧ B.ids.Nodup ∧
    get_num_tenants B = (B.ids.filter fun id => decide (id ≠ B.PUBLIC_ID)).length ∧
    remove_tenant B B.PUBLIC_ID = ⟨some .out_of_range, B⟩ ∧
    ∀ fuel C, allocate fuel B = .ok C → C.ids = B.ids ∧ C.DUMMY_ID ∉ C.ids := by
  obtain ⟨h1, h2, h3, h4⟩ :=
    TableInv.of_run ops _ B (TableInv.of_construct nb pb ic hPD hP) hops hrun
  refine ⟨h1, h2, h3, ?_, ?_, ?_⟩
  · have hlen := length_le_of_bounded h3 h4
    have hpos : 0 < B.ids.length := List.length_pos_of_mem h1
    have hr := real_ids_length h3 h1
    unfold real_ids at hr
    rw [hr]
    unfold get_num_tenants u32
    omega
  · unfold remove_tenant
    rw [if_pos (Or.inl rfl)]
  · intro fuel C hC
    have hs := allocate_same h1 hC
    refine ⟨hs.2.2.2.2.2, ?_⟩
    rw [hs.2.1, hs.2.2.2.2.2]
    exact h2

/-- Witness of C12 on a session of twelve calls on `KarmaAllocator(10, 0, 100)`, five of which
throw: the table ends with the public tenant and tenant 2. -/
theorem table_invariant_witness :
    (0 : Nat) ≠ 4294967295 ∧ (0 : Nat) < 4294967296 ∧ (∀ o ∈ session, o.fits) ∧
    run session (construct 0 4294967295 10 0 100) = .ok after_session ∧
    after_session.ids = [0, 2] ∧
    after_session.PUBLIC_ID ∈ after_session.ids ∧
    after_session.DUMMY_ID ∉ after_session.ids ∧ after_session.ids.Nodup ∧
    get_num_tenants after_session
      = (after_session.ids.filter fun id => decide (id ≠ after_session.PUBLIC_ID)).length ∧
    remove_tenant after_session after_session.PUBLIC_ID
      = ⟨some .out_of_range, after_session⟩ ∧
    ∀ fuel C, allocate fuel after_session = .ok C →
      C.ids = after_session.ids ∧ C.DUMMY_ID ∉ C.ids :=
  ⟨by decide, by decide, by decide, rfl, by decide,
    table_invariant 0 4294967295 10 0 100 session after_session (by decide) (by decide)
      (by decide) rfl⟩

/-! ## `allocate` on objects that differ in `init_credits_` -/

theorem whileM_comm {σ : Type} (v : σ → σ) (P : σ → Prop) {cond : σ → Except Err Bool}
    {body : σ → Except Err σ} (hc : ∀ s, P s → cond (v s) = cond s)
    (hb : ∀ s, P s → cond s = .ok true → body (v s) = (body s).map v)
    (hP : ∀ s s', P s → cond s = .ok true → body s = .ok s' → P s') :
    ∀ (fuel : Nat) (s : σ), P s →
      whileM cond body fuel (v s) = (whileM cond body fuel s).map v := by
  intro fuel
  induction fuel with
  | zero => intro s _; rfl
  | succ n ih =>
    intro s hs
    unfold whileM
    rw [hc s hs]
    cases hcs : cond s with
    | error e => rfl
    | ok b =>
      cases b with
      | false => rfl
      | true =>
        simp only
        rw [hb s hs hcs]
        cases hbs : body s with
        | error e => rfl
        | ok s1 => exact ih s1 (hP s s1 hs hcs hbs)

theorem with_public_tenants_ne (c k : Nat) (A : KarmaAllocator) {id : Nat}
    (h : id ≠ A.PUBLIC_ID) : (with_public c k A).tenants_ id = A.tenants_ id := by
  unfold with_public
  simp only [Function.update_noteq h]

theorem with_public_setRec_ne (c k : Nat) (A : KarmaAllocator) {id : Nat} (t : Tenant)
    (h : id ≠ A.PUBLIC_ID) :
    (with_public c k A).setRec id t = with_public c k (A.setRec id t) := by
  unfold with_public KarmaAllocator.setRec
  simp only [Function.update_noteq (Ne.symm h)]
  congr 1
  exact (Function.update_comm h _ _ _).symm

theorem with_public_surplus (c k : Nat) (A : KarmaAllocator) (fs id : Nat) :
    surplus (with_public c k A) fs id = surplus A fs id := by
  unfold surplus
  by_cases hp : id = A.PUBLIC_ID
  · rw [if_pos hp, if_pos (show id = (with_public c k A).PUBLIC_ID from hp)]
    rfl
  · rw [if_neg hp, if_neg (show id ≠ (with_public c k A).PUBLIC_ID from hp),
      with_public_tenants_ne c k A hp]

theorem with_public_add_rate (c k : Nat) {A : KarmaAllocator} {fs id : Nat} (e : Nat → Int)
    (hfs : get_fair_share A = .ok fs) (h : id ∈ A.ids) :
    add_rate (with_public c k A) id e = (add_rate A id e).map (with_public c k) := by
  rw [add_rate_of_mem e hfs h,
    add_rate_of_mem e (show get_fair_share (with_public c k A) = .ok fs from hfs)
      (show id ∈ (with_public c k A).ids from h), with_public_surplus]
  simp only [Except.map]
  congr 1
  by_cases hp : id = A.PUBLIC_ID
  · subst hp
    unfold with_public KarmaAllocator.setRec
    simp only [Function.update_same, Function.update_idem]
  · rw [with_public_tenants_ne c k A hp]
    exact with_public_setRec_ne c k A _ hp

theorem with_public_grant (c k : Nat) {A : KarmaAllocator} {id : Nat} (d : Tenant → Int)
    (h : id ∈ A.ids) (hp : id ≠ A.PUBLIC_ID) :
    grant (with_public c k A) id d = with_public c k (grant A id d) := by
  rw [grant_of_mem d h, grant_of_mem d (show id ∈ (with_public c k A).ids from h),
    with_public_tenants_ne c k A hp]
  exact with_public_setRec_ne c k A _ hp

theorem fair_share_kept {A0 A : KarmaAllocator} {fs : Nat} (hs : Same A0 A)
    (hfs : get_fair_share A0 = .ok fs) : get_fair_share A = .ok fs := by
  rw [hs.same_fair_share]; exact hfs

theorem with_public_pop_donor (c k : Nat) {A0 : KarmaAllocator} {K : List Nat} {fs : Nat}
    (hfs : get_fair_share A0 = .ok fs) (hK : ∀ id ∈ K, id ∈ A0.ids) (e : Nat → Int → Int)
    (s : KarmaAllocator × BroadcastHeap) (h : Kept A0 K s.1 s.2) :
    pop_donor e (with_public c k s.1, s.2)
      = (pop_donor e s).map fun q => (with_public c k q.1, q.2) := by
  unfold pop_donor
  simp only
  cases hpop : s.2.pop with
  | error err => rfl
  | ok r =>
    obtain ⟨x, H⟩ := r
    simp only
    have hid : x.1 ∈ s.1.ids := by
      rw [h.1.2.2.2.2.2]; exact hK _ (h.2 _ (pop_keeps hpop).1)
    rw [with_public_add_rate c k _ (fair_share_kept h.1 hfs) hid]
    cases add_rate s.1 x.1 (fun sur => e sur x.2) with
    | error err => rfl
    | ok B => rfl

theorem with_public_pop_borrower (c k : Nat) {A0 : KarmaAllocator} {K : List Nat}
    (hK : ∀ id ∈ K, id ∈ A0.ids ∧ id ≠ A0.PUBLIC_ID) (d : Tenant → Int → Int)
    (s : KarmaAllocator × BroadcastHeap) (h : Kept A0 K s.1 s.2) :
    pop_borrower d (with_public c k s.1, s.2)
      = (pop_borrower d s).map fun q => (with_public c k q.1, q.2) := by
  unfold pop_borrower
  simp only
  cases hpop : s.2.pop with
  | error err => rfl
  | ok r =>
    obtain ⟨x, H⟩ := r
    simp only
    have hx := hK _ (h.2 _ (pop_keeps hpop).1)
    have hid : x.1 ∈ s.1.ids := by
      rw [h.1.2.2.2.2.2]; exact hx.1
    have hne : x.1 ≠ s.1.PUBLIC_ID := by
      rw [h.1.1]; exact hx.2
    rw [with_public_grant c k _ hid hne]
    rfl

/-! ### `borrow_from_poor` -/

theorem with_public_poor_advance (c k : Nat) (s : PoorLoop) :
    poor_advance (s.with_public c k) = (poor_advance s).map (PoorLoop.with_public c k) := by
  unfold poor_advance PoorLoop.with_public
  simp only
  by_cases h1 : s.poorest_donors.empty = true
  · by_cases h2 : s.next_c < UINT32_MAX
    · simp only [h1, h2, if_true]; rfl
    · simp only [h1, h2, if_true, if_false]; rfl
  · simp only [h1, if_false]; rfl

theorem with_public_poor_enter (c k fuel : Nat) (cs : List Candidate) (s : PoorLoop) :
    poor_enter fuel cs (s.with_public c k)
      = (poor_enter fuel cs s).map (PoorLoop.with_public c k) := by
  unfold poor_enter PoorLoop.with_public
  simp only
  cases whileM (enter_cond cs s.curr_c) (enter_body cs) fuel (s.poorest_donors, s.idx) with
  | error e => rfl
  | ok r =>
    simp only
    cases cs[r.2]? with
    | none => rfl
    | some x => rfl

theorem with_public_poor_fraction (c k : Nat) {A0 : KarmaAllocator} {K : List Nat} {fs : Nat}
    (hfs : get_fair_share A0 = .ok fs) (hK : ∀ id ∈ K, id ∈ A0.ids) (fuel demand : Nat)
    (s : KarmaAllocator × BroadcastHeap) (h : Kept A0 K s.1 s.2) :
    poor_fraction fuel demand (with_public c k s.1, s.2)
      = (poor_fraction fuel demand s).map
          fun q => ((with_public c k q.1.1, q.1.2), q.2) := by
  unfold poor_fraction
  exact whileM_comm
    (fun q : (KarmaAllocator × BroadcastHeap) × Nat => ((with_public c k q.1.1, q.1.2), q.2))
    (fun q => Kept A0 K q.1.1 q.1.2)
    (by intro q _; rfl)
    (by
      intro q hq _
      simp only
      rw [with_public_pop_donor c k hfs hK _ q.1 hq]
      cases pop_donor (fun sur v => (sur : Int) - v + 1) q.1 with
      | error e => rfl
      | ok p => rfl)
    (by
      intro q q1 hP _ hb
      split at hb
      · exact absurd hb (by simp)
      · rename_i p hp
        injection hb with hb
        subst hb
        exact pop_donor_keeps hK _ hP hp)
    fuel (s, 0) h

theorem with_public_poor_serve (c k : Nat) {A0 : KarmaAllocator} {K : List Nat} {fs : Nat}
    (hfs : get_fair_share A0 = .ok fs) (hK : ∀ id ∈ K, id ∈ A0.ids) (fuel : Nat)
    (s : PoorLoop) (h : Kept A0 K s.A s.poorest_donors) :
    poor_serve fuel (s.with_public c k)
      = (poor_serve fuel s).map (PoorLoop.with_public c k) := by
  unfold poor_serve PoorLoop.with_public
  simp only
  by_cases hlt : s.demand < s.poorest_donors.size
  · simp only [hlt, if_true]
    rw [with_public_poor_fraction c k hfs hK fuel s.demand (s.A, s.poorest_donors) h]
    cases poor_fraction fuel s.demand (s.A, s.poorest_donors) with
    | error e => rfl
    | ok r => rfl
  · simp only [hlt, if_false]
    cases s.poorest_donors.min with
    | error e => rfl
    | ok m => rfl

theorem with_public_pop_donors (c k : Nat) {A0 : KarmaAllocator} {K : List Nat} {fs : Nat}
    (hfs : get_fair_share A0 = .ok fs) (hK : ∀ id ∈ K, id ∈ A0.ids)
    (cond : BroadcastHeap → Bool) (e : Nat → Int → Int) (fuel : Nat)
    (s : KarmaAllocator × BroadcastHeap) (h : Kept A0 K s.1 s.2) :
    whileM (fun r => .ok (cond r.2)) (pop_donor e) fuel (with_public c k s.1, s.2)
      = (whileM (fun r => .ok (cond r.2)) (pop_donor e) fuel s).map
          fun q => (with_public c k q.1, q.2) :=
  whileM_comm (fun q : KarmaAllocator × BroadcastHeap => (with_public c k q.1, q.2))
    (fun q => Kept A0 K q.1 q.2)
    (by intro q _; rfl)
    (by intro q hq _; exact with_public_pop_donor c k hfs hK e q hq)
    (by intro q q1 hP _ hb; exact pop_donor_keeps hK _ hP hb)
    fuel s h

theorem with_public_poor_drain (c k : Nat) {A0 : KarmaAllocator} {K : List Nat} {fs : Nat}
    (hfs : get_fair_share A0 = .ok fs) (hK : ∀ id ∈ K, id ∈ A0.ids) (fuel : Nat)
    (s : PoorLoop) (h : Kept A0 K s.A s.poorest_donors) :
    poor_drain fuel (s.with_public c k)
      = (poor_drain fuel s).map (PoorLoop.with_public c k) := by
  unfold poor_drain PoorLoop.with_public
  simp only
  rw [with_public_pop_donors c k hfs hK min_is_zero _ fuel (s.A, s.poorest_donors) h]
  cases whileM (fun r => .ok (min_is_zero r.2)) (pop_donor fun sur _ => (sur : Int)) fuel
      (s.A, s.poorest_donors) with
  | error e => rfl
  | ok r => rfl

theorem with_public_poor_body (c k : Nat) {A0 : KarmaAllocator} {K : List Nat} {fs : Nat}
    {sorted : List Candidate} (sentinel : Candidate)
    (hfs : get_fair_share A0 = .ok fs) (hK : ∀ id ∈ K, id ∈ A0.ids)
    (hs : ∀ x ∈ sorted, x.id_ ∈ K) (fuel : Nat)
    (s : PoorLoop) (h : Kept A0 K s.A s.poorest_donors) :
    poor_body fuel (sorted ++ [sentinel]) (s.with_public c k)
      = (poor_body fuel (sorted ++ [sentinel]) s).map (PoorLoop.with_public c k) := by
  unfold poor_body
  rw [with_public_poor_advance]
  cases h1 : poor_advance s with
  | error e => rfl
  | ok s1 =>
    simp only [Except.map]
    rw [with_public_poor_enter]
    cases h2 : poor_enter fuel (sorted ++ [sentinel]) s1 with
    | error e => rfl
    | ok s2 =>
      simp only [Except.map]
      have k2 := poor_enter_keeps sentinel hs fuel (poor_advance_keeps h h1) h2
      rw [with_public_poor_serve c k hfs hK fuel s2 k2]
      cases h3 : poor_serve fuel s2 with
      | error e => rfl
      | ok s3 =>
        simp only [Except.map]
        exact with_public_poor_drain c k hfs hK fuel s3 (poor_serve_keeps hK fuel k2 h3)

theorem with_public_poor_loop (c k : Nat) {A0 : KarmaAllocator} {K : List Nat} {fs : Nat}
    {sorted : List Candidate} (sentinel : Candidate)
    (hfs : get_fair_share A0 = .ok fs) (hK : ∀ id ∈ K, id ∈ A0.ids)
    (hs : ∀ x ∈ sorted, x.id_ ∈ K) (fuel n : Nat)
    (s : PoorLoop) (h : Kept A0 K s.A s.poorest_donors) :
    whileM (fun s => .ok (decide (s.demand > 0))) (poor_body fuel (sorted ++ [sentinel])) n
        (s.with_public c k)
      = (whileM (fun s => .ok (decide (s.demand > 0)))
          (poor_body fuel (sorted ++ [sentinel])) n s).map (PoorLoop.with_public c k) :=
  whileM_comm (PoorLoop.with_public c k) (fun q => Kept A0 K q.A q.poorest_donors)
    (by intro q _; rfl)
    (by intro q hq _; exact with_public_poor_body c k sentinel hfs hK hs fuel q hq)
    (by intro q q1 hP _ hb; exact poor_body_keeps sentinel hK hs fuel hP hb)
    n s h

theorem with_public_borrow_all (c k fs : Nat) :
    ∀ (bs : List Nat) (A : KarmaAllocator), (∀ id ∈ bs, id ∈ A.ids ∧ id ≠ A.PUBLIC_ID) →
      borrow_all fs (with_public c k A) bs = with_public c k (borrow_all fs A bs) := by
  intro bs
  induction bs with
  | nil => intro A _; rfl
  | cons b bs ih =>
    intro A hm
    obtain ⟨m1, m2⟩ := hm b (List.mem_cons_self _ _)
    have hg := @grant_same A b (fun t => (request fs t : Int)) m1
    have step : borrow_all fs (with_public c k A) (b :: bs)
        = borrow_all fs (grant (with_public c k A) b fun t => (request fs t : Int)) bs := rfl
    rw [step, with_public_grant c k _ m1 m2]
    exact ih _ (fun id hid => by
      rw [hg.2.2.2.2.2, hg.1]; exact hm id (List.mem_cons_of_mem _ hid))

theorem with_public_donor_candidates (c k : Nat) {A : KarmaAllocator} {fs : Nat}
    (hfs : get_fair_share A = .ok fs) (l : List Nat)
    (hm : ∀ id ∈ l, id ∈ A.ids ∧ id ≠ A.PUBLIC_ID) :
    donor_candidates (with_public c k A) l
      = .ok (l.map (fun id => ⟨id, (A.tenants_ id).credits_, surplus A fs id⟩),
          with_public c k A) := by
  rw [donor_candidates_spec fs l (with_public c k A) hfs (fun id hid => (hm id hid).1)]
  congr 2
  apply List.map_congr_left
  intro id hid
  rw [with_public_tenants_ne c k A (hm id hid).2, with_public_surplus]

theorem with_public_borrow_from_poor (c k : Nat) {A : KarmaAllocator} {fs : Nat}
    (hfs : get_fair_share A = .ok fs) (fuel demand : Nat) {donors borrowers : List Nat}
    (hd : ∀ id ∈ donors, id ∈ A.ids ∧ id ≠ A.PUBLIC_ID)
    (hb : ∀ id ∈ borrowers, id ∈ A.ids ∧ id ≠ A.PUBLIC_ID) :
    borrow_from_poor fuel (with_public c k A) demand donors borrowers
      = (borrow_from_poor fuel A demand donors borrowers).map (with_public c k) := by
  have hba := borrow_all_same fs borrowers A (fun id hid => (hb id hid).1)
  have hfsb := fair_share_kept hba hfs
  have hdb : ∀ id ∈ donors, id ∈ (borrow_all fs A borrowers).ids
      ∧ id ≠ (borrow_all fs A borrowers).PUBLIC_ID := fun id hid => by
    rw [hba.2.2.2.2.2, hba.1]; exact hd id hid
  have hK : ∀ id ∈ donors, id ∈ (borrow_all fs A borrowers).ids := fun id hid => (hdb id hid).1
  have hdc := donor_candidates_spec fs donors (borrow_all fs A borrowers) hfsb hK
  have hsrt : ∀ x ∈ (donors.map fun id =>
      (⟨id, ((borrow_all fs A borrowers).tenants_ id).credits_,
        surplus (borrow_all fs A borrowers) fs id⟩ : Candidate)).insertionSort
        (fun a b => a.credits_ ≤ b.credits_), x.id_ ∈ donors :=
    sorted_ids (fun id hid => by
      unfold cand_ids at hid
      simpa [List.map_map, Function.comp_def] using hid)
  unfold borrow_from_poor
  rw [show get_fair_share (with_public c k A) = .ok fs from hfs, hfs]
  simp only
  rw [with_public_borrow_all c k fs borrowers A hb,
    with_public_donor_candidates c k hfsb donors hdb, hdc]
  simp only [show (with_public c k A).DUMMY_ID = A.DUMMY_ID from rfl]
  unfold sorted_donors
  cases hfirst : ((donors.map fun id =>
      (⟨id, ((borrow_all fs A borrowers).tenants_ id).credits_,
        surplus (borrow_all fs A borrowers) fs id⟩ : Candidate)).insertionSort
        (fun a b => a.credits_ ≤ b.credits_) ++ [⟨A.DUMMY_ID, UINT32_MAX, 0⟩])[0]? with
  | none => rfl
  | some first =>
    simp only
    have h0 : Kept (borrow_all fs A borrowers) donors (borrow_all fs A borrowers)
        BroadcastHeap.init :=
      ⟨Same.refl _, fun id hid => by simp [hids, BroadcastHeap.init] at hid⟩
    have key := with_public_poor_loop c k ⟨A.DUMMY_ID, UINT32_MAX, 0⟩ hfsb hK hsrt fuel fuel
      ⟨borrow_all fs A borrowers, BroadcastHeap.init, 0, -1, first.credits_, demand⟩ h0
    unfold PoorLoop.with_public at key
    simp only at key
    rw [key]
    cases hw : whileM (fun s => .ok (decide (s.demand > 0)))
        (poor_body fuel ((donors.map fun id =>
          (⟨id, ((borrow_all fs A borrowers).tenants_ id).credits_,
            surplus (borrow_all fs A borrowers) fs id⟩ : Candidate)).insertionSort
            (fun a b => a.credits_ ≤ b.credits_) ++ [⟨A.DUMMY_ID, UINT32_MAX, 0⟩])) fuel
        ⟨borrow_all fs A borrowers, BroadcastHeap.init, 0, -1, first.credits_, demand⟩ with
    | error e => rfl
    | ok s =>
      simp only [Except.map]
      have k1 := (whileM_keeps
        (fun s : PoorLoop => Kept (borrow_all fs A borrowers) donors s.A s.poorest_donors)
        (fun s s1 hP _ hb1 => poor_body_keeps _ hK hsrt fuel hP hb1) fuel _ s h0 hw).1
      have key2 : poor_rest fuel (with_public c k s.A, s.poorest_donors)
          = (poor_rest fuel (s.A, s.poorest_donors)).map
              fun q => (with_public c k q.1, q.2) :=
        with_public_pop_donors c k hfsb hK (fun H => !H.empty) _ fuel
          (s.A, s.poorest_donors) k1
      rw [key2]
      cases poor_rest fuel (s.A, s.poorest_donors) with
      | error e => rfl
      | ok q => rfl

/-! ### `donate_to_rich` -/

theorem with_public_rich_advance (c k : Nat) (s : RichLoop) :
    rich_advance (s.with_public c k) = (rich_advance s).map (RichLoop.with_public c k) := by
  unfold rich_advance RichLoop.with_public
  simp only
  by_cases h1 : s.richest_borrowers.empty = true
  · by_cases h2 : s.next_c > -1
    · simp only [h1, h2, if_true]; rfl
    · simp only [h1, h2, if_true, if_false]; rfl
  · simp only [h1, if_false]; rfl

theorem with_public_rich_enter (c k fuel : Nat) (cs : List Candidate) (s : RichLoop) :
    rich_enter fuel cs (s.with_public c k)
      = (rich_enter fuel cs s).map (RichLoop.with_public c k) := by
  unfold rich_enter RichLoop.with_public
  simp only
  cases whileM (enter_cond cs s.curr_c) (enter_body cs) fuel (s.richest_borrowers, s.idx) with
  | error e => rfl
  | ok r =>
    simp only
    cases cs[r.2]? with
    | none => rfl
    | some x => rfl

theorem with_public_rich_fraction (c k : Nat) {A0 : KarmaAllocator} {K : List Nat}
    (hK : ∀ id ∈ K, id ∈ A0.ids ∧ id ≠ A0.PUBLIC_ID) (fuel fs : Nat)
    (s : (KarmaAllocator × BroadcastHeap) × Nat) (h : Kept A0 K s.1.1 s.1.2) :
    rich_fraction fuel fs ((with_public c k s.1.1, s.1.2), s.2)
      = (rich_fraction fuel fs s).map
          fun q => (((with_public c k q.1.1.1, q.1.1.2), q.1.2), q.2) := by
  unfold rich_fraction
  exact whileM_comm
    (fun q : ((KarmaAllocator × BroadcastHeap) × Nat) × Nat =>
      (((with_public c k q.1.1.1, q.1.1.2), q.1.2), q.2))
    (fun q => Kept A0 K q.1.1.1 q.1.1.2)
    (by intro q _; rfl)
    (by
      intro q hq _
      simp only
      rw [with_public_pop_borrower c k hK _ q.1.1 hq]
      cases pop_borrower (fun t v => i32 ((request fs t : Int) - v + 1)) q.1.1 with
      | error e => rfl
      | ok p => rfl)
    (by
      intro q q1 hP _ hb
      split at hb
      · exact absurd hb (by simp)
      · rename_i p hp
        injection hb with hb
        subst hb
        exact pop_borrower_keeps (fun id hid => (hK id hid).1) _ hP hp)
    fuel (s, 0) h

theorem with_public_rich_serve (c k : Nat) {A0 : KarmaAllocator} {K : List Nat}
    (hK : ∀ id ∈ K, id ∈ A0.ids ∧ id ≠ A0.PUBLIC_ID) (fuel fs : Nat)
    (s : RichLoop) (h : Kept A0 K s.A s.richest_borrowers) :
    rich_serve fuel fs (s.with_public c k)
      = (rich_serve fuel fs s).map (RichLoop.with_public c k) := by
  unfold rich_serve RichLoop.with_public
  simp only
  by_cases hlt : s.supply < s.richest_borrowers.size
  · simp only [hlt, if_true]
    rw [with_public_rich_fraction c k hK fuel fs ((s.A, s.richest_borrowers), s.supply) h]
    cases rich_fraction fuel fs ((s.A, s.richest_borrowers), s.supply) with
    | error e => rfl
    | ok r => rfl
  · simp only [hlt, if_false]
    cases s.richest_borrowers.min with
    | error e => rfl
    | ok m => simp only [Except.map]

theorem with_public_pop_borrowers (c k : Nat) {A0 : KarmaAllocator} {K : List Nat}
    (hK : ∀ id ∈ K, id ∈ A0.ids ∧ id ≠ A0.PUBLIC_ID)
    (cond : BroadcastHeap → Bool) (d : Tenant → Int → Int) (fuel : Nat)
    (s : KarmaAllocator × BroadcastHeap) (h : Kept A0 K s.1 s.2) :
    whileM (fun r => .ok (cond r.2)) (pop_borrower d) fuel (with_public c k s.1, s.2)
      = (whileM (fun r => .ok (cond r.2)) (pop_borrower d) fuel s).map
          fun q => (with_public c k q.1, q.2) :=
  whileM_comm (fun q : KarmaAllocator × BroadcastHeap => (with_public c k q.1, q.2))
    (fun q => Kept A0 K q.1 q.2)
    (by intro q _; rfl)
    (by intro q hq _; exact with_public_pop_borrower c k hK d q hq)
    (by
      intro q q1 hP _ hb
      exact pop_borrower_keeps (fun id hid => (hK id hid).1) _ hP hb)
    fuel s h

theorem with_public_rich_drain (c k : Nat) {A0 : KarmaAllocator} {K : List Nat}
    (hK : ∀ id ∈ K, id ∈ A0.ids ∧ id ≠ A0.PUBLIC_ID) (fuel fs : Nat)
    (s : RichLoop) (h : Kept A0 K s.A s.richest_borrowers) :
    rich_drain fuel fs (s.with_public c k)
      = (rich_drain fuel fs s).map (RichLoop.with_public c k) := by
  unfold rich_drain RichLoop.with_public
  simp only
  rw [with_public_pop_borrowers c k hK min_is_zero _ fuel (s.A, s.richest_borrowers) h]
  cases whileM (fun r => .ok (min_is_zero r.2))
      (pop_borrower fun t _ => (request fs t : Int)) fuel (s.A, s.richest_borrowers) with
  | error e => rfl
  | ok r => rfl

theorem with_public_rich_body (c k : Nat) {A0 : KarmaAllocator} {K : List Nat}
    {sorted : List Candidate} (sentinel : Candidate)
    (hK : ∀ id ∈ K, id ∈ A0.ids ∧ id ≠ A0.PUBLIC_ID)
    (hs : ∀ x ∈ sorted, x.id_ ∈ K) (fuel fs : Nat)
    (s : RichLoop) (h : Kept A0 K s.A s.richest_borrowers) :
    rich_body fuel fs (sorted ++ [sentinel]) (s.with_public c k)
      = (rich_body fuel fs (sorted ++ [sentinel]) s).map (RichLoop.with_public c k) := by
  have hK1 : ∀ id ∈ K, id ∈ A0.ids := fun id hid => (hK id hid).1
  unfold rich_body
  rw [with_public_rich_advance]
  cases h1 : rich_advance s with
  | error e => rfl
  | ok s1 =>
    simp only [Except.map]
    rw [with_public_rich_enter]
    cases h2 : rich_enter fuel (sorted ++ [sentinel]) s1 with
    | error e => rfl
    | ok s2 =>
      simp only [Except.map]
      have k2 := rich_enter_keeps sentinel hs fuel (rich_advance_keeps h h1) h2
      rw [with_public_rich_serve c k hK fuel fs s2 k2]
      cases h3 : rich_serve fuel fs s2 with
      | error e => rfl
      | ok s3 =>
        simp only [Except.map]
        exact with_public_rich_drain c k hK fuel fs s3 (rich_serve_keeps hK1 fuel fs k2 h3)

theorem with_public_rich_loop (c k : Nat) {A0 : KarmaAllocator} {K : List Nat}
    {sorted : List Candidate} (sentinel : Candidate)
    (hK : ∀ id ∈ K, id ∈ A0.ids ∧ id ≠ A0.PUBLIC_ID)
    (hs : ∀ x ∈ sorted, x.id_ ∈ K) (fuel fs n : Nat)
    (s : RichLoop) (h : Kept A0 K s.A s.richest_borrowers) :
    whileM (fun s => .ok (decide (s.supply > 0))) (rich_body fuel fs (sorted ++ [sentinel])) n
        (s.with_public c k)
      = (whileM (fun s => .ok (decide (s.supply > 0)))
          (rich_body fuel fs (sorted ++ [sentinel])) n s).map (RichLoop.with_public c k) :=
  whileM_comm (RichLoop.with_public c k) (fun q => Kept A0 K q.A q.richest_borrowers)
    (by intro q _; rfl)
    (by intro q hq _; exact with_public_rich_body c k sentinel hK hs fuel fs q hq)
    (by
      intro q q1 hP _ hb
      exact rich_body_keeps sentinel (fun id hid => (hK id hid).1) hs fuel fs hP hb)
    n s h

theorem with_public_donate_all (c k : Nat) {fs : Nat} :
    ∀ (l : List Nat) (A : KarmaAllocator), get_fair_share A = .ok fs →
      (∀ id ∈ l, id ∈ A.ids) →
      donate_all (with_public c k A) l = (donate_all A l).map (with_public c k) := by
  intro l
  induction l with
  | nil => intro A _ _; rfl
  | cons a l ih =>
    intro A hfs hm
    have ha := hm a (List.mem_cons_self _ _)
    simp only [donate_all]
    rw [with_public_add_rate c k _ hfs ha]
    cases h1 : add_rate A a (fun sur => (sur : Int)) with
    | error e => rfl
    | ok B =>
      simp only [Except.map]
      have s1 := add_rate_same _ ha h1
      exact ih B (fair_share_kept s1 hfs) (fun id hid => by
        rw [s1.2.2.2.2.2]; exact hm id (List.mem_cons_of_mem _ hid))

theorem with_public_borrower_candidates (c k fs : Nat) (A : KarmaAllocator) (l : List Nat)
    (hm : ∀ id ∈ l, id ∈ A.ids ∧ id ≠ A.PUBLIC_ID) :
    borrower_candidates fs (with_public c k A) l
      = (l.map (fun id => ⟨id, (A.tenants_ id).credits_, request fs (A.tenants_ id)⟩),
          with_public c k A) := by
  rw [borrower_candidates_spec fs l (with_public c k A) (fun id hid => (hm id hid).1)]
  congr 1
  apply List.map_congr_left
  intro id hid
  rw [with_public_tenants_ne c k A (hm id hid).2]

theorem with_public_donate_to_rich (c k : Nat) {A : KarmaAllocator} {fs : Nat}
    (hfs : get_fair_share A = .ok fs) (fuel supply : Nat) {donors borrowers : List Nat}
    (hd : ∀ id ∈ donors, id ∈ A.ids)
    (hb : ∀ id ∈ borrowers, id ∈ A.ids ∧ id ≠ A.PUBLIC_ID) :
    donate_to_rich fuel (with_public c k A) supply donors borrowers
      = (donate_to_rich fuel A supply donors borrowers).map (with_public c k) := by
  unfold donate_to_rich
  rw [show get_fair_share (with_public c k A) = .ok fs from hfs, hfs]
  simp only
  rw [with_public_donate_all c k donors A hfs hd]
  cases hda : donate_all A donors with
  | error e => rfl
  | ok A1 =>
    simp only [Except.map]
    have s1 := donate_all_same donors A A1 hd hda
    have hK : ∀ id ∈ borrowers, id ∈ A1.ids ∧ id ≠ A1.PUBLIC_ID := fun id hid => by
      rw [s1.2.2.2.2.2, s1.1]; exact hb id hid
    have hK1 : ∀ id ∈ borrowers, id ∈ A1.ids := fun id hid => (hK id hid).1
    have hsrt : ∀ x ∈ (borrowers.map fun id =>
        (⟨id, (A1.tenants_ id).credits_, request fs (A1.tenants_ id)⟩ : Candidate)).insertionSort
          (fun a b => a.credits_ ≥ b.credits_), x.id_ ∈ borrowers :=
      sorted_ids (fun id hid => by
        unfold cand_ids at hid
        simpa [List.map_map, Function.comp_def] using hid)
    rw [with_public_borrower_candidates c k fs A1 borrowers hK,
      borrower_candidates_spec fs borrowers A1 hK1]
    simp only [show (with_public c k A).DUMMY_ID = A.DUMMY_ID from rfl]
    unfold sorted_borrowers
    cases hfirst : ((borrowers.map fun id =>
        (⟨id, (A1.tenants_ id).credits_, request fs (A1.tenants_ id)⟩ : Candidate)).insertionSort
          (fun a b => a.credits_ ≥ b.credits_) ++ [⟨A.DUMMY_ID, -1, 0⟩])[0]? with
    | none => rfl
    | some first =>
      simp only
      have h0 : Kept A1 borrowers A1 BroadcastHeap.init :=
        ⟨Same.refl _, fun id hid => by simp [hids, BroadcastHeap.init] at hid⟩
      have key := with_public_rich_loop c k ⟨A.DUMMY_ID, -1, 0⟩ hK hsrt fuel fs fuel
        ⟨A1, BroadcastHeap.init, 0, 2147483647, first.credits_, supply⟩ h0
      unfold RichLoop.with_public at key
      simp only at key
      rw [key]
      cases hw : whileM (fun s => .ok (decide (s.supply > 0)))
          (rich_body fuel fs ((borrowers.map fun id =>
            (⟨id, (A1.tenants_ id).credits_,
              request fs (A1.tenants_ id)⟩ : Candidate)).insertionSort
              (fun a b => a.credits_ ≥ b.credits_) ++ [⟨A.DUMMY_ID, -1, 0⟩])) fuel
          ⟨A1, BroadcastHeap.init, 0, 2147483647, first.credits_, supply⟩ with
      | error e => rfl
      | ok s =>
        simp only [Except.map]
        have k1 := (whileM_keeps
          (fun s : RichLoop => Kept A1 borrowers s.A s.richest_borrowers)
          (fun s s1 hP _ hb1 => rich_body_keeps _ hK1 hsrt fuel fs hP hb1) fuel _ s h0 hw).1
        have key2 : rich_rest fuel fs (with_public c k s.A, s.richest_borrowers)
            = (rich_rest fuel fs (s.A, s.richest_borrowers)).map
                fun q => (with_public c k q.1, q.2) :=
          with_public_pop_borrowers c k hK (fun H => !H.empty) _ fuel
            (s.A, s.richest_borrowers) k1
        rw [key2]
        cases rich_rest fuel fs (s.A, s.richest_borrowers) with
        | error e => rfl
        | ok q => rfl

theorem allocator_ext {A B : KarmaAllocator} (h1 : A.PUBLIC_ID = B.PUBLIC_ID)
    (h2 : A.DUMMY_ID = B.DUMMY_ID) (h3 : A.num_blocks_ = B.num_blocks_)
    (h4 : A.public_blocks_ = B.public_blocks_) (h5 : A.init_credits_ = B.init_credits_)
    (h6 : A.ids = B.ids) (h7 : ∀ id, A.tenants_ id = B.tenants_ id) : A = B := by
  cases A
  cases B
  simp only at h1 h2 h3 h4 h5 h6 h7
  subst h1 h2 h3 h4 h5 h6
  congr
  exact funext h7

theorem rec0_with_init_credits (c : Nat) (A : KarmaAllocator) (fs : Nat) {id : Nat}
    (hp : id ≠ A.PUBLIC_ID) : rec0 (with_init_credits c A) fs id = rec0 A fs id := by
  unfold rec0
  rw [if_neg hp, if_neg (show id ≠ (with_init_credits c A).PUBLIC_ID from hp)]
  rfl

theorem phase0_with_init_credits {A : KarmaAllocator} (c : Nat) (h : Valid A)
    (hc : Valid (with_init_credits c A)) :
    (phase0 (with_init_credits c A) (fair_share_of A)).A
      = with_public c (c * get_num_tenants A) (phase0 A (fair_share_of A)).A ∧
    (phase0 (with_init_credits c A) (fair_share_of A)).donors
      = (phase0 A (fair_share_of A)).donors ∧
    (phase0 (with_init_credits c A) (fair_share_of A)).borrowers
      = (phase0 A (fair_share_of A)).borrowers ∧
    (phase0 (with_init_credits c A) (fair_share_of A)).supply
      = (phase0 A (fair_share_of A)).supply ∧
    (phase0 (with_init_credits c A) (fair_share_of A)).demand
      = (phase0 A (fair_share_of A)).demand := by
  obtain ⟨p1, p2, p3, p4, p5, p6⟩ := phase0_spec h
  obtain ⟨q1, q2, q3, q4, q5, q6⟩ := phase0_spec hc
  have hpub : A.PUBLIC_ID ∈ A.ids := h.2.1
  refine ⟨?_, q3.trans p3.symm, q4.trans p4.symm, q5.trans p5.symm, q6.trans p6.symm⟩
  apply allocator_ext
  · exact q1.1.trans p1.1.symm
  · exact q1.2.1.trans p1.2.1.symm
  · exact q1.2.2.1.trans p1.2.2.1.symm
  · exact q1.2.2.2.1.trans p1.2.2.2.1.symm
  · exact q1.2.2.2.2.1
  · exact q1.2.2.2.2.2.trans p1.2.2.2.2.2.symm
  · intro id
    have q2i : (phase0 (with_init_credits c A) (fair_share_of A)).A.tenants_ id
        = if id ∈ A.ids then rec0 (with_init_credits c A) (fair_share_of A) id
          else A.tenants_ id := q2 id
    rw [q2i]
    by_cases hp : id = (phase0 A (fair_share_of A)).A.PUBLIC_ID
    · have hp1 : id = A.PUBLIC_ID := hp.trans p1.1
      unfold with_public
      simp only
      rw [hp, Function.update_same, p1.1, p2 A.PUBLIC_ID, if_pos hpub, if_pos hpub]
      unfold rec0
      rw [if_pos rfl, if_pos (show A.PUBLIC_ID = (with_init_credits c A).PUBLIC_ID from rfl)]
      rfl
    · have hp1 : id ≠ A.PUBLIC_ID := fun e => hp (e.trans p1.1.symm)
      rw [with_public_tenants_ne c _ _ hp, p2 id, rec0_with_init_credits c A _ hp1]

theorem commit_with_public (c k : Nat) {B : KarmaAllocator} (hn : B.ids.Nodup)
    (hp : B.PUBLIC_ID ∈ B.ids) :
    (with_public c k B).ids.foldl commit (with_public c k B)
      = with_init_credits c (B.ids.foldl commit B) := by
  obtain ⟨c1, c2⟩ := commit_fold B.ids B hn
  obtain ⟨d1, d2⟩ := commit_fold (with_public c k B).ids (with_public c k B) hn
  apply allocator_ext
  · exact d1.1.trans c1.1.symm
  · exact d1.2.1.trans c1.2.1.symm
  · exact d1.2.2.1.trans c1.2.2.1.symm
  · exact d1.2.2.2.1.trans c1.2.2.2.1.symm
  · exact d1.2.2.2.2.1
  · exact d1.2.2.2.2.2.trans c1.2.2.2.2.2.symm
  · intro id
    have e2 : (with_init_credits c (B.ids.foldl commit B)).tenants_ id
        = (B.ids.foldl commit B).tenants_ id := rfl
    rw [e2, c2 id, d2 id]
    have e3 : (with_public c k B).ids = B.ids := rfl
    have e4 : (with_public c k B).PUBLIC_ID = B.PUBLIC_ID := rfl
    rw [e3, e4]
    by_cases hid : id ∈ B.ids
    · rw [if_pos hid, if_pos hid]
      by_cases hpp : id = B.PUBLIC_ID
      · rw [if_pos hpp, if_pos hpp, hpp]
        unfold with_public
        simp only [Function.update_same]
      · rw [if_neg hpp, if_neg hpp, with_public_tenants_ne c k B hpp]
    · rw [if_neg hid, if_neg hid]
      have hpp : id ≠ B.PUBLIC_ID := fun e => hid (e ▸ hp)
      exact with_public_tenants_ne c k B hpp

theorem allocate_with_init_credits {A : KarmaAllocator} (c fuel : Nat) (h : Valid A)
    (hc : Valid (with_init_credits c A))
    (hcase : (phase0 A (fair_share_of A)).supply < (phase0 A (fair_share_of A)).demand
      ∨ A.public_blocks_ = 0) :
    allocate fuel (with_init_credits c A)
      = (allocate fuel A).map (with_init_credits c) := by
  obtain ⟨p1, p2, p3, p4, p5, p6⟩ := phase0_spec h
  obtain ⟨e1, e2, e3, e4, e5⟩ := phase0_with_init_credits c h hc
  have hnd : A.ids.Nodup := h.1
  have hpub : A.PUBLIC_ID ∈ A.ids := h.2.1
  have hfsP : get_fair_share (phase0 A (fair_share_of A)).A = .ok (fair_share_of A) :=
    fair_share_kept p1 h.valid_fair_share
  have hb : ∀ id ∈ (phase0 A (fair_share_of A)).borrowers,
      id ∈ (phase0 A (fair_share_of A)).A.ids
        ∧ id ≠ (phase0 A (fair_share_of A)).A.PUBLIC_ID := fun id hid => by
    rw [p4] at hid
    obtain ⟨m1, m2, _⟩ := mem_real_borrowers.mp hid
    rw [p1.2.2.2.2.2, p1.1]
    exact ⟨m1, m2⟩
  have hd : ∀ id ∈ (phase0 A (fair_share_of A)).donors,
      id ∈ (phase0 A (fair_share_of A)).A.ids := fun id hid => by
    rw [p1.2.2.2.2.2]
    exact (phase0_keeps (fair_share_of A) hpub).2.1 id hid
  have hfin : ∀ B1, Same (phase0 A (fair_share_of A)).A B1 →
      (with_public c (c * get_num_tenants A) B1).ids.foldl commit
          (with_public c (c * get_num_tenants A) B1)
        = with_init_credits c (B1.ids.foldl commit B1) := fun B1 hs =>
    commit_with_public c _ (by rw [hs.2.2.2.2.2, p1.2.2.2.2.2]; exact hnd)
      (by rw [hs.2.2.2.2.2, hs.1, p1.2.2.2.2.2, p1.1]; exact hpub)
  unfold allocate
  rw [show get_fair_share (with_init_credits c A) = .ok (fair_share_of A)
    from h.valid_fair_share, h.valid_fair_share]
  simp only
  rw [e1, e2, e3, e4, e5]
  by_cases hbr : (phase0 A (fair_share_of A)).supply ≥ (phase0 A (fair_share_of A)).demand
  · have hpb : A.public_blocks_ = 0 := hcase.resolve_left (by omega)
    have hd2 : ∀ id ∈ (phase0 A (fair_share_of A)).donors,
        id ∈ (phase0 A (fair_share_of A)).A.ids
          ∧ id ≠ (phase0 A (fair_share_of A)).A.PUBLIC_ID := fun id hid => by
      refine ⟨hd id hid, ?_⟩
      rw [p3, hpb] at hid
      simp only [gt_iff_lt, lt_self_iff_false, if_false, List.append_nil] at hid
      rw [p1.1]
      exact (mem_real_donors.mp hid).2.1
    rw [if_pos hbr, if_pos hbr, with_public_borrow_from_poor c _ hfsP fuel _ hd2 hb]
    cases hr : borrow_from_poor fuel (phase0 A (fair_share_of A)).A
        (phase0 A (fair_share_of A)).demand (phase0 A (fair_share_of A)).donors
        (phase0 A (fair_share_of A)).borrowers with
    | error e => rfl
    | ok B1 =>
      simp only [Except.map]
      rw [hfin B1 (borrow_from_poor_same hd (fun id hid => (hb id hid).1) hr)]
  · rw [if_neg hbr, if_neg hbr, with_public_donate_to_rich c _ hfsP fuel _ hd hb]
    cases hr : donate_to_rich fuel (phase0 A (fair_share_of A)).A
        (phase0 A (fair_share_of A)).supply (phase0 A (fair_share_of A)).donors
        (phase0 A (fair_share_of A)).borrowers with
    | error e => rfl
    | ok B1 =>
      simp only [Except.map]
      rw [hfin B1 (donate_to_rich_same hd (fun id hid => (hb id hid).1) hr)]

theorem public_candidate {A : KarmaAllocator} (h : Valid A) :
    donor_candidates
        (borrow_all (fair_share_of A) (phase0 A (fair_share_of A)).A
          (phase0 A (fair_share_of A)).borrowers) [A.PUBLIC_ID]
      = .ok ([⟨A.PUBLIC_ID, A.init_credits_ * get_num_tenants A, A.public_blocks_⟩],
          borrow_all (fair_share_of A) (phase0 A (fair_share_of A)).A
            (phase0 A (fair_share_of A)).borrowers) := by
  have hw := h.no_wrap
  obtain ⟨p1, p2, p3, p4, p5, p6⟩ := phase0_spec h
  have hnd : A.ids.Nodup := h.1
  have hpub : A.PUBLIC_ID ∈ A.ids := h.2.1
  have hpb : A.public_blocks_ < 2147483648 := lt_of_le_of_lt h.2.2.2.2.1 h.2.2.2.2.2.1
  rw [p4]
  obtain ⟨b1, b2⟩ := borrow_all_spec hw hnd p1 p2
  have hfs := fair_share_kept b1 h.valid_fair_share
  rw [donor_candidates_spec (fair_share_of A) [A.PUBLIC_ID] _ hfs (fun id hid => by
    rw [List.mem_singleton.mp hid, b1.2.2.2.2.2]; exact hpub)]
  have hnb : A.PUBLIC_ID ∉ real_borrowers A (fair_share_of A) A.ids :=
    fun hm => (mem_real_borrowers.mp hm).2.1 rfl
  have hs : surplus (borrow_all (fair_share_of A) (phase0 A (fair_share_of A)).A
      (real_borrowers A (fair_share_of A) A.ids)) (fair_share_of A) A.PUBLIC_ID
      = A.public_blocks_ := by
    unfold surplus
    rw [if_pos b1.1.symm, b1.2.2.2.1]
    unfold u32
    omega
  simp only [List.map_cons, List.map_nil, b2 A.PUBLIC_ID, if_neg hnb, p2 A.PUBLIC_ID,
    if_pos hpub, hs, rec0_public, Nat.cast_mul]

/-- Claim C18 fails on two objects that differ in `init_credits_` only (0 and 2): 12 blocks,
2 of them public, tenant 1 with 2 credits demands 4 and tenant 2 with 2 credits demands 6, the
fair share is 5.  `borrow_from_poor` sorts the public tenant by `init_credits * N`: with
`init_credits = 0` the public pool (key 0) lends the block and tenant 1 ends with 3 credits,
with `init_credits = 2` tenant 1 (key 3, before the public key 4) lends it and ends with 4
credits. -/
theorem init_credits_decides_lender :
    earned_credits.init_credits_ = 0 ∧ initial_credits.init_credits_ = 2 ∧
    earned_credits.PUBLIC_ID = initial_credits.PUBLIC_ID ∧
    earned_credits.DUMMY_ID = initial_credits.DUMMY_ID ∧
    earned_credits.num_blocks_ = initial_credits.num_blocks_ ∧
    earned_credits.public_blocks_ = initial_credits.public_blocks_ ∧
    earned_credits.ids = initial_credits.ids ∧
    (∀ id ∈ earned_credits.ids, earned_credits.tenants_ id = initial_credits.tenants_ id) ∧
    Valid earned_credits ∧ Valid initial_credits ∧
    get_fair_share earned_credits = .ok 5 ∧
    (phase0 earned_credits 5).demand ≤ (phase0 earned_credits 5).supply ∧
    (donor_candidates (phase0 earned_credits 5).A (phase0 earned_credits 5).donors).toOption.map
      Prod.fst = some [⟨1, 3, 1⟩, ⟨0, 0, 2⟩] ∧
    (donor_candidates (phase0 initial_credits 5).A
      (phase0 initial_credits 5).donors).toOption.map Prod.fst = some [⟨1, 3, 1⟩, ⟨0, 4, 2⟩] ∧
    (allocate 40 earned_credits).toOption.map
      (fun B => ((B.tenants_ 1).allocation_, (B.tenants_ 1).credits_,
        (B.tenants_ 2).allocation_, (B.tenants_ 2).credits_)) = some (4, 3, 6, 2) ∧
    (allocate 40 initial_credits).toOption.map
      (fun B => ((B.tenants_ 1).allocation_, (B.tenants_ 1).credits_,
        (B.tenants_ 2).allocation_, (B.tenants_ 2).credits_)) = some (4, 4, 6, 2) :=
  ⟨by decide, by decide, by decide, by decide, by decide, by decide, by decide, by decide,
    by decide, by decide, rfl, by decide, by decide, by decide, by decide, by decide⟩

/-- Claim C18 as amended: take a valid state `A` and the state that differs from it in
`init_credits_` only (`c` instead), also valid.  `allocate` returns on both, with the same
allocation for every real tenant and the same credits for every real tenant whose demand is
at least the fair share `fs`.  When the supply is below the demand (the `donate_to_rich`
branch) or `public_blocks` is 0, the two results are equal but for `init_credits_`, so all
credits are the same.  The public tenant enters the candidates of `borrow_from_poor` as
`(PUBLIC_ID, init_credits * N, public_blocks)`. -/
theorem init_credits_moves_public_donor (A : KarmaAllocator) (c fuel fs : Nat) (h : Valid A)
    (hc : Valid (with_init_credits c A)) (hfuel : enough_fuel A ≤ fuel)
    (hfs : get_fair_share A = .ok fs) :
    ∃ B C, allocate fuel A = .ok B ∧ allocate fuel (with_init_credits c A) = .ok C ∧
      (∀ id ∈ real_ids A, (C.tenants_ id).allocation_ = (B.tenants_ id).allocation_) ∧
      (∀ id ∈ real_ids A, fs ≤ (A.tenants_ id).demand_ →
        (C.tenants_ id).credits_ = (B.tenants_ id).credits_) ∧
      ((phase0 A fs).supply < (phase0 A fs).demand ∨ A.public_blocks_ = 0 →
        C = with_init_credits c B) ∧
      donor_candidates (borrow_all fs (phase0 A fs).A (phase0 A fs).borrowers) [A.PUBLIC_ID]
        = .ok ([⟨A.PUBLIC_ID, A.init_credits_ * get_num_tenants A, A.public_blocks_⟩],
            borrow_all fs (phase0 A fs).A (phase0 A fs).borrowers) := by
  obtain ⟨B, hB, hsw, _, hcr⟩ := allocate_total h fuel hfuel
  obtain ⟨C, hC, hsc, _, hcc⟩ := allocate_total hc fuel hfuel
  have hbranch := phase0_branch h hfs
  have hfe := h.fair_share_eq hfs
  subst hfe
  have hcomm : (phase0 A (fair_share_of A)).supply < (phase0 A (fair_share_of A)).demand
      ∨ A.public_blocks_ = 0 → C = with_init_credits c B := by
    intro hcase
    have e := allocate_with_init_credits c fuel h hc hcase
    rw [hC, hB] at e
    injection e
  refine ⟨B, C, hB, hC, ?_, ?_, hcomm, public_candidate h⟩
  · intro id hid
    by_cases hbr : (phase0 A (fair_share_of A)).demand ≤ (phase0 A (fair_share_of A)).supply
    · have hbr1 := hbranch.mp hbr
      by_cases hle : (A.tenants_ id).demand_ ≤ fair_share_of A
      · rw [(hsw.low id hid hle).1]
        exact (hsc.low id hid hle).1
      · have hgt : fair_share_of A < (A.tenants_ id).demand_ := by omega
        rw [(hsw.poor hbr1).1 id hid hgt]
        exact (hsc.poor hbr1).1 id hid hgt
    · rw [hcomm (Or.inl (by omega))]
      rfl
  · intro id hid hge
    by_cases hbr : (phase0 A (fair_share_of A)).demand ≤ (phase0 A (fair_share_of A)).supply
    · have hbr1 := hbranch.mp hbr
      have c1 := hcr id hid
      have c2 : ((C.tenants_ id).credits_ : Int)
          = (A.tenants_ id).credits_ + public_share A + (C.tenants_ id).rate_ := hcc id hid
      have hrate : (C.tenants_ id).rate_ = (B.tenants_ id).rate_ := by
        by_cases heq : (A.tenants_ id).demand_ = fair_share_of A
        · have hle : (A.tenants_ id).demand_ ≤ fair_share_of A := by omega
          have l1 := hsw.low id hid hle
          have l2 := hsc.low id hid hle
          have l3 : (C.tenants_ id).rate_
              ≤ (fair_share_of A : Int) - (A.tenants_ id).demand_ := l2.2.2
          omega
        · have hgt : fair_share_of A < (A.tenants_ id).demand_ := by omega
          have g1 := (hsw.high id hid hgt).2.2
          have g2 : (C.tenants_ id).rate_
              = (fair_share_of A : Int) - (C.tenants_ id).allocation_ :=
            (hsc.high id hid hgt).2.2
          have a1 := (hsw.poor hbr1).1 id hid hgt
          have a2 : (C.tenants_ id).allocation_
              = fair_share_of A + capped A (fair_share_of A) id :=
            (hsc.poor hbr1).1 id hid hgt
          rw [g1, g2, a1, a2]
      omega
    · rw [hcomm (Or.inl (by omega))]
      rfl

/-- Witness of the amended C18 on the object with earned credits and `init_credits = 2`
instead of 0. -/
theorem init_credits_moves_public_donor_witness :
    Valid earned_credits ∧ Valid (with_init_credits 2 earned_credits) ∧
    enough_fuel earned_credits ≤ 40 ∧ get_fair_share earned_credits = .ok 5 ∧
    ∃ B C, allocate 40 earned_credits = .ok B ∧
      allocate 40 (with_init_credits 2 earned_credits) = .ok C ∧
      (∀ id ∈ real_ids earned_credits,
        (C.tenants_ id).allocation_ = (B.tenants_ id).allocation_) ∧
      (∀ id ∈ real_ids earned_credits, 5 ≤ (earned_credits.tenants_ id).demand_ →
        (C.tenants_ id).credits_ = (B.tenants_ id).credits_) ∧
      ((phase0 earned_credits 5).supply < (phase0 earned_credits 5).demand
          ∨ earned_credits.public_blocks_ = 0 →
        C = with_init_credits 2 B) ∧
      donor_candidates
          (borrow_all 5 (phase0 earned_credits 5).A (phase0 earned_credits 5).borrowers)
          [earned_credits.PUBLIC_ID]
        = .ok ([⟨earned_credits.PUBLIC_ID,
              earned_credits.init_credits_ * get_num_tenants earned_credits,
              earned_credits.public_blocks_⟩],
            borrow_all 5 (phase0 earned_credits 5).A (phase0 earned_credits 5).borrowers) :=
  ⟨by decide, by decide, by decide, rfl,
    init_credits_moves_public_donor earned_credits 2 40 5 (by decide) (by decide) (by decide)
      rfl⟩

end Karma
